import Mathlib

/-!
The phonetic context state machine of libpyzy.

A shallow embedding of the editing core of libpyzy (`FullPinyinContext.cc`,
`BopomofoContext.cc`, `PinyinContext.cc`), of the dynamic special phrases
(`DynamicSpecialPhrase.cc`) and of the dictionary (`Database.cc`, `Phrase.h`), and theorems
about them.

Conventions of the embedding.

* A C `char` is a `Char`; a `std::string` is a `List Char`, one element per character.
  `size ()` of a composed UTF-8 text is its number of bytes (`strSize`), `utf8Length ()`
  its number of characters.
* `size_t` is 64 bits wide; a subtraction that can pass below zero is taken modulo `2 ^ 64`.
* An operation returns `Option (Bool × state)`: `none` stands for an execution that leaves
  defined behaviour (`back ()` on an empty vector) or throws (`std::out_of_range` from
  `insert`/`erase`).
* The routines that compose the derived texts are total: where the source indexes the
  pinyin array or the candidate list, an index outside the container reads the empty
  entry.
* The external collaborators (syllable parser, dictionary, special phrase table,
  converter, keyboard tables) and the constants of headers that are not part of the
  sources are fields of `Env`.
* Every update routine appends its name to the field `calls` of the state, so that the
  sequence of routines an operation invokes can be stated.
-/

namespace PyZy

/-! ## Data model -/

/-- The modulus of `size_t` arithmetic. -/
def SIZE_MOD : Nat := 2 ^ 64

/-- The subtraction `a - b` of two `size_t` values. -/
def subSize (a b : Nat) : Nat := (a + (SIZE_MOD - b % SIZE_MOD)) % SIZE_MOD

/-- The addition `a + b` of two `size_t` values. -/
def addSize (a b : Nat) : Nat := (a + b) % SIZE_MOD

/-- The characters a `const char *` pointing at `s` denotes: those before the first NUL. -/
def cstr (s : List Char) : List Char := s.takeWhile (fun c => c != Char.ofNat 0)

/-- The `size ()` of a UTF-8 text: its number of bytes. -/
def strSize : List Char → Nat
  | [] => 0
  | c :: s => c.utf8Size + strSize s

/-- The `utf8Length ()` of a text: its number of characters. -/
def utf8Length (s : List Char) : Nat := s.length

/-- The text left after skipping `n` bytes. -/
def dropBytes : Nat → List Char → List Char
  | 0, s => s
  | _ + 1, [] => []
  | n + 1, c :: s => dropBytes (n + 1 - c.utf8Size) s

/-- The longest prefix of whole characters within the first `n` bytes. -/
def takeBytes : Nat → List Char → List Char
  | 0, _ => []
  | _ + 1, [] => []
  | n + 1, c :: s => if c.utf8Size ≤ n + 1 then c :: takeBytes (n + 1 - c.utf8Size) s else []

/-- The call `s.substr (pos, n)` on a composed text, `pos` and `n` in bytes. -/
def substrBytes (s : List Char) (pos n : Nat) : List Char := takeBytes n (dropBytes pos s)

/-- The call `s.substr (pos, n)` on the input text, whose characters are single bytes. -/
def substr (s : List Char) (pos n : Nat) : List Char := (s.drop pos).take n

/-- The call `s.erase (pos, n)` of `std::string`: `none` when it throws. -/
def erase (s : List Char) (pos n : Nat) : Option (List Char) :=
  if pos > s.length then none
  else some (s.take pos ++ s.drop (pos + min n (s.length - pos)))

/-- The call `s.insert (pos, ch)`: `none` when it throws. -/
def insertAt (s : List Char) (pos : Nat) (ch : Char) : Option (List Char) :=
  if pos > s.length then none
  else some (s.take pos ++ ch :: s.drop pos)

/-- One recognised syllable (a row of the parser's syllable table). The array `pinyin_id`
holds up to three identifier pairs `(sheng, yun)`: the exact match first, then the fuzzy
alternatives. -/
structure Pinyin where
  text : List Char
  bopomofo : List Char
  sheng : List Char
  yun : List Char
  len : Nat
  pinyin_id : List (Nat × Nat)
  deriving DecidableEq, Repr

instance : Inhabited Pinyin := ⟨⟨[], [], [], [], 0, []⟩⟩

/-- The struct `Phrase` of `Phrase.h`. -/
structure Phrase where
  phrase : List Char
  freq : Nat
  user_freq : Nat
  pinyin_id : List (Nat × Nat)
  len : Nat
  deriving DecidableEq, Repr

instance : Inhabited Phrase := ⟨⟨[], 0, 0, [], 0⟩⟩

/-- The configuration snapshot of a context. -/
structure Config where
  option : Nat
  modeSimp : Bool
  deriving DecidableEq, Repr

/-- The three fragments of the preedit text. -/
structure PreeditText where
  selected_text : List Char
  candidate_text : List Char
  rest_text : List Char
  deriving DecidableEq, Repr

/-- The argument of `commit`. -/
inductive CommitType where
  | TYPE_CONVERTED
  | TYPE_RAW
  | TYPE_PHONETIC
  deriving DecidableEq, Repr

/-- The routines whose invocation a context records, in call order. `commitText t` is
the observer's `commit_text (t)`; the other update routines end in the notification of
their channel. -/
inductive Call where
  | updateInputText
  | updateCursor
  | updateSpecialPhrases
  | updatePinyin
  | updatePhraseEditor
  | update
  | updatePreeditText
  | updateAuxiliaryText
  | resetContext
  | phraseEditorCommit
  | phraseEditorReset
  | commitText (text : List Char)
  deriving DecidableEq, Repr

/-- Modelled from the spec: the state of the phrase editor (`PhraseEditor.h` is not among
the sources): the working pinyin array, the cursor in syllables, the selected phrases and
the cached candidate list. -/
structure PhraseEditor where
  m_pinyin : List Pinyin
  m_cursor : Nat
  m_selected_phrases : List Phrase
  m_candidates : List Phrase
  deriving DecidableEq, Repr

/-- The external collaborators and the constants of absent headers. -/
structure Env where
  /-- The capacity of the input buffer. -/
  MAX_PINYIN_LEN : Nat
  /-- The capacity is a `size_t` value. -/
  MAX_PINYIN_LEN_lt : MAX_PINYIN_LEN < SIZE_MOD
  /-- The largest number of syllables of a phrase. -/
  MAX_PHRASE_LEN : Nat
  /-- The option bit of the incomplete-pinyin fast path. -/
  PINYIN_INCOMPLETE_PINYIN : Nat
  /-- The identifier of the zero glyph. -/
  BOPOMOFO_ZERO : Nat
  /-- The first tone mark glyph. -/
  BOPOMOFO_TONE_2 : Nat
  /-- The last tone mark glyph. -/
  BOPOMOFO_TONE_5 : Nat
  /-- The number of keyboard schemas. -/
  BOPOMOFO_KEYBOARD_LAST : Nat
  /-- The call `PinyinParser::parse (text, len, option, result, max)`: the new content of
  `result` and the number of characters consumed. -/
  parse : List Char → Nat → Nat → Nat → List Pinyin × Nat
  /-- The call `PinyinParser::parseBopomofo (bopomofo, len, option, result, max)`. -/
  parseBopomofo : List Char → Nat → Nat → Nat → List Pinyin × Nat
  /-- The static special phrase table: the suggestions for a trigger. -/
  lookup : List Char → List (List Char)
  /-- Whether a recomputation of the suggestions (old list, new list) reports a change. -/
  specialPhrasesChanged : List (List Char) → List (List Char) → Bool
  /-- The dictionary: the candidates for a pinyin array from a syllable offset, under an
  option word. -/
  candidates : List Pinyin → Nat → Nat → List Phrase
  /-- The converter `SimpTradConverter::simpToTrad`. -/
  simpToTrad : List Char → List Char
  /-- The table `bopomofo_keyboard`: for each schema its rows (key, glyph identifier). -/
  bopomofo_keyboard : Nat → List (Nat × Nat)
  /-- The table `bopomofo_char`: the character of a glyph identifier. -/
  bopomofo_char : Nat → Char

/-- The state of a context: the members of `PhoneticContext` that the sources read and
write, and the record `calls` of the routines invoked so far. -/
structure PhoneticContext where
  m_text : List Char
  m_cursor : Nat
  m_pinyin : List Pinyin
  m_pinyin_len : Nat
  m_buffer : List Char
  m_phrase_editor : PhraseEditor
  m_special_phrases : List (List Char)
  m_selected_special_phrase : List Char
  m_focused_candidate : Nat
  m_input_text : List Char
  m_preedit_text : PreeditText
  m_auxiliary_text : List Char
  m_config : Config
  calls : List Call
  deriving DecidableEq, Repr

/-- The result of an operation: its boolean and the state it leaves, or `none`. -/
abbrev Result (σ : Type) := Option (Bool × σ)

/-! ## The phrase editor (modelled from the spec) -/

namespace PhraseEditor

/-- Modelled from the spec: `PhraseEditor::reset`, "clears selections and cached
candidates". -/
def reset (e : PhraseEditor) : PhraseEditor :=
  { e with m_cursor := 0, m_selected_phrases := [], m_candidates := [] }

/-- Modelled from the spec: `PhraseEditor::update (pinyin)`, "replaces the working pinyin,
clears selections, rebuilds candidates from offset 0". -/
def update (env : Env) (option : Nat) (_e : PhraseEditor) (pinyin : List Pinyin) :
    PhraseEditor :=
  { m_pinyin := pinyin, m_cursor := 0, m_selected_phrases := [],
    m_candidates := env.candidates pinyin 0 option }

/-- Modelled from the spec: `PhraseEditor::empty`, no selection and no candidate. -/
def empty (e : PhraseEditor) : Bool :=
  e.m_selected_phrases.isEmpty && e.m_candidates.isEmpty

/-- Modelled from the spec: `PhraseEditor::selectedString`, "the UTF-8 concatenation of
selections, converted to traditional forms if `mode_simp=false`". -/
def selectedString (env : Env) (cfg : Config) (e : PhraseEditor) : List Char :=
  let t := (e.m_selected_phrases.map (fun p => p.phrase)).flatten
  if cfg.modeSimp then t else env.simpToTrad t

/-- Modelled from the spec: `PhraseEditor::cursor`, the number of syllables consumed. -/
def cursor (e : PhraseEditor) : Nat := e.m_cursor

/-- Modelled from the spec: `PhraseEditor::cursorInChar`, the number of input characters
of the syllables consumed. -/
def cursorInChar (e : PhraseEditor) : Nat :=
  ((e.m_pinyin.take e.m_cursor).map (fun p => p.len)).sum

/-- Modelled from the spec: `PhraseEditor::candidate (i)`; an index outside the list reads
the empty phrase. -/
def candidate (e : PhraseEditor) (i : Nat) : Phrase := e.m_candidates.getD i default

end PhraseEditor

/-! ## The abstract core `PhoneticContext` (modelled from the spec) -/

namespace PhoneticContext

/-- Modelled from the spec: the constructor of `PhoneticContext` (`PhoneticContext.cc` is
not among the sources): an empty context with the given configuration. -/
def init (cfg : Config) : PhoneticContext :=
  { m_text := [], m_cursor := 0, m_pinyin := [], m_pinyin_len := 0, m_buffer := [],
    m_phrase_editor := ⟨[], 0, [], []⟩, m_special_phrases := [],
    m_selected_special_phrase := [], m_focused_candidate := 0, m_input_text := [],
    m_preedit_text := ⟨[], [], []⟩, m_auxiliary_text := [], m_config := cfg, calls := [] }

/-- Append one entry to the record of calls. -/
def log (s : PhoneticContext) (c : Call) : PhoneticContext :=
  { s with calls := s.calls ++ [c] }

/-- Modelled from the spec: `textAfterCursor`, the text after the cursor, as a
`const char *`. -/
def textAfterCursor (s : PhoneticContext) : List Char := cstr (s.m_text.drop s.m_cursor)

/-- Modelled from the spec: `textAfterPinyin ()`, the "buffer text from `pinyin_len`
onward". -/
def textAfterPinyin (s : PhoneticContext) : List Char := cstr (s.m_text.drop s.m_pinyin_len)

/-- Modelled from the spec: `textAfterPinyin (i)`, the buffer text after the first `i`
syllables of the pinyin array. -/
def textAfterPinyinAt (s : PhoneticContext) (i : Nat) : List Char :=
  cstr (s.m_text.drop ((s.m_pinyin.take i).map (fun p => p.len)).sum)

/-- Modelled from the spec: `hasCandidate (i)`, whether the flat candidate list, special
phrases first and dictionary phrases after, has an entry `i`. -/
def hasCandidate (s : PhoneticContext) (i : Nat) : Bool :=
  decide (i < s.m_special_phrases.length + s.m_phrase_editor.m_candidates.length)

/-- Modelled from the spec: `updateInputText`, the input text is the raw buffer; the
observer is notified. -/
def updateInputText (s : PhoneticContext) : PhoneticContext :=
  { s with m_input_text := s.m_text, calls := s.calls ++ [Call.updateInputText] }

/-- Modelled from the spec: `updateCursor`, the cursor-changed notification. -/
def updateCursor (s : PhoneticContext) : PhoneticContext :=
  s.log Call.updateCursor

/-- Modelled from the spec: `updateSpecialPhrases`, the suggestions are recomputed from
the buffer characters between the committed prefix and the cursor; none while a special
phrase is selected. The boolean is supplied by the environment. -/
def updateSpecialPhrases (env : Env) (s : PhoneticContext) : Bool × PhoneticContext :=
  let b := s.m_phrase_editor.cursorInChar
  let fresh :=
    if s.m_selected_special_phrase ≠ [] then []
    else if b < s.m_cursor then env.lookup (substr s.m_text b (s.m_cursor - b))
    else []
  (env.specialPhrasesChanged s.m_special_phrases fresh,
    { s with m_special_phrases := fresh, calls := s.calls ++ [Call.updateSpecialPhrases] })

/-- Modelled from the spec: `updatePhraseEditor`, the phrase editor is updated with the
pinyin array of the context. -/
def updatePhraseEditor (env : Env) (s : PhoneticContext) : PhoneticContext :=
  { s with
    m_phrase_editor := s.m_phrase_editor.update env s.m_config.option s.m_pinyin,
    calls := s.calls ++ [Call.updatePhraseEditor] }

/-- Modelled from the spec: the base `PhoneticContext::updatePreeditText`, the
preedit-changed notification. -/
def updatePreeditText (s : PhoneticContext) : PhoneticContext :=
  s.log Call.updatePreeditText

/-- Modelled from the spec: the base `PhoneticContext::updateAuxiliaryText`, the
auxiliary-changed notification. -/
def updateAuxiliaryText (s : PhoneticContext) : PhoneticContext :=
  s.log Call.updateAuxiliaryText

/-- Modelled from the spec: `resetContext`, "clears buffer, cursor, pinyin array, editor
state, special-phrase selection, derived texts". -/
def resetContext (s : PhoneticContext) : PhoneticContext :=
  { s with
    m_text := [], m_cursor := 0, m_pinyin := [], m_pinyin_len := 0,
    m_phrase_editor := s.m_phrase_editor.reset, m_special_phrases := [],
    m_selected_special_phrase := [], m_focused_candidate := 0,
    m_preedit_text := ⟨[], [], []⟩, m_auxiliary_text := [],
    calls := s.calls ++ [Call.resetContext] }

/-- Modelled from the spec: `commitText (text)`, the observer receives `commit_text`. -/
def commitText (s : PhoneticContext) (text : List Char) : PhoneticContext :=
  s.log (Call.commitText text)

end PhoneticContext

/-! ## `PinyinContext` (`PinyinContext.cc`) -/

namespace PinyinContext

/-- The text `sheng ++ yun` of the syllable at index `i`; an index outside the array reads
the empty entry. -/
def syllable (pinyin : List Pinyin) (i : Nat) : List Char :=
  (pinyin.getD i default).sheng ++ (pinyin.getD i default).yun

/-- The end of `updatePreeditText`: the composed text is cut at the two byte offsets. Every
call passes offsets with `edit_begin_byte ≤ edit_end_byte`, so the difference of the two
sizes does not wrap. -/
def cutPreedit (s : PhoneticContext) (buf : List Char) (edit_begin_byte edit_end_byte : Nat) :
    PhoneticContext :=
  PhoneticContext.updatePreeditText
    { s with
      m_buffer := buf,
      m_preedit_text :=
        { selected_text := substrBytes buf 0 edit_begin_byte,
          candidate_text := substrBytes buf edit_begin_byte (edit_end_byte - edit_begin_byte),
          rest_text := dropBytes edit_end_byte buf } }

/-- The routine `PinyinContext::updatePreeditText`. -/
def updatePreeditText (env : Env) (s : PhoneticContext) : PhoneticContext :=
  if s.m_phrase_editor.empty && s.m_text.isEmpty then
    PhoneticContext.updatePreeditText { s with m_preedit_text := ⟨[], [], []⟩ }
  else
    let buf0 := s.m_phrase_editor.selectedString env s.m_config
    if s.m_selected_special_phrase ≠ [] then
      let buf1 := buf0 ++ s.m_selected_special_phrase
      cutPreedit s (buf1 ++ s.textAfterCursor) (strSize buf1) (strSize buf1)
    else
      let edit_begin_word := utf8Length buf0
      let edit_begin_byte := strSize buf0
      if s.hasCandidate 0 then
        let index := s.m_focused_candidate
        if index < s.m_special_phrases.length then
          let buf1 := buf0 ++ s.m_special_phrases.getD index []
          cutPreedit s (buf1 ++ s.textAfterCursor) edit_begin_byte (strSize buf1)
        else
          let candidate := s.m_phrase_editor.candidate (index - s.m_special_phrases.length)
          if s.m_text.length = s.m_cursor then
            let buf1 := buf0 ++
              (if s.m_config.modeSimp then cstr candidate.phrase
               else env.simpToTrad (cstr candidate.phrase))
            let edit_end_word := utf8Length buf1
            cutPreedit s (buf1 ++ s.textAfterPinyinAt edit_end_word) edit_begin_byte
              (strSize buf1)
          else
            let candidate_end := edit_begin_word + candidate.len
            let buf1 := buf0 ++ syllable s.m_pinyin edit_begin_word
            let buf2 := (List.range' (edit_begin_word + 1) (candidate_end - (edit_begin_word + 1))).foldl
              (fun b i => b ++ ' ' :: syllable s.m_pinyin i) buf1
            let buf3 := buf2 ++ '|' :: s.textAfterPinyinAt candidate_end
            cutPreedit s buf3 edit_begin_byte (strSize buf3)
      else
        cutPreedit s (buf0 ++ s.textAfterPinyin) edit_begin_byte edit_begin_byte

/-- The routine `PinyinContext::updateAuxiliaryText`. -/
def updateAuxiliaryText (_env : Env) (s : PhoneticContext) : PhoneticContext :=
  if s.m_text.isEmpty || !s.hasCandidate 0 then
    PhoneticContext.updateAuxiliaryText { s with m_auxiliary_text := [] }
  else
    let buf :=
      if s.m_selected_special_phrase = [] then
        if s.m_focused_candidate < s.m_special_phrases.length then
          let b := s.m_phrase_editor.cursorInChar
          substr s.m_text b (subSize s.m_cursor b) ++ '|' :: s.textAfterCursor
        else
          let first := s.m_phrase_editor.cursor
          let buf1 := (List.range' first (s.m_pinyin.length - first)).foldl
            (fun b i => (if i ≠ first then b ++ [' '] else b) ++ syllable s.m_pinyin i) []
          if s.m_pinyin_len = s.m_cursor then
            buf1 ++ '|' :: s.textAfterPinyin
          else
            buf1 ++ ' ' :: s.textAfterPinyin.take (subSize s.m_cursor s.m_pinyin_len)
              ++ '|' :: s.textAfterCursor
      else if s.m_cursor < s.m_text.length then '|' :: s.textAfterCursor
      else []
    PhoneticContext.updateAuxiliaryText { s with m_buffer := buf, m_auxiliary_text := buf }

/-- Modelled from the spec: `PhoneticContext::update` on a pinyin context, which
recomputes "(e) preedit text, (f) auxiliary text" through the two routines above. -/
def update (env : Env) (s : PhoneticContext) : PhoneticContext :=
  updateAuxiliaryText env (updatePreeditText env (s.log Call.update))

/-- The routine `PinyinContext::commit`. -/
def commit (env : Env) (s : PhoneticContext) (type : CommitType) : PhoneticContext :=
  if s.m_buffer.isEmpty then s
  else
    let s1 : PhoneticContext :=
      if type = CommitType.TYPE_CONVERTED then
        let buf0 := s.m_phrase_editor.selectedString env s.m_config
        let buf1 :=
          if s.m_selected_special_phrase = [] then
            buf0 ++ s.textAfterPinyinAt (utf8Length buf0)
          else
            buf0 ++ s.m_selected_special_phrase ++ s.textAfterCursor
        ({ s with m_buffer := buf1 }).log Call.phraseEditorCommit
      else
        ({ s with m_buffer := s.m_text,
                  m_phrase_editor := s.m_phrase_editor.reset }).log Call.phraseEditorReset
    let s2 := s1.resetContext
    let s3 := s2.updateInputText
    let s4 := s3.updateCursor
    let s5 := update env s4
    s5.commitText s5.m_buffer

end PinyinContext

/-! ## `FullPinyinContext` (`FullPinyinContext.cc`) -/

/-- The test `islower (ch)` of the C locale. -/
def islower (ch : Char) : Bool := ch.isLower

/-- The apostrophe. -/
def APOSTROPHE : Char := Char.ofNat 39

namespace FullPinyinContext

/-- Modelled from the spec: the constructor, an empty context. -/
def init (cfg : Config) : PhoneticContext := PhoneticContext.init cfg

/-- The routine `FullPinyinContext::updatePinyin`. -/
def updatePinyin (env : Env) (s : PhoneticContext) : PhoneticContext :=
  let s0 := s.log Call.updatePinyin
  let s1 : PhoneticContext :=
    if s0.m_text.isEmpty then { s0 with m_pinyin := [], m_pinyin_len := 0 }
    else
      let r := env.parse s0.m_text s0.m_cursor s0.m_config.option env.MAX_PHRASE_LEN
      { s0 with m_pinyin := r.1, m_pinyin_len := r.2 }
  PinyinContext.update env (s1.updatePhraseEditor env)

/-- The operation `FullPinyinContext::insert`. -/
def insert (env : Env) (s : PhoneticContext) (ch : Char) : Result PhoneticContext :=
  if !islower ch && ch != APOSTROPHE then some (false, s)
  else if s.m_text.length ≥ env.MAX_PINYIN_LEN then some (true, s)
  else
    match insertAt s.m_text s.m_cursor ch with
    | none => none
    | some t =>
      let s1 : PhoneticContext := { s with m_text := t, m_cursor := s.m_cursor + 1 }
      let s2 := s1.updateInputText.updateCursor
      if s2.m_config.option &&& env.PINYIN_INCOMPLETE_PINYIN = 0 then
        some (true, updatePinyin env (s2.updateSpecialPhrases env).2)
      else if s2.m_cursor ≤ addSize s2.m_pinyin_len 2 then
        some (true, updatePinyin env (s2.updateSpecialPhrases env).2)
      else
        let r := s2.updateSpecialPhrases env
        if r.1 then some (true, PinyinContext.update env r.2)
        else
          some (true,
            PinyinContext.updateAuxiliaryText env (PinyinContext.updatePreeditText env r.2))

/-- The operation `FullPinyinContext::removeCharBefore`. -/
def removeCharBefore (env : Env) (s : PhoneticContext) : Result PhoneticContext :=
  if s.m_cursor = 0 then some (false, s)
  else
    match erase s.m_text (s.m_cursor - 1) 1 with
    | none => none
    | some t =>
      let s1 : PhoneticContext := { s with m_cursor := s.m_cursor - 1, m_text := t }
      let s2 := s1.updateInputText.updateCursor
      some (true, updatePinyin env (s2.updateSpecialPhrases env).2)

/-- The operation `FullPinyinContext::removeCharAfter`. -/
def removeCharAfter (env : Env) (s : PhoneticContext) : Result PhoneticContext :=
  if s.m_cursor = s.m_text.length then some (false, s)
  else
    match erase s.m_text s.m_cursor 1 with
    | none => none
    | some t =>
      let s1 : PhoneticContext := { s with m_text := t }
      some (true,
        PinyinContext.updateAuxiliaryText env
          (PinyinContext.updatePreeditText env s1.updateInputText))

/-- The operation `FullPinyinContext::removeWordBefore`. -/
def removeWordBefore (env : Env) (s : PhoneticContext) : Result PhoneticContext :=
  if s.m_cursor = 0 then some (false, s)
  else
    let r : Option (Nat × PhoneticContext) :=
      if s.m_cursor > s.m_pinyin_len then some (s.m_pinyin_len, s)
      else
        match s.m_pinyin.getLast? with
        | none => none
        | some p =>
          some (subSize s.m_cursor p.len,
            { s with m_pinyin_len := subSize s.m_pinyin_len p.len,
                     m_pinyin := s.m_pinyin.dropLast })
    match r with
    | none => none
    | some (cursor, s1) =>
      match erase s1.m_text cursor (subSize s1.m_cursor cursor) with
      | none => none
      | some t =>
        let s2 : PhoneticContext := { s1 with m_text := t, m_cursor := cursor }
        let s3 := s2.updateInputText.updateCursor
        let s4 := (s3.updateSpecialPhrases env).2
        some (true, PinyinContext.update env (s4.updatePhraseEditor env))

/-- The operation `FullPinyinContext::removeWordAfter`. -/
def removeWordAfter (env : Env) (s : PhoneticContext) : Result PhoneticContext :=
  if s.m_cursor = s.m_text.length then some (false, s)
  else
    match erase s.m_text s.m_cursor (SIZE_MOD - 1) with
    | none => none
    | some t =>
      let s1 : PhoneticContext := { s with m_text := t }
      some (true,
        PinyinContext.updateAuxiliaryText env
          (PinyinContext.updatePreeditText env s1.updateInputText))

/-- The operation `FullPinyinContext::moveCursorLeft`. -/
def moveCursorLeft (env : Env) (s : PhoneticContext) : Result PhoneticContext :=
  if s.m_cursor = 0 then some (false, s)
  else
    let s1 : PhoneticContext := { s with m_cursor := s.m_cursor - 1 }
    some (true, updatePinyin env (s1.updateCursor.updateSpecialPhrases env).2)

/-- The operation `FullPinyinContext::moveCursorRight`. The increment of the cursor is written
without the wrap of `size_t`: it is exact for every cursor inside a buffer whose length is a
`size_t` value, as is every buffer within the capacity (`MAX_PINYIN_LEN_lt`). -/
def moveCursorRight (env : Env) (s : PhoneticContext) : Result PhoneticContext :=
  if s.m_cursor = s.m_text.length then some (false, s)
  else
    let s1 : PhoneticContext := { s with m_cursor := s.m_cursor + 1 }
    some (true, updatePinyin env (s1.updateCursor.updateSpecialPhrases env).2)

/-- The operation `FullPinyinContext::moveCursorLeftByWord`. -/
def moveCursorLeftByWord (env : Env) (s : PhoneticContext) : Result PhoneticContext :=
  if s.m_cursor = 0 then some (false, s)
  else if s.m_cursor > s.m_pinyin_len then
    some (true, { s with m_cursor := s.m_pinyin_len })
  else
    match s.m_pinyin.getLast? with
    | none => none
    | some p =>
      let s1 : PhoneticContext :=
        { s with m_cursor := subSize s.m_cursor p.len,
                 m_pinyin_len := subSize s.m_pinyin_len p.len,
                 m_pinyin := s.m_pinyin.dropLast }
      let s2 := (s1.updateCursor.updateSpecialPhrases env).2
      some (true, PinyinContext.update env (s2.updatePhraseEditor env))

/-- The operation `FullPinyinContext::moveCursorToBegin`. -/
def moveCursorToBegin (env : Env) (s : PhoneticContext) : Result PhoneticContext :=
  if s.m_cursor = 0 then some (false, s)
  else
    let s1 : PhoneticContext := { s with m_cursor := 0, m_pinyin := [], m_pinyin_len := 0 }
    let s2 := (s1.updateCursor.updateSpecialPhrases env).2
    some (true, PinyinContext.update env (s2.updatePhraseEditor env))

/-- The operation `FullPinyinContext::moveCursorToEnd`. -/
def moveCursorToEnd (env : Env) (s : PhoneticContext) : Result PhoneticContext :=
  if s.m_cursor = s.m_text.length then some (false, s)
  else
    let s1 : PhoneticContext := { s with m_cursor := s.m_text.length }
    some (true, updatePinyin env (s1.updateCursor.updateSpecialPhrases env).2)

/-- The operation `FullPinyinContext::moveCursorRightByWord`. -/
def moveCursorRightByWord (env : Env) (s : PhoneticContext) : Result PhoneticContext :=
  moveCursorToEnd env s

end FullPinyinContext

/-! ## `BopomofoContext` (`BopomofoContext.cc`) -/

/-- The state of a Bopomofo context: the base members and the keyboard schema. -/
structure BopomofoContext extends PhoneticContext where
  m_bopomofo_schema : Nat
  deriving DecidableEq, Repr

/-- The value of a `char` converted to `int` (a signed, eight bit `char`). -/
def charToInt (ch : Char) : Int :=
  if ch.toNat % 256 < 128 then (ch.toNat % 256 : Nat) else ((ch.toNat % 256 : Nat) : Int) - 256

/-- The comparison `keyboard_cmp`: the key minus the first byte of the row. -/
def keyboard_cmp (p1 : Int) (p2 : Nat × Nat) : Int := p1 - (p2.1 : Int)

/-- The binary search of `std::bsearch` between the row indices `lo` and `hi`; each step
shrinks the interval, so `fuel = hi - lo` steps always suffice. -/
def bsearchAux (key : Int) (rows : List (Nat × Nat)) : Nat → Nat → Nat → Option (Nat × Nat)
  | 0, _, _ => none
  | fuel + 1, lo, hi =>
    if lo < hi then
      let idx := (lo + hi) / 2
      match rows.get? idx with
      | none => none
      | some row =>
        let c := keyboard_cmp key row
        if c < 0 then bsearchAux key rows fuel lo idx
        else if c > 0 then bsearchAux key rows fuel (idx + 1) hi
        else some row
    else none

/-- The call `std::bsearch (key, rows, G_N_ELEMENTS (rows), ..., keyboard_cmp)`. -/
def bsearch (key : Int) (rows : List (Nat × Nat)) : Option (Nat × Nat) :=
  bsearchAux key rows rows.length 0 rows.length

namespace BopomofoContext

/-- The standard keyboard schema, the first of the enumeration. -/
def BOPOMOFO_KEYBOARD_STANDARD : Nat := 0

/-- Modelled from the spec: the constructor, an empty context on the standard keyboard. -/
def init (cfg : Config) : BopomofoContext :=
  { toPhoneticContext := PhoneticContext.init cfg,
    m_bopomofo_schema := BOPOMOFO_KEYBOARD_STANDARD }

/-- A routine of the base class run on a Bopomofo context. -/
def lift (f : PhoneticContext → PhoneticContext) (s : BopomofoContext) : BopomofoContext :=
  { s with toPhoneticContext := f s.toPhoneticContext }

/-- The function `BopomofoContext::keyvalToBopomofo`. -/
def keyvalToBopomofo (env : Env) (s : BopomofoContext) (ch : Int) : Nat :=
  match bsearch ch (env.bopomofo_keyboard s.m_bopomofo_schema) with
  | none => env.BOPOMOFO_ZERO
  | some row => row.2

/-- The glyph `bopomofo_char[keyvalToBopomofo (ch)]` of a key. -/
def glyph (env : Env) (s : BopomofoContext) (ch : Char) : Char :=
  env.bopomofo_char (keyvalToBopomofo env s (charToInt ch))

/-- The routine `BopomofoContext::updatePreeditText`. -/
def updatePreeditText (env : Env) (s : BopomofoContext) : BopomofoContext :=
  if s.m_phrase_editor.empty && s.m_text.isEmpty then
    lift PhoneticContext.updatePreeditText { s with m_preedit_text := ⟨[], [], []⟩ }
  else
    let buf0 := s.m_phrase_editor.selectedString env s.m_config
    if s.m_selected_special_phrase ≠ [] then
      let buf1 := buf0 ++ s.m_selected_special_phrase
      lift (fun b => PinyinContext.cutPreedit b (buf1 ++ s.textAfterCursor) (strSize buf1)
        (strSize buf1)) s
    else
      let edit_begin_byte := strSize buf0
      if s.hasCandidate 0 then
        let index := s.m_focused_candidate
        if index < s.m_special_phrases.length then
          let buf1 := buf0 ++ cstr (s.m_special_phrases.getD index [])
          lift (fun b => PinyinContext.cutPreedit b (buf1 ++ s.textAfterCursor)
            edit_begin_byte (strSize buf1)) s
        else
          let candidate := s.m_phrase_editor.candidate (index - s.m_special_phrases.length)
          if s.m_text.length = s.m_cursor then
            let buf1 := buf0 ++
              (if s.m_config.modeSimp then cstr candidate.phrase
               else env.simpToTrad (cstr candidate.phrase))
            let buf2 := buf1 ++ (cstr (s.m_text.drop s.m_pinyin_len)).map (glyph env s)
            lift (fun b => PinyinContext.cutPreedit b buf2 edit_begin_byte (strSize buf1)) s
          else
            let buf1 := (cstr s.m_text).enum.foldl
              (fun b ic => (if ic.1 = s.m_cursor then b ++ [' '] else b) ++ [glyph env s ic.2])
              buf0
            lift (fun b => PinyinContext.cutPreedit b buf1 edit_begin_byte (strSize buf1)) s
      else
        let buf1 := buf0 ++ (cstr (s.m_text.drop s.m_pinyin_len)).map (glyph env s)
        lift (fun b => PinyinContext.cutPreedit b buf1 edit_begin_byte edit_begin_byte) s

/-- The inner loop of `updateAuxiliaryText`: the number of leading glyphs of a syllable
that equal the glyphs of the keys from position `si` on. The comparison stops at the end
of the glyph sequence of the syllable and at the end of the text. -/
def matchGlyphs (env : Env) (s : BopomofoContext) : List Char → List Char → Nat
  | g :: gs, ch :: rest => if g = glyph env s ch then matchGlyphs env s gs rest + 1 else 0
  | _, _ => 0

/-- One round of the outer loop of `updateAuxiliaryText` for the syllable at index `i`:
the composed text and the key position `si` after it. -/
def auxSyllable (env : Env) (s : BopomofoContext) (acc : List Char × Nat) (i : Nat) :
    List Char × Nat :=
  let p := s.m_pinyin.getD i default
  let buf := (if i ≠ s.m_phrase_editor.cursor then acc.1 ++ [','] else acc.1) ++ p.bopomofo
  let si := acc.2 + matchGlyphs env s p.bopomofo (s.m_text.drop acc.2)
  if si < s.m_text.length then
    let ch := keyvalToBopomofo env s (charToInt ((s.m_text.drop si).headD (Char.ofNat 0)))
    if ch ≥ env.BOPOMOFO_TONE_2 ∧ ch ≤ env.BOPOMOFO_TONE_5 then
      (buf ++ [env.bopomofo_char ch], si + 1)
    else (buf, si)
  else (buf, si)

/-- The routine `BopomofoContext::updateAuxiliaryText`. -/
def updateAuxiliaryText (env : Env) (s : BopomofoContext) : BopomofoContext :=
  if s.m_text.isEmpty || !s.hasCandidate 0 then
    lift PhoneticContext.updateAuxiliaryText { s with m_auxiliary_text := [] }
  else
    let buf :=
      if s.m_selected_special_phrase = [] then
        let first := s.m_phrase_editor.cursor
        let buf1 := ((List.range' first (s.m_pinyin.length - first)).foldl
          (auxSyllable env s) ([], 0)).1
        let buf2 := (s.m_text.drop s.m_pinyin_len).enum.foldl
          (fun b ic =>
            (if s.m_cursor = s.m_pinyin_len + ic.1 then b ++ ['|'] else b) ++ [glyph env s ic.2])
          buf1
        if s.m_cursor = s.m_text.length then buf2 ++ ['|'] else buf2
      else if s.m_cursor < s.m_text.length then '|' :: s.textAfterCursor
      else []
    lift PhoneticContext.updateAuxiliaryText { s with m_buffer := buf, m_auxiliary_text := buf }

/-- Modelled from the spec: `PhoneticContext::update` on a Bopomofo context, which
recomputes "(e) preedit text, (f) auxiliary text" through the two routines above. -/
def update (env : Env) (s : BopomofoContext) : BopomofoContext :=
  updateAuxiliaryText env (updatePreeditText env (lift (fun b => b.log Call.update) s))

/-- The routine `BopomofoContext::commit`. -/
def commit (env : Env) (s : BopomofoContext) (type : CommitType) : BopomofoContext :=
  if s.m_buffer.isEmpty then s
  else
    let s1 : BopomofoContext :=
      if type = CommitType.TYPE_CONVERTED then
        let buf0 := s.m_phrase_editor.selectedString env s.m_config
        let buf1 :=
          if s.m_selected_special_phrase = [] then
            buf0 ++ (s.textAfterPinyinAt (utf8Length buf0)).map (glyph env s)
          else
            buf0 ++ s.m_selected_special_phrase ++ s.textAfterCursor.map (glyph env s)
        lift (fun b => b.log Call.phraseEditorCommit) { s with m_buffer := buf1 }
      else if type = CommitType.TYPE_PHONETIC then
        { s with m_buffer := (cstr s.m_text).map (glyph env s) }
      else
        lift (fun b => b.log Call.phraseEditorReset)
          { s with m_buffer := s.m_text, m_phrase_editor := s.m_phrase_editor.reset }
    let s2 := lift PhoneticContext.resetContext s1
    let s3 := lift PhoneticContext.updateInputText s2
    let s4 := lift PhoneticContext.updateCursor s3
    let s5 := update env s4
    lift (fun b => b.commitText b.m_buffer) s5

/-- The routine `BopomofoContext::updatePinyin`. -/
def updatePinyin (env : Env) (s : BopomofoContext) : BopomofoContext :=
  let s0 := lift (fun b => b.log Call.updatePinyin) s
  let s1 : BopomofoContext :=
    if s0.m_text.isEmpty then { s0 with m_pinyin := [], m_pinyin_len := 0 }
    else
      let bopomofo := s0.m_text.map (glyph env s0)
      let r := env.parseBopomofo bopomofo s0.m_cursor s0.m_config.option env.MAX_PHRASE_LEN
      { s0 with m_pinyin := r.1, m_pinyin_len := r.2 }
  update env (lift (PhoneticContext.updatePhraseEditor env) s1)

end BopomofoContext

namespace BopomofoContext

/-- The operation `BopomofoContext::insert`. -/
def insert (env : Env) (s : BopomofoContext) (ch : Char) : Result BopomofoContext :=
  if keyvalToBopomofo env s (charToInt ch) = env.BOPOMOFO_ZERO then some (false, s)
  else if s.m_text.length ≥ env.MAX_PINYIN_LEN then some (true, s)
  else
    match insertAt s.m_text s.m_cursor ch with
    | none => none
    | some t =>
      let s1 : BopomofoContext := { s with m_text := t, m_cursor := s.m_cursor + 1 }
      let s2 := lift PhoneticContext.updateCursor (lift PhoneticContext.updateInputText s1)
      if s2.m_config.option &&& env.PINYIN_INCOMPLETE_PINYIN = 0 then
        some (true, updatePinyin env (lift (fun b => (b.updateSpecialPhrases env).2) s2))
      else if s2.m_cursor ≤ addSize s2.m_pinyin_len 2 then
        some (true, updatePinyin env (lift (fun b => (b.updateSpecialPhrases env).2) s2))
      else
        let r := s2.updateSpecialPhrases env
        let s3 := lift (fun b => (b.updateSpecialPhrases env).2) s2
        if r.1 then some (true, update env s3)
        else some (true, updateAuxiliaryText env (updatePreeditText env s3))

/-- The operation `BopomofoContext::removeCharBefore`. -/
def removeCharBefore (env : Env) (s : BopomofoContext) : Result BopomofoContext :=
  if s.m_cursor = 0 then some (false, s)
  else
    match erase s.m_text (s.m_cursor - 1) 1 with
    | none => none
    | some t =>
      let s1 : BopomofoContext := { s with m_cursor := s.m_cursor - 1, m_text := t }
      let s2 := lift PhoneticContext.updateCursor (lift PhoneticContext.updateInputText s1)
      some (true, updatePinyin env (lift (fun b => (b.updateSpecialPhrases env).2) s2))

/-- The operation `BopomofoContext::removeCharAfter`. -/
def removeCharAfter (env : Env) (s : BopomofoContext) : Result BopomofoContext :=
  if s.m_cursor = s.m_text.length then some (false, s)
  else
    match erase s.m_text s.m_cursor 1 with
    | none => none
    | some t =>
      let s1 : BopomofoContext := { s with m_text := t }
      some (true,
        updateAuxiliaryText env
          (updatePreeditText env (lift PhoneticContext.updateInputText s1)))

/-- The operation `BopomofoContext::removeWordBefore`. -/
def removeWordBefore (env : Env) (s : BopomofoContext) : Result BopomofoContext :=
  if s.m_cursor = 0 then some (false, s)
  else
    let r : Option (Nat × BopomofoContext) :=
      if s.m_cursor > s.m_pinyin_len then some (s.m_pinyin_len, s)
      else
        match s.m_pinyin.getLast? with
        | none => none
        | some p =>
          some (subSize s.m_cursor p.len,
            { s with m_pinyin_len := subSize s.m_pinyin_len p.len,
                     m_pinyin := s.m_pinyin.dropLast })
    match r with
    | none => none
    | some (cursor, s1) =>
      match erase s1.m_text cursor (subSize s1.m_cursor cursor) with
      | none => none
      | some t =>
        let s2 : BopomofoContext := { s1 with m_text := t, m_cursor := cursor }
        let s3 := lift PhoneticContext.updateCursor (lift PhoneticContext.updateInputText s2)
        let s4 := lift (fun b => (b.updateSpecialPhrases env).2) s3
        some (true, update env (lift (PhoneticContext.updatePhraseEditor env) s4))

/-- The operation `BopomofoContext::removeWordAfter`. -/
def removeWordAfter (env : Env) (s : BopomofoContext) : Result BopomofoContext :=
  if s.m_cursor = s.m_text.length then some (false, s)
  else
    match erase s.m_text s.m_cursor (SIZE_MOD - 1) with
    | none => none
    | some t =>
      let s1 : BopomofoContext := { s with m_text := t }
      some (true,
        updateAuxiliaryText env
          (updatePreeditText env (lift PhoneticContext.updateInputText s1)))

/-- The operation `BopomofoContext::moveCursorLeft`. -/
def moveCursorLeft (env : Env) (s : BopomofoContext) : Result BopomofoContext :=
  if s.m_cursor = 0 then some (false, s)
  else
    let s1 : BopomofoContext := { s with m_cursor := s.m_cursor - 1 }
    let s2 := lift PhoneticContext.updateCursor s1
    some (true, updatePinyin env (lift (fun b => (b.updateSpecialPhrases env).2) s2))

/-- The operation `BopomofoContext::moveCursorRight`. The increment of the cursor is written
without the wrap of `size_t`: it is exact for every cursor inside a buffer whose length is a
`size_t` value, as is every buffer within the capacity (`MAX_PINYIN_LEN_lt`). -/
def moveCursorRight (env : Env) (s : BopomofoContext) : Result BopomofoContext :=
  if s.m_cursor = s.m_text.length then some (false, s)
  else
    let s1 : BopomofoContext := { s with m_cursor := s.m_cursor + 1 }
    let s2 := lift PhoneticContext.updateCursor s1
    some (true, updatePinyin env (lift (fun b => (b.updateSpecialPhrases env).2) s2))

/-- The operation `BopomofoContext::moveCursorLeftByWord`. -/
def moveCursorLeftByWord (env : Env) (s : BopomofoContext) : Result BopomofoContext :=
  if s.m_cursor = 0 then some (false, s)
  else if s.m_cursor > s.m_pinyin_len then
    some (true, { s with m_cursor := s.m_pinyin_len })
  else
    match s.m_pinyin.getLast? with
    | none => none
    | some p =>
      let s1 : BopomofoContext :=
        { s with m_cursor := subSize s.m_cursor p.len,
                 m_pinyin_len := subSize s.m_pinyin_len p.len,
                 m_pinyin := s.m_pinyin.dropLast }
      let s2 := lift PhoneticContext.updateCursor s1
      let s3 := lift (fun b => (b.updateSpecialPhrases env).2) s2
      some (true, update env (lift (PhoneticContext.updatePhraseEditor env) s3))

/-- The operation `BopomofoContext::moveCursorToBegin`. -/
def moveCursorToBegin (env : Env) (s : BopomofoContext) : Result BopomofoContext :=
  if s.m_cursor = 0 then some (false, s)
  else
    let s1 : BopomofoContext := { s with m_cursor := 0, m_pinyin := [], m_pinyin_len := 0 }
    let s2 := lift PhoneticContext.updateCursor s1
    let s3 := lift (fun b => (b.updateSpecialPhrases env).2) s2
    some (true, update env (lift (PhoneticContext.updatePhraseEditor env) s3))

/-- The operation `BopomofoContext::moveCursorToEnd`. -/
def moveCursorToEnd (env : Env) (s : BopomofoContext) : Result BopomofoContext :=
  if s.m_cursor = s.m_text.length then some (false, s)
  else
    let s1 : BopomofoContext := { s with m_cursor := s.m_text.length }
    let s2 := lift PhoneticContext.updateCursor s1
    some (true, updatePinyin env (lift (fun b => (b.updateSpecialPhrases env).2) s2))

/-- The operation `BopomofoContext::moveCursorRightByWord`. -/
def moveCursorRightByWord (env : Env) (s : BopomofoContext) : Result BopomofoContext :=
  moveCursorToEnd env s

end BopomofoContext

/-! ## Operation sequences -/

/-- The edit operations of a context. -/
inductive Op where
  | insert (ch : Char)
  | removeCharBefore
  | removeCharAfter
  | removeWordBefore
  | removeWordAfter
  | moveCursorLeft
  | moveCursorRight
  | moveCursorLeftByWord
  | moveCursorRightByWord
  | moveCursorToBegin
  | moveCursorToEnd
  deriving DecidableEq, Repr

/-- The part of a context state the edit operations maintain: buffer, cursor, pinyin array
and `pinyin_len`. -/
structure Core where
  text : List Char
  cursor : Nat
  pinyin : List Pinyin
  pinyin_len : Nat
  deriving DecidableEq, Repr

/-- The buffer, cursor, pinyin array and `pinyin_len` of a context. -/
def PhoneticContext.core (s : PhoneticContext) : Core :=
  ⟨s.m_text, s.m_cursor, s.m_pinyin, s.m_pinyin_len⟩

/-- The sum of the `len` fields of a pinyin array. -/
def pinyinLenSum (a : List Pinyin) : Nat := (a.map (fun p => p.len)).sum

/-- The parser contract "consumed is at most the valid length". -/
def ParserBounded (f : List Char → Nat → Nat → Nat → List Pinyin × Nat) : Prop :=
  ∀ t n o m, (f t n o m).2 ≤ n

/-- The parser contract "consumed equals the sum of the `len` fields of the entries". -/
def ParserSums (f : List Char → Nat → Nat → Nat → List Pinyin × Nat) : Prop :=
  ∀ t n o m, pinyinLenSum (f t n o m).1 = (f t n o m).2

namespace FullPinyinContext

/-- One edit operation on a full pinyin context. -/
def step (env : Env) (s : PhoneticContext) : Op → Result PhoneticContext
  | Op.insert ch => insert env s ch
  | Op.removeCharBefore => removeCharBefore env s
  | Op.removeCharAfter => removeCharAfter env s
  | Op.removeWordBefore => removeWordBefore env s
  | Op.removeWordAfter => removeWordAfter env s
  | Op.moveCursorLeft => moveCursorLeft env s
  | Op.moveCursorRight => moveCursorRight env s
  | Op.moveCursorLeftByWord => moveCursorLeftByWord env s
  | Op.moveCursorRightByWord => moveCursorRightByWord env s
  | Op.moveCursorToBegin => moveCursorToBegin env s
  | Op.moveCursorToEnd => moveCursorToEnd env s

/-- A sequence of edit operations, each applied to the state the previous one left. -/
def run (env : Env) (s : PhoneticContext) : List Op → Option PhoneticContext
  | [] => some s
  | op :: ops =>
    match step env s op with
    | none => none
    | some r => run env r.2 ops

end FullPinyinContext

namespace BopomofoContext

/-- One edit operation on a Bopomofo context. -/
def step (env : Env) (s : BopomofoContext) : Op → Result BopomofoContext
  | Op.insert ch => insert env s ch
  | Op.removeCharBefore => removeCharBefore env s
  | Op.removeCharAfter => removeCharAfter env s
  | Op.removeWordBefore => removeWordBefore env s
  | Op.removeWordAfter => removeWordAfter env s
  | Op.moveCursorLeft => moveCursorLeft env s
  | Op.moveCursorRight => moveCursorRight env s
  | Op.moveCursorLeftByWord => moveCursorLeftByWord env s
  | Op.moveCursorRightByWord => moveCursorRightByWord env s
  | Op.moveCursorToBegin => moveCursorToBegin env s
  | Op.moveCursorToEnd => moveCursorToEnd env s

/-- A sequence of edit operations, each applied to the state the previous one left. -/
def run (env : Env) (s : BopomofoContext) : List Op → Option BopomofoContext
  | [] => some s
  | op :: ops =>
    match step env s op with
    | none => none
    | some r => run env r.2 ops

end BopomofoContext

/-- The invariant of the edit operations: the cursor is within the buffer, the buffer
within its capacity, the parsed syllables end at or before the cursor, and their `len`
fields add up to `pinyin_len`. -/
def Inv (env : Env) (c : Core) : Prop :=
  c.cursor ≤ c.text.length ∧ c.text.length ≤ env.MAX_PINYIN_LEN ∧ c.pinyin_len ≤ c.cursor ∧
    pinyinLenSum c.pinyin = c.pinyin_len

/-- The state of a context that has only been typed into: the cursor is at the end of the
buffer, and an empty buffer comes with an empty pinyin array. -/
def AtEnd (c : Core) : Prop :=
  c.cursor = c.text.length ∧ (c.text = [] → c.pinyin = [] ∧ c.pinyin_len = 0)

/-! ## Small environments and states for concrete runs -/

/-- A syllable entry of `n` input characters. -/
def Pinyin.ofLen (n : Nat) : Pinyin := ⟨[], [], [], [], n, []⟩

/-- The rows of a two key keyboard: `a` and `b`, glyph identifiers 1 and 2. -/
def toyKeyboard : List (Nat × Nat) := [(97, 1), (98, 2)]

/-- An environment with capacity 8, parsers that cut the text before the cursor into
syllables of two characters, an absent dictionary and an empty special phrase table. -/
def toyEnv : Env :=
  { MAX_PINYIN_LEN := 8, MAX_PINYIN_LEN_lt := by decide, MAX_PHRASE_LEN := 16,
    PINYIN_INCOMPLETE_PINYIN := 1, BOPOMOFO_ZERO := 0, BOPOMOFO_TONE_2 := 38,
    BOPOMOFO_TONE_5 := 41, BOPOMOFO_KEYBOARD_LAST := 6,
    parse := fun _ n _ _ => (List.replicate (n / 2) (Pinyin.ofLen 2), 2 * (n / 2)),
    parseBopomofo := fun _ n _ _ => (List.replicate (n / 2) (Pinyin.ofLen 2), 2 * (n / 2)),
    lookup := fun _ => [], specialPhrasesChanged := fun _ _ => false,
    candidates := fun _ _ _ => [], simpToTrad := id,
    bopomofo_keyboard := fun _ => toyKeyboard,
    bopomofo_char := fun n => Char.ofNat (0x3104 + n) }

/-- The environment `toyEnv` with parsers whose entry overstates the characters consumed:
at most two characters are consumed and the single entry has `len = 3`. -/
def wideEnv : Env :=
  { toyEnv with
    parse := fun _ n _ _ => ([Pinyin.ofLen 3], min n 2),
    parseBopomofo := fun _ n _ _ => ([Pinyin.ofLen 3], min n 2) }

/-- The syllable `ni`. -/
def pinyinNi : Pinyin :=
  ⟨"ni".toList, "ㄋㄧ".toList, "n".toList, "i".toList, 2, [(13, 24), (10, 24), (0, 0)]⟩

/-- The syllable `hao`. -/
def pinyinHao : Pinyin :=
  ⟨"hao".toList, "ㄏㄠ".toList, "h".toList, "ao".toList, 3, [(8, 6), (5, 6), (0, 0)]⟩

/-- The phrase `你好` of the syllables `ni hao`. -/
def phraseNihao : Phrase := ⟨"你好".toList, 100, 0, [(13, 24), (8, 6)], 2⟩

/-- The phrase `你` of the syllable `ni`. -/
def phraseNi : Phrase := ⟨"你".toList, 90, 0, [(13, 24)], 1⟩

/-- An environment whose parser segments the input `nihao` into `ni hao` and whose
dictionary offers `你好` first for these syllables. -/
def nihaoEnv : Env :=
  { toyEnv with
    MAX_PINYIN_LEN := 64, MAX_PINYIN_LEN_lt := by decide,
    parse := fun t n _ _ =>
      if t.take n = "nihao".toList then ([pinyinNi, pinyinHao], 5)
      else if t.take n = "ni".toList then ([pinyinNi], 2) else ([], 0),
    candidates := fun a c _ =>
      if a = [pinyinNi, pinyinHao] ∧ c = 0 then [phraseNihao, phraseNi] else [] }

/-- The configuration of the scenarios: no option bit, simplified mode. -/
def plainConfig : Config := ⟨0, true⟩

/-- The operations that type a text. -/
def typeText (t : String) : List Op := t.toList.map Op.insert

/-- A full pinyin context that holds the text `t` with the cursor at `c` and nothing
parsed. -/
def holding (t : String) (c : Nat) : PhoneticContext :=
  { PhoneticContext.init plainConfig with m_text := t.toList, m_cursor := c }

/-- A Bopomofo context that holds the keys `t` with the cursor at `c` and nothing parsed. -/
def bopomofoHolding (t : String) (c : Nat) : BopomofoContext :=
  { BopomofoContext.init plainConfig with m_text := t.toList, m_cursor := c }

/-- The texts the observer has received through `commit_text`, oldest first. -/
def delivered (calls : List Call) : List (List Char) :=
  calls.filterMap (fun c => match c with
    | Call.commitText t => some t
    | _ => none)

/-- The full pinyin context after typing `nihao` under `nihaoEnv`: the candidate `你好` is
first and focused, nothing is selected. -/
def nihaoFocused : PhoneticContext :=
  (FullPinyinContext.run nihaoEnv (FullPinyinContext.init plainConfig)
    (typeText "nihao")).getD (FullPinyinContext.init plainConfig)

/-- A full pinyin context that holds `nihao` segmented as `ni hao`, with the candidate `你好`
selected for both syllables. -/
def nihaoSelected : PhoneticContext :=
  { holding "nihao" 5 with
    m_pinyin := [pinyinNi, pinyinHao], m_pinyin_len := 5, m_buffer := "你好".toList,
    m_phrase_editor := ⟨[pinyinNi, pinyinHao], 2, [phraseNihao], []⟩ }

/-- The Bopomofo context after typing the keys `aba` under `toyEnv`. -/
def bopomofoTyped : BopomofoContext :=
  (BopomofoContext.run toyEnv (BopomofoContext.init plainConfig)
    (typeText "aba")).getD (BopomofoContext.init plainConfig)

/-- A Bopomofo context whose buffer holds a NUL character between two keys. -/
def bopomofoNul : BopomofoContext :=
  { BopomofoContext.init plainConfig with
    m_text := ['a', Char.ofNat 0, 'b'], m_cursor := 3, m_buffer := ['a'] }

/-! ## Properties of a Bopomofo context -/

/-- Modelled from the spec: the type tags of a property value (`Variant.h` is not among
the sources). -/
inductive VariantType where
  | TYPE_NULL
  | TYPE_BOOL
  | TYPE_UNSIGNED_INT
  deriving DecidableEq, Repr

/-- Modelled from the spec: a property value, a boolean or an unsigned integer. -/
inductive Variant where
  | null
  | bool (b : Bool)
  | unsignedInt (n : Nat)
  deriving DecidableEq, Repr

namespace Variant

/-- Modelled from the spec: `Variant::getType`. -/
def getType : Variant → VariantType
  | null => VariantType.TYPE_NULL
  | bool _ => VariantType.TYPE_BOOL
  | unsignedInt _ => VariantType.TYPE_UNSIGNED_INT

/-- Modelled from the spec: `Variant::getUnsignedInt`, the value of an unsigned variant. -/
def getUnsignedInt : Variant → Nat
  | unsignedInt n => n
  | _ => 0

/-- Modelled from the spec: `Variant::fromUnsignedInt`. -/
def fromUnsignedInt (n : Nat) : Variant := unsignedInt n

end Variant

/-- The names of the properties: the keyboard schema of a Bopomofo context and the
properties the base class handles. -/
inductive PropertyName where
  | PROPERTY_BOPOMOFO_SCHEMA
  | PROPERTY_BASE (id : Nat)
  deriving DecidableEq, Repr

namespace BopomofoContext

/-- The function `BopomofoContext::getProperty`; `baseGet` is
`PhoneticContext::getProperty`. -/
def getProperty (baseGet : PhoneticContext → PropertyName → Variant) (s : BopomofoContext)
    (name : PropertyName) : Variant :=
  if name = PropertyName.PROPERTY_BOPOMOFO_SCHEMA then
    Variant.fromUnsignedInt s.m_bopomofo_schema
  else baseGet s.toPhoneticContext name

/-- The function `BopomofoContext::setProperty`; `baseSet` is
`PhoneticContext::setProperty`. -/
def setProperty (env : Env)
    (baseSet : PhoneticContext → PropertyName → Variant → Bool × PhoneticContext)
    (s : BopomofoContext) (name : PropertyName) (variant : Variant) : Bool × BopomofoContext :=
  if name = PropertyName.PROPERTY_BOPOMOFO_SCHEMA then
    if variant.getType ≠ VariantType.TYPE_UNSIGNED_INT then (false, s)
    else
      let schema := variant.getUnsignedInt
      if schema ≥ env.BOPOMOFO_KEYBOARD_LAST then (false, s)
      else (true, { s with m_bopomofo_schema := schema })
  else
    let r := baseSet s.toPhoneticContext name variant
    (r.1, { s with toPhoneticContext := r.2 })

end BopomofoContext

/-! ## `DynamicSpecialPhrase` (`DynamicSpecialPhrase.cc`) -/

/-- The fields of `struct tm` the phrases read. -/
structure Tm where
  tm_sec : Int
  tm_min : Int
  tm_hour : Int
  tm_mday : Int
  tm_mon : Int
  tm_year : Int
  tm_wday : Int
  deriving DecidableEq, Repr

/-- The two formats `dec` is called with: `%d` and `%02d`. -/
inductive DecFmt where
  | plain
  | zero2
  deriving DecidableEq, Repr

/-- The decimal text of an `int`, as `%d` prints it. -/
def decimalText (d : Int) : List Char :=
  if d < 0 then '-' :: Nat.toDigits 10 d.natAbs else Nat.toDigits 10 d.natAbs

/-- The text `$` followed by an opening brace. -/
def OPEN : List Char := [Char.ofNat 36, Char.ofNat 123]

/-- The text of a closing brace. -/
def CLOSE : List Char := [Char.ofNat 125]

/-- The conversion of an `int` to `unsigned int`. -/
def toUnsigned (d : Int) : Nat := (d % 4294967296).toNat

/-- The entry `table[i]` of a table of strings; `none` for an index outside the table, where
the code reads past the array (undefined behaviour). -/
def tableAt (table : List String) (i : Int) : Option (List Char) :=
  if i < 0 then none else (table.get? i.toNat).map String.toList

/-- The call `m_text.find (pat, pos)` of `std::string` from the position `pos` on, the
text before `pos` already dropped: the index of the first occurrence, `none` for `npos`. -/
def findAux (pat : List Char) : List Char → Nat → Option Nat
  | [], i => if pat = [] then some i else none
  | c :: s, i => if (c :: s).take pat.length = pat then some i else findAux pat s (i + 1)

/-- The call `m_text.find (pat, pos)` of `std::string`: `none` for `npos`. -/
def find (m_text pat : List Char) (pos : Nat) : Option Nat :=
  if pos > m_text.length then none else findAux pat (m_text.drop pos) pos

namespace DynamicSpecialPhrase

/-- The function `DynamicSpecialPhrase::dec`: the text `g_snprintf` writes for the formats
`%d` and `%02d`. -/
def dec (d : Int) (fmt : DecFmt := DecFmt.plain) : List Char :=
  match fmt with
  | DecFmt.plain => decimalText d
  | DecFmt.zero2 => if (decimalText d).length < 2 then '0' :: decimalText d else decimalText d

/-- The loop of `year_cn`; it stops once `year` is 0 and `bit` is not positive, after at
most `fuel` rounds; `none` when a round reads past the table `digits`. -/
def year_cn_loop : Nat → Int → Int → List Char → Option (List Char)
  | 0, _, _, result => some result
  | fuel + 1, year, bit, result =>
    if year ≠ 0 ∨ bit > 0 then
      match tableAt ["〇", "一", "二", "三", "四", "五", "六", "七", "八", "九"] (year.tmod 10) with
      | none => none
      | some digit => year_cn_loop fuel (year.tdiv 10) (bit - 1) (digit ++ result)
    else some result

/-- The function `DynamicSpecialPhrase::year_cn`. -/
def year_cn (tm : Tm) (yy : Bool := false) : Option (List Char) :=
  let year := tm.tm_year + 1900
  let year1 := if yy then year.tmod 100 else year
  let bit : Int := if yy then 2 else 0
  year_cn_loop (year1.natAbs + 3) year1 bit []

/-- The function `DynamicSpecialPhrase::month_cn`. -/
def month_cn (tm : Tm) : Option (List Char) :=
  tableAt ["一", "二", "三", "四", "五", "六", "七", "八", "九", "十", "十一", "十二"] tm.tm_mon

/-- The function `DynamicSpecialPhrase::weekday_cn`. -/
def weekday_cn (tm : Tm) : Option (List Char) :=
  tableAt ["日", "一", "二", "三", "四", "五", "六"] tm.tm_wday

/-- The function `DynamicSpecialPhrase::hour_cn`. -/
def hour_cn (i : Nat) : Option (List Char) :=
  tableAt ["零", "一", "二", "三", "四", "五", "六", "七", "八", "九", "十", "十一", "十二", "十三",
    "十四", "十五", "十六", "十七", "十八", "十九", "二十", "二十一", "二十二", "二十三"] i

/-- The function `DynamicSpecialPhrase::fullhour_cn`. -/
def fullhour_cn (tm : Tm) : Option (List Char) := hour_cn (toUnsigned tm.tm_hour)

/-- The function `DynamicSpecialPhrase::halfhour_cn`. -/
def halfhour_cn (tm : Tm) : Option (List Char) := hour_cn (toUnsigned (tm.tm_hour.tmod 12))

/-- The table `day_num` of `day_cn`. -/
def day_num : List String :=
  ["", "一", "二", "三", "四", "五", "六", "七", "八", "九", "", "十", "二十", "三十"]

/-- The function `DynamicSpecialPhrase::day_cn`: the two entries of the table it reads,
joined; `none` when one of the reads is past the table. -/
def day_cn (tm : Tm) : Option (List Char) :=
  let day := toUnsigned tm.tm_mday
  match tableAt day_num (day / 10 + 10 : Nat), tableAt day_num (day % 10 : Nat) with
  | some tens, some ones => some (tens ++ ones)
  | _, _ => none

/-- The table `num` of `minsec_cn`. The source has no comma between its entries `四十` and
`五十`, so the two literals are one entry and the table has sixteen. -/
def minsec_num : List String :=
  ["", "一", "二", "三", "四", "五", "六", "七", "八", "九", "零", "十", "二十", "三十",
    "四十" ++ "五十", "六十"]

/-- The function `DynamicSpecialPhrase::minsec_cn`: the two entries of the table it reads,
joined; `none` when one of the reads is past the table. -/
def minsec_cn (i : Nat) : Option (List Char) :=
  match tableAt minsec_num (i / 10 + 10 : Nat), tableAt minsec_num (i % 10 : Nat) with
  | some tens, some ones => some (tens ++ ones)
  | _, _ => none

/-- The function `DynamicSpecialPhrase::variable` (the name is a keyword of Lean); `none`
when the function it calls reads past its table. -/
def variable_ (tm : Tm) (name : List Char) : Option (List Char) :=
  if name = "year".toList then some (dec (tm.tm_year + 1900))
  else if name = "year_yy".toList then some (dec ((tm.tm_year + 1900).tmod 100) DecFmt.zero2)
  else if name = "month".toList then some (dec (tm.tm_mon + 1))
  else if name = "month_mm".toList then some (dec (tm.tm_mon + 1) DecFmt.zero2)
  else if name = "day".toList then some (dec tm.tm_mday)
  else if name = "day_dd".toList then some (dec tm.tm_mday DecFmt.zero2)
  else if name = "weekday".toList then some (dec (tm.tm_wday + 1))
  else if name = "fullhour".toList then some (dec tm.tm_hour DecFmt.zero2)
  else if name = "falfhour".toList then some (dec (tm.tm_hour.tmod 12) DecFmt.zero2)
  else if name = "ampm".toList then some (if tm.tm_hour < 12 then "AM" else "PM").toList
  else if name = "minute".toList then some (dec tm.tm_min DecFmt.zero2)
  else if name = "second".toList then some (dec tm.tm_sec DecFmt.zero2)
  else if name = "year_cn".toList then year_cn tm
  else if name = "year_yy_cn".toList then year_cn tm true
  else if name = "month_cn".toList then month_cn tm
  else if name = "day_cn".toList then day_cn tm
  else if name = "weekday_cn".toList then weekday_cn tm
  else if name = "fullhour_cn".toList then fullhour_cn tm
  else if name = "halfhour_cn".toList then halfhour_cn tm
  else if name = "ampm_cn".toList then some (if tm.tm_hour < 12 then "上午" else "下午").toList
  else if name = "minute_cn".toList then minsec_cn (toUnsigned tm.tm_min)
  else if name = "second_cn".toList then minsec_cn (toUnsigned tm.tm_sec)
  else some (OPEN ++ name ++ CLOSE)

/-- The names `variable_` compares its argument with, in the order of the source. -/
def recognized : List (List Char) :=
  ["year", "year_yy", "month", "month_mm", "day", "day_dd", "weekday", "fullhour", "falfhour",
    "ampm", "minute", "second", "year_cn", "year_yy_cn", "month_cn", "day_cn", "weekday_cn",
    "fullhour_cn", "halfhour_cn", "ampm_cn", "minute_cn", "second_cn"].map String.toList

/-- The loop of `DynamicSpecialPhrase::text` on the template `m_text` and the clock reading
`tm`, from the scanner state `s`, the position `pos` and the text `result` composed so
far; `none` when `fuel` rounds do not reach the state 2, or when `variable_` has no defined
result. -/
def textLoop (tm : Tm) (m_text : List Char) : Nat → Nat → Nat → List Char → Option (List Char)
  | 0, _, _, _ => none
  | fuel + 1, s, pos, result =>
    if s = 2 then some result
    else if s = 0 then
      match find m_text OPEN pos with
      | none => textLoop tm m_text fuel 2 pos (result ++ m_text.drop pos)
      | some pnext =>
        textLoop tm m_text fuel 1 (pnext + 2) (result ++ substr m_text pos (pnext - pos))
    else
      match find m_text CLOSE pos with
      | none => textLoop tm m_text fuel 2 pos (result ++ OPEN ++ m_text.drop pos)
      | some pnext =>
        match variable_ tm (substr m_text pos (pnext - pos)) with
        | none => none
        | some value => textLoop tm m_text fuel 0 (pnext + 1) (result ++ value)

/-- The function `DynamicSpecialPhrase::text` on the template `m_text`, with the clock
reading `tm` it takes from `std::localtime`. Every round but the last moves the position
forward, so `|m_text| + 3` rounds reach the end. -/
def text (tm : Tm) (m_text : List Char) : Option (List Char) :=
  textLoop tm m_text (m_text.length + 3) 0 0 []

end DynamicSpecialPhrase

/-- The clock reading of 2011-03-05, 14:45:50, a Saturday. -/
def tm20110305 : Tm :=
  { tm_sec := 50, tm_min := 45, tm_hour := 14, tm_mday := 5, tm_mon := 2, tm_year := 111,
    tm_wday := 6 }

/-- The clock reading of a leap second: 2016-12-31, 23:59:60, a Saturday. -/
def tmLeapSecond : Tm :=
  { tm_sec := 60, tm_min := 59, tm_hour := 23, tm_mday := 31, tm_mon := 11, tm_year := 116,
    tm_wday := 6 }

/-- The clock readings at which every table read of the phrases is inside its table: the
ranges of the fields of `struct tm` without the leap second, from the year 0 on. -/
def Tm.WithinTables (tm : Tm) : Prop :=
  (0 ≤ tm.tm_sec ∧ tm.tm_sec ≤ 59) ∧ (0 ≤ tm.tm_min ∧ tm.tm_min ≤ 59) ∧
  (0 ≤ tm.tm_hour ∧ tm.tm_hour ≤ 23) ∧ (1 ≤ tm.tm_mday ∧ tm.tm_mday ≤ 31) ∧
  (0 ≤ tm.tm_mon ∧ tm.tm_mon ≤ 11) ∧ 0 ≤ tm.tm_year + 1900 ∧
  (0 ≤ tm.tm_wday ∧ tm.tm_wday ≤ 6)

instance (tm : Tm) : Decidable (Tm.WithinTables tm) :=
  inferInstanceAs (Decidable (_ ∧ _))

/-! ## The query conditions of `Database` (`Database.cc`) -/

/-- The syllable identifiers and the option bits that `Database.cc` names; their headers
are not among the sources. -/
structure PinyinConsts where
  PINYIN_ID_ZERO : Nat
  PINYIN_ID_C : Nat
  PINYIN_ID_CH : Nat
  PINYIN_ID_Z : Nat
  PINYIN_ID_ZH : Nat
  PINYIN_ID_S : Nat
  PINYIN_ID_SH : Nat
  PINYIN_ID_L : Nat
  PINYIN_ID_N : Nat
  PINYIN_ID_F : Nat
  PINYIN_ID_H : Nat
  PINYIN_ID_R : Nat
  PINYIN_ID_K : Nat
  PINYIN_ID_G : Nat
  PINYIN_ID_AN : Nat
  PINYIN_ID_ANG : Nat
  PINYIN_ID_EN : Nat
  PINYIN_ID_ENG : Nat
  PINYIN_ID_IN : Nat
  PINYIN_ID_ING : Nat
  PINYIN_ID_IAN : Nat
  PINYIN_ID_IANG : Nat
  PINYIN_ID_UAN : Nat
  PINYIN_ID_UANG : Nat
  PINYIN_FUZZY_C_CH : Nat
  PINYIN_FUZZY_CH_C : Nat
  PINYIN_FUZZY_Z_ZH : Nat
  PINYIN_FUZZY_ZH_Z : Nat
  PINYIN_FUZZY_S_SH : Nat
  PINYIN_FUZZY_SH_S : Nat
  PINYIN_FUZZY_L_N : Nat
  PINYIN_FUZZY_N_L : Nat
  PINYIN_FUZZY_F_H : Nat
  PINYIN_FUZZY_H_F : Nat
  PINYIN_FUZZY_L_R : Nat
  PINYIN_FUZZY_R_L : Nat
  PINYIN_FUZZY_K_G : Nat
  PINYIN_FUZZY_G_K : Nat
  PINYIN_FUZZY_AN_ANG : Nat
  PINYIN_FUZZY_ANG_AN : Nat
  PINYIN_FUZZY_EN_ENG : Nat
  PINYIN_FUZZY_ENG_EN : Nat
  PINYIN_FUZZY_IN_ING : Nat
  PINYIN_FUZZY_ING_IN : Nat
  PINYIN_FUZZY_IAN_IANG : Nat
  PINYIN_FUZZY_IANG_IAN : Nat
  PINYIN_FUZZY_UAN_UANG : Nat
  PINYIN_FUZZY_UANG_UAN : Nat

/-- The constant `DB_INDEX_SIZE`. -/
def DB_INDEX_SIZE : Nat := 3

/-- The value `(id << 16) | fid` of two `unsigned int`, on which the option checks
switch. -/
def caseKey (id fid : Nat) : Nat := ((id <<< 16) % 4294967296) ||| fid

/-- One ordered pair of a fuzzy option: the primary identifier, the alternative, and the
option bit of this direction. -/
structure FuzzyCase where
  id : Nat
  fid : Nat
  flag : Nat
  deriving DecidableEq, Repr

/-- The case label of an ordered pair. -/
def FuzzyCase.key (c : FuzzyCase) : Nat := caseKey c.id c.fid

/-- A `switch` whose cases return `option & flag`: the first case whose label equals the
value decides, the default is false. -/
def switchOn (cases : List FuzzyCase) (option value : Nat) : Bool :=
  match cases.find? (fun c => c.key == value) with
  | some c => (option &&& c.flag) != 0
  | none => false

/-- The cases of `pinyin_option_check_sheng`, in the order of the source. -/
def shengCases (k : PinyinConsts) : List FuzzyCase :=
  [⟨k.PINYIN_ID_C, k.PINYIN_ID_CH, k.PINYIN_FUZZY_C_CH⟩,
   ⟨k.PINYIN_ID_CH, k.PINYIN_ID_C, k.PINYIN_FUZZY_CH_C⟩,
   ⟨k.PINYIN_ID_Z, k.PINYIN_ID_ZH, k.PINYIN_FUZZY_Z_ZH⟩,
   ⟨k.PINYIN_ID_ZH, k.PINYIN_ID_Z, k.PINYIN_FUZZY_ZH_Z⟩,
   ⟨k.PINYIN_ID_S, k.PINYIN_ID_SH, k.PINYIN_FUZZY_S_SH⟩,
   ⟨k.PINYIN_ID_SH, k.PINYIN_ID_S, k.PINYIN_FUZZY_SH_S⟩,
   ⟨k.PINYIN_ID_L, k.PINYIN_ID_N, k.PINYIN_FUZZY_L_N⟩,
   ⟨k.PINYIN_ID_N, k.PINYIN_ID_L, k.PINYIN_FUZZY_N_L⟩,
   ⟨k.PINYIN_ID_F, k.PINYIN_ID_H, k.PINYIN_FUZZY_F_H⟩,
   ⟨k.PINYIN_ID_H, k.PINYIN_ID_F, k.PINYIN_FUZZY_H_F⟩,
   ⟨k.PINYIN_ID_L, k.PINYIN_ID_R, k.PINYIN_FUZZY_L_R⟩,
   ⟨k.PINYIN_ID_R, k.PINYIN_ID_L, k.PINYIN_FUZZY_R_L⟩,
   ⟨k.PINYIN_ID_K, k.PINYIN_ID_G, k.PINYIN_FUZZY_K_G⟩,
   ⟨k.PINYIN_ID_G, k.PINYIN_ID_K, k.PINYIN_FUZZY_G_K⟩]

/-- The cases of `pinyin_option_check_yun`, in the order of the source. -/
def yunCases (k : PinyinConsts) : List FuzzyCase :=
  [⟨k.PINYIN_ID_AN, k.PINYIN_ID_ANG, k.PINYIN_FUZZY_AN_ANG⟩,
   ⟨k.PINYIN_ID_ANG, k.PINYIN_ID_AN, k.PINYIN_FUZZY_ANG_AN⟩,
   ⟨k.PINYIN_ID_EN, k.PINYIN_ID_ENG, k.PINYIN_FUZZY_EN_ENG⟩,
   ⟨k.PINYIN_ID_ENG, k.PINYIN_ID_EN, k.PINYIN_FUZZY_ENG_EN⟩,
   ⟨k.PINYIN_ID_IN, k.PINYIN_ID_ING, k.PINYIN_FUZZY_IN_ING⟩,
   ⟨k.PINYIN_ID_ING, k.PINYIN_ID_IN, k.PINYIN_FUZZY_ING_IN⟩,
   ⟨k.PINYIN_ID_IAN, k.PINYIN_ID_IANG, k.PINYIN_FUZZY_IAN_IANG⟩,
   ⟨k.PINYIN_ID_IANG, k.PINYIN_ID_IAN, k.PINYIN_FUZZY_IANG_IAN⟩,
   ⟨k.PINYIN_ID_UAN, k.PINYIN_ID_UANG, k.PINYIN_FUZZY_UAN_UANG⟩,
   ⟨k.PINYIN_ID_UANG, k.PINYIN_ID_UAN, k.PINYIN_FUZZY_UANG_UAN⟩]

/-- The function `pinyin_option_check_sheng`. -/
def pinyin_option_check_sheng (k : PinyinConsts) (option id fid : Nat) : Bool :=
  switchOn (shengCases k) option (caseKey id fid)

/-- The function `pinyin_option_check_yun`. -/
def pinyin_option_check_yun (k : PinyinConsts) (option id fid : Nat) : Bool :=
  switchOn (yunCases k) option (caseKey id fid)

/-- One formatted text that `appendPrintf` appends to a condition: the format of the call
and its integer arguments. -/
inductive Piece where
  /-- The format `" AND "`. -/
  | and_
  /-- The format `"s%d=%d"`. -/
  | sEq (i v : Nat)
  /-- The format `"s%d IN (%d,%d)"`. -/
  | sIn2 (i a b : Nat)
  /-- The format `"s%d IN (%d,%d,%d)"`. -/
  | sIn3 (i a b c : Nat)
  /-- The format `" AND y%d=%d"`. -/
  | yEq (i v : Nat)
  /-- The format `" and y%d=%d"`. -/
  | yEqLower (i v : Nat)
  /-- The format `" AND y%d IN (%d,%d)"`. -/
  | yIn2 (i a b : Nat)
  deriving DecidableEq, Repr

/-- The text `g_vsnprintf` writes for a piece. -/
def Piece.text : Piece → List Char
  | Piece.and_ => " AND ".toList
  | Piece.sEq i v => 's' :: decimalText i ++ '=' :: decimalText v
  | Piece.sIn2 i a b =>
    's' :: decimalText i ++ " IN (".toList ++ decimalText a ++ ',' :: decimalText b ++ [')']
  | Piece.sIn3 i a b c =>
    's' :: decimalText i ++ " IN (".toList ++ decimalText a ++ ',' :: decimalText b ++
      ',' :: decimalText c ++ [')']
  | Piece.yEq i v => " AND y".toList ++ decimalText i ++ '=' :: decimalText v
  | Piece.yEqLower i v => " and y".toList ++ decimalText i ++ '=' :: decimalText v
  | Piece.yIn2 i a b =>
    " AND y".toList ++ decimalText i ++ " IN (".toList ++ decimalText a ++
      ',' :: decimalText b ++ [')']

/-- One condition, a string of the vector `Conditions`: the pieces appended to it, in
order. Its text is the concatenation of the texts of its pieces. -/
abbrev Condition := List Piece

/-- The text of a condition. -/
def Condition.text (c : Condition) : List Char := (c.map Piece.text).flatten

/-- The class `Conditions`, a vector of strings. -/
abbrev Conditions := List Condition

namespace Conditions

/-- The constructor of `Conditions`: one empty string. -/
def init : Conditions := [[]]

/-- The method `Conditions::double_`: the copies are pushed from the last element back to
the first. -/
def double_ (c : Conditions) : Conditions := c ++ c.reverse

/-- The method `Conditions::triple`: from the last element back to the first, each is
pushed twice. -/
def triple (c : Conditions) : Conditions := c ++ c.reverse.flatMap (fun value => [value, value])

/-- The loop of `appendVPrintf` from the index `i` on. -/
def appendAux (piece : Piece) (first last : Nat) : Nat → Conditions → Conditions
  | _, [] => []
  | i, d :: c =>
    (if first ≤ i ∧ i < last then d ++ [piece] else d) :: appendAux piece first last (i + 1) c

/-- The method `Conditions::appendPrintf (begin, end, fmt, ...)`: the formatted piece is
appended to the strings at the indices from `first` up to `last`, `last` excluded. -/
def appendPrintf (c : Conditions) (first last : Nat) (piece : Piece) : Conditions :=
  appendAux piece first last 0 c

end Conditions

namespace Database

/-- The initial clause of position `i` in the loop of `Database::query`. -/
def shengStep (k : PinyinConsts) (option i : Nat) (p : Pinyin) (c : Conditions) : Conditions :=
  let id0 := (p.pinyin_id.getD 0 (0, 0)).1
  let id1 := (p.pinyin_id.getD 1 (0, 0)).1
  let id2 := (p.pinyin_id.getD 2 (0, 0)).1
  let fs1 := pinyin_option_check_sheng k option id0 id1
  let fs2 := pinyin_option_check_sheng k option id0 id2
  if fs1 || fs2 then
    if i < DB_INDEX_SIZE then
      if fs1 && !fs2 then
        let d := c.double_
        (d.appendPrintf 0 (d.length >>> 1) (Piece.sEq i id0)).appendPrintf
          (d.length >>> 1) d.length (Piece.sEq i id1)
      else if !fs1 && fs2 then
        let d := c.double_
        (d.appendPrintf 0 (d.length >>> 1) (Piece.sEq i id0)).appendPrintf
          (d.length >>> 1) d.length (Piece.sEq i id2)
      else
        let len := c.length
        let t := c.triple
        ((t.appendPrintf 0 len (Piece.sEq i id0)).appendPrintf len (len <<< 1)
          (Piece.sEq i id1)).appendPrintf (len <<< 1) t.length (Piece.sEq i id2)
    else
      if fs1 && !fs2 then c.appendPrintf 0 c.length (Piece.sIn2 i id0 id1)
      else if !fs1 && fs2 then c.appendPrintf 0 c.length (Piece.sIn2 i id0 id2)
      else c.appendPrintf 0 c.length (Piece.sIn3 i id0 id1 id2)
  else c.appendPrintf 0 c.length (Piece.sEq i id0)

/-- The final clause of position `i` in the loop of `Database::query`. -/
def yunStep (k : PinyinConsts) (option i : Nat) (p : Pinyin) (c : Conditions) : Conditions :=
  let y0 := (p.pinyin_id.getD 0 (0, 0)).2
  let y1 := (p.pinyin_id.getD 1 (0, 0)).2
  if y0 ≠ k.PINYIN_ID_ZERO then
    if pinyin_option_check_yun k option y0 y1 then
      if i < DB_INDEX_SIZE then
        let d := c.double_
        (d.appendPrintf 0 (d.length >>> 1) (Piece.yEq i y0)).appendPrintf
          (d.length >>> 1) d.length (Piece.yEqLower i y1)
      else c.appendPrintf 0 c.length (Piece.yIn2 i y0 y1)
    else c.appendPrintf 0 c.length (Piece.yEq i y0)
  else c

/-- One round of the loop of `Database::query`, for the position `i`. -/
def queryStep (k : PinyinConsts) (pinyin : List Pinyin) (pinyin_begin option : Nat)
    (conditions : Conditions) (i : Nat) : Conditions :=
  let p := pinyin.getD (i + pinyin_begin) default
  let c := if i > 0 then conditions.appendPrintf 0 conditions.length Piece.and_ else conditions
  yunStep k option i p (shengStep k option i p c)

/-- The vector `conditions` after the loop of `Database::query`. -/
def queryConditions (k : PinyinConsts) (pinyin : List Pinyin) (pinyin_begin pinyin_len : Nat)
    (option : Nat) : Conditions :=
  (List.range pinyin_len).foldl (queryStep k pinyin pinyin_begin option) Conditions.init

/-- The text `m_buffer` that `Database::query` composes of the conditions. -/
def conditionsText (conditions : Conditions) : List Char :=
  (conditions.enum.map (fun ic =>
    (if ic.1 = 0 then "  (".toList else "  OR (".toList) ++ ic.2.text ++ ")\n".toList)).flatten

/-- The text `m_sql` that `Database::query` composes; `none` when an assertion fails. -/
def querySql (k : PinyinConsts) (MAX_PHRASE_LEN : Nat) (pinyin : List Pinyin)
    (pinyin_begin pinyin_len : Nat) (m : Int) (option : Nat) : Option (List Char) :=
  if pinyin_begin < pinyin.length ∧ pinyin_len ≤ pinyin.length - pinyin_begin ∧
      pinyin_len ≤ MAX_PHRASE_LEN then
    let m_buffer := conditionsText (queryConditions k pinyin pinyin_begin pinyin_len option)
    let id : Int := (pinyin_len : Int) - 1
    let sql := "SELECT * FROM (SELECT 0 AS user_freq, * FROM main.py_phrase_".toList ++
      decimalText id ++ " WHERE ".toList ++ m_buffer ++
      " UNION ALL SELECT * FROM userdb.py_phrase_".toList ++ decimalText id ++
      " WHERE ".toList ++ m_buffer ++
      ") GROUP BY phrase ORDER BY user_freq DESC, freq DESC".toList
    some (if m > 0 then sql ++ " LIMIT ".toList ++ decimalText m else sql)
  else none

end Database

/-- A choice of identifiers (the initials and finals numbered in alphabetical order after
the zero identifier) and of option bits (one bit for each direction). -/
def demoConsts : PinyinConsts :=
  { PINYIN_ID_ZERO := 0, PINYIN_ID_C := 2, PINYIN_ID_CH := 3, PINYIN_ID_Z := 22,
    PINYIN_ID_ZH := 23, PINYIN_ID_S := 16, PINYIN_ID_SH := 17, PINYIN_ID_L := 10,
    PINYIN_ID_N := 12, PINYIN_ID_F := 5, PINYIN_ID_H := 7, PINYIN_ID_R := 15,
    PINYIN_ID_K := 9, PINYIN_ID_G := 6, PINYIN_ID_AN := 26, PINYIN_ID_ANG := 27,
    PINYIN_ID_EN := 31, PINYIN_ID_ENG := 32, PINYIN_ID_IN := 40, PINYIN_ID_ING := 41,
    PINYIN_ID_IAN := 36, PINYIN_ID_IANG := 37, PINYIN_ID_UAN := 50, PINYIN_ID_UANG := 51,
    PINYIN_FUZZY_C_CH := 2 ^ 1, PINYIN_FUZZY_CH_C := 2 ^ 2, PINYIN_FUZZY_Z_ZH := 2 ^ 3,
    PINYIN_FUZZY_ZH_Z := 2 ^ 4, PINYIN_FUZZY_S_SH := 2 ^ 5, PINYIN_FUZZY_SH_S := 2 ^ 6,
    PINYIN_FUZZY_L_N := 2 ^ 7, PINYIN_FUZZY_N_L := 2 ^ 8, PINYIN_FUZZY_F_H := 2 ^ 9,
    PINYIN_FUZZY_H_F := 2 ^ 10, PINYIN_FUZZY_L_R := 2 ^ 11, PINYIN_FUZZY_R_L := 2 ^ 12,
    PINYIN_FUZZY_K_G := 2 ^ 13, PINYIN_FUZZY_G_K := 2 ^ 14, PINYIN_FUZZY_AN_ANG := 2 ^ 15,
    PINYIN_FUZZY_ANG_AN := 2 ^ 16, PINYIN_FUZZY_EN_ENG := 2 ^ 17,
    PINYIN_FUZZY_ENG_EN := 2 ^ 18, PINYIN_FUZZY_IN_ING := 2 ^ 19,
    PINYIN_FUZZY_ING_IN := 2 ^ 20, PINYIN_FUZZY_IAN_IANG := 2 ^ 21,
    PINYIN_FUZZY_IANG_IAN := 2 ^ 22, PINYIN_FUZZY_UAN_UANG := 2 ^ 23,
    PINYIN_FUZZY_UANG_UAN := 2 ^ 24 }

/-- The syllable `ci`: initial `c` with the alternative `ch`, final `i` (34). -/
def pinyinCi : Pinyin :=
  ⟨"ci".toList, "ㄘ".toList, "c".toList, "i".toList, 2, [(2, 34), (3, 34), (0, 0)]⟩

/-- The syllable `la`: initial `l` with the alternatives `n` and `r`, final `a` (24). -/
def pinyinLa : Pinyin :=
  ⟨"la".toList, "ㄌㄚ".toList, "l".toList, "a".toList, 2, [(10, 24), (12, 24), (15, 24)]⟩

/-- The syllable `chi`: initial `ch` with the alternative `c`, final `i` (34). -/
def pinyinChi : Pinyin :=
  ⟨"chi".toList, "ㄔ".toList, "ch".toList, "i".toList, 3, [(3, 34), (2, 34), (0, 0)]⟩

/-- The syllable `an`: no initial, final `an` with the alternative `ang`. -/
def pinyinAn : Pinyin :=
  ⟨"an".toList, "ㄢ".toList, [], "an".toList, 2, [(0, 26), (0, 27), (0, 0)]⟩

/-- The three fragments cut the text `buf` at the byte offsets `b` and `e`: the offsets are
ordered and within the text, the fragments concatenate to the text, and they occupy the
byte ranges before `b`, from `b` to `e`, and from `e` on. -/
def Partitions (p : PreeditText) (buf : List Char) (b e : Nat) : Prop :=
  0 ≤ b ∧ b ≤ e ∧ e ≤ strSize buf ∧
    p.selected_text ++ p.candidate_text ++ p.rest_text = buf ∧
    strSize p.selected_text = b ∧ strSize p.candidate_text = e - b ∧
    strSize p.rest_text = strSize buf - e

/-- A full pinyin context that holds `ab` with the cursor after `a` and the special phrase
`X` selected. -/
def specialSelected : PhoneticContext :=
  { holding "ab" 1 with m_selected_special_phrase := ['X'] }


/-- The initial identifier of the entry `j` of a syllable. -/
def Pinyin.shengId (p : Pinyin) (j : Nat) : Nat := (p.pinyin_id.getD j (0, 0)).1

/-- The final identifier of the entry `j` of a syllable. -/
def Pinyin.yunId (p : Pinyin) (j : Nat) : Nat := (p.pinyin_id.getD j (0, 0)).2

/-- A piece occurs in some disjunct of the conditions. -/
def Occurs (q : Piece) (c : Conditions) : Prop := ∃ d ∈ c, q ∈ d

/-- Every fuzzy option bit is clear in `option`. -/
def FuzzyClear (k : PinyinConsts) (option : Nat) : Prop :=
  ∀ c ∈ shengCases k ++ yunCases k, option &&& c.flag = 0

/-- The conjunction of the primary identifiers of the positions below `len`: for each
position `s{i}=` its primary initial and, when the primary final is not the zero final,
`y{i}=` its primary final, joined by `AND`. -/
def primaryCondition (k : PinyinConsts) (pinyin : List Pinyin) (pinyin_begin len : Nat) :
    Condition :=
  (List.range len).flatMap (fun i =>
    let p := pinyin.getD (i + pinyin_begin) default
    (if i > 0 then [Piece.and_] else []) ++ [Piece.sEq i (p.shengId 0)] ++
      (if p.yunId 0 ≠ k.PINYIN_ID_ZERO then [Piece.yEq i (p.yunId 0)] else []))

/-- The case labels of each of the two switches are distinct (the program compiles), the
two identifiers of a pair differ, and no final of a pair is the zero final. -/
def ConstsDistinct (k : PinyinConsts) : Prop :=
  ((shengCases k).map FuzzyCase.key).Nodup ∧ ((yunCases k).map FuzzyCase.key).Nodup ∧
    (∀ c ∈ shengCases k ++ yunCases k, c.id ≠ c.fid) ∧
    (∀ c ∈ yunCases k, c.id ≠ k.PINYIN_ID_ZERO)

/-- The position a piece constrains; the joining `AND` constrains none. -/
def Piece.index : Piece → Option Nat
  | Piece.and_ => none
  | Piece.sEq i _ => some i
  | Piece.sIn2 i _ _ => some i
  | Piece.sIn3 i _ _ _ => some i
  | Piece.yEq i _ => some i
  | Piece.yEqLower i _ => some i
  | Piece.yIn2 i _ _ => some i

instance (q : Piece) (c : Conditions) : Decidable (Occurs q c) :=
  inferInstanceAs (Decidable (∃ d ∈ c, q ∈ d))

instance (k : PinyinConsts) (option : Nat) : Decidable (FuzzyClear k option) :=
  inferInstanceAs (Decidable (∀ c ∈ shengCases k ++ yunCases k, option &&& c.flag = 0))

instance (k : PinyinConsts) : Decidable (ConstsDistinct k) :=
  inferInstanceAs (Decidable (((shengCases k).map FuzzyCase.key).Nodup ∧
    ((yunCases k).map FuzzyCase.key).Nodup ∧
    (∀ c ∈ shengCases k ++ yunCases k, c.id ≠ c.fid) ∧
    (∀ c ∈ yunCases k, c.id ≠ k.PINYIN_ID_ZERO)))

/-! ## The final clauses of the query conditions -/

/-- Whether a piece is a final clause: one of the three formats written with `y`. -/
def Piece.isYun : Piece → Bool
  | Piece.yEq _ _ => true
  | Piece.yEqLower _ _ => true
  | Piece.yIn2 _ _ _ => true
  | _ => false

/-- A condition holds a final clause of the position `i`. -/
def HasYun (i : Nat) (d : Condition) : Prop := ∃ q ∈ d, q.isYun = true ∧ q.index = some i

instance (i : Nat) (d : Condition) : Decidable (HasYun i d) :=
  inferInstanceAs (Decidable (∃ q ∈ d, q.isYun = true ∧ q.index = some i))

/-- Every condition of `c2` holds all the pieces of some condition of `c1`. -/
def Extends (c1 c2 : Conditions) : Prop := ∀ d2 ∈ c2, ∃ d1 ∈ c1, ∀ q ∈ d1, q ∈ d2

/-! ## The struct `Phrase` (`Phrase.h`) -/

/-- The macro `PHRASE_LEN_IN_BYTE`, the size of the member `phrase`; the constants
`MAX_UTF8_LEN` and `MAX_PHRASE_LEN` of the absent header `Types.h` are parameters. -/
def PHRASE_LEN_IN_BYTE (MAX_UTF8_LEN MAX_PHRASE_LEN : Nat) : Nat :=
  MAX_UTF8_LEN * (MAX_PHRASE_LEN + 1)

/-- The call `g_strlcpy (dest, src, size)` of GLib: `dest` receives the bytes of the C string
`src` that fit `size - 1` bytes. A character that the bound cuts is dropped whole (the C
function keeps its leading bytes). -/
def strlcpy (dest src : List Char) (size : Nat) : List Char :=
  if size = 0 then dest else takeBytes (size - 1) (cstr src)

/-- The call `g_strlcat (dest, src, size)` of GLib: the bytes of the C string `src` that
fit are appended to the C string `dest`, which is left alone when it fills the `size`
bytes already. A character that the bound cuts is dropped whole. -/
def strlcat (dest src : List Char) (size : Nat) : List Char :=
  if size ≤ strSize (cstr dest) then cstr dest
  else cstr dest ++ takeBytes (size - 1 - strSize (cstr dest)) (cstr src)

/-- The call `memcpy (dst + pos, src, n << 1)` on two arrays of identifier pairs: the
entries `pos` to `pos + n` of `dst` become the first `n` entries of `src`. An entry that a
list does not hold reads `(0, 0)`. -/
def memcpyIds (dst : List (Nat × Nat)) (pos : Nat) (src : List (Nat × Nat)) (n : Nat) :
    List (Nat × Nat) :=
  (List.range pos).map (fun j => dst.getD j (0, 0)) ++
    (List.range n).map (fun j => src.getD j (0, 0)) ++ dst.drop (pos + n)

namespace Phrase

/-- The condition of the `g_assert` in `operator +=`, on `size_t` values. -/
def fits (MAX_PHRASE_LEN : Nat) (self a : Phrase) : Bool :=
  decide (addSize self.len a.len ≤ MAX_PHRASE_LEN)

/-- The operator `Phrase::operator +=`: `none` when the assertion fails, and when the sum
of the two lengths wraps, so that the copy leaves the array. -/
def append (MAX_UTF8_LEN MAX_PHRASE_LEN : Nat) (self a : Phrase) : Option Phrase :=
  if fits MAX_PHRASE_LEN self a = true then
    if self.len + a.len ≤ MAX_PHRASE_LEN then
      some { self with
        phrase := strlcat self.phrase a.phrase (PHRASE_LEN_IN_BYTE MAX_UTF8_LEN MAX_PHRASE_LEN),
        pinyin_id := memcpyIds self.pinyin_id self.len a.pinyin_id a.len,
        len := addSize self.len a.len }
    else none
  else none

end Phrase

/-! ## The statements of `Database::commit` (`Database.cc`) -/

/-- The character of a double quote. -/
def QUOTE : Char := Char.ofNat 34

namespace Database

/-- The initial identifier `p.pinyin_id[i].sheng`. -/
def idSheng (p : Phrase) (i : Nat) : Nat := (p.pinyin_id.getD i (0, 0)).1

/-- The final identifier `p.pinyin_id[i].yun`. -/
def idYun (p : Phrase) (i : Nat) : Nat := (p.pinyin_id.getD i (0, 0)).2

/-- The function `Database::phraseWhereSql`: the text it appends. Numbers are written in
decimal (the operators of the absent class `String`). -/
def phraseWhereSql (p : Phrase) : List Char :=
  " WHERE".toList ++ " s0=".toList ++ decimalText (idSheng p 0) ++ " AND y0=".toList ++
    decimalText (idYun p 0) ++
    ((List.range (p.len - 1)).map (fun j =>
      " AND s".toList ++ decimalText ((j + 1 : Nat) : Int) ++ '=' :: decimalText (idSheng p (j + 1)) ++
        " AND y".toList ++ decimalText ((j + 1 : Nat) : Int) ++
        '=' :: decimalText (idYun p (j + 1)))).flatten ++
    " AND phrase=".toList ++ QUOTE :: cstr p.phrase ++ [QUOTE]

/-- The first statement of `Database::phraseSql`, the `INSERT OR IGNORE`. -/
def insertSql (p : Phrase) : List Char :=
  "INSERT OR IGNORE INTO userdb.py_phrase_".toList ++ decimalText (subSize p.len 1) ++
    " VALUES(".toList ++ decimalText 0 ++ ',' :: QUOTE :: cstr p.phrase ++ QUOTE :: ',' ::
    decimalText p.freq ++
    ((List.range p.len).map (fun i =>
      ',' :: decimalText (idSheng p i) ++ ',' :: decimalText (idYun p i))).flatten ++
    ");\n".toList

/-- The second statement of `Database::phraseSql`, the `UPDATE`. -/
def updateSql (p : Phrase) : List Char :=
  "UPDATE userdb.py_phrase_".toList ++ decimalText (subSize p.len 1) ++
    " SET user_freq=user_freq+1".toList ++ phraseWhereSql p ++ ";\n".toList

/-- The function `Database::phraseSql`: the text it appends. -/
def phraseSql (p : Phrase) : List Char := insertSql p ++ updateSql p

/-- The loop of `Database::commit`: the phrase accumulated with `+=` and the text composed
so far; `none` when an assertion of `+=` fails. -/
def commitLoop (MAX_UTF8_LEN MAX_PHRASE_LEN : Nat) :
    List Phrase → Phrase → List Char → Option (Phrase × List Char)
  | [], phrase, m_sql => some (phrase, m_sql)
  | p :: phrases, phrase, m_sql =>
    match phrase.append MAX_UTF8_LEN MAX_PHRASE_LEN p with
    | none => none
    | some phrase1 => commitLoop MAX_UTF8_LEN MAX_PHRASE_LEN phrases phrase1 (m_sql ++ phraseSql p)

/-- The text `m_sql` that `Database::commit` composes and executes; `none` when an
assertion fails. -/
def commitSql (MAX_UTF8_LEN MAX_PHRASE_LEN : Nat) (phrases : List Phrase) :
    Option (List Char) :=
  match commitLoop MAX_UTF8_LEN MAX_PHRASE_LEN phrases ⟨[], 0, 0, [], 0⟩
      "BEGIN TRANSACTION;\n".toList with
  | none => none
  | some (phrase, m_sql) =>
    some ((if phrases.length > 1 then m_sql ++ phraseSql phrase else m_sql) ++
      "COMMIT;\n".toList)

end Database

/-- The concatenation the spec describes for a list of phrases: the texts and the
identifiers of the syllables in list order, the sum of the lengths, and no frequency. -/
def concatPhrase (phrases : List Phrase) : Phrase :=
  { phrase := (phrases.map (fun p => cstr p.phrase)).flatten,
    freq := 0,
    user_freq := 0,
    pinyin_id := (phrases.map (fun p =>
      (List.range p.len).map (fun j => p.pinyin_id.getD j (0, 0)))).flatten,
    len := (phrases.map (fun p => p.len)).sum }

/-! ## The cursor `Query` over the rows of the database (`Database.cc`) -/

/-- The column `DB_COLUMN_USER_FREQ`. -/
def DB_COLUMN_USER_FREQ : Nat := 0

/-- The column `DB_COLUMN_PHRASE`. -/
def DB_COLUMN_PHRASE : Nat := 1

/-- The column `DB_COLUMN_FREQ`. -/
def DB_COLUMN_FREQ : Nat := 2

/-- The column `DB_COLUMN_S0`. -/
def DB_COLUMN_S0 : Nat := 3

/-- One row that `sqlite3_step` delivers: the text of the column `DB_COLUMN_PHRASE` and
the `int` values of the columns. -/
structure Row where
  phrase : List Char
  ints : List Int
  deriving DecidableEq, Repr

/-- The call `columnInt (col)` on the current row. -/
def Row.columnInt (r : Row) (col : Nat) : Int := r.ints.getD col 0

/-- A prepared statement `SQLStmt`: the rows that `step` still delivers, in order. An error
of `sqlite3_step` ends the rows as `SQLITE_DONE` does. -/
abbrev SQLStmt := List Row

/-- The constants of absent headers and the database engine `sqlite3`. -/
structure DbEnv where
  /-- The identifiers and option bits. -/
  k : PinyinConsts
  /-- The largest number of syllables of a phrase. -/
  MAX_PHRASE_LEN : Nat
  /-- The largest number of bytes of a character. -/
  MAX_UTF8_LEN : Nat
  /-- The call `sqlite3_prepare` on a statement text: `none` when it fails, else the rows
  the statement delivers. -/
  prepare : List Char → Option SQLStmt

/-- The members of `Database` the routines below read and write: whether the connection
`m_db` is not `NULL`, the identifier of the backup timer, and the number of runs of
`saveUserDB` so far. -/
structure Database where
  m_db : Bool
  m_timeout_id : Nat
  saves : Nat
  deriving DecidableEq, Repr

/-- The function `Database::query`: the outer `none` when an assertion fails (the three of
`query`, or `m_db != NULL` in the constructor of `SQLStmt`), the inner `none` the empty
pointer returned when `prepare` fails. -/
def Database.query (E : DbEnv) (db : Database) (pinyin : List Pinyin)
    (pinyin_begin pinyin_len : Nat) (m : Int) (option : Nat) : Option (Option SQLStmt) :=
  match Database.querySql E.k E.MAX_PHRASE_LEN pinyin pinyin_begin pinyin_len m option with
  | none => none
  | some m_sql => if db.m_db = true then some (E.prepare m_sql) else none

/-- The members of `Query`. -/
structure Query where
  m_pinyin : List Pinyin
  m_pinyin_begin : Nat
  m_pinyin_len : Nat
  m_option : Nat
  m_stmt : Option SQLStmt
  deriving DecidableEq, Repr

namespace Query

/-- The constructor of `Query`: `none` when its assertion fails. -/
def new (pinyin : List Pinyin) (pinyin_begin pinyin_len option : Nat) : Option Query :=
  if pinyin.length ≥ addSize pinyin_begin pinyin_len then
    some ⟨pinyin, pinyin_begin, pinyin_len, option, none⟩
  else none

/-- The phrase that `Query::fill` builds of the current row for the length `m_pinyin_len`. -/
def rowPhrase (E : DbEnv) (m_pinyin_len : Nat) (r : Row) : Phrase :=
  { phrase := strlcpy [] r.phrase (PHRASE_LEN_IN_BYTE E.MAX_UTF8_LEN E.MAX_PHRASE_LEN),
    freq := toUnsigned (r.columnInt DB_COLUMN_FREQ),
    user_freq := toUnsigned (r.columnInt DB_COLUMN_USER_FREQ),
    pinyin_id := (List.range m_pinyin_len).map (fun i =>
      ((r.columnInt (DB_COLUMN_S0 + 2 * i) % 256).toNat,
        (r.columnInt (DB_COLUMN_S0 + 2 * i + 1) % 256).toNat)),
    len := m_pinyin_len }

/-- The inner loop `while (m_stmt->step ())` of `Query::fill`: the number `row`, the vector
`phrases`, and the rows left in the statement when the loop returns at `row == count`
(`none` in third place when the rows end first). The result is `none` when the identifiers
of a row leave the array `pinyin_id` or `row ++` overflows. -/
def fillRows (E : DbEnv) (m_pinyin_len : Nat) (count : Int) :
    SQLStmt → Int → List Phrase → Option (Int × List Phrase × Option SQLStmt)
  | [], row, phrases => some (row, phrases, none)
  | r :: rest, row, phrases =>
    if m_pinyin_len > E.MAX_PHRASE_LEN then none
    else if row = 2147483647 then none
    else if row + 1 = count then
      some (row + 1, phrases ++ [rowPhrase E m_pinyin_len r], some rest)
    else fillRows E m_pinyin_len count rest (row + 1) (phrases ++ [rowPhrase E m_pinyin_len r])

/-- The outer loop `while (m_pinyin_len > 0)` of `Query::fill`, from the length
`m_pinyin_len` and the statement `m_stmt`; `none` when an assertion fails or the inner
loop has no defined result. -/
def fillLoop (E : DbEnv) (db : Database) (q : Query) (count : Int) :
    Nat → Option SQLStmt → Int → List Phrase → Option (Int × List Phrase × Query)
  | 0, m_stmt, row, phrases =>
    some (row, phrases, { q with m_pinyin_len := 0, m_stmt := m_stmt })
  | m_pinyin_len + 1, m_stmt, row, phrases =>
    let opened : Option SQLStmt :=
      match m_stmt with
      | some rows => some rows
      | none =>
        match db.query E q.m_pinyin q.m_pinyin_begin (m_pinyin_len + 1) (-1) q.m_option with
        | some (some rows) => some rows
        | _ => none
    match opened with
    | none => none
    | some rows =>
      match fillRows E (m_pinyin_len + 1) count rows row phrases with
      | none => none
      | some (row1, phrases1, some rest) =>
        some (row1, phrases1, { q with m_pinyin_len := m_pinyin_len + 1, m_stmt := some rest })
      | some (row1, phrases1, none) => fillLoop E db q count m_pinyin_len none row1 phrases1

/-- The method `Query::fill (phrases, count)`: the returned number, the vector and the
query it leaves; `none` when the call has no result (an assertion fails). -/
def fill (E : DbEnv) (db : Database) (q : Query) (phrases : List Phrase) (count : Int) :
    Option (Int × List Phrase × Query) :=
  fillLoop E db q count q.m_pinyin_len q.m_stmt 0 phrases

/-- Successive calls of `fill` with the given counts on one query and one vector. -/
def fills (E : DbEnv) (db : Database) : Query → List Phrase → List Int →
    Option (Query × List Phrase)
  | q, phrases, [] => some (q, phrases)
  | q, phrases, count :: counts =>
    match q.fill E db phrases count with
    | none => none
    | some r => fills E db r.2.2 r.2.1 counts

/-- The rows the statement for the length `len` of a query delivers (none without a
statement). -/
def rowsAt (E : DbEnv) (db : Database) (q : Query) (len : Nat) : List Row :=
  match db.query E q.m_pinyin q.m_pinyin_begin len (-1) q.m_option with
  | some (some rows) => rows
  | _ => []

/-- The phrases of all lengths from `len` down to 1, longest first, within a length in
the order of the rows of its statement. -/
def blocks (E : DbEnv) (db : Database) (q : Query) : Nat → List Phrase
  | 0 => []
  | len + 1 => (rowsAt E db q (len + 1)).map (rowPhrase E (len + 1)) ++ blocks E db q len

/-- The phrases yet to be produced from the length `len` and the statement `m_stmt`: the
rows left in the open statement (those of a new statement when none is open), then the
shorter lengths. -/
def streamOf (E : DbEnv) (db : Database) (q : Query) : Nat → Option SQLStmt → List Phrase
  | 0, _ => []
  | len + 1, m_stmt =>
    (match m_stmt with
      | some rows => rows
      | none => rowsAt E db q (len + 1)).map (rowPhrase E (len + 1)) ++ blocks E db q len

/-- The phrases a query has yet to produce. -/
def stream (E : DbEnv) (db : Database) (q : Query) : List Phrase :=
  streamOf E db q q.m_pinyin_len q.m_stmt

/-- Whether the statement for the length `len` can be opened: `Database::query` passes its
assertions and `prepare` succeeds. -/
def opens (E : DbEnv) (db : Database) (q : Query) (len : Nat) : Bool :=
  match db.query E q.m_pinyin q.m_pinyin_begin len (-1) q.m_option with
  | some (some _) => true
  | _ => false

/-- Every statement the query may open can be opened, for each length from 1 to the current
one, and the current length is within the array `pinyin_id`. -/
def Ready (E : DbEnv) (db : Database) (q : Query) : Prop :=
  q.m_pinyin_len ≤ E.MAX_PHRASE_LEN ∧
    ∀ len ∈ List.range q.m_pinyin_len, opens E db q (len + 1) = true

instance (E : DbEnv) (db : Database) (q : Query) : Decidable (Ready E db q) :=
  inferInstanceAs (Decidable (q.m_pinyin_len ≤ E.MAX_PHRASE_LEN ∧
    ∀ len ∈ List.range q.m_pinyin_len, opens E db q (len + 1) = true))

end Query

/-! ## A small database for concrete runs -/

/-- The initial `c` typed alone: no final, the alternative initial `ch`. -/
def pinyinC : Pinyin :=
  ⟨"c".toList, "ㄘ".toList, "c".toList, [], 1, [(2, 0), (3, 0), (0, 0)]⟩

/-- The constants of `Types.h` as the spec gives them, and an engine that delivers one row
for a statement on two syllables and two rows for a statement on one. -/
def demoDb : DbEnv :=
  { k := demoConsts, MAX_PHRASE_LEN := 16, MAX_UTF8_LEN := 6,
    prepare := fun m_sql =>
      some (if " AND s1=".toList <:+: m_sql then [⟨"你好".toList, [3, 0, 100, 13, 24, 8, 6]⟩]
        else [⟨"你".toList, [5, 0, 90, 13, 24]⟩, ⟨"尼".toList, [0, 0, 20, 13, 24]⟩]) }

/-- A database with an open connection and no timer armed. -/
def connected : Database := ⟨true, 0, 0⟩

/-- A new query for the two syllables `ni hao`. -/
def nihaoQuery : Query := ⟨[pinyinNi, pinyinHao], 0, 2, 0, none⟩

/-- A phrase of one syllable whose text takes sixty bytes. -/
def longPhrase (ch : Char) : Phrase := ⟨List.replicate 60 ch, 1, 0, [(13, 24)], 1⟩

/-- A full pinyin context with the option bit of incomplete pinyin set (the bit 1 of
`toyEnv`) that holds `abc` with the cursor at the end and nothing parsed. -/
def incompleteHolding : PhoneticContext := { holding "abc" 3 with m_config := ⟨1, true⟩ }

/-- A full pinyin context with the option bit of incomplete pinyin set (the bit 1 of
`toyEnv`) that holds `aba` with the cursor at the end and nothing parsed. -/
def incompleteAba : PhoneticContext := { holding "aba" 3 with m_config := ⟨1, true⟩ }

/-- A Bopomofo context with the option bit of incomplete pinyin set that holds the keys `aba`
with the cursor at the end and nothing parsed. -/
def bopomofoIncompleteAba : BopomofoContext :=
  { bopomofoHolding "aba" 3 with m_config := ⟨1, true⟩ }

/-- The context `incompleteAba` with one special phrase suggested. -/
def suggestingAba : PhoneticContext := { incompleteAba with m_special_phrases := [['x']] }

/-- The environment `toyEnv` in which a recomputation of the suggestions reports a change
when the new list differs from the old one. -/
def changeEnv : Env := { toyEnv with specialPhrasesChanged := fun old fresh => old != fresh }

/-! ## The backup timer of `Database` (`Database.cc`) -/

/-- The constant `DB_BACKUP_TIMEOUT`. -/
def DB_BACKUP_TIMEOUT : Nat := 60

/-- The conversion `(unsigned int) x` of a `double`: the value truncated toward zero;
`none` when the truncated value is no `unsigned int`, where the conversion is undefined. -/
def toUnsignedInt (x : ℚ) : Option Nat :=
  if -1 < x ∧ x < 4294967296 then some x.floor.toNat else none

/-- The function `Database::saveUserDB`, whose outcome `ok` the file system and the engine
decide: the run is counted. -/
def Database.saveUserDB (ok : Bool) (self : Database) : Bool × Database :=
  (ok, { self with saves := self.saves + 1 })

/-- The function `Database::timeoutCallback` on the database `self`, when
`g_timer_elapsed` returns `elapsed` and a run of `saveUserDB` would return `ok`. -/
def Database.timeoutCallback (elapsed : ℚ) (ok : Bool) (self : Database) :
    Option (Bool × Database) :=
  match toUnsignedInt elapsed with
  | none => none
  | some seconds =>
    if seconds ≥ DB_BACKUP_TIMEOUT then
      let r := self.saveUserDB ok
      if r.1 = true then some (false, { r.2 with m_timeout_id := 0 })
      else some (true, r.2)
    else some (true, self)

/-- A reading of the timer of 75.5 seconds. -/
def seconds75 : ℚ := ⟨151, 2, by decide, by decide⟩

/-- A reading of the timer of 59.5 seconds. -/
def seconds59 : ℚ := ⟨119, 2, by decide, by decide⟩

/-! ## Comparing the two context variants -/

/-- Two results of an operation agree: both are undefined, or both return the same
boolean and leave the same buffer, the same cursor and the same record of calls. -/
def Agree (r1 : Result PhoneticContext) (r2 : Result BopomofoContext) : Prop :=
  match r1, r2 with
  | none, none => True
  | some x, some y =>
    x.1 = y.1 ∧ x.2.m_text = y.2.m_text ∧ x.2.m_cursor = y.2.m_cursor ∧ x.2.calls = y.2.calls
  | _, _ => False

/-! ## The number of disjuncts of a query -/

/-- The alternative initials of a syllable that the option word enables, in the order of
the array `pinyin_id`. -/
def enabledInitials (k : PinyinConsts) (option : Nat) (p : Pinyin) : List Nat :=
  (if pinyin_option_check_sheng k option (p.shengId 0) (p.shengId 1) = true then [p.shengId 1]
    else []) ++
  (if pinyin_option_check_sheng k option (p.shengId 0) (p.shengId 2) = true then [p.shengId 2]
    else [])

/-- The alternative final of a syllable that the option word enables: a syllable without a
final (the zero final) has none. -/
def enabledFinals (k : PinyinConsts) (option : Nat) (p : Pinyin) : List Nat :=
  if p.yunId 0 ≠ k.PINYIN_ID_ZERO ∧
      pinyin_option_check_yun k option (p.yunId 0) (p.yunId 1) = true then [p.yunId 1]
  else []

/-- The clause of the initial of position `i` in list form: `s{i}=` the primary without an
alternative, else `s{i} IN (` the primary, then the alternatives `)`. -/
def initialClause (i primary : Nat) : List Nat → Piece
  | [] => Piece.sEq i primary
  | [a] => Piece.sIn2 i primary a
  | a :: b :: _ => Piece.sIn3 i primary a b

/-- The clause of the final of position `i` in list form: `y{i}=` the primary without an
alternative, else `y{i} IN (` the primary, then the alternative `)`. -/
def finalClause (i primary : Nat) : List Nat → Piece
  | [] => Piece.yEq i primary
  | a :: _ => Piece.yIn2 i primary a

/-- The product the spec gives for the number of disjuncts: over the positions below
`min (len, DB_INDEX_SIZE)`, one more than the number of enabled alternative initials times
one more than the number of enabled alternative finals. -/
def disjunctCount (k : PinyinConsts) (pinyin : List Pinyin) (pinyin_begin len option : Nat) :
    Nat :=
  ((List.range (min len DB_INDEX_SIZE)).map (fun i =>
    (1 + (enabledInitials k option (pinyin.getD (i + pinyin_begin) default)).length) *
      (1 + (enabledFinals k option (pinyin.getD (i + pinyin_begin) default)).length))).prod

/-- The product with the option check of the final alone: one more factor for each
position whose pair of finals the option word enables. -/
def disjunctCountByOption (k : PinyinConsts) (pinyin : List Pinyin)
    (pinyin_begin len option : Nat) : Nat :=
  ((List.range (min len DB_INDEX_SIZE)).map (fun i =>
    (1 + (enabledInitials k option (pinyin.getD (i + pinyin_begin) default)).length) *
      (1 + (if pinyin_option_check_yun k option
          ((pinyin.getD (i + pinyin_begin) default).yunId 0)
          ((pinyin.getD (i + pinyin_begin) default).yunId 1) = true then 1 else 0)))).prod

/-- The syllable `lan`: initial `l` with the alternatives `n` and `r`, final `an` with the
alternative `ang`. -/
def pinyinLan : Pinyin :=
  ⟨"lan".toList, "ㄌㄢ".toList, "l".toList, "an".toList, 3, [(10, 26), (12, 27), (15, 26)]⟩

/-- Four syllables, `ci lan la lan`: the position 3 is beyond the indexed positions. -/
def fourSyllables : List Pinyin := [pinyinCi, pinyinLan, pinyinLa, pinyinLan]

/-- The option word with the bits `C_CH`, `L_N`, `L_R` and `AN_ANG` of `demoConsts`. -/
def fuzzyOption : Nat := 2 ^ 1 + 2 ^ 7 + 2 ^ 11 + 2 ^ 15

/-! ## Batches of `fill` calls -/

/-- Successive calls of `fill` with the given counts on one query and one vector, up to and
including the first call that returns fewer phrases than its count: the query and the vector
they leave, and whether a call fell short. -/
def Query.fillsUntilShort (E : DbEnv) (db : Database) :
    Query → List Phrase → List Int → Option (Query × List Phrase × Bool)
  | q, phrases, [] => some (q, phrases, false)
  | q, phrases, count :: counts =>
    match q.fill E db phrases count with
    | none => none
    | some r =>
      if r.1 < count then some (r.2.2, r.2.1, true)
      else fillsUntilShort E db r.2.2 r.2.1 counts

/-- A database without a connection. -/
def disconnected : Database := ⟨false, 0, 0⟩

/-- An engine that prepares no statement. -/
def deafDb : DbEnv := { demoDb with prepare := fun _ => none }

/-! ## The public operations of a Bopomofo context -/

namespace BopomofoContext

/-- Every character of the buffer has a glyph other than the zero glyph under the current
schema. -/
def Glyphs (env : Env) (s : BopomofoContext) : Prop :=
  ∀ c ∈ s.m_text, keyvalToBopomofo env s (charToInt c) ≠ env.BOPOMOFO_ZERO

instance (env : Env) (s : BopomofoContext) : Decidable (Glyphs env s) :=
  inferInstanceAs (Decidable (∀ c ∈ s.m_text,
    keyvalToBopomofo env s (charToInt c) ≠ env.BOPOMOFO_ZERO))

/-- A public operation of a Bopomofo context: an edit operation or a call of
`setProperty`. -/
inductive Action where
  | edit (op : Op)
  | setProperty (name : PropertyName) (variant : Variant)
  deriving DecidableEq, Repr

/-- One public operation; `baseSet` is `PhoneticContext::setProperty`. -/
def act (env : Env)
    (baseSet : PhoneticContext → PropertyName → Variant → Bool × PhoneticContext)
    (s : BopomofoContext) : Action → Result BopomofoContext
  | Action.edit op => step env s op
  | Action.setProperty name variant => some (setProperty env baseSet s name variant)

/-- A sequence of public operations, each applied to the state the previous one left. -/
def runActions (env : Env)
    (baseSet : PhoneticContext → PropertyName → Variant → Bool × PhoneticContext)
    (s : BopomofoContext) : List Action → Option BopomofoContext
  | [] => some s
  | a :: as =>
    match act env baseSet s a with
    | none => none
    | some r => runActions env baseSet r.2 as

/-- A call of `setProperty` that changes the schema is made in a state all of whose buffer
characters have a glyph under the new schema; every other operation qualifies. -/
def SchemaFits (env : Env) (s : BopomofoContext) : Action → Prop
  | Action.setProperty PropertyName.PROPERTY_BOPOMOFO_SCHEMA (Variant.unsignedInt n) =>
    n < env.BOPOMOFO_KEYBOARD_LAST → Glyphs env { s with m_bopomofo_schema := n }
  | _ => True

/-- Along a sequence of public operations every change of the schema is made in a state all
of whose buffer characters have a glyph under the new schema. -/
def SchemaFitsAll (env : Env)
    (baseSet : PhoneticContext → PropertyName → Variant → Bool × PhoneticContext) :
    BopomofoContext → List Action → Prop
  | _, [] => True
  | s, a :: as =>
    SchemaFits env s a ∧
      match act env baseSet s a with
      | none => True
      | some r => SchemaFitsAll env baseSet r.2 as

instance (env : Env) (s : BopomofoContext) : (a : Action) → Decidable (SchemaFits env s a)
  | Action.setProperty PropertyName.PROPERTY_BOPOMOFO_SCHEMA (Variant.unsignedInt n) =>
    inferInstanceAs (Decidable (n < env.BOPOMOFO_KEYBOARD_LAST →
      Glyphs env { s with m_bopomofo_schema := n }))
  | Action.setProperty PropertyName.PROPERTY_BOPOMOFO_SCHEMA Variant.null => isTrue trivial
  | Action.setProperty PropertyName.PROPERTY_BOPOMOFO_SCHEMA (Variant.bool _) => isTrue trivial
  | Action.setProperty (PropertyName.PROPERTY_BASE _) _ => isTrue trivial
  | Action.edit _ => isTrue trivial

/-- The property `SchemaFitsAll` can be decided by running the operations. -/
def schemaFitsAllDec (env : Env)
    (baseSet : PhoneticContext → PropertyName → Variant → Bool × PhoneticContext) :
    (s : BopomofoContext) → (actions : List Action) →
      Decidable (SchemaFitsAll env baseSet s actions)
  | _, [] => isTrue trivial
  | s, a :: as =>
    match hact : act env baseSet s a with
    | none =>
      decidable_of_iff (SchemaFits env s a) (by simp [SchemaFitsAll, hact])
    | some r =>
      have := schemaFitsAllDec env baseSet r.2 as
      decidable_of_iff (SchemaFits env s a ∧ SchemaFitsAll env baseSet r.2 as)
        (by simp [SchemaFitsAll, hact])

instance (env : Env)
    (baseSet : PhoneticContext → PropertyName → Variant → Bool × PhoneticContext)
    (s : BopomofoContext) (actions : List Action) :
    Decidable (SchemaFitsAll env baseSet s actions) :=
  schemaFitsAllDec env baseSet s actions

end BopomofoContext

/-- The environment `toyEnv` with two keyboard layouts: the schema 0 has the keys `a` and
`b`, every other schema the keys `c` and `d`. -/
def twoLayoutEnv : Env :=
  { toyEnv with
    bopomofo_keyboard := fun schema => if schema = 0 then toyKeyboard else [(99, 1), (100, 2)] }

/-- A base class that knows no property: its `setProperty` returns false. -/
def noBaseProperty (s : PhoneticContext) (_name : PropertyName) (_variant : Variant) :
    Bool × PhoneticContext := (false, s)

/-! ## The column layout of the phrase tables (`Database.cc`) -/

namespace Database

/-- One round of the loop of `Database::loadUserDB` that creates the phrase tables: the
statement for the table `py_phrase_{i}`. -/
def createTableSql (i : Nat) : List Char :=
  "CREATE TABLE IF NOT EXISTS py_phrase_".toList ++ decimalText i ++
    " (user_freq, phrase TEXT, freq INTEGER ".toList ++
    ((List.range (i + 1)).map (fun j : Nat =>
      ",s".toList ++ decimalText j ++ " INTEGER, y".toList ++ decimalText j ++
        " INTEGER".toList)).flatten ++
    ");\n".toList

/-- The loop of `Database::loadUserDB` that creates the phrase tables: the text it appends
to `m_sql`. -/
def createTablesSql (MAX_PHRASE_LEN : Nat) : List Char :=
  ((List.range MAX_PHRASE_LEN).map createTableSql).flatten

/-- The columns that the spec gives for the table of the phrases of `L` syllables:
`user_freq, phrase, freq, s0, y0, ..., s{L-1}, y{L-1}`. -/
def tableColumns (L : Nat) : List (List Char) :=
  ["user_freq".toList, "phrase".toList, "freq".toList] ++
    (List.range L).flatMap (fun i : Nat => ['s' :: decimalText i, 'y' :: decimalText i])

end Database

/-- One column definition of a `CREATE TABLE` statement: the blanks before the name, the
name of the column, and the declared type with the blanks around it. -/
structure ColumnDef where
  pad : List Char
  name : List Char
  type : List Char
  deriving DecidableEq, Repr

/-- The text of a column definition. -/
def ColumnDef.text (c : ColumnDef) : List Char := c.pad ++ c.name ++ c.type

/-- The column definitions of the table of the phrases of `L` syllables, the names as the
spec lists them. -/
def Database.columnDefs (L : Nat) : List ColumnDef :=
  [⟨[], "user_freq".toList, []⟩, ⟨[' '], "phrase".toList, " TEXT".toList⟩,
    ⟨[' '], "freq".toList, " INTEGER ".toList⟩] ++
    (List.range L).flatMap (fun i : Nat =>
      [⟨[], 's' :: decimalText i, " INTEGER".toList⟩,
        ⟨[' '], 'y' :: decimalText i, " INTEGER".toList⟩])

/-- A value of a `VALUES` list: an integer or a text. -/
inductive SqlValue where
  | int (v : Nat)
  | text (t : List Char)
  deriving DecidableEq, Repr

/-- The literal of a value in a statement: the decimal number, or the text between double
quotes. -/
def SqlValue.sql : SqlValue → List Char
  | SqlValue.int v => decimalText v
  | SqlValue.text t => QUOTE :: t ++ [QUOTE]

/-- The call `sqlite3_column_int` on a stored value: the low 32 bits of an integer as an
`int`; the columns that hold a text are not read as numbers. -/
def SqlValue.columnInt : SqlValue → Int
  | SqlValue.int v => ((v : Int) + 2147483648) % 4294967296 - 2147483648
  | SqlValue.text _ => 0

/-- The call `sqlite3_column_text` on a stored value. -/
def SqlValue.columnText : SqlValue → List Char
  | SqlValue.int v => decimalText v
  | SqlValue.text t => t

/-- The values that the first statement of `Database::phraseSql` lists for a phrase, in
the order of the statement. -/
def Database.insertValues (p : Phrase) : List SqlValue :=
  [SqlValue.int 0, SqlValue.text (cstr p.phrase), SqlValue.int p.freq] ++
    (List.range p.len).flatMap (fun i : Nat =>
      [SqlValue.int (Database.idSheng p i), SqlValue.int (Database.idYun p i)])

/-- The row of a table that holds the values of a `VALUES` list: the value `j` is stored in
the column `j` of the table, and a `SELECT *` delivers the columns in the order of the
table. -/
def Row.ofValues (values : List SqlValue) : Row :=
  { phrase := (values.getD DB_COLUMN_PHRASE (SqlValue.text [])).columnText,
    ints := values.map SqlValue.columnInt }

/-! ## The update routines leave buffer, cursor and pinyin array alone -/

section frame

variable (env : Env)

@[simp] theorem phonetic_core_log (s : PhoneticContext) (c : Call) :
    (s.log c).core = s.core := rfl

@[simp] theorem phonetic_core_updateInputText (s : PhoneticContext) :
    s.updateInputText.core = s.core := rfl

@[simp] theorem phonetic_core_updateCursor (s : PhoneticContext) :
    s.updateCursor.core = s.core := rfl

@[simp] theorem phonetic_core_updateSpecialPhrases (s : PhoneticContext) :
    (s.updateSpecialPhrases env).2.core = s.core := rfl

@[simp] theorem phonetic_core_updatePhraseEditor (s : PhoneticContext) :
    (s.updatePhraseEditor env).core = s.core := rfl

@[simp] theorem phonetic_core_updatePreeditText (s : PhoneticContext) :
    (PhoneticContext.updatePreeditText s).core = s.core := rfl

@[simp] theorem phonetic_core_updateAuxiliaryText (s : PhoneticContext) :
    (PhoneticContext.updateAuxiliaryText s).core = s.core := rfl

@[simp] theorem pinyin_core_cutPreedit (s : PhoneticContext) (buf : List Char)
    (b e : Nat) : (PinyinContext.cutPreedit s buf b e).core = s.core := rfl

@[simp] theorem pinyin_core_updatePreeditText (s : PhoneticContext) :
    (PinyinContext.updatePreeditText env s).core = s.core := by
  unfold PinyinContext.updatePreeditText
  dsimp only
  repeat' split
  all_goals rfl

@[simp] theorem pinyin_core_updateAuxiliaryText (s : PhoneticContext) :
    (PinyinContext.updateAuxiliaryText env s).core = s.core := by
  unfold PinyinContext.updateAuxiliaryText
  split_ifs <;> rfl

@[simp] theorem pinyin_core_update (s : PhoneticContext) :
    (PinyinContext.update env s).core = s.core := by
  simp [PinyinContext.update]

@[simp] theorem bopomofo_toPhoneticContext_lift (f : PhoneticContext → PhoneticContext)
    (s : BopomofoContext) : (BopomofoContext.lift f s).toPhoneticContext = f s.toPhoneticContext :=
  rfl

@[simp] theorem bopomofo_schema_lift (f : PhoneticContext → PhoneticContext)
    (s : BopomofoContext) :
    (BopomofoContext.lift f s).m_bopomofo_schema = s.m_bopomofo_schema := rfl

@[simp] theorem bopomofo_core_updatePreeditText (s : BopomofoContext) :
    (BopomofoContext.updatePreeditText env s).core = s.core := by
  unfold BopomofoContext.updatePreeditText
  dsimp only
  repeat' split
  all_goals rfl

@[simp] theorem bopomofo_core_updateAuxiliaryText (s : BopomofoContext) :
    (BopomofoContext.updateAuxiliaryText env s).core = s.core := by
  unfold BopomofoContext.updateAuxiliaryText
  split_ifs <;> rfl

@[simp] theorem bopomofo_core_update (s : BopomofoContext) :
    (BopomofoContext.update env s).core = s.core := by
  simp [BopomofoContext.update]

/-- The buffer, cursor, pinyin array and `pinyin_len` after `FullPinyinContext::updatePinyin`. -/
theorem full_core_updatePinyin (s : PhoneticContext) :
    (FullPinyinContext.updatePinyin env s).core =
      if s.m_text.isEmpty then ⟨s.m_text, s.m_cursor, [], 0⟩
      else
        ⟨s.m_text, s.m_cursor,
          (env.parse s.m_text s.m_cursor s.m_config.option env.MAX_PHRASE_LEN).1,
          (env.parse s.m_text s.m_cursor s.m_config.option env.MAX_PHRASE_LEN).2⟩ := by
  unfold FullPinyinContext.updatePinyin
  simp only [pinyin_core_update, phonetic_core_updatePhraseEditor]
  by_cases h : s.m_text.isEmpty
  · simp [h, PhoneticContext.log, PhoneticContext.core]
  · simp [h, PhoneticContext.log, PhoneticContext.core]

/-- The buffer, cursor, pinyin array and `pinyin_len` after `BopomofoContext::updatePinyin`. -/
theorem bopomofo_core_updatePinyin (s : BopomofoContext) :
    (BopomofoContext.updatePinyin env s).core =
      if s.m_text.isEmpty then ⟨s.m_text, s.m_cursor, [], 0⟩
      else
        ⟨s.m_text, s.m_cursor,
          (env.parseBopomofo (s.m_text.map (BopomofoContext.glyph env s)) s.m_cursor
            s.m_config.option env.MAX_PHRASE_LEN).1,
          (env.parseBopomofo (s.m_text.map (BopomofoContext.glyph env s)) s.m_cursor
            s.m_config.option env.MAX_PHRASE_LEN).2⟩ := by
  unfold BopomofoContext.updatePinyin
  simp only [bopomofo_core_update, bopomofo_toPhoneticContext_lift,
    phonetic_core_updatePhraseEditor]
  by_cases h : s.m_text.isEmpty
  · simp [h, PhoneticContext.log, PhoneticContext.core, BopomofoContext.lift]
  · simp [h, PhoneticContext.log, PhoneticContext.core, BopomofoContext.lift]
    exact ⟨rfl, rfl⟩

end frame

/-! ## The invariant of the edit operations -/

theorem subSize_eq (a b : Nat) (h : b ≤ a) (ha : a < SIZE_MOD) : subSize a b = a - b := by
  unfold subSize
  have hb : b % SIZE_MOD = b := Nat.mod_eq_of_lt (by omega)
  rw [hb]
  have : a + (SIZE_MOD - b) = (a - b) + SIZE_MOD := by omega
  rw [this, Nat.add_mod_right]
  exact Nat.mod_eq_of_lt (by omega)

theorem erase_eq_some (s : List Char) (pos n : Nat) (h : pos ≤ s.length) :
    erase s pos n = some (s.take pos ++ s.drop (pos + min n (s.length - pos))) := by
  unfold erase
  rw [if_neg (by omega)]

theorem insertAt_eq_some (s : List Char) (pos : Nat) (ch : Char) (h : pos ≤ s.length) :
    insertAt s pos ch = some (s.take pos ++ ch :: s.drop pos) := by
  unfold insertAt
  rw [if_neg (by omega)]

theorem length_take_append_drop (s : List Char) (pos k : Nat) (h : pos ≤ s.length) :
    (s.take pos ++ s.drop (pos + k)).length = s.length - min k (s.length - pos) := by
  simp only [List.length_append, List.length_take, List.length_drop]
  omega

theorem pinyinLenSum_getLast (a : List Pinyin) (p : Pinyin) (h : a.getLast? = some p) :
    pinyinLenSum a = pinyinLenSum a.dropLast + p.len := by
  have h1 : a = a.dropLast ++ [p] := by
    have := List.dropLast_append_getLast? p h
    exact this.symm
  conv_lhs => rw [h1]
  simp [pinyinLenSum]

theorem pinyinLenSum_nil_of_getLast (a : List Pinyin) (h : a.getLast? = none) :
    pinyinLenSum a = 0 := by
  rw [List.getLast?_eq_none_iff] at h
  subst h
  rfl

theorem full_inv_updatePinyin (env : Env) (hb : ParserBounded env.parse)
    (hs : ParserSums env.parse) (s : PhoneticContext) (h1 : s.m_cursor ≤ s.m_text.length)
    (h2 : s.m_text.length ≤ env.MAX_PINYIN_LEN) :
    Inv env (FullPinyinContext.updatePinyin env s).core := by
  rw [full_core_updatePinyin]
  split
  · exact ⟨h1, h2, Nat.zero_le _, rfl⟩
  · exact ⟨h1, h2, hb _ _ _ _, hs _ _ _ _⟩


namespace FullPinyinContext

section
variable (env : Env) (hb : ParserBounded env.parse)
  (hs : ParserSums env.parse)
include hb hs

theorem full_inv_insert (s : PhoneticContext) (ch : Char) (h : Inv env s.core) :
    ∃ r, insert env s ch = some r ∧ Inv env r.2.core := by
  obtain ⟨h1, h2, h3, h4⟩ := h
  simp only [PhoneticContext.core] at h1 h2 h3 h4
  unfold insert
  split_ifs with c1 c2
  · exact ⟨_, rfl, h1, h2, h3, h4⟩
  · exact ⟨_, rfl, h1, h2, h3, h4⟩
  · rw [insertAt_eq_some _ _ _ h1]
    have hlen : (s.m_text.take s.m_cursor ++ ch :: s.m_text.drop s.m_cursor).length
        = s.m_text.length + 1 := by
      simp only [List.length_append, List.length_take, List.length_cons, List.length_drop]
      omega
    dsimp only
    split_ifs with c3 c4 c5
    · refine ⟨_, rfl, ?_⟩
      apply full_inv_updatePinyin env hb hs
      · simp [PhoneticContext.updateSpecialPhrases, PhoneticContext.updateCursor,
          PhoneticContext.updateInputText, PhoneticContext.log]
        omega
      · simp [PhoneticContext.updateSpecialPhrases, PhoneticContext.updateCursor,
          PhoneticContext.updateInputText, PhoneticContext.log]
        omega
    · refine ⟨_, rfl, ?_⟩
      apply full_inv_updatePinyin env hb hs
      · simp [PhoneticContext.updateSpecialPhrases, PhoneticContext.updateCursor,
          PhoneticContext.updateInputText, PhoneticContext.log]
        omega
      · simp [PhoneticContext.updateSpecialPhrases, PhoneticContext.updateCursor,
          PhoneticContext.updateInputText, PhoneticContext.log]
        omega
    · refine ⟨_, rfl, ?_⟩
      simp only [pinyin_core_update, phonetic_core_updateSpecialPhrases,
        phonetic_core_updateCursor, phonetic_core_updateInputText]
      refine ⟨?_, ?_, ?_, h4⟩
      · simp only [PhoneticContext.core]; rw [hlen]; omega
      · simp only [PhoneticContext.core]; rw [hlen]; omega
      · simp only [PhoneticContext.core]; omega
    · refine ⟨_, rfl, ?_⟩
      simp only [pinyin_core_updateAuxiliaryText, pinyin_core_updatePreeditText,
        phonetic_core_updateSpecialPhrases,
        phonetic_core_updateCursor, phonetic_core_updateInputText]
      refine ⟨?_, ?_, ?_, h4⟩
      · simp only [PhoneticContext.core]; rw [hlen]; omega
      · simp only [PhoneticContext.core]; rw [hlen]; omega
      · simp only [PhoneticContext.core]; omega


theorem full_inv_removeCharBefore (s : PhoneticContext) (h : Inv env s.core) :
    ∃ r, removeCharBefore env s = some r ∧ Inv env r.2.core := by
  obtain ⟨h1, h2, h3, h4⟩ := h
  simp only [PhoneticContext.core] at h1 h2 h3 h4
  unfold removeCharBefore
  split_ifs with c1
  · exact ⟨_, rfl, h1, h2, h3, h4⟩
  · rw [erase_eq_some _ _ _ (by omega)]
    refine ⟨_, rfl, ?_⟩
    apply full_inv_updatePinyin env hb hs
    · simp only [PhoneticContext.updateSpecialPhrases, PhoneticContext.updateCursor,
        PhoneticContext.updateInputText, PhoneticContext.log]
      rw [length_take_append_drop _ _ _ (by omega)]
      omega
    · simp only [PhoneticContext.updateSpecialPhrases, PhoneticContext.updateCursor,
        PhoneticContext.updateInputText, PhoneticContext.log]
      rw [length_take_append_drop _ _ _ (by omega)]
      omega

omit hb hs in
theorem full_inv_removeCharAfter (s : PhoneticContext) (h : Inv env s.core) :
    ∃ r, removeCharAfter env s = some r ∧ Inv env r.2.core := by
  obtain ⟨h1, h2, h3, h4⟩ := h
  simp only [PhoneticContext.core] at h1 h2 h3 h4
  unfold removeCharAfter
  split_ifs with c1
  · exact ⟨_, rfl, h1, h2, h3, h4⟩
  · rw [erase_eq_some _ _ _ h1]
    refine ⟨_, rfl, ?_⟩
    simp only [pinyin_core_updateAuxiliaryText, pinyin_core_updatePreeditText,
      phonetic_core_updateInputText]
    refine ⟨?_, ?_, h3, h4⟩
    · simp only [PhoneticContext.core]
      rw [length_take_append_drop _ _ _ h1]
      omega
    · simp only [PhoneticContext.core]
      rw [length_take_append_drop _ _ _ h1]
      omega

omit hb hs in
theorem full_inv_removeWordAfter (s : PhoneticContext) (h : Inv env s.core) :
    ∃ r, removeWordAfter env s = some r ∧ Inv env r.2.core := by
  obtain ⟨h1, h2, h3, h4⟩ := h
  simp only [PhoneticContext.core] at h1 h2 h3 h4
  unfold removeWordAfter
  split_ifs with c1
  · exact ⟨_, rfl, h1, h2, h3, h4⟩
  · rw [erase_eq_some _ _ _ h1]
    refine ⟨_, rfl, ?_⟩
    simp only [pinyin_core_updateAuxiliaryText, pinyin_core_updatePreeditText,
      phonetic_core_updateInputText]
    refine ⟨?_, ?_, h3, h4⟩
    · simp only [PhoneticContext.core]
      rw [length_take_append_drop _ _ _ h1]
      omega
    · simp only [PhoneticContext.core]
      rw [length_take_append_drop _ _ _ h1]
      omega

omit hb hs in
theorem full_inv_removeWordBefore (s : PhoneticContext) (h : Inv env s.core) :
    ∃ r, removeWordBefore env s = some r ∧ Inv env r.2.core := by
  have hmax := env.MAX_PINYIN_LEN_lt
  obtain ⟨h1, h2, h3, h4⟩ := h
  simp only [PhoneticContext.core] at h1 h2 h3 h4
  unfold removeWordBefore
  split_ifs with c1 c2
  · exact ⟨_, rfl, h1, h2, h3, h4⟩
  · dsimp only
    rw [subSize_eq _ _ (by omega) (by omega), erase_eq_some _ _ _ (by omega)]
    refine ⟨_, rfl, ?_⟩
    simp only [pinyin_core_update, phonetic_core_updatePhraseEditor,
      phonetic_core_updateSpecialPhrases, phonetic_core_updateCursor,
      phonetic_core_updateInputText]
    refine ⟨?_, ?_, Nat.le_refl _, h4⟩
    · simp only [PhoneticContext.core]
      rw [length_take_append_drop _ _ _ (by omega)]
      omega
    · simp only [PhoneticContext.core]
      rw [length_take_append_drop _ _ _ (by omega)]
      omega
  · have hc : s.m_cursor = s.m_pinyin_len := by omega
    cases hl : s.m_pinyin.getLast? with
    | none =>
      have := pinyinLenSum_nil_of_getLast _ hl
      omega
    | some p =>
      have hsum := pinyinLenSum_getLast _ _ hl
      dsimp only
      rw [subSize_eq _ _ (by omega) (by omega), subSize_eq _ _ (by omega) (by omega),
        subSize_eq _ _ (by omega) (by omega), erase_eq_some _ _ _ (by omega)]
      refine ⟨_, rfl, ?_⟩
      simp only [pinyin_core_update, phonetic_core_updatePhraseEditor,
        phonetic_core_updateSpecialPhrases, phonetic_core_updateCursor,
        phonetic_core_updateInputText]
      refine ⟨?_, ?_, ?_, ?_⟩
      · simp only [PhoneticContext.core]
        rw [length_take_append_drop _ _ _ (by omega)]
        omega
      · simp only [PhoneticContext.core]
        rw [length_take_append_drop _ _ _ (by omega)]
        omega
      · simp only [PhoneticContext.core]
        omega
      · simp only [PhoneticContext.core]
        omega

theorem full_inv_moveCursorLeft (s : PhoneticContext) (h : Inv env s.core) :
    ∃ r, moveCursorLeft env s = some r ∧ Inv env r.2.core := by
  obtain ⟨h1, h2, h3, h4⟩ := h
  simp only [PhoneticContext.core] at h1 h2 h3 h4
  unfold moveCursorLeft
  split_ifs with c1
  · exact ⟨_, rfl, h1, h2, h3, h4⟩
  · refine ⟨_, rfl, ?_⟩
    apply full_inv_updatePinyin env hb hs
    · simp only [PhoneticContext.updateSpecialPhrases, PhoneticContext.updateCursor,
        PhoneticContext.log]
      omega
    · exact h2

theorem full_inv_moveCursorRight (s : PhoneticContext) (h : Inv env s.core) :
    ∃ r, moveCursorRight env s = some r ∧ Inv env r.2.core := by
  obtain ⟨h1, h2, h3, h4⟩ := h
  simp only [PhoneticContext.core] at h1 h2 h3 h4
  unfold moveCursorRight
  split_ifs with c1
  · exact ⟨_, rfl, h1, h2, h3, h4⟩
  · refine ⟨_, rfl, ?_⟩
    apply full_inv_updatePinyin env hb hs
    · simp only [PhoneticContext.updateSpecialPhrases, PhoneticContext.updateCursor,
        PhoneticContext.log]
      omega
    · exact h2

theorem full_inv_moveCursorToEnd (s : PhoneticContext) (h : Inv env s.core) :
    ∃ r, moveCursorToEnd env s = some r ∧ Inv env r.2.core := by
  obtain ⟨h1, h2, h3, h4⟩ := h
  simp only [PhoneticContext.core] at h1 h2 h3 h4
  unfold moveCursorToEnd
  split_ifs with c1
  · exact ⟨_, rfl, h1, h2, h3, h4⟩
  · refine ⟨_, rfl, ?_⟩
    apply full_inv_updatePinyin env hb hs
    · exact Nat.le_refl _
    · exact h2

omit hb hs in
theorem full_inv_moveCursorToBegin (s : PhoneticContext) (h : Inv env s.core) :
    ∃ r, moveCursorToBegin env s = some r ∧ Inv env r.2.core := by
  obtain ⟨h1, h2, h3, h4⟩ := h
  simp only [PhoneticContext.core] at h1 h2 h3 h4
  unfold moveCursorToBegin
  split_ifs with c1
  · exact ⟨_, rfl, h1, h2, h3, h4⟩
  · refine ⟨_, rfl, ?_⟩
    simp only [pinyin_core_update, phonetic_core_updatePhraseEditor,
      phonetic_core_updateSpecialPhrases, phonetic_core_updateCursor]
    exact ⟨Nat.zero_le _, h2, Nat.le_refl _, rfl⟩

omit hb hs in
theorem full_inv_moveCursorLeftByWord (s : PhoneticContext) (h : Inv env s.core) :
    ∃ r, moveCursorLeftByWord env s = some r ∧ Inv env r.2.core := by
  have hmax := env.MAX_PINYIN_LEN_lt
  obtain ⟨h1, h2, h3, h4⟩ := h
  simp only [PhoneticContext.core] at h1 h2 h3 h4
  unfold moveCursorLeftByWord
  split_ifs with c1 c2
  · exact ⟨_, rfl, h1, h2, h3, h4⟩
  · refine ⟨_, rfl, ?_⟩
    refine ⟨?_, h2, Nat.le_refl _, h4⟩
    simp only [PhoneticContext.core]
    omega
  · have hc : s.m_cursor = s.m_pinyin_len := by omega
    cases hl : s.m_pinyin.getLast? with
    | none =>
      have := pinyinLenSum_nil_of_getLast _ hl
      omega
    | some p =>
      have hsum := pinyinLenSum_getLast _ _ hl
      dsimp only
      rw [subSize_eq _ _ (by omega) (by omega), subSize_eq _ _ (by omega) (by omega)]
      refine ⟨_, rfl, ?_⟩
      simp only [pinyin_core_update, phonetic_core_updatePhraseEditor,
        phonetic_core_updateSpecialPhrases, phonetic_core_updateCursor]
      refine ⟨?_, h2, ?_, ?_⟩
      · simp only [PhoneticContext.core]
        omega
      · simp only [PhoneticContext.core]
        omega
      · simp only [PhoneticContext.core]
        omega

theorem full_inv_step (s : PhoneticContext) (op : Op) (h : Inv env s.core) :
    ∃ r, step env s op = some r ∧ Inv env r.2.core := by
  cases op with
  | insert ch => exact full_inv_insert env hb hs s ch h
  | removeCharBefore => exact full_inv_removeCharBefore env hb hs s h
  | removeCharAfter => exact full_inv_removeCharAfter env s h
  | removeWordBefore => exact full_inv_removeWordBefore env s h
  | removeWordAfter => exact full_inv_removeWordAfter env s h
  | moveCursorLeft => exact full_inv_moveCursorLeft env hb hs s h
  | moveCursorRight => exact full_inv_moveCursorRight env hb hs s h
  | moveCursorLeftByWord => exact full_inv_moveCursorLeftByWord env s h
  | moveCursorRightByWord => exact full_inv_moveCursorToEnd env hb hs s h
  | moveCursorToBegin => exact full_inv_moveCursorToBegin env s h
  | moveCursorToEnd => exact full_inv_moveCursorToEnd env hb hs s h

theorem full_inv_run (ops : List Op) (s : PhoneticContext) (h : Inv env s.core) :
    ∃ s', run env s ops = some s' ∧ Inv env s'.core := by
  induction ops generalizing s with
  | nil => exact ⟨s, rfl, h⟩
  | cons op ops ih =>
    obtain ⟨r, hr, hi⟩ := full_inv_step env hb hs s op h
    obtain ⟨s', hs', hi'⟩ := ih r.2 hi
    refine ⟨s', ?_, hi'⟩
    simp only [run, hr]
    exact hs'

end
end FullPinyinContext



theorem bopomofo_inv_updatePinyin (env : Env) (hb : ParserBounded env.parseBopomofo)
    (hs : ParserSums env.parseBopomofo) (s : BopomofoContext) (h1 : s.m_cursor ≤ s.m_text.length)
    (h2 : s.m_text.length ≤ env.MAX_PINYIN_LEN) :
    Inv env (BopomofoContext.updatePinyin env s).core := by
  rw [bopomofo_core_updatePinyin]
  split
  · exact ⟨h1, h2, Nat.zero_le _, rfl⟩
  · exact ⟨h1, h2, hb _ _ _ _, hs _ _ _ _⟩


namespace BopomofoContext

section
variable (env : Env) (hb : ParserBounded env.parseBopomofo)
  (hs : ParserSums env.parseBopomofo)
include hb hs

theorem bopomofo_inv_insert (s : BopomofoContext) (ch : Char) (h : Inv env s.core) :
    ∃ r, insert env s ch = some r ∧ Inv env r.2.core := by
  obtain ⟨h1, h2, h3, h4⟩ := h
  simp only [PhoneticContext.core] at h1 h2 h3 h4
  unfold insert
  split_ifs with c1 c2
  · exact ⟨_, rfl, h1, h2, h3, h4⟩
  · exact ⟨_, rfl, h1, h2, h3, h4⟩
  · rw [insertAt_eq_some _ _ _ h1]
    have hlen : (s.m_text.take s.m_cursor ++ ch :: s.m_text.drop s.m_cursor).length
        = s.m_text.length + 1 := by
      simp only [List.length_append, List.length_take, List.length_cons, List.length_drop]
      omega
    dsimp only
    split_ifs with c3 c4 c5
    · refine ⟨_, rfl, ?_⟩
      apply bopomofo_inv_updatePinyin env hb hs
      · simp [BopomofoContext.lift, PhoneticContext.updateSpecialPhrases, PhoneticContext.updateCursor,
          PhoneticContext.updateInputText, PhoneticContext.log]
        omega
      · simp [BopomofoContext.lift, PhoneticContext.updateSpecialPhrases, PhoneticContext.updateCursor,
          PhoneticContext.updateInputText, PhoneticContext.log]
        omega
    · refine ⟨_, rfl, ?_⟩
      apply bopomofo_inv_updatePinyin env hb hs
      · simp [BopomofoContext.lift, PhoneticContext.updateSpecialPhrases, PhoneticContext.updateCursor,
          PhoneticContext.updateInputText, PhoneticContext.log]
        omega
      · simp [BopomofoContext.lift, PhoneticContext.updateSpecialPhrases, PhoneticContext.updateCursor,
          PhoneticContext.updateInputText, PhoneticContext.log]
        omega
    · refine ⟨_, rfl, ?_⟩
      simp only [bopomofo_core_update, bopomofo_toPhoneticContext_lift, phonetic_core_updateSpecialPhrases,
        phonetic_core_updateCursor, phonetic_core_updateInputText]
      refine ⟨?_, ?_, ?_, h4⟩
      · simp only [PhoneticContext.core]; rw [hlen]; omega
      · simp only [PhoneticContext.core]; rw [hlen]; omega
      · simp only [PhoneticContext.core]; omega
    · refine ⟨_, rfl, ?_⟩
      simp only [bopomofo_core_updateAuxiliaryText, bopomofo_core_updatePreeditText, bopomofo_toPhoneticContext_lift,
        phonetic_core_updateSpecialPhrases,
        phonetic_core_updateCursor, phonetic_core_updateInputText]
      refine ⟨?_, ?_, ?_, h4⟩
      · simp only [PhoneticContext.core]; rw [hlen]; omega
      · simp only [PhoneticContext.core]; rw [hlen]; omega
      · simp only [PhoneticContext.core]; omega


theorem bopomofo_inv_removeCharBefore (s : BopomofoContext) (h : Inv env s.core) :
    ∃ r, removeCharBefore env s = some r ∧ Inv env r.2.core := by
  obtain ⟨h1, h2, h3, h4⟩ := h
  simp only [PhoneticContext.core] at h1 h2 h3 h4
  unfold removeCharBefore
  split_ifs with c1
  · exact ⟨_, rfl, h1, h2, h3, h4⟩
  · rw [erase_eq_some _ _ _ (by omega)]
    refine ⟨_, rfl, ?_⟩
    apply bopomofo_inv_updatePinyin env hb hs
    · simp only [BopomofoContext.lift, PhoneticContext.updateSpecialPhrases, PhoneticContext.updateCursor,
        PhoneticContext.updateInputText, PhoneticContext.log]
      rw [length_take_append_drop _ _ _ (by omega)]
      omega
    · simp only [BopomofoContext.lift, PhoneticContext.updateSpecialPhrases, PhoneticContext.updateCursor,
        PhoneticContext.updateInputText, PhoneticContext.log]
      rw [length_take_append_drop _ _ _ (by omega)]
      omega

omit hb hs in
theorem bopomofo_inv_removeCharAfter (s : BopomofoContext) (h : Inv env s.core) :
    ∃ r, removeCharAfter env s = some r ∧ Inv env r.2.core := by
  obtain ⟨h1, h2, h3, h4⟩ := h
  simp only [PhoneticContext.core] at h1 h2 h3 h4
  unfold removeCharAfter
  split_ifs with c1
  · exact ⟨_, rfl, h1, h2, h3, h4⟩
  · rw [erase_eq_some _ _ _ h1]
    refine ⟨_, rfl, ?_⟩
    simp only [bopomofo_core_updateAuxiliaryText, bopomofo_core_updatePreeditText, bopomofo_toPhoneticContext_lift,
      phonetic_core_updateInputText]
    refine ⟨?_, ?_, h3, h4⟩
    · simp only [PhoneticContext.core]
      rw [length_take_append_drop _ _ _ h1]
      omega
    · simp only [PhoneticContext.core]
      rw [length_take_append_drop _ _ _ h1]
      omega

omit hb hs in
theorem bopomofo_inv_removeWordAfter (s : BopomofoContext) (h : Inv env s.core) :
    ∃ r, removeWordAfter env s = some r ∧ Inv env r.2.core := by
  obtain ⟨h1, h2, h3, h4⟩ := h
  simp only [PhoneticContext.core] at h1 h2 h3 h4
  unfold removeWordAfter
  split_ifs with c1
  · exact ⟨_, rfl, h1, h2, h3, h4⟩
  · rw [erase_eq_some _ _ _ h1]
    refine ⟨_, rfl, ?_⟩
    simp only [bopomofo_core_updateAuxiliaryText, bopomofo_core_updatePreeditText, bopomofo_toPhoneticContext_lift,
      phonetic_core_updateInputText]
    refine ⟨?_, ?_, h3, h4⟩
    · simp only [PhoneticContext.core]
      rw [length_take_append_drop _ _ _ h1]
      omega
    · simp only [PhoneticContext.core]
      rw [length_take_append_drop _ _ _ h1]
      omega

omit hb hs in
theorem bopomofo_inv_removeWordBefore (s : BopomofoContext) (h : Inv env s.core) :
    ∃ r, removeWordBefore env s = some r ∧ Inv env r.2.core := by
  have hmax := env.MAX_PINYIN_LEN_lt
  obtain ⟨h1, h2, h3, h4⟩ := h
  simp only [PhoneticContext.core] at h1 h2 h3 h4
  unfold removeWordBefore
  split_ifs with c1 c2
  · exact ⟨_, rfl, h1, h2, h3, h4⟩
  · dsimp only
    rw [subSize_eq _ _ (by omega) (by omega), erase_eq_some _ _ _ (by omega)]
    refine ⟨_, rfl, ?_⟩
    simp only [bopomofo_core_update, bopomofo_toPhoneticContext_lift, phonetic_core_updatePhraseEditor,
      phonetic_core_updateSpecialPhrases, phonetic_core_updateCursor,
      phonetic_core_updateInputText]
    refine ⟨?_, ?_, Nat.le_refl _, h4⟩
    · simp only [PhoneticContext.core]
      rw [length_take_append_drop _ _ _ (by omega)]
      omega
    · simp only [PhoneticContext.core]
      rw [length_take_append_drop _ _ _ (by omega)]
      omega
  · have hc : s.m_cursor = s.m_pinyin_len := by omega
    cases hl : s.m_pinyin.getLast? with
    | none =>
      have := pinyinLenSum_nil_of_getLast _ hl
      omega
    | some p =>
      have hsum := pinyinLenSum_getLast _ _ hl
      dsimp only
      rw [subSize_eq _ _ (by omega) (by omega), subSize_eq _ _ (by omega) (by omega),
        subSize_eq _ _ (by omega) (by omega), erase_eq_some _ _ _ (by omega)]
      refine ⟨_, rfl, ?_⟩
      simp only [bopomofo_core_update, bopomofo_toPhoneticContext_lift, phonetic_core_updatePhraseEditor,
        phonetic_core_updateSpecialPhrases, phonetic_core_updateCursor,
        phonetic_core_updateInputText]
      refine ⟨?_, ?_, ?_, ?_⟩
      · simp only [PhoneticContext.core]
        rw [length_take_append_drop _ _ _ (by omega)]
        omega
      · simp only [PhoneticContext.core]
        rw [length_take_append_drop _ _ _ (by omega)]
        omega
      · simp only [PhoneticContext.core]
        omega
      · simp only [PhoneticContext.core]
        omega

theorem bopomofo_inv_moveCursorLeft (s : BopomofoContext) (h : Inv env s.core) :
    ∃ r, moveCursorLeft env s = some r ∧ Inv env r.2.core := by
  obtain ⟨h1, h2, h3, h4⟩ := h
  simp only [PhoneticContext.core] at h1 h2 h3 h4
  unfold moveCursorLeft
  split_ifs with c1
  · exact ⟨_, rfl, h1, h2, h3, h4⟩
  · refine ⟨_, rfl, ?_⟩
    apply bopomofo_inv_updatePinyin env hb hs
    · simp only [BopomofoContext.lift, PhoneticContext.updateSpecialPhrases, PhoneticContext.updateCursor,
        PhoneticContext.log]
      omega
    · exact h2

theorem bopomofo_inv_moveCursorRight (s : BopomofoContext) (h : Inv env s.core) :
    ∃ r, moveCursorRight env s = some r ∧ Inv env r.2.core := by
  obtain ⟨h1, h2, h3, h4⟩ := h
  simp only [PhoneticContext.core] at h1 h2 h3 h4
  unfold moveCursorRight
  split_ifs with c1
  · exact ⟨_, rfl, h1, h2, h3, h4⟩
  · refine ⟨_, rfl, ?_⟩
    apply bopomofo_inv_updatePinyin env hb hs
    · simp only [BopomofoContext.lift, PhoneticContext.updateSpecialPhrases, PhoneticContext.updateCursor,
        PhoneticContext.log]
      omega
    · exact h2

theorem bopomofo_inv_moveCursorToEnd (s : BopomofoContext) (h : Inv env s.core) :
    ∃ r, moveCursorToEnd env s = some r ∧ Inv env r.2.core := by
  obtain ⟨h1, h2, h3, h4⟩ := h
  simp only [PhoneticContext.core] at h1 h2 h3 h4
  unfold moveCursorToEnd
  split_ifs with c1
  · exact ⟨_, rfl, h1, h2, h3, h4⟩
  · refine ⟨_, rfl, ?_⟩
    apply bopomofo_inv_updatePinyin env hb hs
    · exact Nat.le_refl _
    · exact h2

omit hb hs in
theorem bopomofo_inv_moveCursorToBegin (s : BopomofoContext) (h : Inv env s.core) :
    ∃ r, moveCursorToBegin env s = some r ∧ Inv env r.2.core := by
  obtain ⟨h1, h2, h3, h4⟩ := h
  simp only [PhoneticContext.core] at h1 h2 h3 h4
  unfold moveCursorToBegin
  split_ifs with c1
  · exact ⟨_, rfl, h1, h2, h3, h4⟩
  · refine ⟨_, rfl, ?_⟩
    simp only [bopomofo_core_update, bopomofo_toPhoneticContext_lift, phonetic_core_updatePhraseEditor,
      phonetic_core_updateSpecialPhrases, phonetic_core_updateCursor]
    exact ⟨Nat.zero_le _, h2, Nat.le_refl _, rfl⟩

omit hb hs in
theorem bopomofo_inv_moveCursorLeftByWord (s : BopomofoContext) (h : Inv env s.core) :
    ∃ r, moveCursorLeftByWord env s = some r ∧ Inv env r.2.core := by
  have hmax := env.MAX_PINYIN_LEN_lt
  obtain ⟨h1, h2, h3, h4⟩ := h
  simp only [PhoneticContext.core] at h1 h2 h3 h4
  unfold moveCursorLeftByWord
  split_ifs with c1 c2
  · exact ⟨_, rfl, h1, h2, h3, h4⟩
  · refine ⟨_, rfl, ?_⟩
    refine ⟨?_, h2, Nat.le_refl _, h4⟩
    simp only [PhoneticContext.core]
    omega
  · have hc : s.m_cursor = s.m_pinyin_len := by omega
    cases hl : s.m_pinyin.getLast? with
    | none =>
      have := pinyinLenSum_nil_of_getLast _ hl
      omega
    | some p =>
      have hsum := pinyinLenSum_getLast _ _ hl
      dsimp only
      rw [subSize_eq _ _ (by omega) (by omega), subSize_eq _ _ (by omega) (by omega)]
      refine ⟨_, rfl, ?_⟩
      simp only [bopomofo_core_update, bopomofo_toPhoneticContext_lift, phonetic_core_updatePhraseEditor,
        phonetic_core_updateSpecialPhrases, phonetic_core_updateCursor]
      refine ⟨?_, h2, ?_, ?_⟩
      · simp only [PhoneticContext.core]
        omega
      · simp only [PhoneticContext.core]
        omega
      · simp only [PhoneticContext.core]
        omega

theorem bopomofo_inv_step (s : BopomofoContext) (op : Op) (h : Inv env s.core) :
    ∃ r, step env s op = some r ∧ Inv env r.2.core := by
  cases op with
  | insert ch => exact bopomofo_inv_insert env hb hs s ch h
  | removeCharBefore => exact bopomofo_inv_removeCharBefore env hb hs s h
  | removeCharAfter => exact bopomofo_inv_removeCharAfter env s h
  | removeWordBefore => exact bopomofo_inv_removeWordBefore env s h
  | removeWordAfter => exact bopomofo_inv_removeWordAfter env s h
  | moveCursorLeft => exact bopomofo_inv_moveCursorLeft env hb hs s h
  | moveCursorRight => exact bopomofo_inv_moveCursorRight env hb hs s h
  | moveCursorLeftByWord => exact bopomofo_inv_moveCursorLeftByWord env s h
  | moveCursorRightByWord => exact bopomofo_inv_moveCursorToEnd env hb hs s h
  | moveCursorToBegin => exact bopomofo_inv_moveCursorToBegin env s h
  | moveCursorToEnd => exact bopomofo_inv_moveCursorToEnd env hb hs s h

theorem bopomofo_inv_run (ops : List Op) (s : BopomofoContext) (h : Inv env s.core) :
    ∃ s', run env s ops = some s' ∧ Inv env s'.core := by
  induction ops generalizing s with
  | nil => exact ⟨s, rfl, h⟩
  | cons op ops ih =>
    obtain ⟨r, hr, hi⟩ := bopomofo_inv_step env hb hs s op h
    obtain ⟨s', hs', hi'⟩ := ih r.2 hi
    refine ⟨s', ?_, hi'⟩
    simp only [run, hr]
    exact hs'

end
end BopomofoContext

/-! ## Claims about the edit operations -/

theorem inv_init (env : Env) (cfg : Config) : Inv env (PhoneticContext.init cfg).core :=
  ⟨Nat.le_refl _, Nat.zero_le _, Nat.le_refl _, rfl⟩

theorem pinyinLenSum_replicate (k : Nat) (p : Pinyin) :
    pinyinLenSum (List.replicate k p) = k * p.len := by
  simp [pinyinLenSum]

theorem toyEnv_bounded : ParserBounded toyEnv.parse := by
  intro t n o m
  show 2 * (n / 2) ≤ n
  omega

theorem toyEnv_sums : ParserSums toyEnv.parse := by
  intro t n o m
  show pinyinLenSum (List.replicate (n / 2) (Pinyin.ofLen 2)) = 2 * (n / 2)
  rw [pinyinLenSum_replicate]
  simp [Pinyin.ofLen, Nat.mul_comm]

theorem wideEnv_bounded : ParserBounded wideEnv.parse := by
  intro t n o m
  show min n 2 ≤ n
  omega

/-- C1 as stated fails: with a parser that only keeps `consumed ≤ valid_length` (it
consumes two characters and reports one entry with `len = 3`), typing `ni` and calling
`moveCursorLeftByWord` leaves the cursor at `2 ^ 64 - 1`, beyond the two characters of the
buffer. -/
theorem C1_counterexample :
    ParserBounded wideEnv.parse ∧
    ∃ s, FullPinyinContext.run wideEnv (FullPinyinContext.init plainConfig)
        [Op.insert 'n', Op.insert 'i', Op.moveCursorLeftByWord] = some s ∧
      s.m_text = ['n', 'i'] ∧ s.m_cursor = 2 ^ 64 - 1 ∧ ¬ s.m_cursor ≤ s.m_text.length :=
  ⟨wideEnv_bounded, _, rfl, by decide, by decide, by decide⟩

/-- C1 (amended): when every parser call returns a consumed length that is at most the
valid length and equals the sum of the `len` fields of the entries it produced, every
sequence of edit operations runs from a freshly constructed full pinyin or Bopomofo
context to a state with `0 ≤ cursor ≤ |buffer| ≤ MAX_PINYIN_LEN`. -/
theorem C1_cursor_within_buffer (env : Env)
    (hb : ParserBounded env.parse) (hs : ParserSums env.parse)
    (hb' : ParserBounded env.parseBopomofo) (hs' : ParserSums env.parseBopomofo)
    (cfg : Config) (ops : List Op) :
    (∃ s, FullPinyinContext.run env (FullPinyinContext.init cfg) ops = some s ∧
      0 ≤ s.m_cursor ∧ s.m_cursor ≤ s.m_text.length ∧ s.m_text.length ≤ env.MAX_PINYIN_LEN) ∧
    (∃ s, BopomofoContext.run env (BopomofoContext.init cfg) ops = some s ∧
      0 ≤ s.m_cursor ∧ s.m_cursor ≤ s.m_text.length ∧ s.m_text.length ≤ env.MAX_PINYIN_LEN) := by
  constructor
  · obtain ⟨s, h, hi⟩ := FullPinyinContext.full_inv_run env hb hs ops _ (inv_init env cfg)
    exact ⟨s, h, Nat.zero_le _, hi.1, hi.2.1⟩
  · obtain ⟨s, h, hi⟩ := BopomofoContext.bopomofo_inv_run env hb' hs' ops
      (BopomofoContext.init cfg) (inv_init env cfg)
    exact ⟨s, h, Nat.zero_le _, hi.1, hi.2.1⟩

/-- C1 (amended) at a concrete run: typing `abba`, one step left and `removeWordBefore`,
under the two-character parser of `toyEnv`. -/
theorem C1_witness :
    (∃ s, FullPinyinContext.run toyEnv (FullPinyinContext.init plainConfig)
        (typeText "abba" ++ [Op.moveCursorLeft, Op.removeWordBefore]) = some s ∧
      0 ≤ s.m_cursor ∧ s.m_cursor ≤ s.m_text.length ∧ s.m_text.length ≤ toyEnv.MAX_PINYIN_LEN) ∧
    (∃ s, BopomofoContext.run toyEnv (BopomofoContext.init plainConfig)
        (typeText "abba" ++ [Op.moveCursorLeft, Op.removeWordBefore]) = some s ∧
      0 ≤ s.m_cursor ∧ s.m_cursor ≤ s.m_text.length ∧ s.m_text.length ≤ toyEnv.MAX_PINYIN_LEN) :=
  C1_cursor_within_buffer toyEnv toyEnv_bounded toyEnv_sums toyEnv_bounded toyEnv_sums
    plainConfig (typeText "abba" ++ [Op.moveCursorLeft, Op.removeWordBefore])

/-- C2: when every parser call returns a consumed length that is at most the valid length
and equals the sum of the `len` fields of the entries it produced, every sequence of edit
operations (the operations that pop the last syllable instead of parsing again included)
runs from a freshly constructed full pinyin or Bopomofo context to a state with
`pinyin_len ≤ |buffer|` and the sum of the `len` fields of the pinyin array equal to
`pinyin_len`. -/
theorem C2_pinyin_len_consistent (env : Env)
    (hb : ParserBounded env.parse) (hs : ParserSums env.parse)
    (hb' : ParserBounded env.parseBopomofo) (hs' : ParserSums env.parseBopomofo)
    (cfg : Config) (ops : List Op) :
    (∃ s, FullPinyinContext.run env (FullPinyinContext.init cfg) ops = some s ∧
      s.m_pinyin_len ≤ s.m_text.length ∧ pinyinLenSum s.m_pinyin = s.m_pinyin_len) ∧
    (∃ s, BopomofoContext.run env (BopomofoContext.init cfg) ops = some s ∧
      s.m_pinyin_len ≤ s.m_text.length ∧ pinyinLenSum s.m_pinyin = s.m_pinyin_len) := by
  constructor
  · obtain ⟨s, h, hi⟩ := FullPinyinContext.full_inv_run env hb hs ops _ (inv_init env cfg)
    exact ⟨s, h, Nat.le_trans hi.2.2.1 hi.1, hi.2.2.2⟩
  · obtain ⟨s, h, hi⟩ := BopomofoContext.bopomofo_inv_run env hb' hs' ops
      (BopomofoContext.init cfg) (inv_init env cfg)
    exact ⟨s, h, Nat.le_trans hi.2.2.1 hi.1, hi.2.2.2⟩

/-- C2 at a concrete run through the three operations that pop or clear the pinyin array. -/
theorem C2_witness :
    (∃ s, FullPinyinContext.run toyEnv (FullPinyinContext.init plainConfig)
        (typeText "abba" ++ [Op.moveCursorLeftByWord, Op.moveCursorToEnd, Op.removeWordBefore,
          Op.moveCursorToBegin]) = some s ∧
      s.m_pinyin_len ≤ s.m_text.length ∧ pinyinLenSum s.m_pinyin = s.m_pinyin_len) ∧
    (∃ s, BopomofoContext.run toyEnv (BopomofoContext.init plainConfig)
        (typeText "abba" ++ [Op.moveCursorLeftByWord, Op.moveCursorToEnd, Op.removeWordBefore,
          Op.moveCursorToBegin]) = some s ∧
      s.m_pinyin_len ≤ s.m_text.length ∧ pinyinLenSum s.m_pinyin = s.m_pinyin_len) :=
  C2_pinyin_len_consistent toyEnv toyEnv_bounded toyEnv_sums toyEnv_bounded toyEnv_sums
    plainConfig (typeText "abba" ++ [Op.moveCursorLeftByWord, Op.moveCursorToEnd,
      Op.removeWordBefore, Op.moveCursorToBegin])


theorem full_updatePinyin_text_cursor (env : Env) (s : PhoneticContext) :
    (FullPinyinContext.updatePinyin env s).m_text = s.m_text ∧
      (FullPinyinContext.updatePinyin env s).m_cursor = s.m_cursor := by
  have h := full_core_updatePinyin env s
  simp only [PhoneticContext.core] at h
  split at h
  · exact ⟨congrArg Core.text h, congrArg Core.cursor h⟩
  · exact ⟨congrArg Core.text h, congrArg Core.cursor h⟩

theorem bopomofo_updatePinyin_text_cursor (env : Env) (s : BopomofoContext) :
    (BopomofoContext.updatePinyin env s).m_text = s.m_text ∧
      (BopomofoContext.updatePinyin env s).m_cursor = s.m_cursor := by
  have h := bopomofo_core_updatePinyin env s
  simp only [PhoneticContext.core] at h
  split at h
  · exact ⟨congrArg Core.text h, congrArg Core.cursor h⟩
  · exact ⟨congrArg Core.text h, congrArg Core.cursor h⟩

/-- C3: an insert of a rejected character returns false and leaves the whole state as it
was, the record of invoked routines included, so no update or notification routine runs.
Rejected means, for the full pinyin context, neither a lowercase letter nor the apostrophe
and, for the Bopomofo context, a key that `keyvalToBopomofo` maps to `BOPOMOFO_ZERO` under
the current schema; the buffer may be at capacity. Conversely the full pinyin insert
returns true for every lowercase letter and for the apostrophe, in every context state
(cursor within the buffer). -/
theorem C3_insert_rejected (env : Env) (ch : Char) :
    (∀ s : PhoneticContext, islower ch = false → ch ≠ APOSTROPHE →
      FullPinyinContext.insert env s ch = some (false, s)) ∧
    (∀ s : BopomofoContext,
      BopomofoContext.keyvalToBopomofo env s (charToInt ch) = env.BOPOMOFO_ZERO →
      BopomofoContext.insert env s ch = some (false, s)) ∧
    (∀ s : PhoneticContext, islower ch = true ∨ ch = APOSTROPHE →
      s.m_cursor ≤ s.m_text.length →
      ∃ s', FullPinyinContext.insert env s ch = some (true, s')) := by
  refine ⟨?_, ?_, ?_⟩
  · intro s h1 h2
    unfold FullPinyinContext.insert
    rw [if_pos]
    simp [h1, h2]
  · intro s h
    unfold BopomofoContext.insert
    rw [if_pos h]
  · intro s h hc
    unfold FullPinyinContext.insert
    rw [if_neg]
    · split_ifs with c1
      · exact ⟨_, rfl⟩
      · rw [insertAt_eq_some _ _ _ hc]
        dsimp only
        split_ifs <;> exact ⟨_, rfl⟩
    · rcases h with h | h
      · simp [h]
      · simp [h]

/-- C4: when the buffer length is at least `MAX_PINYIN_LEN`, an insert of an accepted
character returns true and leaves the whole state as it was, in both variants. -/
theorem C4_insert_at_capacity (env : Env) (ch : Char) :
    (∀ s : PhoneticContext, env.MAX_PINYIN_LEN ≤ s.m_text.length →
      islower ch = true ∨ ch = APOSTROPHE →
      FullPinyinContext.insert env s ch = some (true, s)) ∧
    (∀ s : BopomofoContext, env.MAX_PINYIN_LEN ≤ s.m_text.length →
      BopomofoContext.keyvalToBopomofo env s (charToInt ch) ≠ env.BOPOMOFO_ZERO →
      BopomofoContext.insert env s ch = some (true, s)) := by
  refine ⟨?_, ?_⟩
  · intro s hfull h
    unfold FullPinyinContext.insert
    rw [if_neg, if_pos hfull]
    rcases h with h | h
    · simp [h]
    · simp [h]
  · intro s hfull h
    unfold BopomofoContext.insert
    rw [if_neg h, if_pos hfull]

/-- C5: in both variants `moveCursorLeft`, `moveCursorLeftByWord` and `moveCursorToBegin`
at cursor 0, and `moveCursorRight`, `moveCursorRightByWord` and `moveCursorToEnd` at the
end of the buffer, return false and leave the whole state as it was. -/
theorem C5_move_cursor_at_extreme (env : Env) :
    (∀ s : PhoneticContext, s.m_cursor = 0 →
      FullPinyinContext.moveCursorLeft env s = some (false, s) ∧
      FullPinyinContext.moveCursorLeftByWord env s = some (false, s) ∧
      FullPinyinContext.moveCursorToBegin env s = some (false, s)) ∧
    (∀ s : PhoneticContext, s.m_cursor = s.m_text.length →
      FullPinyinContext.moveCursorRight env s = some (false, s) ∧
      FullPinyinContext.moveCursorRightByWord env s = some (false, s) ∧
      FullPinyinContext.moveCursorToEnd env s = some (false, s)) ∧
    (∀ s : BopomofoContext, s.m_cursor = 0 →
      BopomofoContext.moveCursorLeft env s = some (false, s) ∧
      BopomofoContext.moveCursorLeftByWord env s = some (false, s) ∧
      BopomofoContext.moveCursorToBegin env s = some (false, s)) ∧
    (∀ s : BopomofoContext, s.m_cursor = s.m_text.length →
      BopomofoContext.moveCursorRight env s = some (false, s) ∧
      BopomofoContext.moveCursorRightByWord env s = some (false, s) ∧
      BopomofoContext.moveCursorToEnd env s = some (false, s)) := by
  refine ⟨?_, ?_, ?_, ?_⟩
  · intro s h
    refine ⟨?_, ?_, ?_⟩
    · unfold FullPinyinContext.moveCursorLeft; rw [if_pos h]
    · unfold FullPinyinContext.moveCursorLeftByWord; rw [if_pos h]
    · unfold FullPinyinContext.moveCursorToBegin; rw [if_pos h]
  · intro s h
    refine ⟨?_, ?_, ?_⟩
    · unfold FullPinyinContext.moveCursorRight; rw [if_pos h]
    · unfold FullPinyinContext.moveCursorRightByWord FullPinyinContext.moveCursorToEnd
      rw [if_pos h]
    · unfold FullPinyinContext.moveCursorToEnd; rw [if_pos h]
  · intro s h
    refine ⟨?_, ?_, ?_⟩
    · unfold BopomofoContext.moveCursorLeft; rw [if_pos h]
    · unfold BopomofoContext.moveCursorLeftByWord; rw [if_pos h]
    · unfold BopomofoContext.moveCursorToBegin; rw [if_pos h]
  · intro s h
    refine ⟨?_, ?_, ?_⟩
    · unfold BopomofoContext.moveCursorRight; rw [if_pos h]
    · unfold BopomofoContext.moveCursorRightByWord BopomofoContext.moveCursorToEnd
      rw [if_pos h]
    · unfold BopomofoContext.moveCursorToEnd; rw [if_pos h]

theorem full_moveCursorLeft_ok (env : Env) (s : PhoneticContext) (h : s.m_cursor ≠ 0) :
    ∃ s1, FullPinyinContext.moveCursorLeft env s = some (true, s1) ∧
      s1.m_cursor = s.m_cursor - 1 ∧ s1.m_text = s.m_text := by
  unfold FullPinyinContext.moveCursorLeft
  rw [if_neg h]
  exact ⟨_, rfl, (full_updatePinyin_text_cursor env _).2, (full_updatePinyin_text_cursor env _).1⟩

theorem full_moveCursorRight_ok (env : Env) (s : PhoneticContext)
    (h : s.m_cursor ≠ s.m_text.length) :
    ∃ s1, FullPinyinContext.moveCursorRight env s = some (true, s1) ∧
      s1.m_cursor = s.m_cursor + 1 ∧ s1.m_text = s.m_text := by
  unfold FullPinyinContext.moveCursorRight
  rw [if_neg h]
  exact ⟨_, rfl, (full_updatePinyin_text_cursor env _).2, (full_updatePinyin_text_cursor env _).1⟩

theorem bopomofo_moveCursorLeft_ok (env : Env) (s : BopomofoContext) (h : s.m_cursor ≠ 0) :
    ∃ s1, BopomofoContext.moveCursorLeft env s = some (true, s1) ∧
      s1.m_cursor = s.m_cursor - 1 ∧ s1.m_text = s.m_text := by
  unfold BopomofoContext.moveCursorLeft
  rw [if_neg h]
  exact ⟨_, rfl, (bopomofo_updatePinyin_text_cursor env _).2,
    (bopomofo_updatePinyin_text_cursor env _).1⟩

theorem bopomofo_moveCursorRight_ok (env : Env) (s : BopomofoContext)
    (h : s.m_cursor ≠ s.m_text.length) :
    ∃ s1, BopomofoContext.moveCursorRight env s = some (true, s1) ∧
      s1.m_cursor = s.m_cursor + 1 ∧ s1.m_text = s.m_text := by
  unfold BopomofoContext.moveCursorRight
  rw [if_neg h]
  exact ⟨_, rfl, (bopomofo_updatePinyin_text_cursor env _).2,
    (bopomofo_updatePinyin_text_cursor env _).1⟩

/-- C6: with the cursor strictly inside the buffer, `moveCursorLeft` followed by
`moveCursorRight`, and `moveCursorRight` followed by `moveCursorLeft`, return true at each
step, restore the cursor and leave the buffer unchanged, in both variants. -/
theorem C6_left_right_inverse (env : Env) :
    (∀ s : PhoneticContext, 0 < s.m_cursor → s.m_cursor < s.m_text.length →
      (∃ s1 s2, FullPinyinContext.moveCursorLeft env s = some (true, s1) ∧
        FullPinyinContext.moveCursorRight env s1 = some (true, s2) ∧
        s2.m_cursor = s.m_cursor ∧ s1.m_text = s.m_text ∧ s2.m_text = s.m_text) ∧
      (∃ s1 s2, FullPinyinContext.moveCursorRight env s = some (true, s1) ∧
        FullPinyinContext.moveCursorLeft env s1 = some (true, s2) ∧
        s2.m_cursor = s.m_cursor ∧ s1.m_text = s.m_text ∧ s2.m_text = s.m_text)) ∧
    (∀ s : BopomofoContext, 0 < s.m_cursor → s.m_cursor < s.m_text.length →
      (∃ s1 s2, BopomofoContext.moveCursorLeft env s = some (true, s1) ∧
        BopomofoContext.moveCursorRight env s1 = some (true, s2) ∧
        s2.m_cursor = s.m_cursor ∧ s1.m_text = s.m_text ∧ s2.m_text = s.m_text) ∧
      (∃ s1 s2, BopomofoContext.moveCursorRight env s = some (true, s1) ∧
        BopomofoContext.moveCursorLeft env s1 = some (true, s2) ∧
        s2.m_cursor = s.m_cursor ∧ s1.m_text = s.m_text ∧ s2.m_text = s.m_text)) := by
  refine ⟨?_, ?_⟩
  · intro s h0 h1
    constructor
    · obtain ⟨s1, e1, c1, t1⟩ := full_moveCursorLeft_ok env s (by omega)
      obtain ⟨s2, e2, c2, t2⟩ := full_moveCursorRight_ok env s1 (by rw [c1, t1]; omega)
      exact ⟨s1, s2, e1, e2, by rw [c2, c1]; omega, t1, by rw [t2, t1]⟩
    · obtain ⟨s1, e1, c1, t1⟩ := full_moveCursorRight_ok env s (by omega)
      obtain ⟨s2, e2, c2, t2⟩ := full_moveCursorLeft_ok env s1 (by rw [c1]; omega)
      exact ⟨s1, s2, e1, e2, by rw [c2, c1]; omega, t1, by rw [t2, t1]⟩
  · intro s h0 h1
    constructor
    · obtain ⟨s1, e1, c1, t1⟩ := bopomofo_moveCursorLeft_ok env s (by omega)
      obtain ⟨s2, e2, c2, t2⟩ := bopomofo_moveCursorRight_ok env s1 (by rw [c1, t1]; omega)
      exact ⟨s1, s2, e1, e2, by rw [c2, c1]; omega, t1, by rw [t2, t1]⟩
    · obtain ⟨s1, e1, c1, t1⟩ := bopomofo_moveCursorRight_ok env s (by omega)
      obtain ⟨s2, e2, c2, t2⟩ := bopomofo_moveCursorLeft_ok env s1 (by rw [c1]; omega)
      exact ⟨s1, s2, e1, e2, by rw [c2, c1]; omega, t1, by rw [t2, t1]⟩


/-- C3 at concrete inputs: `A` is rejected by the full pinyin context and the key `c` by
the two key keyboard, and `c` is accepted by the full pinyin context. -/
theorem C3_witness :
    FullPinyinContext.insert toyEnv (holding "ab" 2) 'A' = some (false, holding "ab" 2) ∧
    BopomofoContext.insert toyEnv (bopomofoHolding "ab" 2) 'c' =
      some (false, bopomofoHolding "ab" 2) ∧
    ∃ s', FullPinyinContext.insert toyEnv (holding "ab" 2) 'c' = some (true, s') :=
  ⟨(C3_insert_rejected toyEnv 'A').1 (holding "ab" 2) (by decide) (by decide),
    (C3_insert_rejected toyEnv 'c').2.1 (bopomofoHolding "ab" 2) (by decide),
    (C3_insert_rejected toyEnv 'c').2.2 (holding "ab" 2) (by decide) (by decide)⟩

/-- C4 at concrete inputs: a buffer of eight characters under capacity 8. -/
theorem C4_witness :
    FullPinyinContext.insert toyEnv (holding "abababab" 3) 'c' =
      some (true, holding "abababab" 3) ∧
    BopomofoContext.insert toyEnv (bopomofoHolding "abababab" 3) 'a' =
      some (true, bopomofoHolding "abababab" 3) :=
  ⟨(C4_insert_at_capacity toyEnv 'c').1 (holding "abababab" 3) (by decide) (by decide),
    (C4_insert_at_capacity toyEnv 'a').2 (bopomofoHolding "abababab" 3) (by decide)
      (by decide)⟩

/-- C5 at concrete inputs: cursor 0 in a full pinyin context, and the end of the buffer in a
Bopomofo context. -/
theorem C5_witness :
    (FullPinyinContext.moveCursorLeft toyEnv (holding "ab" 0) = some (false, holding "ab" 0) ∧
      FullPinyinContext.moveCursorLeftByWord toyEnv (holding "ab" 0) =
        some (false, holding "ab" 0) ∧
      FullPinyinContext.moveCursorToBegin toyEnv (holding "ab" 0) =
        some (false, holding "ab" 0)) ∧
    (BopomofoContext.moveCursorRight toyEnv (bopomofoHolding "ab" 2) =
        some (false, bopomofoHolding "ab" 2) ∧
      BopomofoContext.moveCursorRightByWord toyEnv (bopomofoHolding "ab" 2) =
        some (false, bopomofoHolding "ab" 2) ∧
      BopomofoContext.moveCursorToEnd toyEnv (bopomofoHolding "ab" 2) =
        some (false, bopomofoHolding "ab" 2)) :=
  ⟨(C5_move_cursor_at_extreme toyEnv).1 (holding "ab" 0) rfl,
    (C5_move_cursor_at_extreme toyEnv).2.2.2 (bopomofoHolding "ab" 2) rfl⟩

/-- C6 at concrete inputs: the cursor at 2 in a buffer of four characters. -/
theorem C6_witness :
    (∃ s1 s2, FullPinyinContext.moveCursorLeft toyEnv (holding "abab" 2) = some (true, s1) ∧
      FullPinyinContext.moveCursorRight toyEnv s1 = some (true, s2) ∧
      s2.m_cursor = 2 ∧ s1.m_text = "abab".toList ∧ s2.m_text = "abab".toList) ∧
    (∃ s1 s2, BopomofoContext.moveCursorRight toyEnv (bopomofoHolding "abab" 2) =
        some (true, s1) ∧
      BopomofoContext.moveCursorLeft toyEnv s1 = some (true, s2) ∧
      s2.m_cursor = 2 ∧ s1.m_text = "abab".toList ∧ s2.m_text = "abab".toList) :=
  ⟨((C6_left_right_inverse toyEnv).1 (holding "abab" 2) (by decide) (by decide)).1,
    ((C6_left_right_inverse toyEnv).2 (bopomofoHolding "abab" 2) (by decide) (by decide)).2⟩


/-! ## Typing and deleting -/

theorem atEnd_init (cfg : Config) : AtEnd (PhoneticContext.init cfg).core :=
  ⟨rfl, fun _ => ⟨rfl, rfl⟩⟩

theorem full_updatePinyin_atEnd (env : Env) (s : PhoneticContext)
    (h : s.m_cursor = s.m_text.length) :
    AtEnd (FullPinyinContext.updatePinyin env s).core ∧
      (FullPinyinContext.updatePinyin env s).core.text = s.m_text := by
  rw [full_core_updatePinyin]
  split
  · exact ⟨⟨h, fun _ => ⟨rfl, rfl⟩⟩, rfl⟩
  · rename_i hne
    refine ⟨⟨h, fun h0 => ?_⟩, rfl⟩
    simp only at h0
    rw [h0] at hne
    exact absurd rfl hne

theorem full_insert_atEnd (env : Env) (s : PhoneticContext) (ch : Char) (h : AtEnd s.core) :
    ∃ r, FullPinyinContext.insert env s ch = some r ∧ AtEnd r.2.core ∧
      r.2.core.text.length ≤ s.core.text.length + 1 := by
  obtain ⟨h1, h2⟩ := h
  simp only [PhoneticContext.core] at h1 h2
  unfold FullPinyinContext.insert
  split_ifs with c1 c2
  · exact ⟨_, rfl, ⟨h1, h2⟩, Nat.le_succ _⟩
  · exact ⟨_, rfl, ⟨h1, h2⟩, Nat.le_succ _⟩
  · rw [insertAt_eq_some _ _ _ (by omega)]
    have hlen : (s.m_text.take s.m_cursor ++ ch :: s.m_text.drop s.m_cursor).length
        = s.m_text.length + 1 := by
      simp only [List.length_append, List.length_take, List.length_cons, List.length_drop]
      omega
    have hne : s.m_text.take s.m_cursor ++ ch :: s.m_text.drop s.m_cursor ≠ [] := by simp
    dsimp only
    split_ifs with c3 c4 c5
    · refine ⟨_, rfl, ?_⟩
      have := full_updatePinyin_atEnd env (PhoneticContext.updateSpecialPhrases env
        (PhoneticContext.updateCursor (PhoneticContext.updateInputText
          { s with m_text := s.m_text.take s.m_cursor ++ ch :: s.m_text.drop s.m_cursor,
                   m_cursor := s.m_cursor + 1 }))).2 (by
            simp only [PhoneticContext.updateSpecialPhrases, PhoneticContext.updateCursor,
              PhoneticContext.updateInputText, PhoneticContext.log]
            rw [hlen, h1])
      refine ⟨this.1, ?_⟩
      rw [this.2]
      exact Nat.le_of_eq hlen
    · refine ⟨_, rfl, ?_⟩
      have := full_updatePinyin_atEnd env (PhoneticContext.updateSpecialPhrases env
        (PhoneticContext.updateCursor (PhoneticContext.updateInputText
          { s with m_text := s.m_text.take s.m_cursor ++ ch :: s.m_text.drop s.m_cursor,
                   m_cursor := s.m_cursor + 1 }))).2 (by
            simp only [PhoneticContext.updateSpecialPhrases, PhoneticContext.updateCursor,
              PhoneticContext.updateInputText, PhoneticContext.log]
            rw [hlen, h1])
      refine ⟨this.1, ?_⟩
      rw [this.2]
      exact Nat.le_of_eq hlen
    · refine ⟨_, rfl, ?_⟩
      simp only [pinyin_core_update, phonetic_core_updateSpecialPhrases,
        phonetic_core_updateCursor, phonetic_core_updateInputText]
      simp only [PhoneticContext.core]
      exact ⟨⟨by rw [hlen, h1], fun h0 => absurd h0 hne⟩, Nat.le_of_eq hlen⟩
    · refine ⟨_, rfl, ?_⟩
      simp only [pinyin_core_updateAuxiliaryText, pinyin_core_updatePreeditText,
        phonetic_core_updateSpecialPhrases,
        phonetic_core_updateCursor, phonetic_core_updateInputText]
      simp only [PhoneticContext.core]
      exact ⟨⟨by rw [hlen, h1], fun h0 => absurd h0 hne⟩, Nat.le_of_eq hlen⟩

theorem full_removeCharBefore_atEnd (env : Env) (s : PhoneticContext) (h : AtEnd s.core) :
    ∃ r, FullPinyinContext.removeCharBefore env s = some r ∧ AtEnd r.2.core ∧
      r.2.core.text.length = s.core.text.length - 1 := by
  obtain ⟨h1, h2⟩ := h
  simp only [PhoneticContext.core] at h1 h2
  unfold FullPinyinContext.removeCharBefore
  split_ifs with c1
  · refine ⟨_, rfl, ⟨h1, h2⟩, ?_⟩
    simp only [PhoneticContext.core]
    omega
  · rw [erase_eq_some _ _ _ (by omega)]
    have hlen : (s.m_text.take (s.m_cursor - 1) ++
        s.m_text.drop (s.m_cursor - 1 + min 1 (s.m_text.length - (s.m_cursor - 1)))).length
        = s.m_text.length - 1 := by
      rw [length_take_append_drop _ _ _ (by omega)]
      omega
    refine ⟨_, rfl, ?_⟩
    have := full_updatePinyin_atEnd env (PhoneticContext.updateSpecialPhrases env
        (PhoneticContext.updateCursor (PhoneticContext.updateInputText
          { s with m_cursor := s.m_cursor - 1,
                   m_text := s.m_text.take (s.m_cursor - 1) ++ s.m_text.drop
                      (s.m_cursor - 1 + min 1 (s.m_text.length - (s.m_cursor - 1))) }))).2 (by
            simp only [PhoneticContext.updateSpecialPhrases, PhoneticContext.updateCursor,
              PhoneticContext.updateInputText, PhoneticContext.log]
            rw [hlen, h1])
    refine ⟨this.1, ?_⟩
    rw [this.2]
    exact hlen

theorem full_run_append (env : Env) (a b : List Op) (s : PhoneticContext) :
    FullPinyinContext.run env s (a ++ b) =
      (FullPinyinContext.run env s a).bind (fun s' => FullPinyinContext.run env s' b) := by
  induction a generalizing s with
  | nil => rfl
  | cons op a ih =>
    simp only [List.cons_append, FullPinyinContext.run]
    cases FullPinyinContext.step env s op with
    | none => rfl
    | some r => exact ih r.2

theorem full_run_inserts (env : Env) (chars : List Char) (s : PhoneticContext)
    (h : AtEnd s.core) :
    ∃ s', FullPinyinContext.run env s (chars.map Op.insert) = some s' ∧ AtEnd s'.core ∧
      s'.core.text.length ≤ s.core.text.length + chars.length := by
  induction chars generalizing s with
  | nil => exact ⟨s, rfl, h, Nat.le_refl _⟩
  | cons ch chars ih =>
    obtain ⟨r, hr, ha, hl⟩ := full_insert_atEnd env s ch h
    obtain ⟨s', hs', ha', hl'⟩ := ih r.2 ha
    refine ⟨s', ?_, ha', ?_⟩
    · simp only [List.map_cons, FullPinyinContext.run, FullPinyinContext.step, hr]
      exact hs'
    · simp only [List.length_cons]
      omega

theorem full_run_removes (env : Env) (n : Nat) (s : PhoneticContext)
    (h : AtEnd s.core) (hn : s.core.text.length ≤ n) :
    ∃ s', FullPinyinContext.run env s (List.replicate n Op.removeCharBefore) = some s' ∧
      AtEnd s'.core ∧ s'.core.text.length = 0 := by
  induction n generalizing s with
  | zero => exact ⟨s, rfl, h, Nat.le_zero.mp hn⟩
  | succ n ih =>
    obtain ⟨r, hr, ha, hl⟩ := full_removeCharBefore_atEnd env s h
    obtain ⟨s', hs', ha', hl'⟩ := ih r.2 ha (by omega)
    refine ⟨s', ?_, ha', hl'⟩
    simp only [List.replicate_succ, FullPinyinContext.run, FullPinyinContext.step, hr]
    exact hs'

theorem bopomofo_updatePinyin_atEnd (env : Env) (s : BopomofoContext)
    (h : s.m_cursor = s.m_text.length) :
    AtEnd (BopomofoContext.updatePinyin env s).core ∧
      (BopomofoContext.updatePinyin env s).core.text = s.m_text := by
  rw [bopomofo_core_updatePinyin]
  split
  · exact ⟨⟨h, fun _ => ⟨rfl, rfl⟩⟩, rfl⟩
  · rename_i hne
    refine ⟨⟨h, fun h0 => ?_⟩, rfl⟩
    simp only at h0
    rw [h0] at hne
    exact absurd rfl hne

theorem bopomofo_insert_atEnd (env : Env) (s : BopomofoContext) (ch : Char) (h : AtEnd s.core) :
    ∃ r, BopomofoContext.insert env s ch = some r ∧ AtEnd r.2.core ∧
      r.2.core.text.length ≤ s.core.text.length + 1 := by
  obtain ⟨h1, h2⟩ := h
  simp only [PhoneticContext.core] at h1 h2
  unfold BopomofoContext.insert
  split_ifs with c1 c2
  · exact ⟨_, rfl, ⟨h1, h2⟩, Nat.le_succ _⟩
  · exact ⟨_, rfl, ⟨h1, h2⟩, Nat.le_succ _⟩
  · rw [insertAt_eq_some _ _ _ (by omega)]
    have hlen : (s.m_text.take s.m_cursor ++ ch :: s.m_text.drop s.m_cursor).length
        = s.m_text.length + 1 := by
      simp only [List.length_append, List.length_take, List.length_cons, List.length_drop]
      omega
    have hne : s.m_text.take s.m_cursor ++ ch :: s.m_text.drop s.m_cursor ≠ [] := by simp
    dsimp only
    split_ifs with c3 c4 c5
    · refine ⟨_, rfl, ?_⟩
      have := bopomofo_updatePinyin_atEnd env (BopomofoContext.lift (fun b => (b.updateSpecialPhrases env).2)
        (BopomofoContext.lift PhoneticContext.updateCursor
          (BopomofoContext.lift PhoneticContext.updateInputText
          { s with m_text := s.m_text.take s.m_cursor ++ ch :: s.m_text.drop s.m_cursor,
                   m_cursor := s.m_cursor + 1 }))) (by
            simp only [BopomofoContext.lift, PhoneticContext.updateSpecialPhrases, PhoneticContext.updateCursor,
              PhoneticContext.updateInputText, PhoneticContext.log]
            rw [hlen, h1])
      refine ⟨this.1, ?_⟩
      rw [this.2]
      exact Nat.le_of_eq hlen
    · refine ⟨_, rfl, ?_⟩
      have := bopomofo_updatePinyin_atEnd env (BopomofoContext.lift (fun b => (b.updateSpecialPhrases env).2)
        (BopomofoContext.lift PhoneticContext.updateCursor
          (BopomofoContext.lift PhoneticContext.updateInputText
          { s with m_text := s.m_text.take s.m_cursor ++ ch :: s.m_text.drop s.m_cursor,
                   m_cursor := s.m_cursor + 1 }))) (by
            simp only [BopomofoContext.lift, PhoneticContext.updateSpecialPhrases, PhoneticContext.updateCursor,
              PhoneticContext.updateInputText, PhoneticContext.log]
            rw [hlen, h1])
      refine ⟨this.1, ?_⟩
      rw [this.2]
      exact Nat.le_of_eq hlen
    · refine ⟨_, rfl, ?_⟩
      simp only [bopomofo_core_update, bopomofo_toPhoneticContext_lift, phonetic_core_updateSpecialPhrases,
        phonetic_core_updateCursor, phonetic_core_updateInputText]
      simp only [PhoneticContext.core]
      exact ⟨⟨by rw [hlen, h1], fun h0 => absurd h0 hne⟩, Nat.le_of_eq hlen⟩
    · refine ⟨_, rfl, ?_⟩
      simp only [bopomofo_core_updateAuxiliaryText, bopomofo_core_updatePreeditText, bopomofo_toPhoneticContext_lift,
        phonetic_core_updateSpecialPhrases,
        phonetic_core_updateCursor, phonetic_core_updateInputText]
      simp only [PhoneticContext.core]
      exact ⟨⟨by rw [hlen, h1], fun h0 => absurd h0 hne⟩, Nat.le_of_eq hlen⟩

theorem bopomofo_removeCharBefore_atEnd (env : Env) (s : BopomofoContext) (h : AtEnd s.core) :
    ∃ r, BopomofoContext.removeCharBefore env s = some r ∧ AtEnd r.2.core ∧
      r.2.core.text.length = s.core.text.length - 1 := by
  obtain ⟨h1, h2⟩ := h
  simp only [PhoneticContext.core] at h1 h2
  unfold BopomofoContext.removeCharBefore
  split_ifs with c1
  · refine ⟨_, rfl, ⟨h1, h2⟩, ?_⟩
    simp only [PhoneticContext.core]
    omega
  · rw [erase_eq_some _ _ _ (by omega)]
    have hlen : (s.m_text.take (s.m_cursor - 1) ++
        s.m_text.drop (s.m_cursor - 1 + min 1 (s.m_text.length - (s.m_cursor - 1)))).length
        = s.m_text.length - 1 := by
      rw [length_take_append_drop _ _ _ (by omega)]
      omega
    refine ⟨_, rfl, ?_⟩
    have := bopomofo_updatePinyin_atEnd env (BopomofoContext.lift (fun b => (b.updateSpecialPhrases env).2)
        (BopomofoContext.lift PhoneticContext.updateCursor
          (BopomofoContext.lift PhoneticContext.updateInputText
          { s with m_cursor := s.m_cursor - 1,
                   m_text := s.m_text.take (s.m_cursor - 1) ++ s.m_text.drop
                      (s.m_cursor - 1 + min 1 (s.m_text.length - (s.m_cursor - 1))) }))) (by
            simp only [BopomofoContext.lift, PhoneticContext.updateSpecialPhrases, PhoneticContext.updateCursor,
              PhoneticContext.updateInputText, PhoneticContext.log]
            rw [hlen, h1])
    refine ⟨this.1, ?_⟩
    rw [this.2]
    exact hlen

theorem bopomofo_run_append (env : Env) (a b : List Op) (s : BopomofoContext) :
    BopomofoContext.run env s (a ++ b) =
      (BopomofoContext.run env s a).bind (fun s' => BopomofoContext.run env s' b) := by
  induction a generalizing s with
  | nil => rfl
  | cons op a ih =>
    simp only [List.cons_append, BopomofoContext.run]
    cases BopomofoContext.step env s op with
    | none => rfl
    | some r => exact ih r.2

theorem bopomofo_run_inserts (env : Env) (chars : List Char) (s : BopomofoContext)
    (h : AtEnd s.core) :
    ∃ s', BopomofoContext.run env s (chars.map Op.insert) = some s' ∧ AtEnd s'.core ∧
      s'.core.text.length ≤ s.core.text.length + chars.length := by
  induction chars generalizing s with
  | nil => exact ⟨s, rfl, h, Nat.le_refl _⟩
  | cons ch chars ih =>
    obtain ⟨r, hr, ha, hl⟩ := bopomofo_insert_atEnd env s ch h
    obtain ⟨s', hs', ha', hl'⟩ := ih r.2 ha
    refine ⟨s', ?_, ha', ?_⟩
    · simp only [List.map_cons, BopomofoContext.run, BopomofoContext.step, hr]
      exact hs'
    · simp only [List.length_cons]
      omega

theorem bopomofo_run_removes (env : Env) (n : Nat) (s : BopomofoContext)
    (h : AtEnd s.core) (hn : s.core.text.length ≤ n) :
    ∃ s', BopomofoContext.run env s (List.replicate n Op.removeCharBefore) = some s' ∧
      AtEnd s'.core ∧ s'.core.text.length = 0 := by
  induction n generalizing s with
  | zero => exact ⟨s, rfl, h, Nat.le_zero.mp hn⟩
  | succ n ih =>
    obtain ⟨r, hr, ha, hl⟩ := bopomofo_removeCharBefore_atEnd env s h
    obtain ⟨s', hs', ha', hl'⟩ := ih r.2 ha (by omega)
    refine ⟨s', ?_, ha', hl'⟩
    simp only [List.replicate_succ, BopomofoContext.run, BopomofoContext.step, hr]
    exact hs'



/-- C7: from a freshly constructed context, for every sequence of `n` characters, `n`
calls of insert followed by `n` calls of `removeCharBefore` all return and leave an empty
buffer, cursor 0, an empty pinyin array and `pinyin_len = 0`, whatever characters are
rejected and whether or not the buffer reaches capacity; in both variants, for every
parser. -/
theorem C7_insert_then_remove (env : Env) (cfg : Config) (chars : List Char) :
    (∃ s, FullPinyinContext.run env (FullPinyinContext.init cfg)
        (chars.map Op.insert ++ List.replicate chars.length Op.removeCharBefore) = some s ∧
      s.m_text = [] ∧ s.m_cursor = 0 ∧ s.m_pinyin = [] ∧ s.m_pinyin_len = 0) ∧
    (∃ s, BopomofoContext.run env (BopomofoContext.init cfg)
        (chars.map Op.insert ++ List.replicate chars.length Op.removeCharBefore) = some s ∧
      s.m_text = [] ∧ s.m_cursor = 0 ∧ s.m_pinyin = [] ∧ s.m_pinyin_len = 0) := by
  constructor
  · obtain ⟨s1, h1, a1, l1⟩ := full_run_inserts env chars (FullPinyinContext.init cfg)
      (atEnd_init cfg)
    obtain ⟨s2, h2, a2, l2⟩ := full_run_removes env chars.length s1 a1 (by
      have : (FullPinyinContext.init cfg).core.text.length = 0 := rfl
      omega)
    refine ⟨s2, ?_, ?_⟩
    · rw [full_run_append, h1]
      exact h2
    · have ht : s2.m_text = [] := List.length_eq_zero.mp l2
      obtain ⟨c, p⟩ := a2
      simp only [PhoneticContext.core] at c p
      refine ⟨ht, ?_, (p ht).1, (p ht).2⟩
      rw [c, ht]
      rfl
  · obtain ⟨s1, h1, a1, l1⟩ := bopomofo_run_inserts env chars (BopomofoContext.init cfg)
      (atEnd_init cfg)
    obtain ⟨s2, h2, a2, l2⟩ := bopomofo_run_removes env chars.length s1 a1 (by
      have : (BopomofoContext.init cfg).core.text.length = 0 := rfl
      omega)
    refine ⟨s2, ?_, ?_⟩
    · rw [bopomofo_run_append, h1]
      exact h2
    · have ht : s2.m_text = [] := List.length_eq_zero.mp l2
      obtain ⟨c, p⟩ := a2
      simp only [PhoneticContext.core] at c p
      refine ⟨ht, ?_, (p ht).1, (p ht).2⟩
      rw [c, ht]
      rfl


/-! ## Commit -/

theorem delivered_append (a b : List Call) : delivered (a ++ b) = delivered a ++ delivered b := by
  simp [delivered, List.filterMap_append]


theorem pinyin_update_after_reset (env : Env) (s : PhoneticContext) :
    (PinyinContext.update env s.resetContext.updateInputText.updateCursor).m_buffer = s.m_buffer ∧
    (PinyinContext.update env s.resetContext.updateInputText.updateCursor).calls =
      s.calls ++ [Call.resetContext, Call.updateInputText, Call.updateCursor, Call.update,
        Call.updatePreeditText, Call.updateAuxiliaryText] ∧
    (PinyinContext.update env s.resetContext.updateInputText.updateCursor).core = ⟨[], 0, [], 0⟩ := by
  simp [PinyinContext.update, PinyinContext.updatePreeditText, PinyinContext.updateAuxiliaryText,
    PhoneticContext.resetContext, PhoneticContext.updateInputText, PhoneticContext.updateCursor,
    PhoneticContext.updatePreeditText, PhoneticContext.updateAuxiliaryText,
    PhoneticContext.log, PhraseEditor.reset, PhraseEditor.empty, PhoneticContext.core]

theorem bopomofo_update_after_reset (env : Env) (s : BopomofoContext) :
    (BopomofoContext.update env (BopomofoContext.lift PhoneticContext.updateCursor
      (BopomofoContext.lift PhoneticContext.updateInputText
        (BopomofoContext.lift PhoneticContext.resetContext s)))).m_buffer = s.m_buffer ∧
    (BopomofoContext.update env (BopomofoContext.lift PhoneticContext.updateCursor
      (BopomofoContext.lift PhoneticContext.updateInputText
        (BopomofoContext.lift PhoneticContext.resetContext s)))).calls =
      s.calls ++ [Call.resetContext, Call.updateInputText, Call.updateCursor, Call.update,
        Call.updatePreeditText, Call.updateAuxiliaryText] ∧
    (BopomofoContext.update env (BopomofoContext.lift PhoneticContext.updateCursor
      (BopomofoContext.lift PhoneticContext.updateInputText
        (BopomofoContext.lift PhoneticContext.resetContext s)))).core = ⟨[], 0, [], 0⟩ := by
  simp [BopomofoContext.update, BopomofoContext.updatePreeditText,
    BopomofoContext.updateAuxiliaryText, BopomofoContext.lift,
    PhoneticContext.resetContext, PhoneticContext.updateInputText, PhoneticContext.updateCursor,
    PhoneticContext.updatePreeditText, PhoneticContext.updateAuxiliaryText,
    PhoneticContext.log, PhraseEditor.reset, PhraseEditor.empty, PhoneticContext.core]

theorem cstr_eq_self (t : List Char) (h : ∀ c ∈ t, c ≠ Char.ofNat 0) : cstr t = t := by
  unfold cstr
  rw [List.takeWhile_eq_self_iff]
  intro c hc
  simpa using h c hc

theorem bopomofo_commit_phonetic_calls (env : Env) (s : BopomofoContext) (h : s.m_buffer ≠ []) :
    (BopomofoContext.commit env s CommitType.TYPE_PHONETIC).calls =
      s.calls ++ [Call.resetContext, Call.updateInputText,
        Call.updateCursor, Call.update, Call.updatePreeditText, Call.updateAuxiliaryText,
        Call.commitText ((cstr s.m_text).map (BopomofoContext.glyph env s))] := by
  unfold BopomofoContext.commit
  rw [if_neg (by simpa using h)]
  simp only [PhoneticContext.commitText, PhoneticContext.log, bopomofo_toPhoneticContext_lift]
  rw [(bopomofo_update_after_reset env _).1, (bopomofo_update_after_reset env _).2.1]
  simp

/-- C8 as stated fails: after typing `ni` with an absent dictionary the input buffer holds
`ni`, the composed scratch buffer is empty, and `commit (TYPE_RAW)` returns at its guard:
the state is unchanged and the observer receives no `commit_text`. -/
theorem C8_counterexample :
    ∃ s, FullPinyinContext.run toyEnv (FullPinyinContext.init plainConfig) (typeText "ni") =
        some s ∧
      s.m_text = ['n', 'i'] ∧ s.m_buffer = [] ∧
      PinyinContext.commit toyEnv s CommitType.TYPE_RAW = s ∧
      delivered (PinyinContext.commit toyEnv s CommitType.TYPE_RAW).calls = [] :=
  ⟨_, rfl, by decide, by decide, by decide, by decide⟩

/-- C8 (amended): for every full pinyin context state whose composed scratch buffer
`m_buffer` is not empty, `commit (TYPE_RAW)` resets the context and delivers exactly one
`commit_text`, after the update routines, whose argument is exactly the characters of the
input buffer. -/
theorem C8_commit_raw (env : Env) (s : PhoneticContext) (h : s.m_buffer ≠ []) :
    (PinyinContext.commit env s CommitType.TYPE_RAW).calls =
      s.calls ++ [Call.phraseEditorReset, Call.resetContext, Call.updateInputText,
        Call.updateCursor, Call.update, Call.updatePreeditText, Call.updateAuxiliaryText,
        Call.commitText s.m_text] ∧
    delivered (PinyinContext.commit env s CommitType.TYPE_RAW).calls =
      delivered s.calls ++ [s.m_text] := by
  have hc : (PinyinContext.commit env s CommitType.TYPE_RAW).calls =
      s.calls ++ [Call.phraseEditorReset, Call.resetContext, Call.updateInputText,
        Call.updateCursor, Call.update, Call.updatePreeditText, Call.updateAuxiliaryText,
        Call.commitText s.m_text] := by
    unfold PinyinContext.commit
    rw [if_neg (by simpa using h)]
    simp only [PhoneticContext.commitText, PhoneticContext.log]
    rw [(pinyin_update_after_reset env _).1, (pinyin_update_after_reset env _).2.1]
    simp [PhoneticContext.log]
  refine ⟨hc, ?_⟩
  rw [hc, delivered_append]
  rfl


/-- C8 (amended) at a concrete input: the context after typing `nihao`. -/
theorem C8_witness :
    nihaoFocused.m_text = "nihao".toList ∧ nihaoFocused.m_buffer ≠ [] ∧
    ((PinyinContext.commit nihaoEnv nihaoFocused CommitType.TYPE_RAW).calls =
      nihaoFocused.calls ++ [Call.phraseEditorReset, Call.resetContext, Call.updateInputText,
        Call.updateCursor, Call.update, Call.updatePreeditText, Call.updateAuxiliaryText,
        Call.commitText nihaoFocused.m_text] ∧
    delivered (PinyinContext.commit nihaoEnv nihaoFocused CommitType.TYPE_RAW).calls =
      delivered nihaoFocused.calls ++ [nihaoFocused.m_text]) :=
  ⟨by decide, by decide, C8_commit_raw nihaoEnv nihaoFocused (by decide)⟩

/-- C9 as stated fails. After typing the keys `ab` with an absent dictionary the input
buffer holds `ab`, the composed scratch buffer is empty and `commit (TYPE_PHONETIC)`
returns at its guard without a `commit_text`. And in a state whose buffer holds a NUL
character the transliteration stops there: of three buffer characters one glyph is
delivered. -/
theorem C9_counterexample :
    (∃ s, BopomofoContext.run toyEnv (BopomofoContext.init plainConfig) (typeText "ab") =
        some s ∧
      s.m_text = ['a', 'b'] ∧ s.m_buffer = [] ∧
      delivered (BopomofoContext.commit toyEnv s CommitType.TYPE_PHONETIC).calls = []) ∧
    (bopomofoNul.m_text.length = 3 ∧
      delivered (BopomofoContext.commit toyEnv bopomofoNul CommitType.TYPE_PHONETIC).calls =
        [[Char.ofNat 0x3105]]) :=
  ⟨⟨_, rfl, by decide, by decide, by decide⟩, by decide, by decide⟩

/-- C9 (amended): for every Bopomofo context state whose composed scratch buffer `m_buffer`
is not empty and whose input buffer holds no NUL character, `commit (TYPE_PHONETIC)`
delivers one `commit_text` whose string has exactly `|buffer|` glyphs, the glyph at index
`i` being `bopomofo_char[keyvalToBopomofo (buffer[i])]` under the current schema; the
pinyin array, the selections and the focused candidate do not enter. -/
theorem C9_commit_phonetic (env : Env) (s : BopomofoContext) (h : s.m_buffer ≠ [])
    (hnul : ∀ c ∈ s.m_text, c ≠ Char.ofNat 0) :
    ∃ glyphs : List Char,
      delivered (BopomofoContext.commit env s CommitType.TYPE_PHONETIC).calls =
        delivered s.calls ++ [glyphs] ∧
      glyphs.length = s.m_text.length ∧
      ∀ (i : Nat) (hi : i < s.m_text.length),
        glyphs[i]? = some (env.bopomofo_char
          (BopomofoContext.keyvalToBopomofo env s (charToInt (s.m_text.get ⟨i, hi⟩)))) := by
  refine ⟨s.m_text.map (BopomofoContext.glyph env s), ?_, List.length_map _ _, ?_⟩
  · rw [bopomofo_commit_phonetic_calls env s h, delivered_append, cstr_eq_self _ hnul]
    rfl
  · intro i hi
    simp [List.getElem?_map, List.getElem?_eq_getElem hi, BopomofoContext.glyph]


/-- C9 (amended) at a concrete input: the Bopomofo context after typing the keys `aba`. -/
theorem C9_witness :
    bopomofoTyped.m_text = "aba".toList ∧ bopomofoTyped.m_buffer ≠ [] ∧
    ∃ glyphs : List Char,
      delivered (BopomofoContext.commit toyEnv bopomofoTyped CommitType.TYPE_PHONETIC).calls =
        delivered bopomofoTyped.calls ++ [glyphs] ∧
      glyphs.length = bopomofoTyped.m_text.length ∧
      ∀ (i : Nat) (hi : i < bopomofoTyped.m_text.length),
        glyphs[i]? = some (toyEnv.bopomofo_char
          (BopomofoContext.keyvalToBopomofo toyEnv bopomofoTyped
            (charToInt (bopomofoTyped.m_text.get ⟨i, hi⟩)))) :=
  ⟨by decide, by decide,
    C9_commit_phonetic toyEnv bopomofoTyped (by decide) (by decide)⟩

/-- C10 as stated fails: typing `nihao` leaves the candidate `你好` first and focused (it is
the candidate text of the preedit) with nothing selected, and `commit (TYPE_CONVERTED)`
delivers the raw input `nihao`, not `你好`. -/
theorem C10_counterexample :
    FullPinyinContext.run nihaoEnv (FullPinyinContext.init plainConfig) (typeText "nihao") =
      some nihaoFocused ∧
    nihaoFocused.m_text = "nihao".toList ∧ nihaoFocused.m_focused_candidate = 0 ∧
    (nihaoFocused.m_phrase_editor.candidate 0).phrase = "你好".toList ∧
    nihaoFocused.m_phrase_editor.m_selected_phrases = [] ∧
    nihaoFocused.m_preedit_text.candidate_text = "你好".toList ∧
    delivered (PinyinContext.commit nihaoEnv nihaoFocused CommitType.TYPE_CONVERTED).calls =
      ["nihao".toList] ∧
    delivered (PinyinContext.commit nihaoEnv nihaoFocused CommitType.TYPE_CONVERTED).calls ≠
      ["你好".toList] :=
  ⟨by decide, by decide, by decide, by decide, by decide, by decide, by decide, by decide⟩

/-- C10 (amended): for every full pinyin context state whose composed scratch buffer is not
empty, `commit (TYPE_CONVERTED)` delivers one `commit_text` and leaves the context empty;
its text is the selected string of the phrase editor followed, when no special phrase is
selected, by the input text after as many syllables as the selected string has characters
and, when one is selected, by that special phrase and the text after the cursor. The
focused candidate does not enter: `nihao` with `你好` selected delivers `你好`, with `你好`
only focused it delivers `nihao`. -/
theorem C10_commit_converted (env : Env) (s : PhoneticContext) (h : s.m_buffer ≠ []) :
    delivered (PinyinContext.commit env s CommitType.TYPE_CONVERTED).calls =
      delivered s.calls ++
        [s.m_phrase_editor.selectedString env s.m_config ++
          (if s.m_selected_special_phrase = [] then
            s.textAfterPinyinAt (utf8Length (s.m_phrase_editor.selectedString env s.m_config))
           else s.m_selected_special_phrase ++ s.textAfterCursor)] ∧
    (PinyinContext.commit env s CommitType.TYPE_CONVERTED).core = ⟨[], 0, [], 0⟩ := by
  have hc : (PinyinContext.commit env s CommitType.TYPE_CONVERTED).calls =
      s.calls ++ [Call.phraseEditorCommit, Call.resetContext, Call.updateInputText,
        Call.updateCursor, Call.update, Call.updatePreeditText, Call.updateAuxiliaryText,
        Call.commitText (s.m_phrase_editor.selectedString env s.m_config ++
          (if s.m_selected_special_phrase = [] then
            s.textAfterPinyinAt (utf8Length (s.m_phrase_editor.selectedString env s.m_config))
           else s.m_selected_special_phrase ++ s.textAfterCursor))] := by
    unfold PinyinContext.commit
    rw [if_neg (by simpa using h)]
    simp only [PhoneticContext.commitText, PhoneticContext.log]
    rw [(pinyin_update_after_reset env _).1, (pinyin_update_after_reset env _).2.1]
    by_cases hsp : s.m_selected_special_phrase = []
    · simp [PhoneticContext.log, hsp]
    · simp [PhoneticContext.log, hsp]
  refine ⟨?_, ?_⟩
  · rw [hc, delivered_append]
    rfl
  · unfold PinyinContext.commit
    rw [if_neg (by simpa using h)]
    simp only [PhoneticContext.commitText, phonetic_core_log]
    exact (pinyin_update_after_reset env _).2.2



/-- C10 (amended) at a concrete input: `nihao` with `你好` selected delivers `你好`. -/
theorem C10_witness :
    nihaoSelected.m_buffer ≠ [] ∧
    (delivered (PinyinContext.commit nihaoEnv nihaoSelected CommitType.TYPE_CONVERTED).calls =
      delivered nihaoSelected.calls ++
        [nihaoSelected.m_phrase_editor.selectedString nihaoEnv nihaoSelected.m_config ++
          (if nihaoSelected.m_selected_special_phrase = [] then
            nihaoSelected.textAfterPinyinAt
              (utf8Length
                (nihaoSelected.m_phrase_editor.selectedString nihaoEnv nihaoSelected.m_config))
           else nihaoSelected.m_selected_special_phrase ++ nihaoSelected.textAfterCursor)] ∧
    (PinyinContext.commit nihaoEnv nihaoSelected CommitType.TYPE_CONVERTED).core =
      ⟨[], 0, [], 0⟩) ∧
    delivered (PinyinContext.commit nihaoEnv nihaoSelected CommitType.TYPE_CONVERTED).calls =
      ["你好".toList] :=
  ⟨by decide, C10_commit_converted nihaoEnv nihaoSelected (by decide), by decide⟩

/-! ## The schema property of a Bopomofo context -/

/-- C11: `setProperty (PROPERTY_BOPOMOFO_SCHEMA, v)` returns false and leaves the context,
hence the schema that `getProperty` returns, unchanged whenever `v` is not of the unsigned
type or its value is at least `BOPOMOFO_KEYBOARD_LAST`; for every unsigned value `n` below
`BOPOMOFO_KEYBOARD_LAST` it returns true and a following
`getProperty (PROPERTY_BOPOMOFO_SCHEMA)` returns `n`. -/
theorem C11_set_schema (env : Env) (baseGet : PhoneticContext → PropertyName → Variant)
    (baseSet : PhoneticContext → PropertyName → Variant → Bool × PhoneticContext)
    (s : BopomofoContext) :
    (∀ v : Variant,
      v.getType ≠ VariantType.TYPE_UNSIGNED_INT ∨ v.getUnsignedInt ≥ env.BOPOMOFO_KEYBOARD_LAST →
      BopomofoContext.setProperty env baseSet s PropertyName.PROPERTY_BOPOMOFO_SCHEMA v =
        (false, s) ∧
      BopomofoContext.getProperty baseGet
        (BopomofoContext.setProperty env baseSet s PropertyName.PROPERTY_BOPOMOFO_SCHEMA v).2
        PropertyName.PROPERTY_BOPOMOFO_SCHEMA =
        BopomofoContext.getProperty baseGet s PropertyName.PROPERTY_BOPOMOFO_SCHEMA) ∧
    (∀ n : Nat, n < env.BOPOMOFO_KEYBOARD_LAST →
      (BopomofoContext.setProperty env baseSet s PropertyName.PROPERTY_BOPOMOFO_SCHEMA
        (Variant.fromUnsignedInt n)).1 = true ∧
      BopomofoContext.getProperty baseGet
        (BopomofoContext.setProperty env baseSet s PropertyName.PROPERTY_BOPOMOFO_SCHEMA
          (Variant.fromUnsignedInt n)).2 PropertyName.PROPERTY_BOPOMOFO_SCHEMA =
        Variant.fromUnsignedInt n) := by
  constructor
  · intro v hv
    have h : BopomofoContext.setProperty env baseSet s PropertyName.PROPERTY_BOPOMOFO_SCHEMA v =
        (false, s) := by
      unfold BopomofoContext.setProperty
      rw [if_pos rfl]
      by_cases ht : v.getType ≠ VariantType.TYPE_UNSIGNED_INT
      · rw [if_pos ht]
      · rw [if_neg ht]
        have hge : v.getUnsignedInt ≥ env.BOPOMOFO_KEYBOARD_LAST := by
          rcases hv with hv | hv
          · exact absurd hv ht
          · exact hv
        simp only [hge, if_true]
    exact ⟨h, by rw [h]⟩
  · intro n hn
    have h : BopomofoContext.setProperty env baseSet s PropertyName.PROPERTY_BOPOMOFO_SCHEMA
        (Variant.fromUnsignedInt n) = (true, { s with m_bopomofo_schema := n }) := by
      unfold BopomofoContext.setProperty
      rw [if_pos rfl]
      have h1 : ¬ (Variant.fromUnsignedInt n).getType ≠ VariantType.TYPE_UNSIGNED_INT := by
        simp [Variant.fromUnsignedInt, Variant.getType]
      rw [if_neg h1]
      have h2 : ¬ (Variant.fromUnsignedInt n).getUnsignedInt ≥ env.BOPOMOFO_KEYBOARD_LAST := by
        simp only [Variant.fromUnsignedInt, Variant.getUnsignedInt]
        omega
      simp only [h2, if_false]
      rfl
    rw [h]
    exact ⟨rfl, rfl⟩

/-- C11 at a Bopomofo context that holds `ab`: a boolean value is rejected, the value 5 is
accepted and read back. -/
theorem C11_witness :
    (BopomofoContext.setProperty toyEnv (fun b _ _ => (false, b)) (bopomofoHolding "ab" 2)
        PropertyName.PROPERTY_BOPOMOFO_SCHEMA (Variant.bool true) =
        (false, bopomofoHolding "ab" 2) ∧
      BopomofoContext.getProperty (fun _ _ => Variant.null)
        (BopomofoContext.setProperty toyEnv (fun b _ _ => (false, b)) (bopomofoHolding "ab" 2)
          PropertyName.PROPERTY_BOPOMOFO_SCHEMA (Variant.bool true)).2
        PropertyName.PROPERTY_BOPOMOFO_SCHEMA =
        BopomofoContext.getProperty (fun _ _ => Variant.null) (bopomofoHolding "ab" 2)
          PropertyName.PROPERTY_BOPOMOFO_SCHEMA) ∧
    ((BopomofoContext.setProperty toyEnv (fun b _ _ => (false, b)) (bopomofoHolding "ab" 2)
        PropertyName.PROPERTY_BOPOMOFO_SCHEMA (Variant.fromUnsignedInt 5)).1 = true ∧
      BopomofoContext.getProperty (fun _ _ => Variant.null)
        (BopomofoContext.setProperty toyEnv (fun b _ _ => (false, b)) (bopomofoHolding "ab" 2)
          PropertyName.PROPERTY_BOPOMOFO_SCHEMA (Variant.fromUnsignedInt 5)).2
        PropertyName.PROPERTY_BOPOMOFO_SCHEMA = Variant.fromUnsignedInt 5) :=
  ⟨(C11_set_schema toyEnv (fun _ _ => Variant.null) (fun b _ _ => (false, b))
      (bopomofoHolding "ab" 2)).1 (Variant.bool true) (Or.inl (by decide)),
    (C11_set_schema toyEnv (fun _ _ => Variant.null) (fun b _ _ => (false, b))
      (bopomofoHolding "ab" 2)).2 5 (by decide)⟩

/-! ## The fragments of the preedit text -/

theorem strSize_append (a b : List Char) : strSize (a ++ b) = strSize a + strSize b := by
  induction a with
  | nil => simp [strSize]
  | cons c a ih => simp [strSize, ih, Nat.add_assoc]

theorem dropBytes_strSize_append (a x : List Char) : dropBytes (strSize a) (a ++ x) = x := by
  induction a with
  | nil =>
    simp only [strSize, List.nil_append]
    cases x <;> rfl
  | cons c a ih =>
    have hpos := Char.utf8Size_pos c
    obtain ⟨n, hn⟩ : ∃ n, c.utf8Size + strSize a = n + 1 := ⟨c.utf8Size + strSize a - 1, by omega⟩
    simp only [strSize, List.cons_append, hn, dropBytes]
    have : n + 1 - c.utf8Size = strSize a := by omega
    rw [this, ih]

theorem takeBytes_strSize_append (a x : List Char) : takeBytes (strSize a) (a ++ x) = a := by
  induction a with
  | nil =>
    simp only [strSize, List.nil_append]
    cases x <;> rfl
  | cons c a ih =>
    have hpos := Char.utf8Size_pos c
    obtain ⟨n, hn⟩ : ∃ n, c.utf8Size + strSize a = n + 1 := ⟨c.utf8Size + strSize a - 1, by omega⟩
    simp only [strSize, List.cons_append, hn, takeBytes]
    have h1 : c.utf8Size ≤ n + 1 := by omega
    have : n + 1 - c.utf8Size = strSize a := by omega
    rw [if_pos h1, this, ih]

theorem dropBytes_zero (s : List Char) : dropBytes 0 s = s := by
  cases s <;> rfl

/-- The cut of a text `a ++ m ++ t` at the sizes of `a` and of `a ++ m`. -/
theorem cutPreedit_fragments (s : PhoneticContext) (a m t : List Char) :
    (PinyinContext.cutPreedit s (a ++ m ++ t) (strSize a) (strSize (a ++ m))).m_preedit_text =
      ⟨a, m, t⟩ ∧
    (PinyinContext.cutPreedit s (a ++ m ++ t) (strSize a) (strSize (a ++ m))).m_buffer =
      a ++ m ++ t := by
  refine ⟨?_, rfl⟩
  simp only [PinyinContext.cutPreedit, PhoneticContext.updatePreeditText, PhoneticContext.log,
    substrBytes, dropBytes_zero]
  have h1 : takeBytes (strSize a) (a ++ m ++ t) = a := by
    rw [List.append_assoc]; exact takeBytes_strSize_append a (m ++ t)
  have h2 : takeBytes (strSize (a ++ m) - strSize a) (dropBytes (strSize a) (a ++ m ++ t)) = m := by
    rw [List.append_assoc, dropBytes_strSize_append, strSize_append, Nat.add_sub_cancel_left]
    exact takeBytes_strSize_append m t
  have h3 : dropBytes (strSize (a ++ m)) (a ++ m ++ t) = t := dropBytes_strSize_append (a ++ m) t
  rw [h1, h2, h3]

theorem partitions_fragments (a m t : List Char) :
    Partitions ⟨a, m, t⟩ (a ++ m ++ t) (strSize a) (strSize (a ++ m)) := by
  refine ⟨Nat.zero_le _, ?_, ?_, rfl, rfl, ?_, ?_⟩
  · rw [strSize_append]; omega
  · rw [strSize_append, strSize_append, strSize_append]; omega
  · simp only [strSize_append]; omega
  · simp only [strSize_append]; omega

theorem foldl_append_flatten {ι : Type} (f : ι → List Char) (l : List ι) (init : List Char) :
    l.foldl (fun b i => b ++ f i) init = init ++ (l.map f).flatten := by
  induction l generalizing init with
  | nil => simp
  | cons x l ih => simp [ih, List.append_assoc]

theorem cut_shape_of_tail (s : PhoneticContext) (a x : List Char) :
    ∃ m t, PinyinContext.cutPreedit s (a ++ x) (strSize a) (strSize (a ++ x)) =
      PinyinContext.cutPreedit s (a ++ m ++ t) (strSize a) (strSize (a ++ m)) :=
  ⟨x, [], by rw [List.append_nil]⟩

/-- The shape of the text `PinyinContext::updatePreeditText` composes. -/
theorem pinyin_preedit_shape (env : Env) (s : PhoneticContext)
    (h : ¬ (s.m_phrase_editor.empty && s.m_text.isEmpty) = true) :
    ∃ m t, PinyinContext.updatePreeditText env s =
        PinyinContext.cutPreedit s
          (s.m_phrase_editor.selectedString env s.m_config ++ s.m_selected_special_phrase ++ m ++ t)
          (strSize (s.m_phrase_editor.selectedString env s.m_config ++ s.m_selected_special_phrase))
          (strSize (s.m_phrase_editor.selectedString env s.m_config ++ s.m_selected_special_phrase
            ++ m)) ∧
      (s.m_selected_special_phrase ≠ [] → m = [] ∧ t = s.textAfterCursor) := by
  unfold PinyinContext.updatePreeditText
  rw [if_neg h]
  dsimp only
  by_cases hsp : s.m_selected_special_phrase ≠ []
  · rw [if_pos hsp]
    exact ⟨[], s.textAfterCursor, by simp, fun _ => ⟨rfl, rfl⟩⟩
  · rw [if_neg hsp]
    have hsp' : s.m_selected_special_phrase = [] := by simpa using hsp
    simp only [hsp', List.append_nil]
    split_ifs with c1 c2 c3 c4
    · exact ⟨_, _, rfl, fun h => absurd rfl h⟩
    · exact ⟨_, _, rfl, fun h => absurd rfl h⟩
    · exact ⟨_, _, rfl, fun h => absurd rfl h⟩
    · rw [foldl_append_flatten (fun i => ' ' :: PinyinContext.syllable s.m_pinyin i)]
      simp only [List.append_assoc]
      obtain ⟨m, t, hm⟩ := cut_shape_of_tail s (s.m_phrase_editor.selectedString env s.m_config)
        (PinyinContext.syllable s.m_pinyin
            (utf8Length (s.m_phrase_editor.selectedString env s.m_config)) ++
          ((List.map (fun i => ' ' :: PinyinContext.syllable s.m_pinyin i)
              (List.range' (utf8Length (s.m_phrase_editor.selectedString env s.m_config) + 1)
                (utf8Length (s.m_phrase_editor.selectedString env s.m_config) +
                  (s.m_phrase_editor.candidate
                    (s.m_focused_candidate - s.m_special_phrases.length)).len -
                  (utf8Length (s.m_phrase_editor.selectedString env s.m_config) + 1)))).flatten ++
            '|' :: s.textAfterPinyinAt
              (utf8Length (s.m_phrase_editor.selectedString env s.m_config) +
                (s.m_phrase_editor.candidate
                  (s.m_focused_candidate - s.m_special_phrases.length)).len)))
      refine ⟨m, t, ?_, fun h => absurd rfl h⟩
      rw [hm, List.append_assoc]
    · refine ⟨[], s.textAfterPinyin, ?_, fun h => absurd rfl h⟩
      simp


theorem bopomofo_cut_shape_of_tail (s : BopomofoContext) (a x : List Char) :
    ∃ m t, BopomofoContext.lift
        (fun b => PinyinContext.cutPreedit b (a ++ x) (strSize a) (strSize (a ++ x))) s =
      BopomofoContext.lift
        (fun b => PinyinContext.cutPreedit b (a ++ m ++ t) (strSize a) (strSize (a ++ m))) s :=
  ⟨x, [], by rw [List.append_nil]⟩

theorem foldl_space_glyph (f : Char → Char) (cursor : Nat) (l : List (Nat × Char))
    (init : List Char) :
    l.foldl (fun b ic => (if ic.1 = cursor then b ++ [' '] else b) ++ [f ic.2]) init =
      init ++ (l.map (fun ic => (if ic.1 = cursor then [' '] else []) ++ [f ic.2])).flatten := by
  rw [← foldl_append_flatten]
  congr 1
  funext b ic
  split <;> simp

theorem bopomofo_cut_fragments (s : BopomofoContext) (a m t : List Char) :
    (BopomofoContext.lift (fun b => PinyinContext.cutPreedit b (a ++ m ++ t) (strSize a)
      (strSize (a ++ m))) s).m_preedit_text = ⟨a, m, t⟩ ∧
    (BopomofoContext.lift (fun b => PinyinContext.cutPreedit b (a ++ m ++ t) (strSize a)
      (strSize (a ++ m))) s).m_buffer = a ++ m ++ t :=
  cutPreedit_fragments s.toPhoneticContext a m t

/-- The shape of the text `BopomofoContext::updatePreeditText` composes. -/
theorem bopomofo_preedit_shape (env : Env) (s : BopomofoContext)
    (h : ¬ (s.m_phrase_editor.empty && s.m_text.isEmpty) = true) :
    ∃ m t, BopomofoContext.updatePreeditText env s =
        BopomofoContext.lift (fun b => PinyinContext.cutPreedit b
          (s.m_phrase_editor.selectedString env s.m_config ++ s.m_selected_special_phrase ++ m ++ t)
          (strSize (s.m_phrase_editor.selectedString env s.m_config ++ s.m_selected_special_phrase))
          (strSize (s.m_phrase_editor.selectedString env s.m_config ++ s.m_selected_special_phrase
            ++ m))) s ∧
      (s.m_selected_special_phrase ≠ [] → m = [] ∧ t = s.textAfterCursor) := by
  unfold BopomofoContext.updatePreeditText
  rw [if_neg h]
  dsimp only
  by_cases hsp : s.m_selected_special_phrase ≠ []
  · rw [if_pos hsp]
    exact ⟨[], s.textAfterCursor, by simp, fun _ => ⟨rfl, rfl⟩⟩
  · rw [if_neg hsp]
    have hsp' : s.m_selected_special_phrase = [] := by simpa using hsp
    simp only [hsp', List.append_nil]
    split_ifs with c1 c2 c3 c4
    · exact ⟨_, _, rfl, fun h => absurd rfl h⟩
    · exact ⟨_, _, rfl, fun h => absurd rfl h⟩
    · exact ⟨_, _, rfl, fun h => absurd rfl h⟩
    · rw [foldl_space_glyph]
      obtain ⟨m, t, hm⟩ := bopomofo_cut_shape_of_tail s
        (s.m_phrase_editor.selectedString env s.m_config)
        ((List.map (fun ic => (if ic.1 = s.m_cursor then [' '] else []) ++
          [BopomofoContext.glyph env s ic.2]) (cstr s.m_text).enum).flatten)
      exact ⟨m, t, hm, fun h => absurd rfl h⟩
    · refine ⟨[], (cstr (s.m_text.drop s.m_pinyin_len)).map (BopomofoContext.glyph env s), ?_,
        fun h => absurd rfl h⟩
      simp

theorem isEmpty_false_of_ne {α : Type} (l : List α) (h : l ≠ []) : l.isEmpty = false := by
  cases l with
  | nil => exact absurd rfl h
  | cons a l => rfl

/-- C12: in both context variants `updatePreeditText` either takes its early return (editor
and input text both empty) and clears the three fragments, or composes the scratch buffer
and cuts it at two byte offsets `b` and `e` with `0 ≤ b ≤ e ≤ |buffer|`: the three fragments
concatenate to the composed buffer and occupy the byte ranges before `b`, from `b` to `e`
and from `e` on, so no byte belongs to two fragments. -/
theorem C12_preedit_partition (env : Env) :
    (∀ s : PhoneticContext,
      ((s.m_phrase_editor.empty && s.m_text.isEmpty) = true →
        (PinyinContext.updatePreeditText env s).m_preedit_text = ⟨[], [], []⟩) ∧
      (¬ (s.m_phrase_editor.empty && s.m_text.isEmpty) = true →
        ∃ buf b e, PinyinContext.updatePreeditText env s = PinyinContext.cutPreedit s buf b e ∧
          (PinyinContext.updatePreeditText env s).m_buffer = buf ∧
          Partitions (PinyinContext.updatePreeditText env s).m_preedit_text buf b e)) ∧
    (∀ s : BopomofoContext,
      ((s.m_phrase_editor.empty && s.m_text.isEmpty) = true →
        (BopomofoContext.updatePreeditText env s).m_preedit_text = ⟨[], [], []⟩) ∧
      (¬ (s.m_phrase_editor.empty && s.m_text.isEmpty) = true →
        ∃ buf b e, BopomofoContext.updatePreeditText env s =
            BopomofoContext.lift (fun x => PinyinContext.cutPreedit x buf b e) s ∧
          (BopomofoContext.updatePreeditText env s).m_buffer = buf ∧
          Partitions (BopomofoContext.updatePreeditText env s).m_preedit_text buf b e)) := by
  constructor
  · intro s
    constructor
    · intro h
      unfold PinyinContext.updatePreeditText
      rw [if_pos h]
      rfl
    · intro h
      obtain ⟨m, t, hm, _⟩ := pinyin_preedit_shape env s h
      refine ⟨_, _, _, hm, ?_, ?_⟩
      · rw [hm]; exact (cutPreedit_fragments s _ m t).2
      · rw [hm, (cutPreedit_fragments s _ m t).1]
        exact partitions_fragments _ m t
  · intro s
    constructor
    · intro h
      unfold BopomofoContext.updatePreeditText
      rw [if_pos h]
      rfl
    · intro h
      obtain ⟨m, t, hm, _⟩ := bopomofo_preedit_shape env s h
      refine ⟨_, _, _, hm, ?_, ?_⟩
      · rw [hm]; exact (bopomofo_cut_fragments s _ m t).2
      · rw [hm, (bopomofo_cut_fragments s _ m t).1]
        exact partitions_fragments _ m t

/-- C12 at the full pinyin context that holds `nihao` with the candidate `你好` focused:
the candidate text is the whole composed buffer. -/
theorem C12_witness :
    (∃ buf b e, PinyinContext.updatePreeditText nihaoEnv nihaoFocused =
        PinyinContext.cutPreedit nihaoFocused buf b e ∧
      (PinyinContext.updatePreeditText nihaoEnv nihaoFocused).m_buffer = buf ∧
      Partitions (PinyinContext.updatePreeditText nihaoEnv nihaoFocused).m_preedit_text buf b e) ∧
    (PinyinContext.updatePreeditText nihaoEnv nihaoFocused).m_preedit_text =
      ⟨[], "你好".toList, []⟩ :=
  ⟨((C12_preedit_partition nihaoEnv).1 nihaoFocused).2 (by decide), by decide⟩

/-- C13 as stated fails: with the input `ab`, the cursor after `a`, nothing selected in the
phrase editor and the special phrase `X` selected, `selectedString ()` is empty and the
`selected_text` that `updatePreeditText` computes is `X`. -/
theorem C13_counterexample :
    specialSelected.m_text ≠ [] ∧ specialSelected.m_selected_special_phrase = ['X'] ∧
    specialSelected.m_phrase_editor.selectedString toyEnv specialSelected.m_config = [] ∧
    (PinyinContext.updatePreeditText toyEnv specialSelected).m_preedit_text.selected_text =
      ['X'] ∧
    (PinyinContext.updatePreeditText toyEnv specialSelected).m_preedit_text.selected_text ≠
      specialSelected.m_phrase_editor.selectedString toyEnv specialSelected.m_config := by
  decide

/-- C13 (amended): for every context state of either variant with a non-empty input buffer
the preedit `selected_text` computed by `updatePreeditText` is `selectedString ()` followed
by the selected special phrase, and when a special phrase is selected `candidate_text` is
empty and `rest_text` is the text after the cursor. -/
theorem C13_preedit_selected (env : Env) :
    (∀ s : PhoneticContext, s.m_text ≠ [] →
      (PinyinContext.updatePreeditText env s).m_preedit_text.selected_text =
        s.m_phrase_editor.selectedString env s.m_config ++ s.m_selected_special_phrase ∧
      (s.m_selected_special_phrase ≠ [] →
        (PinyinContext.updatePreeditText env s).m_preedit_text.candidate_text = [] ∧
        (PinyinContext.updatePreeditText env s).m_preedit_text.rest_text = s.textAfterCursor)) ∧
    (∀ s : BopomofoContext, s.m_text ≠ [] →
      (BopomofoContext.updatePreeditText env s).m_preedit_text.selected_text =
        s.m_phrase_editor.selectedString env s.m_config ++ s.m_selected_special_phrase ∧
      (s.m_selected_special_phrase ≠ [] →
        (BopomofoContext.updatePreeditText env s).m_preedit_text.candidate_text = [] ∧
        (BopomofoContext.updatePreeditText env s).m_preedit_text.rest_text =
          s.textAfterCursor)) := by
  constructor
  · intro s hne
    have h : ¬ (s.m_phrase_editor.empty && s.m_text.isEmpty) = true := by
      rw [isEmpty_false_of_ne _ hne]; simp
    obtain ⟨m, t, hm, hsp⟩ := pinyin_preedit_shape env s h
    rw [hm, (cutPreedit_fragments s _ m t).1]
    refine ⟨rfl, fun hs => ?_⟩
    exact ⟨(hsp hs).1, (hsp hs).2⟩
  · intro s hne
    have h : ¬ (s.m_phrase_editor.empty && s.m_text.isEmpty) = true := by
      rw [isEmpty_false_of_ne _ hne]; simp
    obtain ⟨m, t, hm, hsp⟩ := bopomofo_preedit_shape env s h
    rw [hm, (bopomofo_cut_fragments s _ m t).1]
    refine ⟨rfl, fun hs => ?_⟩
    exact ⟨(hsp hs).1, (hsp hs).2⟩

/-- C13 (amended) at the state with the special phrase `X` selected. -/
theorem C13_witness :
    (PinyinContext.updatePreeditText toyEnv specialSelected).m_preedit_text.selected_text =
        specialSelected.m_phrase_editor.selectedString toyEnv specialSelected.m_config ++
          specialSelected.m_selected_special_phrase ∧
      (specialSelected.m_selected_special_phrase ≠ [] →
        (PinyinContext.updatePreeditText toyEnv specialSelected).m_preedit_text.candidate_text =
          [] ∧
        (PinyinContext.updatePreeditText toyEnv specialSelected).m_preedit_text.rest_text =
          specialSelected.textAfterCursor) :=
  (C13_preedit_selected toyEnv).1 specialSelected (by decide)

/-! ## Dynamic special phrases -/

open DynamicSpecialPhrase Database Conditions

theorem findAux_some (pat : List Char) (s : List Char) (i k : Nat)
    (h : findAux pat s i = some k) :
    ∃ pre post, s = pre ++ pat ++ post ∧ k = i + pre.length := by
  induction s generalizing i with
  | nil =>
    simp only [findAux] at h
    split at h
    · rename_i hp
      exact ⟨[], [], by simp [hp], by simpa using h.symm⟩
    · exact absurd h (by simp)
  | cons c s ih =>
    simp only [findAux] at h
    split at h
    · rename_i hp
      refine ⟨[], (c :: s).drop pat.length, ?_, by simpa using h.symm⟩
      conv_lhs => rw [← List.take_append_drop pat.length (c :: s), hp]
      simp
    · obtain ⟨pre, post, hs, hk⟩ := ih (i + 1) h
      exact ⟨c :: pre, post, by simp [hs], by simp [hk]; omega⟩

theorem findAux_shift (pat : List Char) (s : List Char) (c i : Nat) :
    findAux pat s (c + i) = (findAux pat s i).map (fun k => c + k) := by
  induction s generalizing i with
  | nil =>
    simp only [findAux]
    split <;> rfl
  | cons x s ih =>
    simp only [findAux]
    split
    · rfl
    · rw [← ih (i + 1)]
      rfl

/-- The result of `find` splits the text. -/
theorem find_some (t pat : List Char) (pos k : Nat) (h : find t pat pos = some k) :
    pos ≤ t.length ∧ ∃ pre post, t.drop pos = pre ++ pat ++ post ∧ k = pos + pre.length ∧
      substr t pos (k - pos) = pre ∧ t.drop (k + pat.length) = post := by
  unfold find at h
  split at h
  · exact absurd h (by simp)
  · rename_i hle
    obtain ⟨pre, post, hs, hk⟩ := findAux_some pat _ _ _ h
    refine ⟨by omega, pre, post, hs, hk, ?_, ?_⟩
    · unfold substr
      rw [hs, hk]
      simp
    · have : k + pat.length = pos + (pre.length + pat.length) := by omega
      rw [this, ← List.drop_drop, hs]
      simp

theorem find_append_shift (a r pat : List Char) (pos : Nat) :
    find (a ++ r) pat (a.length + pos) = (find r pat pos).map (fun k => a.length + k) := by
  unfold find
  by_cases h : pos > r.length
  · rw [if_pos h, if_pos (by simp; omega)]
    rfl
  · rw [if_neg h, if_neg (by simp; omega)]
    rw [List.drop_append, findAux_shift]

theorem findAux_open (p rest : List Char) (i : Nat) (hp : ¬ OPEN <:+: p) :
    findAux OPEN (p ++ OPEN ++ rest) i = some (i + p.length) := by
  induction p generalizing i with
  | nil =>
    simp [findAux, OPEN]
  | cons c p ih =>
    have hp' : ¬ OPEN <:+: p := fun h => hp (h.trans (List.infix_cons (List.infix_refl p)))
    have hne : ((c :: p) ++ OPEN ++ rest).take OPEN.length ≠ OPEN := by
      cases p with
      | nil =>
        simp [OPEN]
      | cons d p =>
        intro h
        apply hp
        refine ⟨[], p, ?_⟩
        simp only [OPEN, List.length_cons, List.length_nil, List.cons_append, List.take_succ_cons,
          List.take_zero] at h
        simp only [OPEN, List.nil_append, List.cons_append]
        rw [List.cons.injEq] at h
        obtain ⟨h1, h2⟩ := h
        rw [List.cons.injEq] at h2
        rw [h1, h2.1]
    simp only [List.cons_append] at hne ⊢
    rw [findAux, if_neg hne]
    have := ih (i + 1) hp'
    simp only [List.append_assoc] at this ⊢
    rw [this]
    simp
    omega

theorem findAux_close (n rest : List Char) (i : Nat) (hn : Char.ofNat 125 ∉ n) :
    findAux CLOSE (n ++ CLOSE ++ rest) i = some (i + n.length) := by
  induction n generalizing i with
  | nil => simp [findAux, CLOSE]
  | cons c n ih =>
    have hc : c ≠ Char.ofNat 125 := fun h => hn (by simp [h])
    have hn' : Char.ofNat 125 ∉ n := fun h => hn (List.mem_cons_of_mem _ h)
    have hne : ((c :: n) ++ CLOSE ++ rest).take CLOSE.length ≠ CLOSE := by
      simp [CLOSE, hc]
    simp only [List.cons_append] at hne ⊢
    rw [findAux, if_neg hne]
    have := ih (i + 1) hn'
    simp only [List.append_assoc] at this ⊢
    rw [this]
    simp
    omega


theorem variable_unrecognized (tm : Tm) (name : List Char) (h : name ∉ recognized) :
    variable_ tm name = some (OPEN ++ name ++ CLOSE) := by
  simp only [recognized, List.map_cons, List.map_nil, List.mem_cons, List.mem_singleton,
    List.not_mem_nil, or_false, not_or] at h
  unfold variable_
  simp only [h, if_false]

/-- An index within the table reads an entry. -/
theorem tableAt_some (table : List String) (i : Int) (h0 : 0 ≤ i) (h : i.toNat < table.length) :
    ∃ v, tableAt table i = some v := by
  unfold tableAt
  rw [if_neg (by omega), List.get?_eq_get h]
  exact ⟨_, rfl⟩

theorem toUnsigned_small (d : Int) (h0 : 0 ≤ d) (h : d < 4294967296) :
    ((toUnsigned d : Nat) : Int) = d := by
  unfold toUnsigned
  rw [Int.emod_eq_of_lt h0 h]
  exact Int.toNat_of_nonneg h0

/-- From a year that is not negative, `year_cn_loop` reads within its table. -/
theorem year_cn_loop_defined (fuel : Nat) (year bit : Int) (res : List Char) (h : 0 ≤ year) :
    ∃ v, year_cn_loop fuel year bit res = some v := by
  induction fuel generalizing year bit res with
  | zero => exact ⟨_, rfl⟩
  | succ fuel ih =>
    rw [year_cn_loop]
    split_ifs with hc
    · have h1 : 0 ≤ year.tmod 10 := Int.tmod_nonneg _ h
      have h2 : year.tmod 10 < 10 := Int.tmod_lt_of_pos _ (by decide)
      obtain ⟨d, hd⟩ := tableAt_some ["〇", "一", "二", "三", "四", "五", "六", "七", "八", "九"]
        (year.tmod 10) h1 (by simp only [List.length_cons, List.length_nil]; omega)
      rw [hd]
      exact ih _ _ _ (Int.tdiv_nonneg h (by decide))
    · exact ⟨_, rfl⟩

theorem year_cn_defined (tm : Tm) (yy : Bool) (h : 0 ≤ tm.tm_year + 1900) :
    ∃ v, year_cn tm yy = some v := by
  unfold year_cn
  dsimp only
  apply year_cn_loop_defined
  split_ifs
  · exact Int.tmod_nonneg _ h
  · exact h

theorem hour_cn_defined (i : Nat) (h : i ≤ 23) : ∃ v, hour_cn i = some v := by
  unfold hour_cn
  exact tableAt_some _ _ (by omega) (by simp only [List.length_cons, List.length_nil]; omega)

theorem day_cn_defined (tm : Tm) (h0 : 0 ≤ tm.tm_mday) (h : tm.tm_mday ≤ 39) :
    ∃ v, day_cn tm = some v := by
  unfold day_cn
  dsimp only
  have hu := toUnsigned_small tm.tm_mday h0 (by omega)
  obtain ⟨a, ha⟩ := tableAt_some day_num ((toUnsigned tm.tm_mday / 10 + 10 : Nat) : Int)
    (by omega) (by simp only [day_num, List.length_cons, List.length_nil]; omega)
  obtain ⟨b, hb⟩ := tableAt_some day_num ((toUnsigned tm.tm_mday % 10 : Nat) : Int)
    (by omega) (by simp only [day_num, List.length_cons, List.length_nil]; omega)
  rw [ha, hb]
  exact ⟨_, rfl⟩

theorem minsec_cn_defined (i : Nat) (h : i ≤ 59) : ∃ v, minsec_cn i = some v := by
  unfold minsec_cn
  obtain ⟨a, ha⟩ := tableAt_some minsec_num ((i / 10 + 10 : Nat) : Int)
    (by omega) (by simp only [minsec_num, List.length_cons, List.length_nil]; omega)
  obtain ⟨b, hb⟩ := tableAt_some minsec_num ((i % 10 : Nat) : Int)
    (by omega) (by simp only [minsec_num, List.length_cons, List.length_nil]; omega)
  rw [ha, hb]
  exact ⟨_, rfl⟩

/-- At a clock reading within the tables `variable_` has a result for every name. -/
theorem variable_defined (tm : Tm) (h : Tm.WithinTables tm) (name : List Char) :
    ∃ v, variable_ tm name = some v := by
  obtain ⟨⟨hs0, hs1⟩, ⟨hm0, hm1⟩, ⟨hh0, hh1⟩, ⟨hd0, hd1⟩, ⟨hn0, hn1⟩, hy, ⟨hw0, hw1⟩⟩ := h
  have us := toUnsigned_small tm.tm_sec hs0 (by omega)
  have um := toUnsigned_small tm.tm_min hm0 (by omega)
  have uh := toUnsigned_small tm.tm_hour hh0 (by omega)
  have h12a : 0 ≤ tm.tm_hour.tmod 12 := Int.tmod_nonneg _ hh0
  have h12b : tm.tm_hour.tmod 12 < 12 := Int.tmod_lt_of_pos _ (by decide)
  have uh12 := toUnsigned_small (tm.tm_hour.tmod 12) h12a (by omega)
  by_cases hr : name ∈ recognized
  · simp only [recognized, List.map_cons, List.map_nil, List.mem_cons, List.mem_singleton,
      List.not_mem_nil, or_false] at hr
    rcases hr with rfl | rfl | rfl | rfl | rfl | rfl | rfl | rfl | rfl | rfl | rfl | rfl | rfl |
      rfl | rfl | rfl | rfl | rfl | rfl | rfl | rfl | rfl
    · exact ⟨_, rfl⟩
    · exact ⟨_, rfl⟩
    · exact ⟨_, rfl⟩
    · exact ⟨_, rfl⟩
    · exact ⟨_, rfl⟩
    · exact ⟨_, rfl⟩
    · exact ⟨_, rfl⟩
    · exact ⟨_, rfl⟩
    · exact ⟨_, rfl⟩
    · exact ⟨_, rfl⟩
    · exact ⟨_, rfl⟩
    · exact ⟨_, rfl⟩
    · exact year_cn_defined tm false hy
    · exact year_cn_defined tm true hy
    · exact tableAt_some _ _ hn0 (by simp only [List.length_cons, List.length_nil]; omega)
    · exact day_cn_defined tm (by omega) (by omega)
    · exact tableAt_some _ _ hw0 (by simp only [List.length_cons, List.length_nil]; omega)
    · exact hour_cn_defined _ (by omega)
    · exact hour_cn_defined _ (by omega)
    · exact ⟨_, rfl⟩
    · exact minsec_cn_defined _ (by omega)
    · exact minsec_cn_defined _ (by omega)
  · exact ⟨_, variable_unrecognized tm name hr⟩

/-- The text accumulated before a round is a prefix of the result. -/
theorem textLoop_result (tm : Tm) (t : List Char) (fuel s pos : Nat) (res : List Char) :
    textLoop tm t fuel s pos res = (textLoop tm t fuel s pos []).map (fun x => res ++ x) := by
  induction fuel generalizing s pos res with
  | zero => rfl
  | succ fuel ih =>
    simp only [textLoop]
    split_ifs with h2 h0
    · simp
    · cases find t OPEN pos with
      | none =>
        simp only
        rw [ih 2 pos (res ++ _), ih 2 pos ([] ++ _)]
        simp [Option.map_map, Function.comp_def]
      | some k =>
        simp only
        rw [ih 1 _ (res ++ _), ih 1 _ ([] ++ _)]
        simp [Option.map_map, Function.comp_def]
    · cases find t CLOSE pos with
      | none =>
        simp only
        rw [ih 2 pos (res ++ _ ++ _), ih 2 pos ([] ++ _ ++ _)]
        simp [Option.map_map, Function.comp_def]
      | some k =>
        simp only
        cases variable_ tm (substr t pos (k - pos)) with
        | none => rfl
        | some v =>
          simp only
          rw [ih 0 _ (res ++ _), ih 0 _ ([] ++ _)]
          simp [Option.map_map, Function.comp_def]

/-- A round on `a ++ r` at a position inside `r` is the round on `r`. -/
theorem textLoop_suffix (tm : Tm) (a r : List Char) (fuel s pos : Nat) (res : List Char) :
    textLoop tm (a ++ r) fuel s (a.length + pos) res = textLoop tm r fuel s pos res := by
  induction fuel generalizing s pos res with
  | zero => rfl
  | succ fuel ih =>
    simp only [textLoop]
    split_ifs with h2 h0
    · rfl
    · rw [find_append_shift]
      cases find r OPEN pos with
      | none =>
        simp only [Option.map_none']
        rw [ih 2 pos, List.drop_append]
      | some k =>
        simp only [Option.map_some']
        have e1 : a.length + k + 2 = a.length + (k + 2) := by omega
        have e2 : substr (a ++ r) (a.length + pos) (a.length + k - (a.length + pos)) =
            substr r pos (k - pos) := by
          unfold substr
          rw [List.drop_append]
          congr 1
          omega
        rw [e1, e2, ih 1 (k + 2)]
    · rw [find_append_shift]
      cases find r CLOSE pos with
      | none =>
        simp only [Option.map_none']
        rw [ih 2 pos, List.drop_append]
      | some k =>
        simp only [Option.map_some']
        have e1 : a.length + k + 1 = a.length + (k + 1) := by omega
        have e2 : substr (a ++ r) (a.length + pos) (a.length + k - (a.length + pos)) =
            substr r pos (k - pos) := by
          unfold substr
          rw [List.drop_append]
          congr 1
          omega
        rw [e1, e2]
        cases variable_ tm (substr r pos (k - pos)) with
        | none => rfl
        | some v =>
          simp only
          rw [ih 0 (k + 1)]

/-- Past `|t| - pos + 2` rounds the result of the loop does not depend on the number of
rounds allowed: the loop has reached the state 2, or a `variable_` without a result. -/
theorem textLoop_fuel (tm : Tm) (t : List Char) (fuel fuel' s pos : Nat) (res : List Char)
    (hpos : pos ≤ t.length) (hf : t.length - pos + 2 ≤ fuel) (hf' : t.length - pos + 2 ≤ fuel') :
    textLoop tm t fuel s pos res = textLoop tm t fuel' s pos res := by
  induction fuel generalizing fuel' s pos res with
  | zero => omega
  | succ fuel ih =>
    cases fuel' with
    | zero => omega
    | succ fuel' =>
      rw [textLoop, textLoop]
      split_ifs with h2 h0
      · rfl
      · cases hfd : find t OPEN pos with
        | none =>
          simp only
          cases fuel with
          | zero => omega
          | succ fuel =>
            cases fuel' with
            | zero => omega
            | succ fuel' => rw [textLoop, textLoop, if_pos rfl, if_pos rfl]
        | some k =>
          simp only
          obtain ⟨_, pre, post, hs, hk, _, _⟩ := find_some t OPEN pos k hfd
          have hlen := congrArg List.length hs
          simp only [List.length_drop, List.length_append, OPEN, List.length_cons,
            List.length_nil] at hlen
          exact ih fuel' 1 (k + 2) _ (by omega) (by omega) (by omega)
      · cases hfd : find t CLOSE pos with
        | none =>
          simp only
          cases fuel with
          | zero => omega
          | succ fuel =>
            cases fuel' with
            | zero => omega
            | succ fuel' => rw [textLoop, textLoop, if_pos rfl, if_pos rfl]
        | some k =>
          simp only
          obtain ⟨_, pre, post, hs, hk, _, _⟩ := find_some t CLOSE pos k hfd
          have hlen := congrArg List.length hs
          simp only [List.length_drop, List.length_append, CLOSE, List.length_cons,
            List.length_nil] at hlen
          cases variable_ tm (substr t pos (k - pos)) with
          | none => rfl
          | some v =>
            simp only
            exact ih fuel' 0 (k + 1) _ (by omega) (by omega) (by omega)

/-- The loop terminates: from a position within the text, `|t| - pos + 2` rounds reach the
state 2, at a clock reading at which `variable_` has a result for every name. -/
theorem textLoop_terminates (tm : Tm) (hv : ∀ name, ∃ v, variable_ tm name = some v)
    (t : List Char) (fuel s pos : Nat) (res : List Char)
    (hpos : pos ≤ t.length) (hf : t.length - pos + 2 ≤ fuel) :
    ∃ x, textLoop tm t fuel s pos res = some x := by
  induction fuel generalizing s pos res with
  | zero => omega
  | succ fuel ih =>
    rw [textLoop]
    split_ifs with h2 h0
    · exact ⟨_, rfl⟩
    · cases hfd : find t OPEN pos with
      | none =>
        simp only
        cases fuel with
        | zero => omega
        | succ fuel => exact ⟨_, by rw [textLoop, if_pos rfl]⟩
      | some k =>
        simp only
        obtain ⟨_, pre, post, hs, hk, _, _⟩ := find_some t OPEN pos k hfd
        have hlen := congrArg List.length hs
        simp only [List.length_drop, List.length_append, OPEN, List.length_cons,
          List.length_nil] at hlen
        exact ih 1 (k + 2) _ (by omega) (by omega)
    · cases hfd : find t CLOSE pos with
      | none =>
        simp only
        cases fuel with
        | zero => omega
        | succ fuel => exact ⟨_, by rw [textLoop, if_pos rfl]⟩
      | some k =>
        simp only
        obtain ⟨_, pre, post, hs, hk, _, _⟩ := find_some t CLOSE pos k hfd
        have hlen := congrArg List.length hs
        simp only [List.length_drop, List.length_append, CLOSE, List.length_cons,
          List.length_nil] at hlen
        obtain ⟨v, hvv⟩ := hv (substr t pos (k - pos))
        rw [hvv]
        exact ih 0 (k + 1) _ (by omega) (by omega)

/-- The function `text` returns at every clock reading within the tables. -/
theorem text_terminates (tm : Tm) (h : Tm.WithinTables tm) (t : List Char) :
    ∃ x, text tm t = some x :=
  textLoop_terminates tm (variable_defined tm h) t _ 0 0 [] (Nat.zero_le _) (by omega)

/-- One placeholder: for a template `p ++ OPEN ++ n ++ CLOSE ++ r` where `p` holds no opening
mark and `n` no closing brace, `text` is `p ++ variable (n) ++ text (r)`, and has no result
exactly when `variable (n)` or `text (r)` has none. -/
theorem text_placeholder (tm : Tm) (p n r : List Char) (hp : ¬ OPEN <:+: p)
    (hn : Char.ofNat 125 ∉ n) :
    text tm (p ++ OPEN ++ n ++ CLOSE ++ r) =
      (variable_ tm n).bind (fun v => (text tm r).map (fun x => p ++ v ++ x)) := by
  have hlen : (p ++ OPEN ++ n ++ CLOSE ++ r).length = p.length + 2 + n.length + 1 + r.length := by
    simp only [List.length_append, OPEN, CLOSE, List.length_cons, List.length_nil]
  have hopen : find (p ++ OPEN ++ n ++ CLOSE ++ r) OPEN 0 = some p.length := by
    unfold find
    rw [if_neg (by omega)]
    have := findAux_open p (n ++ CLOSE ++ r) 0 hp
    simp only [List.drop_zero, List.append_assoc, Nat.zero_add] at this ⊢
    exact this
  have hclose : find (p ++ OPEN ++ n ++ CLOSE ++ r) CLOSE (p.length + 2) =
      some (p.length + 2 + n.length) := by
    have h1 : p ++ OPEN ++ n ++ CLOSE ++ r = (p ++ OPEN) ++ (n ++ CLOSE ++ r) := by
      simp only [List.append_assoc]
    have h2 : (p ++ OPEN).length = p.length + 2 := by simp [OPEN]
    rw [h1, ← h2, ← Nat.add_zero (p ++ OPEN).length, find_append_shift]
    unfold find
    rw [if_neg (by omega)]
    rw [List.drop_zero, findAux_close n r 0 hn]
    simp
  have hsub1 : substr (p ++ OPEN ++ n ++ CLOSE ++ r) 0 (p.length - 0) = p := by
    unfold substr
    simp [List.append_assoc]
  have hsub2 : substr (p ++ OPEN ++ n ++ CLOSE ++ r) (p.length + 2)
      (p.length + 2 + n.length - (p.length + 2)) = n := by
    unfold substr
    have h1 : p ++ OPEN ++ n ++ CLOSE ++ r = (p ++ OPEN) ++ (n ++ (CLOSE ++ r)) := by
      simp only [List.append_assoc]
    have h2 : (p ++ OPEN).length = p.length + 2 := by simp [OPEN]
    rw [h1, ← h2, List.drop_left]
    simp
  unfold text
  rw [hlen]
  rw [show p.length + 2 + n.length + 1 + r.length + 3 =
    (p.length + 2 + n.length + 1 + r.length + 1) + 1 + 1 from by omega]
  rw [textLoop, if_neg (by decide), if_pos rfl, hopen]
  simp only
  rw [textLoop, if_neg (by decide), if_neg (by decide), hclose]
  simp only
  rw [hsub1, hsub2]
  cases variable_ tm n with
  | none => rfl
  | some v =>
    simp only [Option.some_bind]
    have h3 : p ++ OPEN ++ n ++ CLOSE ++ r = (p ++ OPEN ++ n ++ CLOSE) ++ r := rfl
    have h4 : p.length + 2 + n.length + 1 = (p ++ OPEN ++ n ++ CLOSE).length + 0 := by
      simp only [List.length_append, OPEN, CLOSE, List.length_cons, List.length_nil]
    rw [h3, h4, textLoop_suffix, textLoop_result]
    rw [textLoop_fuel tm r ((p ++ OPEN ++ n ++ CLOSE).length + 0 + r.length + 1) (r.length + 3)
      0 0 [] (Nat.zero_le _)
      (by simp only [List.length_append, OPEN, CLOSE, List.length_cons, List.length_nil]; omega)
      (by omega)]
    cases textLoop tm r (r.length + 3) 0 0 [] with
    | none => rfl
    | some x => simp

/-- C15 holds wherever `variable` has a result, and fails in the code at a leap second: for
every clock reading and every template `p ++ OPEN ++ n ++ CLOSE ++ r` where `p` holds no
opening mark and `n` no closing brace, `text` returns `p ++ variable (n) ++ text (r)`, and
has no defined result exactly when `variable (n)` or `text (r)` has none; at every clock
reading within the tables `variable (n)`, `text (r)` and `text` of the template do return;
`variable` maps `year`, `month` and `day` to the unpadded decimal texts of `tm_year + 1900`,
`tm_mon + 1` and `tm_mday` at every clock reading; the template
`今天是$\x7byear\x7d年$\x7bmonth\x7d月$\x7bday\x7d日` at the local date 2011-03-05 renders
`今天是2011年3月5日`. At `tm_sec = 60` the call `minsec_cn (60)` reads the entry 16 of its
table of sixteen entries, so `variable` of `second_cn` and `text` of the template
`$\x7bsecond_cn\x7d` have no defined result, however many rounds the loop is allowed. -/
theorem C15_text_substitutes (tm : Tm) (p n r : List Char) (hp : ¬ OPEN <:+: p)
    (hn : Char.ofNat 125 ∉ n) :
    text tm (p ++ OPEN ++ n ++ CLOSE ++ r) =
      (variable_ tm n).bind (fun v => (text tm r).map (fun x => p ++ v ++ x)) ∧
    (Tm.WithinTables tm → ∃ v x, variable_ tm n = some v ∧ text tm r = some x ∧
      text tm (p ++ OPEN ++ n ++ CLOSE ++ r) = some (p ++ v ++ x)) ∧
    variable_ tm "year".toList = some (decimalText (tm.tm_year + 1900)) ∧
    variable_ tm "month".toList = some (decimalText (tm.tm_mon + 1)) ∧
    variable_ tm "day".toList = some (decimalText tm.tm_mday) ∧
    text tm20110305 "今天是$\x7byear\x7d年$\x7bmonth\x7d月$\x7bday\x7d日".toList =
      some "今天是2011年3月5日".toList ∧
    minsec_num.length = 16 ∧ toUnsigned tmLeapSecond.tm_sec / 10 + 10 = 16 ∧
    tableAt minsec_num 16 = none ∧ minsec_cn (toUnsigned tmLeapSecond.tm_sec) = none ∧
    variable_ tmLeapSecond "second_cn".toList = none ∧
    text tmLeapSecond "$\x7bsecond_cn\x7d".toList = none ∧
    ∀ fuel, textLoop tmLeapSecond "$\x7bsecond_cn\x7d".toList fuel 0 0 [] = none := by
  have h1 := text_placeholder tm p n r hp hn
  refine ⟨h1, ?_, rfl, rfl, rfl, by decide, by decide, by decide, by decide, by decide,
    by decide, by decide, ?_⟩
  · intro hw
    obtain ⟨v, hv⟩ := variable_defined tm hw n
    obtain ⟨x, hx⟩ := text_terminates tm hw r
    refine ⟨v, x, hv, hx, ?_⟩
    rw [h1, hv, hx]
    rfl
  · intro fuel
    match fuel with
    | 0 => rfl
    | 1 => rfl
    | fuel + 2 => rfl

/-- C15 at the template `今天$\x7bmonth\x7d月` and the date 2011-03-05, a clock reading within
the tables. -/
theorem C15_witness :
    text tm20110305 ("今天".toList ++ OPEN ++ "month".toList ++ CLOSE ++ "月".toList) =
      some "今天3月".toList ∧
    ∃ v x, variable_ tm20110305 "month".toList = some v ∧ text tm20110305 "月".toList = some x ∧
      text tm20110305 ("今天".toList ++ OPEN ++ "month".toList ++ CLOSE ++ "月".toList) =
        some ("今天".toList ++ v ++ x) :=
  ⟨((C15_text_substitutes tm20110305 "今天".toList "month".toList "月".toList (by decide)
    (by decide)).1).trans (by decide),
   (C15_text_substitutes tm20110305 "今天".toList "month".toList "月".toList (by decide)
    (by decide)).2.1 (by decide)⟩

/-- C16 fails in the code: for every clock reading `variable` does not recognize the name
`halfhour` and returns the placeholder itself, so `text` leaves `$\x7bhalfhour\x7d` in place;
only the name `falfhour` is substituted by the hour modulo 12 in the format `%02d` (`02` at
14 o'clock). -/
theorem C16_halfhour_left_verbatim (tm : Tm) :
    variable_ tm "halfhour".toList = some (OPEN ++ "halfhour".toList ++ CLOSE) ∧
    text tm "$\x7bhalfhour\x7d".toList = some "$\x7bhalfhour\x7d".toList ∧
    variable_ tm "falfhour".toList = some (dec (tm.tm_hour.tmod 12) DecFmt.zero2) ∧
    text tm20110305 "$\x7bfalfhour\x7d".toList = some "02".toList :=
  ⟨rfl, rfl, rfl, by decide⟩

/-- C17 fails in the code: the table of `minsec_cn` has sixteen entries, because the
literals `四十` and `五十` are one entry; every index used for a value up to 59 is within
the table, but 45 renders `四十五十五` instead of `四十五` and 50 renders `六十` instead of
`五十`, and so do the placeholders `minute_cn` and `second_cn` at 14:45:50. -/
theorem C17_minsec_cn_merged_entry :
    minsec_num.length = 16 ∧
    (List.range 60).all (fun v =>
      decide (v / 10 + 10 < minsec_num.length ∧ v % 10 < minsec_num.length)) = true ∧
    minsec_cn 45 = some "四十五十五".toList ∧ minsec_cn 45 ≠ some "四十五".toList ∧
    minsec_cn 50 = some "六十".toList ∧ minsec_cn 50 ≠ some "五十".toList ∧
    variable_ tm20110305 "minute_cn".toList = some "四十五十五".toList ∧
    variable_ tm20110305 "second_cn".toList = some "六十".toList := by
  decide

/-! ## The conditions of a database query -/

/-- C18 fails in the code: for the syllables `ci` (initial `c`, alternative `ch`) and `la`
(initial `l`, alternatives `n` and `r`) with the options `c→ch`, `l→n` and `l→r` set, all
three alternatives are enabled, and `Database::query` builds six disjuncts of which two
pairs are equal: no disjunct is the conjunction for `c` with `n`, and none the conjunction
for `ch` with `r`. -/
theorem C18_triple_loses_combinations :
    pinyin_option_check_sheng demoConsts (2 ^ 1 + 2 ^ 7 + 2 ^ 11) 2 3 = true ∧
    pinyin_option_check_sheng demoConsts (2 ^ 1 + 2 ^ 7 + 2 ^ 11) 10 12 = true ∧
    pinyin_option_check_sheng demoConsts (2 ^ 1 + 2 ^ 7 + 2 ^ 11) 10 15 = true ∧
    queryConditions demoConsts [pinyinCi, pinyinLa] 0 2 (2 ^ 1 + 2 ^ 7 + 2 ^ 11) =
      [[Piece.sEq 0 2, Piece.yEq 0 34, Piece.and_, Piece.sEq 1 10, Piece.yEq 1 24],
       [Piece.sEq 0 3, Piece.yEq 0 34, Piece.and_, Piece.sEq 1 10, Piece.yEq 1 24],
       [Piece.sEq 0 3, Piece.yEq 0 34, Piece.and_, Piece.sEq 1 12, Piece.yEq 1 24],
       [Piece.sEq 0 3, Piece.yEq 0 34, Piece.and_, Piece.sEq 1 12, Piece.yEq 1 24],
       [Piece.sEq 0 2, Piece.yEq 0 34, Piece.and_, Piece.sEq 1 15, Piece.yEq 1 24],
       [Piece.sEq 0 2, Piece.yEq 0 34, Piece.and_, Piece.sEq 1 15, Piece.yEq 1 24]] ∧
    [Piece.sEq 0 2, Piece.yEq 0 34, Piece.and_, Piece.sEq 1 12, Piece.yEq 1 24] ∉
      queryConditions demoConsts [pinyinCi, pinyinLa] 0 2 (2 ^ 1 + 2 ^ 7 + 2 ^ 11) ∧
    [Piece.sEq 0 3, Piece.yEq 0 34, Piece.and_, Piece.sEq 1 15, Piece.yEq 1 24] ∉
      queryConditions demoConsts [pinyinCi, pinyinLa] 0 2 (2 ^ 1 + 2 ^ 7 + 2 ^ 11) := by
  decide

theorem switchOn_clear (cases : List FuzzyCase) (option value : Nat)
    (h : ∀ c ∈ cases, option &&& c.flag = 0) : switchOn cases option value = false := by
  unfold switchOn
  cases hf : cases.find? (fun c => c.key == value) with
  | none => rfl
  | some c =>
    have hc := List.mem_of_find?_eq_some hf
    simp [h c hc]

theorem appendAux_all (p : Piece) (c : Conditions) (i last : Nat) (h : i + c.length ≤ last) :
    appendAux p 0 last i c = c.map (fun d => d ++ [p]) := by
  induction c generalizing i with
  | nil => rfl
  | cons d c ih =>
    simp only [List.length_cons] at h
    simp only [appendAux, List.map_cons]
    rw [if_pos ⟨Nat.zero_le _, by omega⟩, ih (i + 1) (by omega)]

theorem appendPrintf_all (p : Piece) (c : Conditions) :
    c.appendPrintf 0 c.length p = c.map (fun d => d ++ [p]) :=
  appendAux_all p c 0 c.length (by omega)

theorem queryStep_clear (k : PinyinConsts) (pinyin : List Pinyin) (pinyin_begin option : Nat)
    (h : FuzzyClear k option) (d : Condition) (i : Nat) :
    queryStep k pinyin pinyin_begin option [d] i =
      [d ++ ((if i > 0 then [Piece.and_] else []) ++
        [Piece.sEq i ((pinyin.getD (i + pinyin_begin) default).shengId 0)] ++
        (if (pinyin.getD (i + pinyin_begin) default).yunId 0 ≠ k.PINYIN_ID_ZERO then
          [Piece.yEq i ((pinyin.getD (i + pinyin_begin) default).yunId 0)] else []))] := by
  have hs : ∀ v, switchOn (shengCases k) option v = false := fun v =>
    switchOn_clear _ _ _ (fun c hc => h c (List.mem_append_left _ hc))
  have hy : ∀ v, switchOn (yunCases k) option v = false := fun v =>
    switchOn_clear _ _ _ (fun c hc => h c (List.mem_append_right _ hc))
  unfold queryStep shengStep yunStep
  simp only [pinyin_option_check_sheng, pinyin_option_check_yun, hs, hy, Bool.or_self,
    Bool.false_eq_true, if_false, Pinyin.shengId, Pinyin.yunId]
  by_cases hi : i > 0 <;> simp only [hi, if_true, if_false, appendPrintf, appendAux] <;>
    split_ifs <;> simp_all

/-- C19: with every fuzzy option bit clear, for every pinyin sub-sequence `Database::query`
builds exactly one disjunct, the conjunction over the positions `i` of `s_i =` the primary
initial and, when the primary final is not the zero final, `y_i =` the primary final; the
entries 1 and 2 of `pinyin_id` do not occur in it. -/
theorem C19_no_fuzzy_single_disjunct (k : PinyinConsts) (pinyin : List Pinyin)
    (pinyin_begin pinyin_len option : Nat) (h : FuzzyClear k option) :
    queryConditions k pinyin pinyin_begin pinyin_len option =
      [primaryCondition k pinyin pinyin_begin pinyin_len] := by
  unfold queryConditions primaryCondition
  induction pinyin_len with
  | zero => rfl
  | succ n ih =>
    rw [List.range_succ, List.foldl_append, ih, List.flatMap_append]
    simp only [List.foldl_cons, List.foldl_nil, List.flatMap_cons, List.flatMap_nil,
      List.append_nil]
    rw [queryStep_clear k pinyin pinyin_begin option h]

/-- C19 at the syllables `ci la` with only the option bit 0 set. -/
theorem C19_witness :
    queryConditions demoConsts [pinyinCi, pinyinLa] 0 2 1 =
        [primaryCondition demoConsts [pinyinCi, pinyinLa] 0 2] ∧
      primaryCondition demoConsts [pinyinCi, pinyinLa] 0 2 =
        [Piece.sEq 0 2, Piece.yEq 0 34, Piece.and_, Piece.sEq 1 10, Piece.yEq 1 24] :=
  ⟨C19_no_fuzzy_single_disjunct demoConsts [pinyinCi, pinyinLa] 0 2 1 (by decide), by decide⟩

theorem occurs_cons (q : Piece) (d : Condition) (c : Conditions) :
    Occurs q (d :: c) ↔ q ∈ d ∨ Occurs q c := by simp [Occurs]

theorem occurs_append (q : Piece) (c1 c2 : Conditions) :
    Occurs q (c1 ++ c2) ↔ Occurs q c1 ∨ Occurs q c2 := by
  simp only [Occurs, List.mem_append]
  constructor
  · rintro ⟨d, h | h, hq⟩
    · exact Or.inl ⟨d, h, hq⟩
    · exact Or.inr ⟨d, h, hq⟩
  · rintro (⟨d, h, hq⟩ | ⟨d, h, hq⟩)
    · exact ⟨d, Or.inl h, hq⟩
    · exact ⟨d, Or.inr h, hq⟩

theorem occurs_double (q : Piece) (c : Conditions) : Occurs q c.double_ ↔ Occurs q c := by
  rw [double_, occurs_append]
  simp [Occurs]

theorem occurs_triple (q : Piece) (c : Conditions) : Occurs q c.triple ↔ Occurs q c := by
  rw [triple, occurs_append]
  simp only [Occurs, List.mem_flatMap, List.mem_reverse]
  constructor
  · rintro (h | ⟨d, ⟨a, ha, hd⟩, hq⟩)
    · exact h
    · refine ⟨a, ha, ?_⟩
      simp at hd
      rw [← hd]; exact hq
  · intro h; exact Or.inl h

theorem length_double (c : Conditions) : c.double_.length = c.length + c.length := by
  simp [double_]

theorem length_pairs (l : Conditions) :
    (l.flatMap (fun value => [value, value])).length = l.length + l.length := by
  induction l with
  | nil => rfl
  | cons d l ih => simp only [List.flatMap_cons, List.length_append, ih, List.length_cons,
      List.length_nil]; omega

theorem length_triple (c : Conditions) : c.triple.length = c.length + (c.length + c.length) := by
  rw [triple, List.length_append, length_pairs, List.length_reverse]

theorem length_appendAux (p : Piece) (b e : Nat) (c : Conditions) (i : Nat) :
    (appendAux p b e i c).length = c.length := by
  induction c generalizing i with
  | nil => rfl
  | cons d c ih => simp [appendAux, ih]

theorem length_appendPrintf (p : Piece) (b e : Nat) (c : Conditions) :
    (c.appendPrintf b e p).length = c.length := length_appendAux p b e c 0

theorem occurs_appendAux (q p : Piece) (b e : Nat) (c : Conditions) (i : Nat) :
    Occurs q (appendAux p b e i c) ↔
      Occurs q c ∨ (q = p ∧ ∃ j, j < c.length ∧ b ≤ i + j ∧ i + j < e) := by
  induction c generalizing i with
  | nil => simp [appendAux, Occurs]
  | cons d c ih =>
    rw [appendAux, occurs_cons, occurs_cons, ih (i + 1)]
    constructor
    · rintro (h | h | ⟨hq, j, hj, h1, h2⟩)
      · split at h
        · rename_i hc
          rcases List.mem_append.1 h with h | h
          · exact Or.inl (Or.inl h)
          · exact Or.inr ⟨by simpa using h, 0, by simp, by simpa using hc.1, by simpa using hc.2⟩
        · exact Or.inl (Or.inl h)
      · exact Or.inl (Or.inr h)
      · exact Or.inr ⟨hq, j + 1, by simpa using hj, by omega, by omega⟩
    · rintro ((h | h) | ⟨hq, j, hj, h1, h2⟩)
      · left; split
        · exact List.mem_append_left _ h
        · exact h
      · exact Or.inr (Or.inl h)
      · cases j with
        | zero =>
          left
          rw [if_pos ⟨by simpa using h1, by simpa using h2⟩]
          simp [hq]
        | succ j =>
          right; right
          exact ⟨hq, j, by simpa using hj, by omega, by omega⟩

theorem occurs_appendPrintf (q p : Piece) (b e : Nat) (c : Conditions) :
    Occurs q (c.appendPrintf b e p) ↔
      Occurs q c ∨ (q = p ∧ ∃ j, j < c.length ∧ b ≤ j ∧ j < e) := by
  simpa [appendPrintf] using occurs_appendAux q p b e c 0

theorem occurs_appendPrintf_ne (q p : Piece) (b e : Nat) (c : Conditions) (h : q ≠ p) :
    Occurs q (c.appendPrintf b e p) ↔ Occurs q c := by
  rw [occurs_appendPrintf]; simp [h]


theorem shengStep_length_pos (k : PinyinConsts) (option i : Nat) (p : Pinyin) (c : Conditions)
    (hc : 0 < c.length) : 0 < (shengStep k option i p c).length := by
  unfold shengStep
  dsimp only
  split_ifs <;> simp only [length_appendPrintf, length_double, length_triple] <;> omega

/-- The initial pieces of position `i` after the initial clause, below the index bound. -/
theorem occurs_shengStep (k : PinyinConsts) (option i v : Nat) (p : Pinyin) (c : Conditions)
    (hc : 0 < c.length) (hi : i < DB_INDEX_SIZE) :
    Occurs (Piece.sEq i v) (shengStep k option i p c) ↔
      Occurs (Piece.sEq i v) c ∨ v = p.shengId 0 ∨
        (pinyin_option_check_sheng k option (p.shengId 0) (p.shengId 1) = true ∧
          v = p.shengId 1) ∨
        (pinyin_option_check_sheng k option (p.shengId 0) (p.shengId 2) = true ∧
          v = p.shengId 2) := by
  unfold shengStep
  simp only [← Pinyin.shengId.eq_1]
  cases h1 : pinyin_option_check_sheng k option (p.shengId 0) (p.shengId 1) <;>
    cases h2 : pinyin_option_check_sheng k option (p.shengId 0) (p.shengId 2) <;>
    simp only [hi, if_true, Bool.or_self, Bool.or_true, Bool.or_false, Bool.and_self,
      Bool.not_true, Bool.not_false, Bool.and_true, Bool.and_false, Bool.false_eq_true,
      if_false, false_and, true_and, or_false, false_or, occurs_appendPrintf,
      length_appendPrintf, length_double, length_triple, occurs_double, occurs_triple,
      Piece.sEq.injEq, true_and, Nat.shiftRight_eq_div_pow, Nat.shiftLeft_eq]
  · constructor
    · rintro (h | ⟨h, _⟩)
      · exact Or.inl h
      · exact Or.inr h
    · rintro (h | h)
      · exact Or.inl h
      · exact Or.inr ⟨h, 0, hc, Nat.le_refl _, hc⟩
  · constructor
    · rintro ((h | ⟨h, _⟩) | ⟨h, _⟩)
      · exact Or.inl h
      · exact Or.inr (Or.inl h)
      · exact Or.inr (Or.inr h)
    · rintro (h | h | h)
      · exact Or.inl (Or.inl h)
      · exact Or.inl (Or.inr ⟨h, 0, by omega, Nat.zero_le _, by omega⟩)
      · exact Or.inr ⟨h, c.length, by omega, by omega, by omega⟩
  · constructor
    · rintro ((h | ⟨h, _⟩) | ⟨h, _⟩)
      · exact Or.inl h
      · exact Or.inr (Or.inl h)
      · exact Or.inr (Or.inr h)
    · rintro (h | h | h)
      · exact Or.inl (Or.inl h)
      · exact Or.inl (Or.inr ⟨h, 0, by omega, Nat.zero_le _, by omega⟩)
      · exact Or.inr ⟨h, c.length, by omega, by omega, by omega⟩
  · constructor
    · rintro (((h | ⟨h, _⟩) | ⟨h, _⟩) | ⟨h, _⟩)
      · exact Or.inl h
      · exact Or.inr (Or.inl h)
      · exact Or.inr (Or.inr (Or.inl h))
      · exact Or.inr (Or.inr (Or.inr h))
    · rintro (h | h | h | h)
      · exact Or.inl (Or.inl (Or.inl h))
      · exact Or.inl (Or.inl (Or.inr ⟨h, 0, by omega, Nat.zero_le _, by omega⟩))
      · exact Or.inl (Or.inr ⟨h, c.length, by omega, by omega, by omega⟩)
      · exact Or.inr ⟨h, c.length * 2, by omega, by omega, by omega⟩


/-- A piece that is no initial piece of position `i` occurs after the initial clause of
position `i` exactly when it occurred before. -/
theorem occurs_shengStep_frame (k : PinyinConsts) (option i : Nat) (p : Pinyin)
    (c : Conditions) (q : Piece)
    (hq : ∀ v a b, q ≠ Piece.sEq i v ∧ q ≠ Piece.sIn2 i v a ∧ q ≠ Piece.sIn3 i v a b) :
    Occurs q (shengStep k option i p c) ↔ Occurs q c := by
  have h1 : ∀ v, (q = Piece.sEq i v) = False := fun v => eq_false (hq v 0 0).1
  have h2 : ∀ v a, (q = Piece.sIn2 i v a) = False := fun v a => eq_false (hq v a 0).2.1
  have h3 : ∀ v a b, (q = Piece.sIn3 i v a b) = False := fun v a b => eq_false (hq v a b).2.2
  unfold shengStep
  dsimp only
  split_ifs <;>
    simp only [occurs_appendPrintf, occurs_double, occurs_triple, h1, h2, h3, false_and,
      or_false]

/-- A piece that is no final piece of position `i` occurs after the final clause of
position `i` exactly when it occurred before. -/
theorem occurs_yunStep_frame (k : PinyinConsts) (option i : Nat) (p : Pinyin)
    (c : Conditions) (q : Piece)
    (hq : ∀ v a, q ≠ Piece.yEq i v ∧ q ≠ Piece.yEqLower i v ∧ q ≠ Piece.yIn2 i v a) :
    Occurs q (yunStep k option i p c) ↔ Occurs q c := by
  have h1 : ∀ v, (q = Piece.yEq i v) = False := fun v => eq_false (hq v 0).1
  have h2 : ∀ v, (q = Piece.yEqLower i v) = False := fun v => eq_false (hq v 0).2.1
  have h3 : ∀ v a, (q = Piece.yIn2 i v a) = False := fun v a => eq_false (hq v a).2.2
  unfold yunStep
  dsimp only
  split_ifs <;>
    simp only [occurs_appendPrintf, occurs_double, h1, h2, h3, false_and, or_false]

/-- The final pieces of position `i` after the final clause, below the index bound. -/
theorem occurs_yunStep (k : PinyinConsts) (option i v : Nat) (p : Pinyin) (c : Conditions)
    (hc : 0 < c.length) (hi : i < DB_INDEX_SIZE) (hz : p.yunId 0 ≠ k.PINYIN_ID_ZERO) :
    (Occurs (Piece.yEq i v) (yunStep k option i p c) ↔
      Occurs (Piece.yEq i v) c ∨ v = p.yunId 0) ∧
    (Occurs (Piece.yEqLower i v) (yunStep k option i p c) ↔
      Occurs (Piece.yEqLower i v) c ∨
        (pinyin_option_check_yun k option (p.yunId 0) (p.yunId 1) = true ∧ v = p.yunId 1)) := by
  unfold yunStep
  simp only [← Pinyin.yunId.eq_1]
  cases h1 : pinyin_option_check_yun k option (p.yunId 0) (p.yunId 1) <;>
    simp only [hi, hz, ne_eq, not_false_eq_true, if_true, Bool.false_eq_true, if_false,
      false_and, true_and, or_false, occurs_appendPrintf, length_appendPrintf, length_double,
      occurs_double, Piece.yEq.injEq, Piece.yEqLower.injEq, reduceCtorEq,
      Nat.shiftRight_eq_div_pow]
  · refine ⟨?_, trivial⟩
    constructor
    · rintro (h | ⟨h, _⟩)
      · exact Or.inl h
      · exact Or.inr h
    · rintro (h | h)
      · exact Or.inl h
      · exact Or.inr ⟨h, 0, hc, Nat.le_refl _, hc⟩
  · constructor
    · constructor
      · rintro (h | ⟨h, _⟩)
        · exact Or.inl h
        · exact Or.inr h
      · rintro (h | h)
        · exact Or.inl h
        · exact Or.inr ⟨h, 0, by omega, Nat.zero_le _, by omega⟩
    · constructor
      · rintro (h | ⟨h, _⟩)
        · exact Or.inl h
        · exact Or.inr h
      · rintro (h | h)
        · exact Or.inl h
        · exact Or.inr ⟨h, c.length, by omega, by omega, by omega⟩

/-- A piece of another position is neither added nor removed by a round of the loop. -/
theorem occurs_queryStep_frame (k : PinyinConsts) (pinyin : List Pinyin)
    (pinyin_begin option : Nat) (c : Conditions) (i j : Nat) (q : Piece)
    (hq : q.index = some j) (hj : j ≠ i) :
    Occurs q (queryStep k pinyin pinyin_begin option c i) ↔ Occurs q c := by
  have hne : ∀ p : Piece, p.index = some i → q ≠ p := by
    intro p hp h
    rw [h, hp] at hq
    exact hj (Option.some.inj hq).symm
  have hand : q ≠ Piece.and_ := by
    intro h
    rw [h] at hq
    exact Option.noConfusion hq
  unfold queryStep
  dsimp only
  rw [occurs_yunStep_frame _ _ _ _ _ _ (fun v a => ⟨hne _ rfl, hne _ rfl, hne _ rfl⟩),
    occurs_shengStep_frame _ _ _ _ _ _ (fun v a b => ⟨hne _ rfl, hne _ rfl, hne _ rfl⟩)]
  split_ifs
  · exact occurs_appendPrintf_ne _ _ _ _ _ hand
  · exact Iff.rfl

theorem queryConditions_succ (k : PinyinConsts) (pinyin : List Pinyin)
    (pinyin_begin option n : Nat) :
    queryConditions k pinyin pinyin_begin (n + 1) option =
      queryStep k pinyin pinyin_begin option (queryConditions k pinyin pinyin_begin n option)
        n := by
  unfold queryConditions
  rw [List.range_succ, List.foldl_append]
  rfl

/-- The pieces of position 0 are those of the first round of the loop. -/
theorem occurs_queryConditions_zero (k : PinyinConsts) (pinyin : List Pinyin)
    (pinyin_begin option n : Nat) (q : Piece) (hq : q.index = some 0) :
    Occurs q (queryConditions k pinyin pinyin_begin (n + 1) option) ↔
      Occurs q (queryConditions k pinyin pinyin_begin 1 option) := by
  induction n with
  | zero => exact Iff.rfl
  | succ n ih =>
    rw [queryConditions_succ, occurs_queryStep_frame _ _ _ _ _ _ 0 _ hq (by omega)]
    exact ih

theorem queryConditions_one (k : PinyinConsts) (pinyin : List Pinyin)
    (pinyin_begin option : Nat) :
    queryConditions k pinyin pinyin_begin 1 option =
      yunStep k option 0 (pinyin.getD pinyin_begin default)
        (shengStep k option 0 (pinyin.getD pinyin_begin default) Conditions.init) := by
  rw [queryConditions_succ]
  unfold queryStep queryConditions
  simp

theorem occurs_init (q : Piece) : ¬ Occurs q Conditions.init := by
  simp [Occurs, Conditions.init]

theorem switchOn_mem (cases : List FuzzyCase) (option : Nat) (c : FuzzyCase)
    (hn : (cases.map FuzzyCase.key).Nodup) (hc : c ∈ cases) :
    switchOn cases option c.key = ((option &&& c.flag) != 0) := by
  unfold switchOn
  cases hf : cases.find? (fun x => x.key == c.key) with
  | none =>
    rw [List.find?_eq_none] at hf
    exact absurd (by simp) (hf c hc)
  | some x =>
    have hx := List.mem_of_find?_eq_some hf
    have hk := List.find?_some hf
    have : x = c := List.inj_on_of_nodup_map hn hx hc (by simpa using hk)
    rw [this]


/-- C20: the constants having distinct case labels, pairs of two different identifiers and
no zero final in a pair, for every query of at least one position: when position 0 has the
primary initial `X` and the entry 1 or 2 of `pinyin_id` has the initial `Y`, for an ordered
pair `X→Y` of `pinyin_option_check_sheng`, a disjunct with `s0=X` always exists and a
disjunct with `s0=Y` exists exactly when the option bit of `X→Y` is set (so the bit of
`Y→X` alone gives none); likewise, when position 0 has the primary final `X` and the entry 1
has the final `Y`, for an ordered pair of `pinyin_option_check_yun`, a disjunct with `y0=X`
always exists and one with `y0=Y` exactly when the bit of `X→Y` is set. -/
theorem C20_fuzzy_gated_per_direction (k : PinyinConsts) (hk : ConstsDistinct k)
    (pinyin : List Pinyin) (pinyin_begin pinyin_len option : Nat) (hlen : 0 < pinyin_len) :
    (∀ c ∈ shengCases k, (pinyin.getD pinyin_begin default).shengId 0 = c.id →
      ((pinyin.getD pinyin_begin default).shengId 1 = c.fid ∨
        (pinyin.getD pinyin_begin default).shengId 2 = c.fid) →
      Occurs (Piece.sEq 0 c.id) (queryConditions k pinyin pinyin_begin pinyin_len option) ∧
      (Occurs (Piece.sEq 0 c.fid) (queryConditions k pinyin pinyin_begin pinyin_len option) ↔
        option &&& c.flag ≠ 0)) ∧
    (∀ c ∈ yunCases k, (pinyin.getD pinyin_begin default).yunId 0 = c.id →
      (pinyin.getD pinyin_begin default).yunId 1 = c.fid →
      Occurs (Piece.yEq 0 c.id) (queryConditions k pinyin pinyin_begin pinyin_len option) ∧
      ((Occurs (Piece.yEq 0 c.fid) (queryConditions k pinyin pinyin_begin pinyin_len option) ∨
        Occurs (Piece.yEqLower 0 c.fid)
          (queryConditions k pinyin pinyin_begin pinyin_len option)) ↔
        option &&& c.flag ≠ 0)) := by
  obtain ⟨n, rfl⟩ : ∃ n, pinyin_len = n + 1 := ⟨pinyin_len - 1, by omega⟩
  obtain ⟨hns, hny, hne, hzero⟩ := hk
  have hinit : 0 < Conditions.init.length := by decide
  have h3 : 0 < DB_INDEX_SIZE := by decide
  constructor
  · intro c hc h0 hY
    have hcheck : pinyin_option_check_sheng k option c.id c.fid = ((option &&& c.flag) != 0) :=
      switchOn_mem _ option c hns hc
    have hXY : c.fid ≠ c.id := fun h => hne c (List.mem_append_left _ hc) h.symm
    have key : ∀ v, Occurs (Piece.sEq 0 v) (queryConditions k pinyin pinyin_begin (n + 1) option) ↔
        v = (pinyin.getD pinyin_begin default).shengId 0 ∨
        (pinyin_option_check_sheng k option ((pinyin.getD pinyin_begin default).shengId 0)
            ((pinyin.getD pinyin_begin default).shengId 1) = true ∧
          v = (pinyin.getD pinyin_begin default).shengId 1) ∨
        (pinyin_option_check_sheng k option ((pinyin.getD pinyin_begin default).shengId 0)
            ((pinyin.getD pinyin_begin default).shengId 2) = true ∧
          v = (pinyin.getD pinyin_begin default).shengId 2) := by
      intro v
      rw [occurs_queryConditions_zero k pinyin pinyin_begin option n (Piece.sEq 0 v) rfl,
        queryConditions_one,
        occurs_yunStep_frame _ _ _ _ _ _ (fun v a => ⟨by simp, by simp, by simp⟩),
        occurs_shengStep _ _ _ _ _ _ hinit h3]
      exact or_iff_right (occurs_init _)
    refine ⟨(key c.id).2 (Or.inl h0.symm), ?_⟩
    rw [key, h0]
    constructor
    · rintro (h | ⟨h, hv⟩ | ⟨h, hv⟩)
      · exact absurd h hXY
      · rw [← hv, hcheck] at h
        simpa using h
      · rw [← hv, hcheck] at h
        simpa using h
    · intro hbit
      have hb : pinyin_option_check_sheng k option c.id c.fid = true := by
        rw [hcheck]; simpa using hbit
      rcases hY with hY | hY
      · exact Or.inr (Or.inl ⟨by rw [hY]; exact hb, hY.symm⟩)
      · exact Or.inr (Or.inr ⟨by rw [hY]; exact hb, hY.symm⟩)
  · intro c hc h0 hY
    have hcheck : pinyin_option_check_yun k option c.id c.fid = ((option &&& c.flag) != 0) :=
      switchOn_mem _ option c hny hc
    have hXY : c.fid ≠ c.id := fun h => hne c (List.mem_append_right _ hc) h.symm
    have hz : (pinyin.getD pinyin_begin default).yunId 0 ≠ k.PINYIN_ID_ZERO := by
      rw [h0]; exact hzero c hc
    have hs : ∀ q : Piece, (∀ v a b, q ≠ Piece.sEq 0 v ∧ q ≠ Piece.sIn2 0 v a ∧
        q ≠ Piece.sIn3 0 v a b) →
        ¬ Occurs q (shengStep k option 0 (pinyin.getD pinyin_begin default) Conditions.init) := by
      intro q hq
      rw [occurs_shengStep_frame _ _ _ _ _ _ hq]
      exact occurs_init q
    have hlen1 := shengStep_length_pos k option 0 (pinyin.getD pinyin_begin default)
      Conditions.init hinit
    have keyU : ∀ v, Occurs (Piece.yEq 0 v)
        (queryConditions k pinyin pinyin_begin (n + 1) option) ↔
        v = (pinyin.getD pinyin_begin default).yunId 0 := by
      intro v
      rw [occurs_queryConditions_zero k pinyin pinyin_begin option n (Piece.yEq 0 v) rfl,
        queryConditions_one, (occurs_yunStep _ _ _ v _ _ hlen1 h3 hz).1]
      exact or_iff_right (hs (Piece.yEq 0 v) (fun v a b => ⟨by simp, by simp, by simp⟩))
    have keyL : ∀ v, Occurs (Piece.yEqLower 0 v)
        (queryConditions k pinyin pinyin_begin (n + 1) option) ↔
        (pinyin_option_check_yun k option ((pinyin.getD pinyin_begin default).yunId 0)
            ((pinyin.getD pinyin_begin default).yunId 1) = true ∧
          v = (pinyin.getD pinyin_begin default).yunId 1) := by
      intro v
      rw [occurs_queryConditions_zero k pinyin pinyin_begin option n (Piece.yEqLower 0 v) rfl,
        queryConditions_one, (occurs_yunStep _ _ _ v _ _ hlen1 h3 hz).2]
      exact or_iff_right (hs (Piece.yEqLower 0 v) (fun v a b => ⟨by simp, by simp, by simp⟩))
    refine ⟨(keyU c.id).2 h0.symm, ?_⟩
    rw [keyU, keyL, h0, hY, hcheck]
    constructor
    · rintro (h | ⟨h, _⟩)
      · exact absurd h hXY
      · simpa using h
    · intro hbit
      exact Or.inr ⟨by simpa using hbit, rfl⟩

/-- C20 at the syllable `ci` with only the reverse option `ch→c` set: the condition holds
`s0=` the identifier of `c`, and `s0=` the identifier of `ch` exactly when the bit of
`c→ch` is set in the option. -/
theorem C20_witness :
    Occurs (Piece.sEq 0 2) (queryConditions demoConsts [pinyinCi] 0 1 (2 ^ 2)) ∧
      (Occurs (Piece.sEq 0 3) (queryConditions demoConsts [pinyinCi] 0 1 (2 ^ 2)) ↔
        2 ^ 2 &&& 2 ^ 1 ≠ 0) :=
  (C20_fuzzy_gated_per_direction demoConsts (by decide) [pinyinCi] 0 1 (2 ^ 2) (by decide)).1
    ⟨2, 3, 2 ^ 1⟩ (by decide) rfl (Or.inl rfl)

/-! ## The final clauses of the query conditions -/

theorem appendAux_append (p : Piece) (b e : Nat) (c1 c2 : Conditions) (i : Nat) :
    appendAux p b e i (c1 ++ c2) =
      appendAux p b e i c1 ++ appendAux p b e (i + c1.length) c2 := by
  induction c1 generalizing i with
  | nil => simp [appendAux]
  | cons d c ih =>
    show appendAux p b e i (d :: (c ++ c2)) = appendAux p b e i (d :: c) ++ _
    rw [appendAux, appendAux, ih (i + 1), List.length_cons, List.cons_append]
    rw [show i + (c.length + 1) = i + 1 + c.length by omega]

theorem appendAux_cover (p : Piece) (b e : Nat) (c : Conditions) (i : Nat) (hb : b ≤ i)
    (he : i + c.length ≤ e) : appendAux p b e i c = c.map (fun d => d ++ [p]) := by
  induction c generalizing i with
  | nil => rfl
  | cons d c ih =>
    simp only [List.length_cons] at he
    simp only [appendAux, List.map_cons]
    rw [if_pos ⟨hb, by omega⟩, ih (i + 1) (by omega) (by omega)]

theorem appendAux_skip (p : Piece) (b e : Nat) (c : Conditions) (i : Nat)
    (h : e ≤ i ∨ i + c.length ≤ b) : appendAux p b e i c = c := by
  induction c generalizing i with
  | nil => rfl
  | cons d c ih =>
    simp only [List.length_cons] at h
    simp only [appendAux]
    rw [if_neg (by omega), ih (i + 1) (by omega)]

/-- The two appends after `double_`: the first half receives the first piece, the copies
the second. -/
theorem double_append_halves (c : Conditions) (p1 p2 : Piece) :
    (c.double_.appendPrintf 0 (c.double_.length >>> 1) p1).appendPrintf
        (c.double_.length >>> 1) c.double_.length p2 =
      c.map (fun d => d ++ [p1]) ++ c.reverse.map (fun d => d ++ [p2]) := by
  have hlen : c.double_.length >>> 1 = c.length := by
    rw [length_double, Nat.shiftRight_eq_div_pow]; omega
  rw [hlen, length_double]
  unfold appendPrintf double_
  rw [appendAux_append, appendAux_cover p1 0 c.length c 0 (Nat.le_refl _) (by omega),
    appendAux_skip p1 0 c.length c.reverse (0 + c.length) (Or.inl (by omega)),
    appendAux_append, appendAux_skip p2 c.length (c.length + c.length) _ 0
      (Or.inr (by simp)),
    appendAux_cover p2 c.length (c.length + c.length) c.reverse _ (by simp) (by simp)]


theorem extends_refl (c : Conditions) : Extends c c :=
  fun d hd => ⟨d, hd, fun _ hq => hq⟩

theorem extends_trans {c1 c2 c3 : Conditions} (h12 : Extends c1 c2) (h23 : Extends c2 c3) :
    Extends c1 c3 := by
  intro d3 hd3
  obtain ⟨d2, hd2, h2⟩ := h23 d3 hd3
  obtain ⟨d1, hd1, h1⟩ := h12 d2 hd2
  exact ⟨d1, hd1, fun q hq => h2 q (h1 q hq)⟩

theorem extends_double (c : Conditions) : Extends c c.double_ := by
  intro d hd
  unfold double_ at hd
  rcases List.mem_append.1 hd with h | h
  · exact ⟨d, h, fun _ hq => hq⟩
  · exact ⟨d, List.mem_reverse.1 h, fun _ hq => hq⟩

theorem extends_triple (c : Conditions) : Extends c c.triple := by
  intro d hd
  unfold triple at hd
  rcases List.mem_append.1 hd with h | h
  · exact ⟨d, h, fun _ hq => hq⟩
  · obtain ⟨a, ha, hda⟩ := List.mem_flatMap.1 h
    have : d = a := by simpa using hda
    exact ⟨a, List.mem_reverse.1 ha, fun q hq => this ▸ hq⟩

theorem extends_appendAux (p : Piece) (b e : Nat) (c : Conditions) (i : Nat) :
    Extends c (appendAux p b e i c) := by
  induction c generalizing i with
  | nil => intro d hd; simp [appendAux] at hd
  | cons d0 c ih =>
    intro d hd
    rw [appendAux] at hd
    rcases List.mem_cons.1 hd with h | h
    · refine ⟨d0, List.mem_cons_self _ _, fun q hq => ?_⟩
      rw [h]
      split
      · exact List.mem_append_left _ hq
      · exact hq
    · obtain ⟨d1, hd1, h1⟩ := ih (i + 1) d h
      exact ⟨d1, List.mem_cons_of_mem _ hd1, h1⟩

theorem extends_appendPrintf (p : Piece) (b e : Nat) (c : Conditions) :
    Extends c (c.appendPrintf b e p) := extends_appendAux p b e c 0

theorem extends_shengStep (k : PinyinConsts) (option i : Nat) (p : Pinyin) (c : Conditions) :
    Extends c (shengStep k option i p c) := by
  unfold shengStep
  dsimp only
  split_ifs
  all_goals first
    | exact extends_appendPrintf _ _ _ _
    | exact extends_trans (extends_double c)
        (extends_trans (extends_appendPrintf _ _ _ _) (extends_appendPrintf _ _ _ _))
    | exact extends_trans (extends_triple c)
        (extends_trans (extends_appendPrintf _ _ _ _)
          (extends_trans (extends_appendPrintf _ _ _ _) (extends_appendPrintf _ _ _ _)))

theorem extends_yunStep (k : PinyinConsts) (option i : Nat) (p : Pinyin) (c : Conditions) :
    Extends c (yunStep k option i p c) := by
  unfold yunStep
  dsimp only
  split_ifs
  all_goals first
    | exact extends_refl c
    | exact extends_appendPrintf _ _ _ _
    | exact extends_trans (extends_double c)
        (extends_trans (extends_appendPrintf _ _ _ _) (extends_appendPrintf _ _ _ _))

theorem extends_queryStep (k : PinyinConsts) (pinyin : List Pinyin)
    (pinyin_begin option : Nat) (c : Conditions) (i : Nat) :
    Extends c (queryStep k pinyin pinyin_begin option c i) := by
  unfold queryStep
  dsimp only
  split_ifs
  · exact extends_trans (extends_appendPrintf _ _ _ _)
      (extends_trans (extends_shengStep _ _ _ _ _) (extends_yunStep _ _ _ _ _))
  · exact extends_trans (extends_shengStep _ _ _ _ _) (extends_yunStep _ _ _ _ _)

theorem hasYun_of_extends {c1 c2 : Conditions} (i : Nat) (h : Extends c1 c2)
    (h1 : ∀ d ∈ c1, HasYun i d) : ∀ d ∈ c2, HasYun i d := by
  intro d2 hd2
  obtain ⟨d1, hd1, hsub⟩ := h d2 hd2
  obtain ⟨q, hq, hy⟩ := h1 d1 hd1
  exact ⟨q, hsub q hq, hy⟩

theorem hasYun_append_piece (i : Nat) (d : Condition) (p : Piece) (hp : p.isYun = true)
    (hi : p.index = some i) : HasYun i (d ++ [p]) :=
  ⟨p, by simp, hp, hi⟩

/-- After the final clause of a position with a primary final, every condition holds a final
clause of that position. -/
theorem hasYun_yunStep (k : PinyinConsts) (option i : Nat) (p : Pinyin) (c : Conditions)
    (hz : p.yunId 0 ≠ k.PINYIN_ID_ZERO) : ∀ d ∈ yunStep k option i p c, HasYun i d := by
  intro d hd
  unfold yunStep at hd
  simp only [← Pinyin.yunId.eq_1] at hd
  rw [if_pos hz] at hd
  split_ifs at hd
  · rw [double_append_halves] at hd
    rcases List.mem_append.1 hd with h | h
    · obtain ⟨a, _, rfl⟩ := List.mem_map.1 h
      exact hasYun_append_piece i a _ rfl rfl
    · obtain ⟨a, _, rfl⟩ := List.mem_map.1 h
      exact hasYun_append_piece i a _ rfl rfl
  · rw [appendPrintf_all] at hd
    obtain ⟨a, _, rfl⟩ := List.mem_map.1 hd
    exact hasYun_append_piece i a _ rfl rfl
  · rw [appendPrintf_all] at hd
    obtain ⟨a, _, rfl⟩ := List.mem_map.1 hd
    exact hasYun_append_piece i a _ rfl rfl

theorem hasYun_queryConditions (k : PinyinConsts) (pinyin : List Pinyin)
    (pinyin_begin option i : Nat)
    (hz : (pinyin.getD (i + pinyin_begin) default).yunId 0 ≠ k.PINYIN_ID_ZERO) (n : Nat) :
    ∀ d ∈ queryConditions k pinyin pinyin_begin (i + 1 + n) option, HasYun i d := by
  induction n with
  | zero =>
    rw [Nat.add_zero, queryConditions_succ]
    unfold queryStep
    exact hasYun_yunStep k option i _ _ hz
  | succ n ih =>
    rw [← Nat.add_assoc, queryConditions_succ]
    exact hasYun_of_extends i (extends_queryStep _ _ _ _ _ _) ih

theorem not_occurs_before (k : PinyinConsts) (pinyin : List Pinyin)
    (pinyin_begin option i : Nat) (q : Piece) (hq : q.index = some i) (n : Nat) (hn : n ≤ i) :
    ¬ Occurs q (queryConditions k pinyin pinyin_begin n option) := by
  induction n with
  | zero => exact occurs_init q
  | succ n ih =>
    rw [queryConditions_succ, occurs_queryStep_frame _ _ _ _ _ _ i _ hq (by omega)]
    exact ih (by omega)

theorem occurs_after (k : PinyinConsts) (pinyin : List Pinyin)
    (pinyin_begin option i : Nat) (q : Piece) (hq : q.index = some i) (n : Nat) :
    Occurs q (queryConditions k pinyin pinyin_begin (i + 1 + n) option) ↔
      Occurs q (queryConditions k pinyin pinyin_begin (i + 1) option) := by
  induction n with
  | zero => exact Iff.rfl
  | succ n ih =>
    rw [← Nat.add_assoc, queryConditions_succ,
      occurs_queryStep_frame _ _ _ _ _ _ i _ hq (by omega)]
    exact ih

/-- No final clause of a position without a primary final occurs after its round. -/
theorem occurs_queryStep_zero (k : PinyinConsts) (pinyin : List Pinyin)
    (pinyin_begin option : Nat) (c : Conditions) (i : Nat) (q : Piece)
    (hy : q.isYun = true)
    (hz : (pinyin.getD (i + pinyin_begin) default).yunId 0 = k.PINYIN_ID_ZERO) :
    Occurs q (queryStep k pinyin pinyin_begin option c i) ↔ Occurs q c := by
  have hs : ∀ v a b, q ≠ Piece.sEq i v ∧ q ≠ Piece.sIn2 i v a ∧ q ≠ Piece.sIn3 i v a b := by
    intro v a b
    refine ⟨?_, ?_, ?_⟩ <;> intro h <;> rw [h] at hy <;> exact Bool.noConfusion hy
  have hand : q ≠ Piece.and_ := by
    intro h; rw [h] at hy; exact Bool.noConfusion hy
  unfold queryStep
  dsimp only
  have hyun : ∀ c', yunStep k option i (pinyin.getD (i + pinyin_begin) default) c' = c' := by
    intro c'
    unfold yunStep
    simp only [← Pinyin.yunId.eq_1]
    rw [if_neg (by simpa using hz)]
  rw [hyun, occurs_shengStep_frame _ _ _ _ _ _ hs]
  split_ifs
  · exact occurs_appendPrintf_ne _ _ _ _ _ hand
  · exact Iff.rfl

/-- C21: for every position `i` of a query, whatever the fuzzy options: when the primary
final of the position is the zero final, no disjunct built by `Database::query` holds a
final clause of that position (in any of the three formats written with `y`); when it is
not, every disjunct holds one. -/
theorem C21_final_clause_presence (k : PinyinConsts) (pinyin : List Pinyin)
    (pinyin_begin pinyin_len option i : Nat) (hi : i < pinyin_len) :
    ((pinyin.getD (i + pinyin_begin) default).yunId 0 = k.PINYIN_ID_ZERO →
      ∀ d ∈ queryConditions k pinyin pinyin_begin pinyin_len option, ¬ HasYun i d) ∧
    ((pinyin.getD (i + pinyin_begin) default).yunId 0 ≠ k.PINYIN_ID_ZERO →
      ∀ d ∈ queryConditions k pinyin pinyin_begin pinyin_len option, HasYun i d) := by
  obtain ⟨n, rfl⟩ : ∃ n, pinyin_len = i + 1 + n := ⟨pinyin_len - (i + 1), by omega⟩
  constructor
  · intro hz d hd ⟨q, hq, hy, hidx⟩
    have hocc : Occurs q (queryConditions k pinyin pinyin_begin (i + 1 + n) option) :=
      ⟨d, hd, hq⟩
    rw [occurs_after _ _ _ _ _ _ hidx, queryConditions_succ,
      occurs_queryStep_zero _ _ _ _ _ _ _ hy hz] at hocc
    exact not_occurs_before _ _ _ _ _ _ hidx i (Nat.le_refl _) hocc
  · intro hz
    exact hasYun_queryConditions k pinyin pinyin_begin option i hz n

/-- C21 at the syllables `an ci` with the option `an→ang` set, and at the initial `c` typed
alone with the option `c→ch` set. -/
theorem C21_witness :
    (∀ d ∈ queryConditions demoConsts [pinyinAn, pinyinCi] 0 2 (2 ^ 15), HasYun 0 d) ∧
    queryConditions demoConsts [pinyinAn, pinyinCi] 0 2 (2 ^ 15) =
      [[Piece.sEq 0 0, Piece.yEq 0 26, Piece.and_, Piece.sEq 1 2, Piece.yEq 1 34],
       [Piece.sEq 0 0, Piece.yEqLower 0 27, Piece.and_, Piece.sEq 1 2, Piece.yEq 1 34]] ∧
    (∀ d ∈ queryConditions demoConsts [pinyinC] 0 1 (2 ^ 1), ¬ HasYun 0 d) ∧
    queryConditions demoConsts [pinyinC] 0 1 (2 ^ 1) = [[Piece.sEq 0 2], [Piece.sEq 0 3]] :=
  ⟨(C21_final_clause_presence demoConsts [pinyinAn, pinyinCi] 0 2 (2 ^ 15) 0 (by decide)).2
      (by decide), by decide,
    (C21_final_clause_presence demoConsts [pinyinC] 0 1 (2 ^ 1) 0 (by decide)).1 (by decide),
    by decide⟩

/-! ## The cursor `Query` -/

/-- The inner loop of `fill`, with `r` rows counted so far and `n ≥ 1` more wanted. -/
theorem fillRows_spec (E : DbEnv) (len : Nat) (hlen : len ≤ E.MAX_PHRASE_LEN) (rows : SQLStmt)
    (r n : Nat) (hn : 1 ≤ n) (hmax : r + n ≤ 2147483647) (phrases : List Phrase) :
    Query.fillRows E len ((r + n : Nat) : Int) rows (r : Int) phrases =
      if rows.length < n then
        some (((r + rows.length : Nat) : Int), phrases ++ rows.map (Query.rowPhrase E len), none)
      else
        some (((r + n : Nat) : Int), phrases ++ (rows.take n).map (Query.rowPhrase E len),
          some (rows.drop n)) := by
  induction rows generalizing r n phrases with
  | nil =>
    rw [Query.fillRows, if_pos (by simpa using hn)]
    simp
  | cons x rest ih =>
    rw [Query.fillRows, if_neg (by omega), if_neg (by omega)]
    by_cases h1 : n = 1
    · subst h1
      rw [if_pos (by push_cast; ring), if_neg (by simp)]
      simp
    · rw [if_neg (by push_cast; omega)]
      have := ih (r + 1) (n - 1) (by omega) (by omega) (phrases ++ [Query.rowPhrase E len x])
      have e1 : ((r + 1 + (n - 1) : Nat) : Int) = ((r + n : Nat) : Int) := by
        congr 1; omega
      have e2 : ((r + 1 : Nat) : Int) = (r : Int) + 1 := by push_cast; ring
      rw [e1, e2] at this
      rw [this]
      obtain ⟨m, rfl⟩ : ∃ m, n = m + 2 := ⟨n - 2, by omega⟩
      by_cases h2 : rest.length < m + 2 - 1
      · rw [if_pos h2, if_pos (by simp only [List.length_cons]; omega)]
        simp only [List.map_cons, List.append_assoc, List.singleton_append, List.length_cons]
        congr 3
        omega
      · rw [if_neg h2, if_neg (by simp only [List.length_cons]; omega)]
        simp only [Nat.add_sub_cancel, List.take_succ_cons, List.map_cons, List.append_assoc,
          List.singleton_append, List.drop_succ_cons]
        rfl

theorem streamOf_none (E : DbEnv) (db : Database) (q : Query) (len : Nat) :
    Query.streamOf E db q len none = Query.blocks E db q len := by
  cases len <;> rfl

theorem opened_of_opens (E : DbEnv) (db : Database) (q : Query) (len : Nat)
    (h : Query.opens E db q len = true) :
    db.query E q.m_pinyin q.m_pinyin_begin len (-1) q.m_option =
      some (some (Query.rowsAt E db q len)) := by
  unfold Query.opens at h
  unfold Query.rowsAt
  split at h
  · rename_i rows heq
    rw [heq]
  · exact absurd h (by simp)


/-- One round of the outer loop of `fill`: it runs the inner loop on the open statement, or
on a new one for the current length. -/
theorem fillLoop_step (E : DbEnv) (db : Database) (q : Query) (len : Nat)
    (m_stmt : Option SQLStmt) (hop : Query.opens E db q (len + 1) = true) :
    ∃ cur : SQLStmt,
      (∀ (count row : Int) (phrases : List Phrase),
        Query.fillLoop E db q count (len + 1) m_stmt row phrases =
          match Query.fillRows E (len + 1) count cur row phrases with
          | none => none
          | some (row1, phrases1, some rest) =>
            some (row1, phrases1, { q with m_pinyin_len := len + 1, m_stmt := some rest })
          | some (row1, phrases1, none) =>
            Query.fillLoop E db q count len none row1 phrases1) ∧
      Query.streamOf E db q (len + 1) m_stmt =
        cur.map (Query.rowPhrase E (len + 1)) ++ Query.blocks E db q len := by
  cases m_stmt with
  | some rows =>
    refine ⟨rows, fun count row phrases => ?_, rfl⟩
    simp only [Query.fillLoop]
  | none =>
    refine ⟨Query.rowsAt E db q (len + 1), fun count row phrases => ?_, rfl⟩
    simp only [Query.fillLoop, opened_of_opens E db q (len + 1) hop]

/-- The loop of `fill` with `r` rows counted and `n ≥ 1` more wanted: it produces the first
`n` phrases of the stream and leaves a query whose stream is the rest. -/
theorem fillLoop_spec (E : DbEnv) (db : Database) (q : Query) (len : Nat)
    (hlen : len ≤ E.MAX_PHRASE_LEN)
    (hopen : ∀ l ∈ List.range len, Query.opens E db q (l + 1) = true)
    (m_stmt : Option SQLStmt) (r n : Nat) (hn : 1 ≤ n) (hmax : r + n ≤ 2147483647)
    (phrases : List Phrase) :
    ∃ len1 stmt1,
      Query.fillLoop E db q ((r + n : Nat) : Int) len m_stmt (r : Int) phrases =
        some (((r + min n (Query.streamOf E db q len m_stmt).length : Nat) : Int),
          phrases ++ (Query.streamOf E db q len m_stmt).take n,
          { q with m_pinyin_len := len1, m_stmt := stmt1 }) ∧
      Query.streamOf E db q len1 stmt1 = (Query.streamOf E db q len m_stmt).drop n ∧
      len1 ≤ len ∧ ((Query.streamOf E db q len m_stmt).length < n → len1 = 0) := by
  induction len generalizing m_stmt r n phrases with
  | zero =>
    refine ⟨0, m_stmt, ?_, ?_, Nat.le_refl _, fun _ => rfl⟩
    · simp [Query.fillLoop, Query.streamOf]
    · simp [Query.streamOf]
  | succ len ih =>
    have hop : Query.opens E db q (len + 1) = true := hopen len (List.mem_range.2 (by omega))
    have hopen1 : ∀ l ∈ List.range len, Query.opens E db q (l + 1) = true := fun l hl =>
      hopen l (List.mem_range.2 (by have := List.mem_range.1 hl; omega))
    obtain ⟨cur, hstep, hS⟩ := fillLoop_step E db q len m_stmt hop
    rw [hstep, fillRows_spec E (len + 1) hlen _ r n hn hmax phrases, hS]
    by_cases hlt : cur.length < n
    · rw [if_pos hlt]
      obtain ⟨len1, stmt1, h1, h2, h3, h4⟩ := ih (by omega) hopen1 none (r + cur.length)
        (n - cur.length) (by omega) (by omega)
        (phrases ++ cur.map (Query.rowPhrase E (len + 1)))
      rw [streamOf_none] at h1 h2 h4
      have e1 : ((r + cur.length + (n - cur.length) : Nat) : Int) = ((r + n : Nat) : Int) := by
        congr 1; omega
      rw [e1] at h1
      refine ⟨len1, stmt1, ?_, ?_, by omega, ?_⟩
      · show Query.fillLoop E db q _ len none _ _ = _
        rw [h1]
        have e2 : r + cur.length + min (n - cur.length) (Query.blocks E db q len).length =
            r + min n (cur.map (Query.rowPhrase E (len + 1)) ++
              Query.blocks E db q len).length := by
          simp only [List.length_append, List.length_map]; omega
        rw [e2, List.take_append_eq_append_take, List.length_map,
          List.take_of_length_le (show (cur.map (Query.rowPhrase E (len + 1))).length ≤ n by
            rw [List.length_map]; omega), List.append_assoc]
      · rw [h2, List.drop_append_eq_append_drop, List.length_map,
          List.drop_of_length_le (show (cur.map (Query.rowPhrase E (len + 1))).length ≤ n by
            rw [List.length_map]; omega), List.nil_append]
      · intro hl
        apply h4
        simp only [List.length_append, List.length_map] at hl
        omega
    · rw [if_neg hlt]
      refine ⟨len + 1, some (cur.drop n), ?_, ?_, Nat.le_refl _, ?_⟩
      · show some _ = some _
        have e2 : min n (cur.map (Query.rowPhrase E (len + 1)) ++
            Query.blocks E db q len).length = n := by
          simp only [List.length_append, List.length_map]; omega
        rw [e2, List.take_append_eq_append_take, List.length_map,
          show n - cur.length = 0 by omega, List.take_zero, List.append_nil, List.map_take]
      · show (cur.drop n).map _ ++ _ = _
        rw [List.drop_append_eq_append_drop, List.length_map,
          show n - cur.length = 0 by omega, List.drop_zero, List.map_drop]
      · intro hl
        simp only [List.length_append, List.length_map] at hl
        omega


theorem blocks_with (E : DbEnv) (db : Database) (q : Query) (a : Nat) (b : Option SQLStmt)
    (len : Nat) :
    Query.blocks E db { q with m_pinyin_len := a, m_stmt := b } len = Query.blocks E db q len := by
  induction len with
  | zero => rfl
  | succ len ih =>
    show _ ++ Query.blocks E db { q with m_pinyin_len := a, m_stmt := b } len = _
    rw [ih]
    rfl

theorem streamOf_with (E : DbEnv) (db : Database) (q : Query) (a : Nat) (b : Option SQLStmt)
    (len : Nat) (m_stmt : Option SQLStmt) :
    Query.streamOf E db { q with m_pinyin_len := a, m_stmt := b } len m_stmt =
      Query.streamOf E db q len m_stmt := by
  cases len with
  | zero => rfl
  | succ len =>
    show _ ++ Query.blocks E db { q with m_pinyin_len := a, m_stmt := b } len = _
    rw [blocks_with]
    rfl

/-- One call of `fill` with a count from 1 to `INT_MAX` on a ready query: it returns the
number of phrases it appends, which are the first `count` of the stream of the query, and
leaves a ready query whose stream is the rest. -/
theorem fill_spec (E : DbEnv) (db : Database) (q : Query) (hready : Query.Ready E db q)
    (phrases : List Phrase) (count : Int) (h1 : 1 ≤ count) (h2 : count ≤ 2147483647) :
    ∃ q1 : Query,
      q.fill E db phrases count =
        some (((min count.toNat (q.stream E db).length : Nat) : Int),
          phrases ++ (q.stream E db).take count.toNat, q1) ∧
      q1.stream E db = (q.stream E db).drop count.toNat ∧ Query.Ready E db q1 ∧
      q1.m_pinyin = q.m_pinyin ∧ q1.m_pinyin_begin = q.m_pinyin_begin ∧
      q1.m_option = q.m_option ∧ q1.m_pinyin_len ≤ q.m_pinyin_len ∧
      ((q.stream E db).length < count.toNat → q1.m_pinyin_len = 0) := by
  obtain ⟨n, rfl⟩ : ∃ n : Nat, count = (n : Int) := ⟨count.toNat, by omega⟩
  obtain ⟨len1, stmt1, hfill, hstream, hle, hzero⟩ :=
    fillLoop_spec E db q q.m_pinyin_len hready.1 hready.2 q.m_stmt 0 n (by omega) (by omega)
      phrases
  simp only [Nat.zero_add, Nat.cast_zero] at hfill
  refine ⟨{ q with m_pinyin_len := len1, m_stmt := stmt1 }, ?_, ?_, ⟨?_, ?_⟩, rfl, rfl, rfl,
    hle, ?_⟩
  · simpa [Query.fill, Query.stream] using hfill
  · simpa [Query.stream, streamOf_with] using hstream
  · exact Nat.le_trans hle hready.1
  · intro l hl
    have hl1 : l < len1 := List.mem_range.1 hl
    exact hready.2 l (List.mem_range.2 (by omega))
  · simpa [Query.stream] using hzero

/-- C22: on a query all of whose statements can be opened, for every count from 1 to
`INT_MAX`, `Query::fill (phrases, count)` returns a number `r` with `0 ≤ r ≤ count`, appends
exactly `r` phrases to the vector and leaves the phrases it held unchanged; when `r < count`
the remaining length of the query is 0 and the phrases appended are all that the query had
yet to produce, of the current length and of every shorter one. -/
theorem C22_fill_bounded (E : DbEnv) (db : Database) (q : Query)
    (hready : Query.Ready E db q) (phrases : List Phrase) (count : Int) (h1 : 1 ≤ count)
    (h2 : count ≤ 2147483647) :
    ∃ (r : Int) (added : List Phrase) (q1 : Query),
      q.fill E db phrases count = some (r, phrases ++ added, q1) ∧
      0 ≤ r ∧ r ≤ count ∧ (added.length : Int) = r ∧
      (r < count → q1.m_pinyin_len = 0 ∧ added = q.stream E db) := by
  obtain ⟨q1, hfill, _, _, _, _, _, _, hzero⟩ := fill_spec E db q hready phrases count h1 h2
  refine ⟨_, _, q1, hfill, by omega, by omega, ?_, ?_⟩
  · simp only [List.length_take]
  · intro hr
    have hlt : (q.stream E db).length < count.toNat := by omega
    exact ⟨hzero hlt, List.take_of_length_le (by omega)⟩

/-- C22 at a new query for `ni hao` and the count 2. -/
theorem C22_witness :
    ∃ (r : Int) (added : List Phrase) (q1 : Query),
      nihaoQuery.fill demoDb connected [] 2 = some (r, [] ++ added, q1) ∧
      0 ≤ r ∧ r ≤ 2 ∧ (added.length : Int) = r ∧
      (r < 2 → q1.m_pinyin_len = 0 ∧ added = nihaoQuery.stream demoDb connected) :=
  C22_fill_bounded demoDb connected nihaoQuery (by decide) [] 2 (by decide) (by decide)

/-- Successive calls of `fill` on a ready query produce a prefix of its stream. -/
theorem fills_spec (E : DbEnv) (db : Database) (counts : List Int)
    (hc : ∀ c ∈ counts, 1 ≤ c ∧ c ≤ 2147483647) (q : Query) (hready : Query.Ready E db q)
    (phrases : List Phrase) :
    ∃ (q1 : Query) (n : Nat),
      Query.fills E db q phrases counts = some (q1, phrases ++ (q.stream E db).take n) := by
  induction counts generalizing q phrases with
  | nil => exact ⟨q, 0, by simp [Query.fills]⟩
  | cons c counts ih =>
    obtain ⟨q1, hfill, hstream, hready1, _⟩ :=
      fill_spec E db q hready phrases c (hc c (List.mem_cons_self _ _)).1
        (hc c (List.mem_cons_self _ _)).2
    obtain ⟨q2, n, h2⟩ := ih (fun x hx => hc x (List.mem_cons_of_mem _ hx)) q1 hready1
      (phrases ++ (q.stream E db).take c.toNat)
    refine ⟨q2, c.toNat + n, ?_⟩
    rw [Query.fills, hfill]
    simp only
    rw [h2, hstream, List.append_assoc, List.take_add]

theorem blocks_len (E : DbEnv) (db : Database) (q : Query) (len : Nat) :
    ∀ p ∈ Query.blocks E db q len, 1 ≤ p.len ∧ p.len ≤ len := by
  induction len with
  | zero => intro p hp; simp [Query.blocks] at hp
  | succ len ih =>
    intro p hp
    rw [Query.blocks] at hp
    rcases List.mem_append.1 hp with h | h
    · obtain ⟨r, _, rfl⟩ := List.mem_map.1 h
      exact ⟨by simp [Query.rowPhrase], by simp [Query.rowPhrase]⟩
    · have := ih p h
      omega

theorem blocks_sorted (E : DbEnv) (db : Database) (q : Query) (len : Nat) :
    ((Query.blocks E db q len).map (fun p => p.len)).Pairwise (fun a b => a ≥ b) := by
  induction len with
  | zero => simp [Query.blocks]
  | succ len ih =>
    rw [Query.blocks, List.map_append, List.pairwise_append]
    refine ⟨?_, ih, ?_⟩
    · rw [List.map_map, List.pairwise_map]
      exact List.pairwise_of_forall (fun _ _ => Nat.le_refl _)
    · intro a ha b hb
      obtain ⟨p, hp, rfl⟩ := List.mem_map.1 hb
      rw [List.map_map] at ha
      obtain ⟨r, _, rfl⟩ := List.mem_map.1 ha
      have := (blocks_len E db q len p hp).2
      show len + 1 ≥ p.len
      omega

theorem querySql_order (k : PinyinConsts) (MAX_PHRASE_LEN : Nat) (pinyin : List Pinyin)
    (pinyin_begin pinyin_len option : Nat) (m_sql : List Char)
    (h : Database.querySql k MAX_PHRASE_LEN pinyin pinyin_begin pinyin_len (-1) option =
      some m_sql) :
    ") GROUP BY phrase ORDER BY user_freq DESC, freq DESC".toList <:+ m_sql := by
  unfold Database.querySql at h
  split at h
  · simp only [show ¬ ((-1 : Int) > 0) by decide, if_false, Option.some.injEq] at h
    rw [← h]
    exact List.suffix_append _ _
  · exact absurd h (by simp)

/-- C23: across successive `fill` calls with counts from 1 to `INT_MAX` on one query
constructed with `max_len`, all of whose statements can be opened: the phrases produced are
a prefix of the rows of the lengths `max_len` down to 1, longest first and within a length
in the order the statement delivers them; every produced phrase has `1 ≤ len ≤ max_len`; the
sequence of the `len` values does not increase; and the statement of each length is prepared
from a text that ends in `ORDER BY user_freq DESC, freq DESC`. -/
theorem C23_longest_first (E : DbEnv) (db : Database) (pinyin : List Pinyin)
    (pinyin_begin max_len option : Nat) (q : Query)
    (hnew : Query.new pinyin pinyin_begin max_len option = some q)
    (hready : Query.Ready E db q) (counts : List Int)
    (hc : ∀ c ∈ counts, 1 ≤ c ∧ c ≤ 2147483647) :
    ∃ (q1 : Query) (out : List Phrase),
      Query.fills E db q [] counts = some (q1, out) ∧
      out <+: Query.blocks E db q max_len ∧
      (∀ p ∈ out, 1 ≤ p.len ∧ p.len ≤ max_len) ∧
      (out.map (fun p => p.len)).Pairwise (fun a b => a ≥ b) ∧
      (∀ len, 1 ≤ len → len ≤ max_len →
        ∃ m_sql, Database.querySql E.k E.MAX_PHRASE_LEN pinyin pinyin_begin len (-1) option =
            some m_sql ∧
          db.query E pinyin pinyin_begin len (-1) option = some (E.prepare m_sql) ∧
          ") GROUP BY phrase ORDER BY user_freq DESC, freq DESC".toList <:+ m_sql) := by
  have hq : q = ⟨pinyin, pinyin_begin, max_len, option, none⟩ := by
    unfold Query.new at hnew
    split at hnew
    · exact (Option.some.inj hnew).symm
    · exact absurd hnew (by simp)
  subst hq
  obtain ⟨q1, n, hf⟩ := fills_spec E db counts hc _ hready []
  have hs : Query.stream E db ⟨pinyin, pinyin_begin, max_len, option, none⟩ =
      Query.blocks E db ⟨pinyin, pinyin_begin, max_len, option, none⟩ max_len :=
    streamOf_none E db _ max_len
  rw [hs, List.nil_append] at hf
  have hpre := List.take_prefix n (Query.blocks E db ⟨pinyin, pinyin_begin, max_len, option, none⟩ max_len)
  refine ⟨q1, _, hf, hpre, ?_, ?_, ?_⟩
  · intro p hp
    exact blocks_len E db _ max_len p (hpre.subset hp)
  · exact (blocks_sorted E db _ max_len).sublist (hpre.sublist.map _)
  · intro len h1 h2
    have hop := hready.2 (len - 1) (List.mem_range.2 (by show len - 1 < max_len; omega))
    rw [show len - 1 + 1 = len by omega] at hop
    have hquery := opened_of_opens E db _ len hop
    unfold Database.query at hquery
    simp only at hquery
    cases hsql : Database.querySql E.k E.MAX_PHRASE_LEN pinyin pinyin_begin len (-1) option with
    | none => rw [hsql] at hquery; exact absurd hquery (by simp)
    | some m_sql =>
      refine ⟨m_sql, rfl, ?_, querySql_order _ _ _ _ _ _ _ hsql⟩
      unfold Database.query
      rw [hsql] at hquery ⊢
      simp only at hquery ⊢
      split at hquery
      · rename_i hdb; rw [if_pos hdb]
      · exact absurd hquery (by simp)

/-- C23 at a new query for `ni hao` and the counts 1, 1, 5. -/
theorem C23_witness :
    ∃ (q1 : Query) (out : List Phrase),
      Query.fills demoDb connected nihaoQuery [] [1, 1, 5] = some (q1, out) ∧
      out <+: Query.blocks demoDb connected nihaoQuery 2 ∧
      (∀ p ∈ out, 1 ≤ p.len ∧ p.len ≤ 2) ∧
      (out.map (fun p => p.len)).Pairwise (fun a b => a ≥ b) ∧
      (∀ len, 1 ≤ len → len ≤ 2 →
        ∃ m_sql, Database.querySql demoDb.k demoDb.MAX_PHRASE_LEN [pinyinNi, pinyinHao] 0 len
            (-1) 0 = some m_sql ∧
          connected.query demoDb [pinyinNi, pinyinHao] 0 len (-1) 0 =
            some (demoDb.prepare m_sql) ∧
          ") GROUP BY phrase ORDER BY user_freq DESC, freq DESC".toList <:+ m_sql) :=
  C23_longest_first demoDb connected [pinyinNi, pinyinHao] 0 2 0 nihaoQuery (by decide)
    (by decide) [1, 1, 5] (by decide)

/-- C26 fails in the code: without a connection (`m_db` is `NULL`) `fill` on a new query of
a length above 0 has no result, whatever the count: `Database::query` fails an assertion,
at the latest `m_db != NULL` in the constructor of `SQLStmt`. Only a query of the length 0
returns 0 and appends nothing. -/
theorem C26_absent_connection_aborts (E : DbEnv) (pinyin : List Pinyin)
    (pinyin_begin len option m_timeout_id saves : Nat) (phrases : List Phrase) (count : Int) :
    Query.fill E ⟨false, m_timeout_id, saves⟩ ⟨pinyin, pinyin_begin, len + 1, option, none⟩
        phrases count = none ∧
    Query.fill E ⟨false, m_timeout_id, saves⟩ ⟨pinyin, pinyin_begin, 0, option, none⟩
        phrases count = some (0, phrases, ⟨pinyin, pinyin_begin, 0, option, none⟩) ∧
    Query.fill demoDb ⟨false, 0, 0⟩ nihaoQuery [] 1 = none := by
  refine ⟨?_, rfl, by decide⟩
  unfold Query.fill
  simp only [Query.fillLoop, Database.query]
  cases Database.querySql E.k E.MAX_PHRASE_LEN pinyin pinyin_begin (len + 1) (-1) option <;> rfl

/-! ## Phrase concatenation and the statements of `commit` -/

theorem takeBytes_of_le (s : List Char) (n : Nat) (h : strSize s ≤ n) : takeBytes n s = s := by
  induction s generalizing n with
  | nil => cases n <;> rfl
  | cons c s ih =>
    have hpos : 0 < c.utf8Size := Char.utf8Size_pos c
    simp only [strSize] at h
    obtain ⟨m, rfl⟩ : ∃ m, n = m + 1 := ⟨n - 1, by omega⟩
    rw [takeBytes, if_pos (by omega), ih _ (by omega)]

theorem cstr_no_nul (s : List Char) : ∀ c ∈ cstr s, c ≠ Char.ofNat 0 := by
  intro c hc
  have := List.mem_takeWhile_imp hc
  simpa using this

theorem cstr_cstr (s : List Char) : cstr (cstr s) = cstr s :=
  cstr_eq_self _ (cstr_no_nul s)

theorem cstr_append_cstr (a b : List Char) : cstr (cstr a ++ cstr b) = cstr a ++ cstr b := by
  apply cstr_eq_self
  intro c hc
  rcases List.mem_append.1 hc with h | h
  · exact cstr_no_nul a c h
  · exact cstr_no_nul b c h

theorem strlcat_fits (dest src : List Char) (size : Nat)
    (h : strSize (cstr dest) + strSize (cstr src) < size) :
    strlcat dest src size = cstr dest ++ cstr src := by
  unfold strlcat
  rw [if_neg (by omega), takeBytes_of_le _ _ (by omega)]

theorem memcpyIds_left (dst src : List (Nat × Nat)) (pos n j : Nat) (hj : j < pos) :
    (memcpyIds dst pos src n).getD j (0, 0) = dst.getD j (0, 0) := by
  unfold memcpyIds
  simp only [List.getD_eq_getElem?_getD, List.append_assoc]
  rw [List.getElem?_append_left (by simpa using hj)]
  simp [hj]

theorem memcpyIds_right (dst src : List (Nat × Nat)) (pos n j : Nat) (hj : j < n) :
    (memcpyIds dst pos src n).getD (pos + j) (0, 0) = src.getD j (0, 0) := by
  unfold memcpyIds
  simp only [List.getD_eq_getElem?_getD, List.append_assoc]
  rw [List.getElem?_append_right (by simp), List.getElem?_append_left (by simpa using hj)]
  simp [hj]

theorem memcpyIds_end (dst src : List (Nat × Nat)) (n : Nat) :
    memcpyIds dst dst.length src n = dst ++ (List.range n).map (fun j => src.getD j (0, 0)) := by
  unfold memcpyIds
  rw [List.drop_of_length_le (by omega), List.append_nil]
  congr 1
  apply List.ext_getElem
  · simp
  · intro i h1 h2
    simp [List.getD_eq_getElem?_getD, h2]

/-- C25: for all phrases `a` and `b`: when `a.len + b.len ≤ MAX_PHRASE_LEN` and the two
texts fit the text buffer, `a += b` yields `len = a.len + b.len`, the text of `a` followed by
the text of `b`, the entries below `a.len` of `pinyin_id` unchanged, the entry `a.len + j`
equal to the entry `j` of `b` for every `j < b.len`, and `freq` and `user_freq` of `a`
unchanged; when `a.len + b.len > MAX_PHRASE_LEN` (the sum being a `size_t` value) the
condition of the assertion is false and the operation has no result. -/
theorem C25_phrase_append (MAX_UTF8_LEN MAX_PHRASE_LEN : Nat) (hmax : MAX_PHRASE_LEN < SIZE_MOD)
    (a b : Phrase) :
    (a.len + b.len ≤ MAX_PHRASE_LEN →
      strSize (cstr a.phrase) + strSize (cstr b.phrase) <
        PHRASE_LEN_IN_BYTE MAX_UTF8_LEN MAX_PHRASE_LEN →
      ∃ c, a.append MAX_UTF8_LEN MAX_PHRASE_LEN b = some c ∧ c.len = a.len + b.len ∧
        c.phrase = cstr a.phrase ++ cstr b.phrase ∧
        (∀ j, j < a.len → c.pinyin_id.getD j (0, 0) = a.pinyin_id.getD j (0, 0)) ∧
        (∀ j, j < b.len → c.pinyin_id.getD (a.len + j) (0, 0) = b.pinyin_id.getD j (0, 0)) ∧
        c.freq = a.freq ∧ c.user_freq = a.user_freq) ∧
    (a.len + b.len > MAX_PHRASE_LEN → a.len + b.len < SIZE_MOD →
      Phrase.fits MAX_PHRASE_LEN a b = false ∧
      a.append MAX_UTF8_LEN MAX_PHRASE_LEN b = none) := by
  constructor
  · intro hlen hfit
    have hadd : addSize a.len b.len = a.len + b.len := by
      unfold addSize; exact Nat.mod_eq_of_lt (by omega)
    have hfits : Phrase.fits MAX_PHRASE_LEN a b = true := by
      unfold Phrase.fits; rw [hadd]; exact decide_eq_true hlen
    refine ⟨{ a with
        phrase := strlcat a.phrase b.phrase (PHRASE_LEN_IN_BYTE MAX_UTF8_LEN MAX_PHRASE_LEN),
        pinyin_id := memcpyIds a.pinyin_id a.len b.pinyin_id b.len,
        len := addSize a.len b.len }, ?_, ?_, ?_, ?_, ?_, rfl, rfl⟩
    · unfold Phrase.append
      rw [if_pos hfits, if_pos hlen]
    · exact hadd
    · exact strlcat_fits _ _ _ hfit
    · intro j hj
      exact memcpyIds_left _ _ _ _ _ hj
    · intro j hj
      exact memcpyIds_right _ _ _ _ _ hj
  · intro hlen hwrap
    have hadd : addSize a.len b.len = a.len + b.len := by
      unfold addSize; exact Nat.mod_eq_of_lt hwrap
    have hfits : Phrase.fits MAX_PHRASE_LEN a b = false := by
      unfold Phrase.fits; rw [hadd]; exact decide_eq_false (by omega)
    refine ⟨hfits, ?_⟩
    unfold Phrase.append
    rw [hfits]
    rfl

/-- C25 at the phrases `你` and `你好`, within the bound 16 and beyond the bound 2. -/
theorem C25_witness :
    (∃ c, phraseNi.append 6 16 phraseNihao = some c ∧ c.len = phraseNi.len + phraseNihao.len ∧
        c.phrase = cstr phraseNi.phrase ++ cstr phraseNihao.phrase ∧
        (∀ j, j < phraseNi.len →
          c.pinyin_id.getD j (0, 0) = phraseNi.pinyin_id.getD j (0, 0)) ∧
        (∀ j, j < phraseNihao.len →
          c.pinyin_id.getD (phraseNi.len + j) (0, 0) = phraseNihao.pinyin_id.getD j (0, 0)) ∧
        c.freq = phraseNi.freq ∧ c.user_freq = phraseNi.user_freq) ∧
    phraseNi.append 6 16 phraseNihao =
      some ⟨"你你好".toList, 90, 0, [(13, 24), (13, 24), (8, 6)], 3⟩ ∧
    phraseNi.append 6 2 phraseNihao = none :=
  ⟨(C25_phrase_append 6 16 (by decide) phraseNi phraseNihao).1 (by decide) (by decide),
    by decide,
    ((C25_phrase_append 6 2 (by decide) phraseNi phraseNihao).2 (by decide) (by decide)).2⟩


theorem concatPhrase_ids_length (phrases : List Phrase) :
    (concatPhrase phrases).pinyin_id.length = (concatPhrase phrases).len := by
  unfold concatPhrase
  induction phrases with
  | nil => rfl
  | cons p ps ih =>
    simp only [List.map_cons, List.flatten_cons, List.length_append, List.length_map,
      List.length_range, List.sum_cons] at ih ⊢
    rw [ih]

theorem concatPhrase_cstr (phrases : List Phrase) :
    cstr (concatPhrase phrases).phrase = (concatPhrase phrases).phrase := by
  apply cstr_eq_self
  intro c hc
  unfold concatPhrase at hc
  simp only [List.mem_flatten, List.mem_map] at hc
  obtain ⟨l, ⟨p, _, rfl⟩, hcl⟩ := hc
  exact cstr_no_nul _ c hcl

theorem concatPhrase_size (phrases : List Phrase) :
    strSize (concatPhrase phrases).phrase =
      (phrases.map (fun p => strSize (cstr p.phrase))).sum := by
  unfold concatPhrase
  induction phrases with
  | nil => rfl
  | cons p ps ih =>
    simp only [List.map_cons, List.flatten_cons, List.sum_cons, strSize_append] at ih ⊢
    rw [ih]

/-- Appending one more phrase to the concatenation of a list, within the two bounds. -/
theorem concatPhrase_append (MAX_UTF8_LEN MAX_PHRASE_LEN : Nat)
    (hmax : MAX_PHRASE_LEN < SIZE_MOD) (ps : List Phrase) (p : Phrase)
    (hlen : ((ps ++ [p]).map (fun x => x.len)).sum ≤ MAX_PHRASE_LEN)
    (hfit : ((ps ++ [p]).map (fun x => strSize (cstr x.phrase))).sum <
      PHRASE_LEN_IN_BYTE MAX_UTF8_LEN MAX_PHRASE_LEN) :
    (concatPhrase ps).append MAX_UTF8_LEN MAX_PHRASE_LEN p = some (concatPhrase (ps ++ [p])) := by
  simp only [List.map_append, List.map_cons, List.map_nil, List.sum_append, List.sum_cons,
    List.sum_nil, Nat.add_zero] at hlen hfit
  have hl : (concatPhrase ps).len = (ps.map (fun x => x.len)).sum := rfl
  have hadd : addSize (concatPhrase ps).len p.len = (concatPhrase ps).len + p.len := by
    unfold addSize; exact Nat.mod_eq_of_lt (by rw [hl]; omega)
  have hfits : Phrase.fits MAX_PHRASE_LEN (concatPhrase ps) p = true := by
    unfold Phrase.fits; rw [hadd, hl]; exact decide_eq_true hlen
  unfold Phrase.append
  rw [if_pos hfits, if_pos (by rw [hl]; exact hlen), hadd,
    strlcat_fits _ _ _ (by rw [concatPhrase_cstr, concatPhrase_size]; exact hfit),
    concatPhrase_cstr]
  have hids : memcpyIds (concatPhrase ps).pinyin_id (concatPhrase ps).len p.pinyin_id p.len =
      (concatPhrase ps).pinyin_id ++ (List.range p.len).map (fun j => p.pinyin_id.getD j (0, 0)) := by
    rw [← concatPhrase_ids_length, memcpyIds_end]
  rw [hids]
  simp [concatPhrase]

theorem commitLoop_spec (MAX_UTF8_LEN MAX_PHRASE_LEN : Nat) (hmax : MAX_PHRASE_LEN < SIZE_MOD)
    (rest done : List Phrase) (m_sql : List Char)
    (hlen : ((done ++ rest).map (fun x => x.len)).sum ≤ MAX_PHRASE_LEN)
    (hfit : ((done ++ rest).map (fun x => strSize (cstr x.phrase))).sum <
      PHRASE_LEN_IN_BYTE MAX_UTF8_LEN MAX_PHRASE_LEN) :
    commitLoop MAX_UTF8_LEN MAX_PHRASE_LEN rest (concatPhrase done) m_sql =
      some (concatPhrase (done ++ rest), m_sql ++ (rest.map phraseSql).flatten) := by
  induction rest generalizing done m_sql with
  | nil => simp [commitLoop]
  | cons p rest ih =>
    have hsplit : done ++ p :: rest = (done ++ [p]) ++ rest := by simp
    rw [hsplit] at hlen hfit
    have hlen1 : ((done ++ [p]).map (fun x => x.len)).sum ≤ MAX_PHRASE_LEN := by
      rw [List.map_append, List.sum_append] at hlen; omega
    have hfit1 : ((done ++ [p]).map (fun x => strSize (cstr x.phrase))).sum <
        PHRASE_LEN_IN_BYTE MAX_UTF8_LEN MAX_PHRASE_LEN := by
      rw [List.map_append, List.sum_append] at hfit; omega
    rw [commitLoop, concatPhrase_append MAX_UTF8_LEN MAX_PHRASE_LEN hmax done p hlen1 hfit1]
    simp only
    rw [ih (done ++ [p]) _ hlen hfit, hsplit]
    simp

set_option maxRecDepth 100000 in
/-- C24 as stated fails: two phrases of one syllable whose texts take 60 bytes each have
lengths that sum to 2 and texts that fit the buffer of 102 bytes, but `+=` cuts their
concatenation at 101 bytes: the last pair of statements is for a phrase whose text is 60
times `a` and 41 times `b`, not the concatenation of the two texts. -/
theorem C24_counterexample :
    ([longPhrase 'a', longPhrase 'b'].map (fun x => x.len)).sum ≤ 16 ∧
    strSize (longPhrase 'a').phrase < PHRASE_LEN_IN_BYTE 6 16 ∧
    strSize (longPhrase 'b').phrase < PHRASE_LEN_IN_BYTE 6 16 ∧
    commitSql 6 16 [longPhrase 'a', longPhrase 'b'] =
      some ("BEGIN TRANSACTION;\n".toList ++ phraseSql (longPhrase 'a') ++
        phraseSql (longPhrase 'b') ++
        phraseSql ⟨List.replicate 60 'a' ++ List.replicate 41 'b', 0, 0,
          [(13, 24), (13, 24)], 2⟩ ++ "COMMIT;\n".toList) ∧
    (concatPhrase [longPhrase 'a', longPhrase 'b']).phrase =
      List.replicate 60 'a' ++ List.replicate 60 'b' ∧
    commitSql 6 16 [longPhrase 'a', longPhrase 'b'] ≠
      some ("BEGIN TRANSACTION;\n".toList ++ phraseSql (longPhrase 'a') ++
        phraseSql (longPhrase 'b') ++
        phraseSql (concatPhrase [longPhrase 'a', longPhrase 'b']) ++ "COMMIT;\n".toList) := by
  decide


/-- C24 (amended): for every list of `n` phrases whose lengths sum to at most
`MAX_PHRASE_LEN` and whose texts together take fewer than `PHRASE_LEN_IN_BYTE` bytes,
`Database::commit` builds one text that starts with `BEGIN TRANSACTION`, ends with `COMMIT`
and holds in between, in list order, the pair of an `INSERT OR IGNORE` and an `UPDATE`
statement of each phrase, followed, if and only if `n > 1`, by one more pair for the
concatenation of all the phrases (texts and identifiers in list order, `len` the sum). -/
theorem C24_commit_sql (MAX_UTF8_LEN MAX_PHRASE_LEN : Nat) (hmax : MAX_PHRASE_LEN < SIZE_MOD)
    (phrases : List Phrase)
    (hlen : (phrases.map (fun x => x.len)).sum ≤ MAX_PHRASE_LEN)
    (hfit : (phrases.map (fun x => strSize (cstr x.phrase))).sum <
      PHRASE_LEN_IN_BYTE MAX_UTF8_LEN MAX_PHRASE_LEN) :
    commitSql MAX_UTF8_LEN MAX_PHRASE_LEN phrases =
      some ("BEGIN TRANSACTION;\n".toList ++ (phrases.map phraseSql).flatten ++
        (if phrases.length > 1 then phraseSql (concatPhrase phrases) else []) ++
        "COMMIT;\n".toList) ∧
    (∀ p : Phrase, phraseSql p = insertSql p ++ updateSql p ∧
      "INSERT OR IGNORE INTO userdb.py_phrase_".toList <+: insertSql p ∧
      "UPDATE userdb.py_phrase_".toList <+: updateSql p) := by
  constructor
  · unfold commitSql
    have h := commitLoop_spec MAX_UTF8_LEN MAX_PHRASE_LEN hmax phrases []
      "BEGIN TRANSACTION;\n".toList (by simpa using hlen) (by simpa using hfit)
    have h0 : concatPhrase [] = ⟨[], 0, 0, [], 0⟩ := rfl
    rw [h0] at h
    rw [h]
    simp only [List.nil_append]
    split_ifs <;> simp
  · intro p
    refine ⟨rfl, ?_, ?_⟩
    · unfold insertSql
      simp only [List.append_assoc]
      exact List.prefix_append _ _
    · unfold updateSql
      simp only [List.append_assoc]
      exact List.prefix_append _ _

/-- C24 (amended) at the phrases `你` and `你好`. -/
theorem C24_witness :
    commitSql 6 16 [phraseNi, phraseNihao] =
      some ("BEGIN TRANSACTION;\n".toList ++ ([phraseNi, phraseNihao].map phraseSql).flatten ++
        (if [phraseNi, phraseNihao].length > 1 then
          phraseSql (concatPhrase [phraseNi, phraseNihao]) else []) ++
        "COMMIT;\n".toList) ∧
    (∀ p : Phrase, phraseSql p = insertSql p ++ updateSql p ∧
      "INSERT OR IGNORE INTO userdb.py_phrase_".toList <+: insertSql p ∧
      "UPDATE userdb.py_phrase_".toList <+: updateSql p) :=
  C24_commit_sql 6 16 (by decide) [phraseNi, phraseNihao] (by decide) (by decide)

/-! ## The two context variants invoke the same update routines -/

section trace

variable (env : Env)

theorem pinyin_calls_updatePreeditText (s : PhoneticContext) :
    (PinyinContext.updatePreeditText env s).calls = s.calls ++ [Call.updatePreeditText] := by
  unfold PinyinContext.updatePreeditText
  dsimp only
  repeat' split
  all_goals rfl

theorem pinyin_calls_updateAuxiliaryText (s : PhoneticContext) :
    (PinyinContext.updateAuxiliaryText env s).calls = s.calls ++ [Call.updateAuxiliaryText] := by
  unfold PinyinContext.updateAuxiliaryText
  split_ifs <;> rfl

theorem pinyin_calls_update (s : PhoneticContext) :
    (PinyinContext.update env s).calls =
      s.calls ++ [Call.update, Call.updatePreeditText, Call.updateAuxiliaryText] := by
  unfold PinyinContext.update
  rw [pinyin_calls_updateAuxiliaryText, pinyin_calls_updatePreeditText]
  simp [PhoneticContext.log]

theorem bopomofo_calls_updatePreeditText (s : BopomofoContext) :
    (BopomofoContext.updatePreeditText env s).calls = s.calls ++ [Call.updatePreeditText] := by
  unfold BopomofoContext.updatePreeditText
  dsimp only
  repeat' split
  all_goals rfl

theorem bopomofo_calls_updateAuxiliaryText (s : BopomofoContext) :
    (BopomofoContext.updateAuxiliaryText env s).calls =
      s.calls ++ [Call.updateAuxiliaryText] := by
  unfold BopomofoContext.updateAuxiliaryText
  split_ifs <;> rfl

theorem bopomofo_calls_update (s : BopomofoContext) :
    (BopomofoContext.update env s).calls =
      s.calls ++ [Call.update, Call.updatePreeditText, Call.updateAuxiliaryText] := by
  unfold BopomofoContext.update
  rw [bopomofo_calls_updateAuxiliaryText, bopomofo_calls_updatePreeditText]
  simp [PhoneticContext.log, BopomofoContext.lift]

theorem full_calls_updatePinyin (s : PhoneticContext) :
    (FullPinyinContext.updatePinyin env s).calls =
      s.calls ++ [Call.updatePinyin, Call.updatePhraseEditor, Call.update,
        Call.updatePreeditText, Call.updateAuxiliaryText] := by
  unfold FullPinyinContext.updatePinyin
  dsimp only
  rw [pinyin_calls_update]
  split <;> simp [PhoneticContext.updatePhraseEditor, PhoneticContext.log]

theorem bopomofo_calls_updatePinyin (s : BopomofoContext) :
    (BopomofoContext.updatePinyin env s).calls =
      s.calls ++ [Call.updatePinyin, Call.updatePhraseEditor, Call.update,
        Call.updatePreeditText, Call.updateAuxiliaryText] := by
  unfold BopomofoContext.updatePinyin
  dsimp only
  rw [bopomofo_calls_update]
  split <;> simp [PhoneticContext.updatePhraseEditor, PhoneticContext.log, BopomofoContext.lift]

end trace

section agree
variable (env : Env)

theorem full_text_update (s : PhoneticContext) :
    (PinyinContext.update env s).m_text = s.m_text ∧
      (PinyinContext.update env s).m_cursor = s.m_cursor :=
  ⟨congrArg Core.text (pinyin_core_update env s), congrArg Core.cursor (pinyin_core_update env s)⟩

theorem bopomofo_text_update (s : BopomofoContext) :
    (BopomofoContext.update env s).m_text = s.m_text ∧
      (BopomofoContext.update env s).m_cursor = s.m_cursor :=
  ⟨congrArg Core.text (bopomofo_core_update env s),
    congrArg Core.cursor (bopomofo_core_update env s)⟩

theorem full_text_updatePinyin (s : PhoneticContext) :
    (FullPinyinContext.updatePinyin env s).m_text = s.m_text ∧
      (FullPinyinContext.updatePinyin env s).m_cursor = s.m_cursor := by
  have h := full_core_updatePinyin env s
  constructor
  · have := congrArg Core.text h
    simp only [PhoneticContext.core] at this
    rw [this]; split <;> rfl
  · have := congrArg Core.cursor h
    simp only [PhoneticContext.core] at this
    rw [this]; split <;> rfl

theorem bopomofo_text_updatePinyin (s : BopomofoContext) :
    (BopomofoContext.updatePinyin env s).m_text = s.m_text ∧
      (BopomofoContext.updatePinyin env s).m_cursor = s.m_cursor := by
  have h := bopomofo_core_updatePinyin env s
  constructor
  · have := congrArg Core.text h
    simp only [PhoneticContext.core] at this
    rw [this]; split <;> rfl
  · have := congrArg Core.cursor h
    simp only [PhoneticContext.core] at this
    rw [this]; split <;> rfl

theorem full_text_preedit_aux (s : PhoneticContext) :
    (PinyinContext.updateAuxiliaryText env (PinyinContext.updatePreeditText env s)).m_text =
        s.m_text ∧
      (PinyinContext.updateAuxiliaryText env (PinyinContext.updatePreeditText env s)).m_cursor =
        s.m_cursor ∧
      (PinyinContext.updateAuxiliaryText env (PinyinContext.updatePreeditText env s)).calls =
        s.calls ++ [Call.updatePreeditText, Call.updateAuxiliaryText] := by
  have h : (PinyinContext.updateAuxiliaryText env (PinyinContext.updatePreeditText env s)).core =
      s.core := by simp
  refine ⟨congrArg Core.text h, congrArg Core.cursor h, ?_⟩
  rw [pinyin_calls_updateAuxiliaryText, pinyin_calls_updatePreeditText]
  simp

theorem bopomofo_text_preedit_aux (s : BopomofoContext) :
    (BopomofoContext.updateAuxiliaryText env (BopomofoContext.updatePreeditText env s)).m_text =
        s.m_text ∧
      (BopomofoContext.updateAuxiliaryText env
        (BopomofoContext.updatePreeditText env s)).m_cursor = s.m_cursor ∧
      (BopomofoContext.updateAuxiliaryText env (BopomofoContext.updatePreeditText env s)).calls =
        s.calls ++ [Call.updatePreeditText, Call.updateAuxiliaryText] := by
  have h : (BopomofoContext.updateAuxiliaryText env
      (BopomofoContext.updatePreeditText env s)).core = s.core := by simp
  refine ⟨congrArg Core.text h, congrArg Core.cursor h, ?_⟩
  rw [bopomofo_calls_updateAuxiliaryText, bopomofo_calls_updatePreeditText]
  simp

theorem agree_intro (x : Bool × PhoneticContext) (y : Bool × BopomofoContext)
    (h1 : x.1 = y.1) (h2 : x.2.m_text = y.2.m_text) (h3 : x.2.m_cursor = y.2.m_cursor)
    (h4 : x.2.calls = y.2.calls) : Agree (some x) (some y) := ⟨h1, h2, h3, h4⟩

theorem agree_ite {c1 c2 : Prop} [Decidable c1] [Decidable c2] (h : c1 ↔ c2)
    {a1 b1 : Result PhoneticContext} {a2 b2 : Result BopomofoContext} (ha : Agree a1 a2)
    (hb : Agree b1 b2) : Agree (if c1 then a1 else b1) (if c2 then a2 else b2) := by
  by_cases hc : c1
  · rw [if_pos hc, if_pos (h.1 hc)]; exact ha
  · rw [if_neg hc, if_neg (fun x => hc (h.2 x))]; exact hb

theorem agree_same (f : PhoneticContext) (b : BopomofoContext) (x : Bool)
    (h2 : f.m_text = b.m_text) (h3 : f.m_cursor = b.m_cursor) (h4 : f.calls = b.calls) :
    Agree (some (x, f)) (some (x, b)) := ⟨rfl, h2, h3, h4⟩

theorem agree_update (x : Bool) (f : PhoneticContext) (b : BopomofoContext)
    (h2 : f.m_text = b.m_text) (h3 : f.m_cursor = b.m_cursor) (h4 : f.calls = b.calls) :
    Agree (some (x, PinyinContext.update env f)) (some (x, BopomofoContext.update env b)) := by
  refine agree_intro _ _ rfl ?_ ?_ ?_
  · show (PinyinContext.update env f).m_text = (BopomofoContext.update env b).m_text
    rw [(full_text_update env f).1, (bopomofo_text_update env b).1, h2]
  · show (PinyinContext.update env f).m_cursor = (BopomofoContext.update env b).m_cursor
    rw [(full_text_update env f).2, (bopomofo_text_update env b).2, h3]
  · show (PinyinContext.update env f).calls = (BopomofoContext.update env b).calls
    rw [pinyin_calls_update, bopomofo_calls_update, h4]

theorem agree_updatePinyin (x : Bool) (f : PhoneticContext) (b : BopomofoContext)
    (h2 : f.m_text = b.m_text) (h3 : f.m_cursor = b.m_cursor) (h4 : f.calls = b.calls) :
    Agree (some (x, FullPinyinContext.updatePinyin env f))
      (some (x, BopomofoContext.updatePinyin env b)) := by
  refine agree_intro _ _ rfl ?_ ?_ ?_
  · show (FullPinyinContext.updatePinyin env f).m_text =
      (BopomofoContext.updatePinyin env b).m_text
    rw [(full_text_updatePinyin env f).1, (bopomofo_text_updatePinyin env b).1, h2]
  · show (FullPinyinContext.updatePinyin env f).m_cursor =
      (BopomofoContext.updatePinyin env b).m_cursor
    rw [(full_text_updatePinyin env f).2, (bopomofo_text_updatePinyin env b).2, h3]
  · show (FullPinyinContext.updatePinyin env f).calls =
      (BopomofoContext.updatePinyin env b).calls
    rw [full_calls_updatePinyin, bopomofo_calls_updatePinyin, h4]

theorem agree_preedit_aux (x : Bool) (f : PhoneticContext) (b : BopomofoContext)
    (h2 : f.m_text = b.m_text) (h3 : f.m_cursor = b.m_cursor) (h4 : f.calls = b.calls) :
    Agree
      (some (x, PinyinContext.updateAuxiliaryText env (PinyinContext.updatePreeditText env f)))
      (some (x,
        BopomofoContext.updateAuxiliaryText env (BopomofoContext.updatePreeditText env b))) := by
  refine agree_intro _ _ rfl ?_ ?_ ?_
  · show (PinyinContext.updateAuxiliaryText env (PinyinContext.updatePreeditText env f)).m_text =
      (BopomofoContext.updateAuxiliaryText env (BopomofoContext.updatePreeditText env b)).m_text
    rw [(full_text_preedit_aux env f).1, (bopomofo_text_preedit_aux env b).1, h2]
  · show (PinyinContext.updateAuxiliaryText env
        (PinyinContext.updatePreeditText env f)).m_cursor =
      (BopomofoContext.updateAuxiliaryText env
        (BopomofoContext.updatePreeditText env b)).m_cursor
    rw [(full_text_preedit_aux env f).2.1, (bopomofo_text_preedit_aux env b).2.1, h3]
  · show (PinyinContext.updateAuxiliaryText env (PinyinContext.updatePreeditText env f)).calls =
      (BopomofoContext.updateAuxiliaryText env (BopomofoContext.updatePreeditText env b)).calls
    rw [(full_text_preedit_aux env f).2.2, (bopomofo_text_preedit_aux env b).2.2, h4]

theorem agree_removeCharBefore (f : PhoneticContext) (b : BopomofoContext)
    (ht : f.m_text = b.m_text) (hc : f.m_cursor = b.m_cursor) (hk : f.calls = b.calls) :
    Agree (FullPinyinContext.removeCharBefore env f) (BopomofoContext.removeCharBefore env b) := by
  unfold FullPinyinContext.removeCharBefore BopomofoContext.removeCharBefore
  rw [ht, hc, hk]
  split_ifs with h1
  · exact agree_same f b false ht hc hk
  · cases erase b.m_text (b.m_cursor - 1) 1 with
    | none => trivial
    | some t => exact agree_updatePinyin env true _ _ rfl rfl rfl

theorem agree_removeCharAfter (f : PhoneticContext) (b : BopomofoContext)
    (ht : f.m_text = b.m_text) (hc : f.m_cursor = b.m_cursor) (hk : f.calls = b.calls) :
    Agree (FullPinyinContext.removeCharAfter env f) (BopomofoContext.removeCharAfter env b) := by
  unfold FullPinyinContext.removeCharAfter BopomofoContext.removeCharAfter
  rw [ht, hc, hk]
  split_ifs with h1
  · exact agree_same f b false ht hc hk
  · cases erase b.m_text b.m_cursor 1 with
    | none => trivial
    | some t => exact agree_preedit_aux env true _ _ rfl rfl rfl

theorem agree_removeWordBefore (f : PhoneticContext) (b : BopomofoContext)
    (ht : f.m_text = b.m_text) (hc : f.m_cursor = b.m_cursor) (hp : f.m_pinyin = b.m_pinyin)
    (hl : f.m_pinyin_len = b.m_pinyin_len) (hk : f.calls = b.calls) :
    Agree (FullPinyinContext.removeWordBefore env f) (BopomofoContext.removeWordBefore env b) := by
  unfold FullPinyinContext.removeWordBefore BopomofoContext.removeWordBefore
  rw [ht, hc, hp, hl, hk]
  split_ifs with h1 h2
  · exact agree_same f b false ht hc hk
  · dsimp only
    rw [ht, hc, hk]
    cases erase b.m_text b.m_pinyin_len (subSize b.m_cursor b.m_pinyin_len) with
    | none => trivial
    | some t => exact agree_update env true _ _ rfl rfl rfl
  · cases b.m_pinyin.getLast? with
    | none => trivial
    | some p =>
      dsimp only
      cases erase b.m_text (subSize b.m_cursor p.len)
          (subSize b.m_cursor (subSize b.m_cursor p.len)) with
      | none => trivial
      | some t => exact agree_update env true _ _ rfl rfl rfl

theorem agree_removeWordAfter (f : PhoneticContext) (b : BopomofoContext)
    (ht : f.m_text = b.m_text) (hc : f.m_cursor = b.m_cursor) (hk : f.calls = b.calls) :
    Agree (FullPinyinContext.removeWordAfter env f) (BopomofoContext.removeWordAfter env b) := by
  unfold FullPinyinContext.removeWordAfter BopomofoContext.removeWordAfter
  rw [ht, hc, hk]
  split_ifs with h1
  · exact agree_same f b false ht hc hk
  · cases erase b.m_text b.m_cursor (SIZE_MOD - 1) with
    | none => trivial
    | some t => exact agree_preedit_aux env true _ _ rfl rfl rfl

theorem agree_moveCursorLeft (f : PhoneticContext) (b : BopomofoContext)
    (ht : f.m_text = b.m_text) (hc : f.m_cursor = b.m_cursor) (hk : f.calls = b.calls) :
    Agree (FullPinyinContext.moveCursorLeft env f) (BopomofoContext.moveCursorLeft env b) := by
  unfold FullPinyinContext.moveCursorLeft BopomofoContext.moveCursorLeft
  rw [ht, hc, hk]
  split_ifs with h1
  · exact agree_same f b false ht hc hk
  · exact agree_updatePinyin env true _ _ rfl rfl rfl

theorem agree_moveCursorRight (f : PhoneticContext) (b : BopomofoContext)
    (ht : f.m_text = b.m_text) (hc : f.m_cursor = b.m_cursor) (hk : f.calls = b.calls) :
    Agree (FullPinyinContext.moveCursorRight env f) (BopomofoContext.moveCursorRight env b) := by
  unfold FullPinyinContext.moveCursorRight BopomofoContext.moveCursorRight
  rw [ht, hc, hk]
  split_ifs with h1
  · exact agree_same f b false ht hc hk
  · exact agree_updatePinyin env true _ _ rfl rfl rfl

theorem agree_moveCursorLeftByWord (f : PhoneticContext) (b : BopomofoContext)
    (ht : f.m_text = b.m_text) (hc : f.m_cursor = b.m_cursor) (hp : f.m_pinyin = b.m_pinyin)
    (hl : f.m_pinyin_len = b.m_pinyin_len) (hk : f.calls = b.calls) :
    Agree (FullPinyinContext.moveCursorLeftByWord env f)
      (BopomofoContext.moveCursorLeftByWord env b) := by
  unfold FullPinyinContext.moveCursorLeftByWord BopomofoContext.moveCursorLeftByWord
  rw [ht, hc, hp, hl, hk]
  split_ifs with h1 h2
  · exact agree_same f b false ht hc hk
  · exact ⟨rfl, rfl, rfl, rfl⟩
  · cases b.m_pinyin.getLast? with
    | none => trivial
    | some p => exact agree_update env true _ _ rfl rfl rfl

theorem agree_moveCursorToBegin (f : PhoneticContext) (b : BopomofoContext)
    (ht : f.m_text = b.m_text) (hc : f.m_cursor = b.m_cursor) (hk : f.calls = b.calls) :
    Agree (FullPinyinContext.moveCursorToBegin env f) (BopomofoContext.moveCursorToBegin env b) := by
  unfold FullPinyinContext.moveCursorToBegin BopomofoContext.moveCursorToBegin
  rw [ht, hc, hk]
  split_ifs with h1
  · exact agree_same f b false ht hc hk
  · exact agree_update env true _ _ rfl rfl rfl

theorem agree_moveCursorToEnd (f : PhoneticContext) (b : BopomofoContext)
    (ht : f.m_text = b.m_text) (hc : f.m_cursor = b.m_cursor) (hk : f.calls = b.calls) :
    Agree (FullPinyinContext.moveCursorToEnd env f) (BopomofoContext.moveCursorToEnd env b) := by
  unfold FullPinyinContext.moveCursorToEnd BopomofoContext.moveCursorToEnd
  rw [ht, hc, hk]
  split_ifs with h1
  · exact agree_same f b false ht hc hk
  · exact agree_updatePinyin env true _ _ rfl rfl rfl

theorem agree_insert (f : PhoneticContext) (b : BopomofoContext) (ch : Char)
    (ht : f.m_text = b.m_text) (hc : f.m_cursor = b.m_cursor)
    (hl : f.m_pinyin_len = b.m_pinyin_len) (hk : f.calls = b.calls)
    (ho : f.m_config.option = b.m_config.option)
    (he : f.m_phrase_editor = b.m_phrase_editor)
    (hs : f.m_special_phrases = b.m_special_phrases)
    (hx : f.m_selected_special_phrase = b.m_selected_special_phrase)
    (hf : islower ch = true ∨ ch = APOSTROPHE)
    (hb : BopomofoContext.keyvalToBopomofo env b (charToInt ch) ≠ env.BOPOMOFO_ZERO) :
    Agree (FullPinyinContext.insert env f ch) (BopomofoContext.insert env b ch) := by
  have hacc : ¬ ((!islower ch && ch != APOSTROPHE) = true) := by
    rcases hf with h | h
    · simp [h]
    · simp [h]
  unfold FullPinyinContext.insert BopomofoContext.insert
  rw [if_neg hacc, if_neg hb, ht, hc, hk]
  split_ifs with h1
  · exact agree_same f b true ht hc hk
  · cases insertAt b.m_text b.m_cursor ch with
    | none => trivial
    | some t =>
      dsimp only
      have e1 : (f.m_config.option &&& env.PINYIN_INCOMPLETE_PINYIN = 0) ↔
          (b.m_config.option &&& env.PINYIN_INCOMPLETE_PINYIN = 0) := by rw [ho]
      have e2 : (b.m_cursor + 1 ≤ addSize f.m_pinyin_len 2) ↔
          (b.m_cursor + 1 ≤ addSize b.m_pinyin_len 2) := by rw [hl]
      have e3 : env.specialPhrasesChanged f.m_special_phrases
            (if f.m_selected_special_phrase ≠ [] then []
              else if f.m_phrase_editor.cursorInChar < b.m_cursor + 1 then
                env.lookup (substr t f.m_phrase_editor.cursorInChar
                  (b.m_cursor + 1 - f.m_phrase_editor.cursorInChar))
              else []) = true ↔
          env.specialPhrasesChanged b.m_special_phrases
            (if b.m_selected_special_phrase ≠ [] then []
              else if b.m_phrase_editor.cursorInChar < b.m_cursor + 1 then
                env.lookup (substr t b.m_phrase_editor.cursorInChar
                  (b.m_cursor + 1 - b.m_phrase_editor.cursorInChar))
              else []) = true := by rw [he, hs, hx]
      refine agree_ite e1 (agree_updatePinyin env true _ _ rfl rfl rfl) ?_
      refine agree_ite e2 (agree_updatePinyin env true _ _ rfl rfl rfl) ?_
      exact agree_ite e3 (agree_update env true _ _ rfl rfl rfl)
        (agree_preedit_aux env true _ _ rfl rfl rfl)

theorem agree_insert_rejected (f : PhoneticContext) (b : BopomofoContext) (ch : Char)
    (ht : f.m_text = b.m_text) (hc : f.m_cursor = b.m_cursor) (hk : f.calls = b.calls)
    (hf : ¬ (islower ch = true ∨ ch = APOSTROPHE))
    (hb : BopomofoContext.keyvalToBopomofo env b (charToInt ch) = env.BOPOMOFO_ZERO) :
    Agree (FullPinyinContext.insert env f ch) (BopomofoContext.insert env b ch) := by
  have hrej : (!islower ch && ch != APOSTROPHE) = true := by
    simp only [not_or] at hf
    simp [hf.1, hf.2]
  unfold FullPinyinContext.insert BopomofoContext.insert
  rw [if_pos hrej, if_pos hb]
  exact agree_same f b false ht hc hk

end agree

section outcome
variable (env : Env)

theorem insert_text_ne_nil (t : List Char) (c : Nat) (ch : Char) :
    (t.take c ++ ch :: t.drop c).isEmpty = false := by
  cases h : t.take c <;> rfl

/-- The routine `FullPinyinContext::updatePinyin` on a buffer that is not empty. -/
theorem full_updatePinyin_parse (x : PhoneticContext) (h : x.m_text.isEmpty = false) :
    (FullPinyinContext.updatePinyin env x).m_text = x.m_text ∧
      (FullPinyinContext.updatePinyin env x).m_cursor = x.m_cursor ∧
      (FullPinyinContext.updatePinyin env x).calls = x.calls ++ [Call.updatePinyin,
        Call.updatePhraseEditor, Call.update, Call.updatePreeditText,
        Call.updateAuxiliaryText] ∧
      (FullPinyinContext.updatePinyin env x).m_pinyin =
        (env.parse x.m_text x.m_cursor x.m_config.option env.MAX_PHRASE_LEN).1 ∧
      (FullPinyinContext.updatePinyin env x).m_pinyin_len =
        (env.parse x.m_text x.m_cursor x.m_config.option env.MAX_PHRASE_LEN).2 := by
  have hcore := full_core_updatePinyin env x
  rw [h] at hcore
  simp only [Bool.false_eq_true, if_false] at hcore
  exact ⟨congrArg Core.text hcore, congrArg Core.cursor hcore, full_calls_updatePinyin env x,
    congrArg Core.pinyin hcore, congrArg Core.pinyin_len hcore⟩

/-- The routine `BopomofoContext::updatePinyin` on a buffer that is not empty. -/
theorem bopomofo_updatePinyin_parse (x : BopomofoContext) (h : x.m_text.isEmpty = false) :
    (BopomofoContext.updatePinyin env x).m_text = x.m_text ∧
      (BopomofoContext.updatePinyin env x).m_cursor = x.m_cursor ∧
      (BopomofoContext.updatePinyin env x).calls = x.calls ++ [Call.updatePinyin,
        Call.updatePhraseEditor, Call.update, Call.updatePreeditText,
        Call.updateAuxiliaryText] ∧
      (BopomofoContext.updatePinyin env x).m_pinyin =
        (env.parseBopomofo (x.m_text.map (BopomofoContext.glyph env x)) x.m_cursor
          x.m_config.option env.MAX_PHRASE_LEN).1 ∧
      (BopomofoContext.updatePinyin env x).m_pinyin_len =
        (env.parseBopomofo (x.m_text.map (BopomofoContext.glyph env x)) x.m_cursor
          x.m_config.option env.MAX_PHRASE_LEN).2 := by
  have hcore := bopomofo_core_updatePinyin env x
  rw [h] at hcore
  simp only [Bool.false_eq_true, if_false] at hcore
  exact ⟨congrArg Core.text hcore, congrArg Core.cursor hcore,
    bopomofo_calls_updatePinyin env x, congrArg Core.pinyin hcore,
    congrArg Core.pinyin_len hcore⟩

theorem full_insert_outcome (s : PhoneticContext) (ch : Char)
    (hacc : islower ch = true ∨ ch = APOSTROPHE)
    (hcap : s.m_text.length < env.MAX_PINYIN_LEN) (hcur : s.m_cursor ≤ s.m_text.length) :
    ∃ r, FullPinyinContext.insert env s ch = some (true, r) ∧
      r.m_text = s.m_text.take s.m_cursor ++ ch :: s.m_text.drop s.m_cursor ∧
      r.m_cursor = s.m_cursor + 1 ∧
      ((s.m_config.option &&& env.PINYIN_INCOMPLETE_PINYIN = 0 ∨
          s.m_cursor + 1 ≤ addSize s.m_pinyin_len 2) →
        r.calls = s.calls ++ [Call.updateInputText, Call.updateCursor,
          Call.updateSpecialPhrases, Call.updatePinyin, Call.updatePhraseEditor, Call.update,
          Call.updatePreeditText, Call.updateAuxiliaryText] ∧
        r.m_pinyin = (env.parse r.m_text r.m_cursor s.m_config.option env.MAX_PHRASE_LEN).1 ∧
        r.m_pinyin_len =
          (env.parse r.m_text r.m_cursor s.m_config.option env.MAX_PHRASE_LEN).2) ∧
      (¬ (s.m_config.option &&& env.PINYIN_INCOMPLETE_PINYIN = 0 ∨
          s.m_cursor + 1 ≤ addSize s.m_pinyin_len 2) →
        (r.calls = s.calls ++ [Call.updateInputText, Call.updateCursor,
            Call.updateSpecialPhrases, Call.update, Call.updatePreeditText,
            Call.updateAuxiliaryText] ∨
          r.calls = s.calls ++ [Call.updateInputText, Call.updateCursor,
            Call.updateSpecialPhrases, Call.updatePreeditText, Call.updateAuxiliaryText]) ∧
        r.m_pinyin = s.m_pinyin ∧ r.m_pinyin_len = s.m_pinyin_len) := by
  have hacc1 : ¬ ((!islower ch && ch != APOSTROPHE) = true) := by
    rcases hacc with h | h
    · simp [h]
    · simp [h]
  unfold FullPinyinContext.insert
  rw [if_neg hacc1, if_neg (by omega), insertAt_eq_some _ _ _ hcur]
  dsimp only
  generalize hx : (PhoneticContext.updateSpecialPhrases env _).2 = x
  have htx : x.m_text = s.m_text.take s.m_cursor ++ ch :: s.m_text.drop s.m_cursor := by
    rw [← hx]; rfl
  have hcx : x.m_cursor = s.m_cursor + 1 := by rw [← hx]; rfl
  have hox : x.m_config = s.m_config := by rw [← hx]; rfl
  have hpx : x.m_pinyin = s.m_pinyin := by rw [← hx]; rfl
  have hlx : x.m_pinyin_len = s.m_pinyin_len := by rw [← hx]; rfl
  have hcalls : x.calls = s.calls ++ [Call.updateInputText, Call.updateCursor,
      Call.updateSpecialPhrases] := by
    rw [← hx]
    simp [PhoneticContext.updateSpecialPhrases, PhoneticContext.updateCursor,
      PhoneticContext.updateInputText, PhoneticContext.log]
  have hne : x.m_text.isEmpty = false := by rw [htx]; exact insert_text_ne_nil _ _ _
  obtain ⟨a1, a2, a3, a4, a5⟩ := full_updatePinyin_parse env x hne
  have hre : (FullPinyinContext.updatePinyin env x).m_text =
        s.m_text.take s.m_cursor ++ ch :: s.m_text.drop s.m_cursor ∧
      (FullPinyinContext.updatePinyin env x).m_cursor = s.m_cursor + 1 ∧
      (FullPinyinContext.updatePinyin env x).calls = s.calls ++ [Call.updateInputText,
        Call.updateCursor, Call.updateSpecialPhrases, Call.updatePinyin,
        Call.updatePhraseEditor, Call.update, Call.updatePreeditText,
        Call.updateAuxiliaryText] ∧
      (FullPinyinContext.updatePinyin env x).m_pinyin =
        (env.parse (FullPinyinContext.updatePinyin env x).m_text
          (FullPinyinContext.updatePinyin env x).m_cursor s.m_config.option
          env.MAX_PHRASE_LEN).1 ∧
      (FullPinyinContext.updatePinyin env x).m_pinyin_len =
        (env.parse (FullPinyinContext.updatePinyin env x).m_text
          (FullPinyinContext.updatePinyin env x).m_cursor s.m_config.option
          env.MAX_PHRASE_LEN).2 := by
    refine ⟨a1.trans htx, a2.trans hcx, ?_, ?_, ?_⟩
    · rw [a3, hcalls]; simp
    · rw [a4, a1, a2, hox]
    · rw [a5, a1, a2, hox]
  show ∃ r, (if s.m_config.option &&& env.PINYIN_INCOMPLETE_PINYIN = 0 then _
    else if s.m_cursor + 1 ≤ addSize s.m_pinyin_len 2 then _ else _) = some (true, r) ∧ _
  by_cases h1 : s.m_config.option &&& env.PINYIN_INCOMPLETE_PINYIN = 0
  · rw [if_pos h1]
    exact ⟨_, rfl, hre.1, hre.2.1, fun _ => hre.2.2, fun hn => absurd (Or.inl h1) hn⟩
  · rw [if_neg h1]
    by_cases h2 : s.m_cursor + 1 ≤ addSize s.m_pinyin_len 2
    · rw [if_pos h2]
      exact ⟨_, rfl, hre.1, hre.2.1, fun _ => hre.2.2, fun hn => absurd (Or.inr h2) hn⟩
    · rw [if_neg h2]
      have hno : ¬ (s.m_config.option &&& env.PINYIN_INCOMPLETE_PINYIN = 0 ∨
          s.m_cursor + 1 ≤ addSize s.m_pinyin_len 2) := fun hy => hy.elim h1 h2
      split_ifs with h3
      · refine ⟨_, rfl, ?_, ?_, fun hy => absurd hy hno, fun _ => ⟨Or.inl ?_, ?_, ?_⟩⟩
        · rw [(full_text_update env _).1]; exact htx
        · rw [(full_text_update env _).2]; exact hcx
        · rw [pinyin_calls_update, hcalls]; simp
        · exact (congrArg Core.pinyin (pinyin_core_update env x)).trans hpx
        · exact (congrArg Core.pinyin_len (pinyin_core_update env x)).trans hlx
      · have hc : (PinyinContext.updateAuxiliaryText env
            (PinyinContext.updatePreeditText env x)).core = x.core := by simp
        refine ⟨_, rfl, ?_, ?_, fun hy => absurd hy hno, fun _ => ⟨Or.inr ?_, ?_, ?_⟩⟩
        · rw [(full_text_preedit_aux env _).1]; exact htx
        · rw [(full_text_preedit_aux env _).2.1]; exact hcx
        · rw [(full_text_preedit_aux env _).2.2, hcalls]; simp
        · exact (congrArg Core.pinyin hc).trans hpx
        · exact (congrArg Core.pinyin_len hc).trans hlx

theorem bopomofo_insert_outcome (s : BopomofoContext) (ch : Char)
    (hacc : BopomofoContext.keyvalToBopomofo env s (charToInt ch) ≠ env.BOPOMOFO_ZERO)
    (hcap : s.m_text.length < env.MAX_PINYIN_LEN) (hcur : s.m_cursor ≤ s.m_text.length) :
    ∃ r, BopomofoContext.insert env s ch = some (true, r) ∧
      r.m_text = s.m_text.take s.m_cursor ++ ch :: s.m_text.drop s.m_cursor ∧
      r.m_cursor = s.m_cursor + 1 ∧
      ((s.m_config.option &&& env.PINYIN_INCOMPLETE_PINYIN = 0 ∨
          s.m_cursor + 1 ≤ addSize s.m_pinyin_len 2) →
        r.calls = s.calls ++ [Call.updateInputText, Call.updateCursor,
          Call.updateSpecialPhrases, Call.updatePinyin, Call.updatePhraseEditor, Call.update,
          Call.updatePreeditText, Call.updateAuxiliaryText] ∧
        r.m_pinyin = (env.parseBopomofo (r.m_text.map (BopomofoContext.glyph env s)) r.m_cursor
          s.m_config.option env.MAX_PHRASE_LEN).1 ∧
        r.m_pinyin_len =
          (env.parseBopomofo (r.m_text.map (BopomofoContext.glyph env s)) r.m_cursor
          s.m_config.option env.MAX_PHRASE_LEN).2) ∧
      (¬ (s.m_config.option &&& env.PINYIN_INCOMPLETE_PINYIN = 0 ∨
          s.m_cursor + 1 ≤ addSize s.m_pinyin_len 2) →
        (r.calls = s.calls ++ [Call.updateInputText, Call.updateCursor,
            Call.updateSpecialPhrases, Call.update, Call.updatePreeditText,
            Call.updateAuxiliaryText] ∨
          r.calls = s.calls ++ [Call.updateInputText, Call.updateCursor,
            Call.updateSpecialPhrases, Call.updatePreeditText, Call.updateAuxiliaryText]) ∧
        r.m_pinyin = s.m_pinyin ∧ r.m_pinyin_len = s.m_pinyin_len) := by
  unfold BopomofoContext.insert
  rw [if_neg hacc, if_neg (by omega), insertAt_eq_some _ _ _ hcur]
  dsimp only
  generalize hx : BopomofoContext.lift (fun b => (PhoneticContext.updateSpecialPhrases env b).2) _ = x
  have htx : x.m_text = s.m_text.take s.m_cursor ++ ch :: s.m_text.drop s.m_cursor := by
    rw [← hx]; rfl
  have hcx : x.m_cursor = s.m_cursor + 1 := by rw [← hx]; rfl
  have hox : x.m_config = s.m_config := by rw [← hx]; rfl
  have hpx : x.m_pinyin = s.m_pinyin := by rw [← hx]; rfl
  have hlx : x.m_pinyin_len = s.m_pinyin_len := by rw [← hx]; rfl
  have hcalls : x.calls = s.calls ++ [Call.updateInputText, Call.updateCursor,
      Call.updateSpecialPhrases] := by
    rw [← hx]
    simp [PhoneticContext.updateSpecialPhrases, PhoneticContext.updateCursor,
      PhoneticContext.updateInputText, PhoneticContext.log, BopomofoContext.lift]
  have hgl : BopomofoContext.glyph env x = BopomofoContext.glyph env s := by
    rw [← hx]; rfl
  have hne : x.m_text.isEmpty = false := by rw [htx]; exact insert_text_ne_nil _ _ _
  obtain ⟨a1, a2, a3, a4, a5⟩ := bopomofo_updatePinyin_parse env x hne
  have hre : (BopomofoContext.updatePinyin env x).m_text =
        s.m_text.take s.m_cursor ++ ch :: s.m_text.drop s.m_cursor ∧
      (BopomofoContext.updatePinyin env x).m_cursor = s.m_cursor + 1 ∧
      (BopomofoContext.updatePinyin env x).calls = s.calls ++ [Call.updateInputText,
        Call.updateCursor, Call.updateSpecialPhrases, Call.updatePinyin,
        Call.updatePhraseEditor, Call.update, Call.updatePreeditText,
        Call.updateAuxiliaryText] ∧
      (BopomofoContext.updatePinyin env x).m_pinyin =
        (env.parseBopomofo
          ((BopomofoContext.updatePinyin env x).m_text.map (BopomofoContext.glyph env s))
          (BopomofoContext.updatePinyin env x).m_cursor s.m_config.option
          env.MAX_PHRASE_LEN).1 ∧
      (BopomofoContext.updatePinyin env x).m_pinyin_len =
        (env.parseBopomofo
          ((BopomofoContext.updatePinyin env x).m_text.map (BopomofoContext.glyph env s))
          (BopomofoContext.updatePinyin env x).m_cursor s.m_config.option
          env.MAX_PHRASE_LEN).2 := by
    refine ⟨a1.trans htx, a2.trans hcx, ?_, ?_, ?_⟩
    · rw [a3, hcalls]; simp
    · rw [a4, a1, a2, hox, hgl]
    · rw [a5, a1, a2, hox, hgl]
  show ∃ r, (if s.m_config.option &&& env.PINYIN_INCOMPLETE_PINYIN = 0 then _
    else if s.m_cursor + 1 ≤ addSize s.m_pinyin_len 2 then _ else _) = some (true, r) ∧ _
  by_cases h1 : s.m_config.option &&& env.PINYIN_INCOMPLETE_PINYIN = 0
  · rw [if_pos h1]
    exact ⟨_, rfl, hre.1, hre.2.1, fun _ => hre.2.2, fun hn => absurd (Or.inl h1) hn⟩
  · rw [if_neg h1]
    by_cases h2 : s.m_cursor + 1 ≤ addSize s.m_pinyin_len 2
    · rw [if_pos h2]
      exact ⟨_, rfl, hre.1, hre.2.1, fun _ => hre.2.2, fun hn => absurd (Or.inr h2) hn⟩
    · rw [if_neg h2]
      have hno : ¬ (s.m_config.option &&& env.PINYIN_INCOMPLETE_PINYIN = 0 ∨
          s.m_cursor + 1 ≤ addSize s.m_pinyin_len 2) := fun hy => hy.elim h1 h2
      split_ifs with h3
      · refine ⟨_, rfl, ?_, ?_, fun hy => absurd hy hno, fun _ => ⟨Or.inl ?_, ?_, ?_⟩⟩
        · rw [(bopomofo_text_update env _).1]; exact htx
        · rw [(bopomofo_text_update env _).2]; exact hcx
        · rw [bopomofo_calls_update, hcalls]; simp
        · exact (congrArg Core.pinyin (bopomofo_core_update env x)).trans hpx
        · exact (congrArg Core.pinyin_len (bopomofo_core_update env x)).trans hlx
      · have hc : (BopomofoContext.updateAuxiliaryText env
            (BopomofoContext.updatePreeditText env x)).core = x.core := by simp
        refine ⟨_, rfl, ?_, ?_, fun hy => absurd hy hno, fun _ => ⟨Or.inr ?_, ?_, ?_⟩⟩
        · rw [(bopomofo_text_preedit_aux env _).1]; exact htx
        · rw [(bopomofo_text_preedit_aux env _).2.1]; exact hcx
        · rw [(bopomofo_text_preedit_aux env _).2.2, hcalls]; simp
        · exact (congrArg Core.pinyin hc).trans hpx
        · exact (congrArg Core.pinyin_len hc).trans hlx

end outcome

/-- C27 as stated fails for `insert`. From the buffer `aba` with the cursor at the end and
nothing parsed, the insertion of `a`, which both variants accept, returns true in both and
leaves the same buffer and cursor, but the full pinyin context with the option bit of
incomplete pinyin set takes the fast path, while the Bopomofo context without the bit parses
again: the sequences of update routines differ. With the same option word in both contexts
and a special phrase suggested in one of them only, `updateSpecialPhrases` reports a change
in that one only, and the sequences differ again. -/
theorem C27_counterexample :
    (incompleteAba.m_text = (bopomofoHolding "aba" 3).m_text ∧
      incompleteAba.m_cursor = (bopomofoHolding "aba" 3).m_cursor ∧
      incompleteAba.m_pinyin = (bopomofoHolding "aba" 3).m_pinyin ∧
      incompleteAba.m_pinyin_len = (bopomofoHolding "aba" 3).m_pinyin_len ∧
      incompleteAba.calls = (bopomofoHolding "aba" 3).calls) ∧
    islower 'a' = true ∧
    BopomofoContext.keyvalToBopomofo toyEnv (bopomofoHolding "aba" 3) (charToInt 'a') ≠
      toyEnv.BOPOMOFO_ZERO ∧
    (∃ r r', FullPinyinContext.step toyEnv incompleteAba (Op.insert 'a') = some (true, r) ∧
      BopomofoContext.step toyEnv (bopomofoHolding "aba" 3) (Op.insert 'a') = some (true, r') ∧
      r.m_text = r'.m_text ∧ r.m_cursor = r'.m_cursor ∧
      r.calls = [Call.updateInputText, Call.updateCursor, Call.updateSpecialPhrases,
        Call.updatePreeditText, Call.updateAuxiliaryText] ∧
      r'.calls = [Call.updateInputText, Call.updateCursor, Call.updateSpecialPhrases,
        Call.updatePinyin, Call.updatePhraseEditor, Call.update, Call.updatePreeditText,
        Call.updateAuxiliaryText]) ∧
    ¬ Agree (FullPinyinContext.step toyEnv incompleteAba (Op.insert 'a'))
      (BopomofoContext.step toyEnv (bopomofoHolding "aba" 3) (Op.insert 'a')) ∧
    (suggestingAba.m_text = bopomofoIncompleteAba.m_text ∧
      suggestingAba.m_cursor = bopomofoIncompleteAba.m_cursor ∧
      suggestingAba.m_pinyin = bopomofoIncompleteAba.m_pinyin ∧
      suggestingAba.m_pinyin_len = bopomofoIncompleteAba.m_pinyin_len ∧
      suggestingAba.calls = bopomofoIncompleteAba.calls ∧
      suggestingAba.m_config = bopomofoIncompleteAba.m_config) ∧
    (∃ r r', FullPinyinContext.step changeEnv suggestingAba (Op.insert 'a') = some (true, r) ∧
      BopomofoContext.step changeEnv bopomofoIncompleteAba (Op.insert 'a') = some (true, r') ∧
      r.calls = [Call.updateInputText, Call.updateCursor, Call.updateSpecialPhrases,
        Call.update, Call.updatePreeditText, Call.updateAuxiliaryText] ∧
      r'.calls = [Call.updateInputText, Call.updateCursor, Call.updateSpecialPhrases,
        Call.updatePreeditText, Call.updateAuxiliaryText]) ∧
    ¬ Agree (FullPinyinContext.step changeEnv suggestingAba (Op.insert 'a'))
      (BopomofoContext.step changeEnv bopomofoIncompleteAba (Op.insert 'a')) :=
  ⟨by decide, by decide, by decide, ⟨_, _, rfl, rfl, by decide, by decide, by decide, by decide⟩,
    fun h => absurd h.2.2.2 (by decide), by decide,
    ⟨_, _, rfl, rfl, by decide, by decide⟩, fun h => absurd h.2.2.2 (by decide)⟩

/-- C27 (amended): from a full pinyin context and a Bopomofo context with the same buffer,
cursor, pinyin array and `pinyin_len`, whatever the record `k` of the calls made so far, each
of the ten operations other than `insert` has a result in both variants or in neither,
returns the same boolean, leaves the same buffer and the same cursor, and invokes the same
sequence of update routines. So does `insert` of a character that both variants accept, when
the two contexts also have the same option word, the same phrase editor, the same special
phrase suggestions and the same selected special phrase; and `insert` of a character that
both reject. -/
theorem C27_variants_agree (env : Env) (f : PhoneticContext) (b : BopomofoContext)
    (ht : f.m_text = b.m_text) (hc : f.m_cursor = b.m_cursor) (hp : f.m_pinyin = b.m_pinyin)
    (hl : f.m_pinyin_len = b.m_pinyin_len) (k : List Call) :
    (∀ op : Op, (∀ ch, op ≠ Op.insert ch) →
      Agree (FullPinyinContext.step env { f with calls := k } op)
        (BopomofoContext.step env { b with calls := k } op)) ∧
    (∀ ch : Char, (islower ch = true ∨ ch = APOSTROPHE) →
      BopomofoContext.keyvalToBopomofo env b (charToInt ch) ≠ env.BOPOMOFO_ZERO →
      f.m_config.option = b.m_config.option → f.m_phrase_editor = b.m_phrase_editor →
      f.m_special_phrases = b.m_special_phrases →
      f.m_selected_special_phrase = b.m_selected_special_phrase →
      Agree (FullPinyinContext.step env { f with calls := k } (Op.insert ch))
        (BopomofoContext.step env { b with calls := k } (Op.insert ch))) ∧
    (∀ ch : Char, ¬ (islower ch = true ∨ ch = APOSTROPHE) →
      BopomofoContext.keyvalToBopomofo env b (charToInt ch) = env.BOPOMOFO_ZERO →
      Agree (FullPinyinContext.step env { f with calls := k } (Op.insert ch))
        (BopomofoContext.step env { b with calls := k } (Op.insert ch))) := by
  refine ⟨fun op hop => ?_,
    fun ch h1 h2 ho he hs hx =>
      agree_insert env { f with calls := k } { b with calls := k } ch ht hc hl rfl ho he hs hx
        h1 h2,
    fun ch h1 h2 =>
      agree_insert_rejected env { f with calls := k } { b with calls := k } ch ht hc rfl h1 h2⟩
  cases op with
  | insert ch => exact absurd rfl (hop ch)
  | removeCharBefore => exact agree_removeCharBefore env _ _ ht hc rfl
  | removeCharAfter => exact agree_removeCharAfter env _ _ ht hc rfl
  | removeWordBefore => exact agree_removeWordBefore env _ _ ht hc hp hl rfl
  | removeWordAfter => exact agree_removeWordAfter env _ _ ht hc rfl
  | moveCursorLeft => exact agree_moveCursorLeft env _ _ ht hc rfl
  | moveCursorRight => exact agree_moveCursorRight env _ _ ht hc rfl
  | moveCursorLeftByWord => exact agree_moveCursorLeftByWord env _ _ ht hc hp hl rfl
  | moveCursorRightByWord => exact agree_moveCursorToEnd env _ _ ht hc rfl
  | moveCursorToBegin => exact agree_moveCursorToBegin env _ _ ht hc rfl
  | moveCursorToEnd => exact agree_moveCursorToEnd env _ _ ht hc rfl

/-- C27 (amended) at two contexts that hold `ab` with the cursor after `a`: with different
option words for `removeWordBefore`, with the same base state for `insert`. -/
theorem C27_witness :
    Agree (FullPinyinContext.step toyEnv
        { ({ holding "ab" 1 with m_config := ⟨1, true⟩ } : PhoneticContext) with calls := [] }
        Op.removeWordBefore)
      (BopomofoContext.step toyEnv { bopomofoHolding "ab" 1 with calls := [] }
        Op.removeWordBefore) ∧
    Agree (FullPinyinContext.step toyEnv { holding "ab" 1 with calls := [] } (Op.insert 'a'))
      (BopomofoContext.step toyEnv { bopomofoHolding "ab" 1 with calls := [] }
        (Op.insert 'a')) :=
  ⟨(C27_variants_agree toyEnv { holding "ab" 1 with m_config := ⟨1, true⟩ }
      (bopomofoHolding "ab" 1) rfl rfl rfl rfl []).1
      Op.removeWordBefore (fun _ h => Op.noConfusion h),
    (C27_variants_agree toyEnv (holding "ab" 1) (bopomofoHolding "ab" 1) rfl rfl rfl rfl []).2.1
      'a' (Or.inl (by decide)) (by decide) rfl rfl rfl rfl⟩

section calls
variable (env : Env)

theorem full_calls_removeCharBefore (s r : PhoneticContext)
    (h : FullPinyinContext.removeCharBefore env s = some (true, r)) :
    r.calls = s.calls ++ [Call.updateInputText, Call.updateCursor, Call.updateSpecialPhrases,
      Call.updatePinyin, Call.updatePhraseEditor, Call.update, Call.updatePreeditText,
      Call.updateAuxiliaryText] := by
  unfold FullPinyinContext.removeCharBefore at h
  split_ifs at h with h1
  · simp at h
  · cases he : erase s.m_text (s.m_cursor - 1) 1 with
    | none => rw [he] at h; simp at h
    | some t =>
      rw [he] at h
      simp only [Option.some.injEq, Prod.mk.injEq, true_and] at h
      rw [← h, full_calls_updatePinyin]
      simp [PhoneticContext.updateSpecialPhrases, PhoneticContext.updateCursor,
        PhoneticContext.updateInputText, PhoneticContext.log]

theorem full_calls_removeCharAfter (s r : PhoneticContext)
    (h : FullPinyinContext.removeCharAfter env s = some (true, r)) :
    r.calls = s.calls ++ [Call.updateInputText, Call.updatePreeditText,
      Call.updateAuxiliaryText] := by
  unfold FullPinyinContext.removeCharAfter at h
  split_ifs at h with h1
  · simp at h
  · cases he : erase s.m_text s.m_cursor 1 with
    | none => rw [he] at h; simp at h
    | some t =>
      rw [he] at h
      simp only [Option.some.injEq, Prod.mk.injEq, true_and] at h
      rw [← h, (full_text_preedit_aux env _).2.2]
      simp [PhoneticContext.updateInputText]

theorem full_calls_removeWordAfter (s r : PhoneticContext)
    (h : FullPinyinContext.removeWordAfter env s = some (true, r)) :
    r.calls = s.calls ++ [Call.updateInputText, Call.updatePreeditText,
      Call.updateAuxiliaryText] := by
  unfold FullPinyinContext.removeWordAfter at h
  split_ifs at h with h1
  · simp at h
  · cases he : erase s.m_text s.m_cursor (SIZE_MOD - 1) with
    | none => rw [he] at h; simp at h
    | some t =>
      rw [he] at h
      simp only [Option.some.injEq, Prod.mk.injEq, true_and] at h
      rw [← h, (full_text_preedit_aux env _).2.2]
      simp [PhoneticContext.updateInputText]

theorem full_calls_removeWordBefore (s r : PhoneticContext)
    (h : FullPinyinContext.removeWordBefore env s = some (true, r)) :
    r.calls = s.calls ++ [Call.updateInputText, Call.updateCursor, Call.updateSpecialPhrases,
      Call.updatePhraseEditor, Call.update, Call.updatePreeditText,
      Call.updateAuxiliaryText] := by
  unfold FullPinyinContext.removeWordBefore at h
  split_ifs at h with h1 h2
  · simp at h
  · dsimp only at h
    cases he : erase s.m_text s.m_pinyin_len (subSize s.m_cursor s.m_pinyin_len) with
    | none => rw [he] at h; simp at h
    | some t =>
      rw [he] at h
      simp only [Option.some.injEq, Prod.mk.injEq, true_and] at h
      rw [← h, pinyin_calls_update]
      simp [PhoneticContext.updateSpecialPhrases, PhoneticContext.updateCursor,
        PhoneticContext.updateInputText, PhoneticContext.updatePhraseEditor,
        PhoneticContext.log]
  · cases hl : s.m_pinyin.getLast? with
    | none => rw [hl] at h; simp at h
    | some p =>
      rw [hl] at h
      dsimp only at h
      cases he : erase s.m_text (subSize s.m_cursor p.len)
          (subSize s.m_cursor (subSize s.m_cursor p.len)) with
      | none => rw [he] at h; simp at h
      | some t =>
        rw [he] at h
        simp only [Option.some.injEq, Prod.mk.injEq, true_and] at h
        rw [← h, pinyin_calls_update]
        simp [PhoneticContext.updateSpecialPhrases, PhoneticContext.updateCursor,
          PhoneticContext.updateInputText, PhoneticContext.updatePhraseEditor,
          PhoneticContext.log]

/-- A result of the Bopomofo variant that agrees with one of the full pinyin variant has
its record of calls. -/
theorem agree_calls (r1 : Result PhoneticContext) (x : Bool) (r : BopomofoContext)
    (h : Agree r1 (some (x, r))) : ∃ y, r1 = some (x, y) ∧ y.calls = r.calls := by
  cases r1 with
  | none => exact absurd h (by simp [Agree])
  | some v =>
    obtain ⟨h1, _, _, h4⟩ := h
    obtain ⟨v1, v2⟩ := v
    have h1a : v1 = x := h1
    subst h1a
    exact ⟨v2, rfl, h4⟩



end calls

section fast
variable (env : Env)

/-- The fast path of `FullPinyinContext::insert`: the routines it invokes, by the value
that `updateSpecialPhrases` returns. -/
theorem full_insert_fast_calls (s : PhoneticContext) (ch : Char)
    (hacc : islower ch = true ∨ ch = APOSTROPHE)
    (hcap : s.m_text.length < env.MAX_PINYIN_LEN) (hcur : s.m_cursor ≤ s.m_text.length)
    (hno : ¬ (s.m_config.option &&& env.PINYIN_INCOMPLETE_PINYIN = 0 ∨
      s.m_cursor + 1 ≤ addSize s.m_pinyin_len 2)) :
    ∃ r, FullPinyinContext.insert env s ch = some (true, r) ∧
      r.calls = s.calls ++ [Call.updateInputText, Call.updateCursor,
          Call.updateSpecialPhrases] ++
        (if (PhoneticContext.updateSpecialPhrases env
            (PhoneticContext.updateCursor (PhoneticContext.updateInputText
              { s with m_text := s.m_text.take s.m_cursor ++ ch :: s.m_text.drop s.m_cursor,
                       m_cursor := s.m_cursor + 1 }))).1 = true
          then [Call.update, Call.updatePreeditText, Call.updateAuxiliaryText]
          else [Call.updatePreeditText, Call.updateAuxiliaryText]) := by
  have hacc1 : ¬ ((!islower ch && ch != APOSTROPHE) = true) := by
    rcases hacc with h | h
    · simp [h]
    · simp [h]
  have h1 : ¬ s.m_config.option &&& env.PINYIN_INCOMPLETE_PINYIN = 0 := fun h => hno (Or.inl h)
  have h2 : ¬ s.m_cursor + 1 ≤ addSize s.m_pinyin_len 2 := fun h => hno (Or.inr h)
  unfold FullPinyinContext.insert
  rw [if_neg hacc1, if_neg (by omega), insertAt_eq_some _ _ _ hcur]
  dsimp only
  show ∃ r, (if s.m_config.option &&& env.PINYIN_INCOMPLETE_PINYIN = 0 then _
    else if s.m_cursor + 1 ≤ addSize s.m_pinyin_len 2 then _ else _) = some (true, r) ∧ _
  rw [if_neg h1, if_neg h2]
  split_ifs with h3
  · refine ⟨_, rfl, ?_⟩
    rw [pinyin_calls_update]
    simp [PhoneticContext.updateSpecialPhrases, PhoneticContext.updateCursor,
      PhoneticContext.updateInputText, PhoneticContext.log]
  · refine ⟨_, rfl, ?_⟩
    rw [(full_text_preedit_aux env _).2.2]
    simp [PhoneticContext.updateSpecialPhrases, PhoneticContext.updateCursor,
      PhoneticContext.updateInputText, PhoneticContext.log]

/-- The fast path of `BopomofoContext::insert`: the routines it invokes, by the value that
`updateSpecialPhrases` returns. -/
theorem bopomofo_insert_fast_calls (s : BopomofoContext) (ch : Char)
    (hacc : BopomofoContext.keyvalToBopomofo env s (charToInt ch) ≠ env.BOPOMOFO_ZERO)
    (hcap : s.m_text.length < env.MAX_PINYIN_LEN) (hcur : s.m_cursor ≤ s.m_text.length)
    (hno : ¬ (s.m_config.option &&& env.PINYIN_INCOMPLETE_PINYIN = 0 ∨
      s.m_cursor + 1 ≤ addSize s.m_pinyin_len 2)) :
    ∃ r, BopomofoContext.insert env s ch = some (true, r) ∧
      r.calls = s.calls ++ [Call.updateInputText, Call.updateCursor,
          Call.updateSpecialPhrases] ++
        (if (PhoneticContext.updateSpecialPhrases env
            (PhoneticContext.updateCursor (PhoneticContext.updateInputText
              { s.toPhoneticContext with
                m_text := s.m_text.take s.m_cursor ++ ch :: s.m_text.drop s.m_cursor,
                m_cursor := s.m_cursor + 1 }))).1 = true
          then [Call.update, Call.updatePreeditText, Call.updateAuxiliaryText]
          else [Call.updatePreeditText, Call.updateAuxiliaryText]) := by
  have h1 : ¬ s.m_config.option &&& env.PINYIN_INCOMPLETE_PINYIN = 0 := fun h => hno (Or.inl h)
  have h2 : ¬ s.m_cursor + 1 ≤ addSize s.m_pinyin_len 2 := fun h => hno (Or.inr h)
  unfold BopomofoContext.insert
  rw [if_neg hacc, if_neg (by omega), insertAt_eq_some _ _ _ hcur]
  dsimp only
  show ∃ r, (if s.m_config.option &&& env.PINYIN_INCOMPLETE_PINYIN = 0 then _
    else if s.m_cursor + 1 ≤ addSize s.m_pinyin_len 2 then _ else _) = some (true, r) ∧ _
  rw [if_neg h1, if_neg h2]
  split_ifs with h3 h4 h4
  · refine ⟨_, rfl, ?_⟩
    rw [bopomofo_calls_update]
    simp [PhoneticContext.updateSpecialPhrases, PhoneticContext.updateCursor,
      PhoneticContext.updateInputText, PhoneticContext.log, BopomofoContext.lift]
  · exact absurd h3 h4
  · exact absurd h4 h3
  · refine ⟨_, rfl, ?_⟩
    rw [(bopomofo_text_preedit_aux env _).2.2]
    simp [PhoneticContext.updateSpecialPhrases, PhoneticContext.updateCursor,
      PhoneticContext.updateInputText, PhoneticContext.log, BopomofoContext.lift]

end fast

/-- C28 as stated fails: `removeCharAfter` on the buffer `ab` with the cursor after `a`
returns true and leaves the buffer `a`, and it invokes `updateInputText`,
`updatePreeditText` and `updateAuxiliaryText` only: neither the special phrases nor the
pinyin array nor the phrase editor is recomputed. -/
theorem C28_counterexample :
    ∃ r, FullPinyinContext.removeCharAfter toyEnv (holding "ab" 1) = some (true, r) ∧
      (holding "ab" 1).m_text = ['a', 'b'] ∧ r.m_text = ['a'] ∧
      r.calls = (holding "ab" 1).calls ++ [Call.updateInputText, Call.updatePreeditText,
        Call.updateAuxiliaryText] ∧
      Call.updateSpecialPhrases ∉ r.calls ∧ Call.updatePinyin ∉ r.calls ∧
      Call.updatePhraseEditor ∉ r.calls :=
  ⟨_, rfl, by decide, by decide, by decide, by decide, by decide, by decide⟩

/-- C28 (amended): in both variants every operation that mutates the buffer, when it
returns true, invokes before it returns: `removeCharBefore` all the update routines
(input text, cursor, special phrases, `updatePinyin`, phrase editor, `update`, preedit text,
auxiliary text); `removeWordBefore` the same without `updatePinyin`; `removeCharAfter` and
`removeWordAfter` only those of the input text, the preedit text and the auxiliary text;
`insert` of an accepted character below capacity, on its re-parse path (the bit
`PINYIN_INCOMPLETE_PINYIN` off, or the cursor after the insertion at most the previous
`pinyin_len + 2`), all the update routines like `removeCharBefore`; and on its fast path
those of the input text, the cursor and the special phrases, followed by `update` with the
two text routines when `updateSpecialPhrases` returned true, and by the two text routines
alone when it returned false. -/
theorem C28_mutation_updates (env : Env) :
    (∀ s r : PhoneticContext,
      (FullPinyinContext.removeCharBefore env s = some (true, r) →
        r.calls = s.calls ++ [Call.updateInputText, Call.updateCursor,
          Call.updateSpecialPhrases, Call.updatePinyin, Call.updatePhraseEditor, Call.update,
          Call.updatePreeditText, Call.updateAuxiliaryText]) ∧
      (FullPinyinContext.removeWordBefore env s = some (true, r) →
        r.calls = s.calls ++ [Call.updateInputText, Call.updateCursor,
          Call.updateSpecialPhrases, Call.updatePhraseEditor, Call.update,
          Call.updatePreeditText, Call.updateAuxiliaryText]) ∧
      (FullPinyinContext.removeCharAfter env s = some (true, r) →
        r.calls = s.calls ++ [Call.updateInputText, Call.updatePreeditText,
          Call.updateAuxiliaryText]) ∧
      (FullPinyinContext.removeWordAfter env s = some (true, r) →
        r.calls = s.calls ++ [Call.updateInputText, Call.updatePreeditText,
          Call.updateAuxiliaryText]) ∧
      (∀ ch : Char, (islower ch = true ∨ ch = APOSTROPHE) →
        s.m_text.length < env.MAX_PINYIN_LEN →
        FullPinyinContext.insert env s ch = some (true, r) →
        ((s.m_config.option &&& env.PINYIN_INCOMPLETE_PINYIN = 0 ∨
            s.m_cursor + 1 ≤ addSize s.m_pinyin_len 2) →
          r.calls = s.calls ++ [Call.updateInputText, Call.updateCursor,
            Call.updateSpecialPhrases, Call.updatePinyin, Call.updatePhraseEditor,
            Call.update, Call.updatePreeditText, Call.updateAuxiliaryText]) ∧
        (¬ (s.m_config.option &&& env.PINYIN_INCOMPLETE_PINYIN = 0 ∨
            s.m_cursor + 1 ≤ addSize s.m_pinyin_len 2) →
          r.calls = s.calls ++ [Call.updateInputText, Call.updateCursor,
              Call.updateSpecialPhrases] ++
            (if (PhoneticContext.updateSpecialPhrases env
                (PhoneticContext.updateCursor (PhoneticContext.updateInputText
                  { s with
                    m_text := s.m_text.take s.m_cursor ++ ch :: s.m_text.drop s.m_cursor,
                    m_cursor := s.m_cursor + 1 }))).1 = true
              then [Call.update, Call.updatePreeditText, Call.updateAuxiliaryText]
              else [Call.updatePreeditText, Call.updateAuxiliaryText])))) ∧
    (∀ s r : BopomofoContext,
      (BopomofoContext.removeCharBefore env s = some (true, r) →
        r.calls = s.calls ++ [Call.updateInputText, Call.updateCursor,
          Call.updateSpecialPhrases, Call.updatePinyin, Call.updatePhraseEditor, Call.update,
          Call.updatePreeditText, Call.updateAuxiliaryText]) ∧
      (BopomofoContext.removeWordBefore env s = some (true, r) →
        r.calls = s.calls ++ [Call.updateInputText, Call.updateCursor,
          Call.updateSpecialPhrases, Call.updatePhraseEditor, Call.update,
          Call.updatePreeditText, Call.updateAuxiliaryText]) ∧
      (BopomofoContext.removeCharAfter env s = some (true, r) →
        r.calls = s.calls ++ [Call.updateInputText, Call.updatePreeditText,
          Call.updateAuxiliaryText]) ∧
      (BopomofoContext.removeWordAfter env s = some (true, r) →
        r.calls = s.calls ++ [Call.updateInputText, Call.updatePreeditText,
          Call.updateAuxiliaryText]) ∧
      (∀ ch : Char,
        BopomofoContext.keyvalToBopomofo env s (charToInt ch) ≠ env.BOPOMOFO_ZERO →
        s.m_text.length < env.MAX_PINYIN_LEN →
        BopomofoContext.insert env s ch = some (true, r) →
        ((s.m_config.option &&& env.PINYIN_INCOMPLETE_PINYIN = 0 ∨
            s.m_cursor + 1 ≤ addSize s.m_pinyin_len 2) →
          r.calls = s.calls ++ [Call.updateInputText, Call.updateCursor,
            Call.updateSpecialPhrases, Call.updatePinyin, Call.updatePhraseEditor,
            Call.update, Call.updatePreeditText, Call.updateAuxiliaryText]) ∧
        (¬ (s.m_config.option &&& env.PINYIN_INCOMPLETE_PINYIN = 0 ∨
            s.m_cursor + 1 ≤ addSize s.m_pinyin_len 2) →
          r.calls = s.calls ++ [Call.updateInputText, Call.updateCursor,
              Call.updateSpecialPhrases] ++
            (if (PhoneticContext.updateSpecialPhrases env
                (PhoneticContext.updateCursor (PhoneticContext.updateInputText
                  { s.toPhoneticContext with
                    m_text := s.m_text.take s.m_cursor ++ ch :: s.m_text.drop s.m_cursor,
                    m_cursor := s.m_cursor + 1 }))).1 = true
              then [Call.update, Call.updatePreeditText, Call.updateAuxiliaryText]
              else [Call.updatePreeditText, Call.updateAuxiliaryText])))) := by
  constructor
  · intro s r
    refine ⟨full_calls_removeCharBefore env s r, full_calls_removeWordBefore env s r,
      full_calls_removeCharAfter env s r, full_calls_removeWordAfter env s r, ?_⟩
    intro ch hacc hcap hins
    by_cases hcur : s.m_cursor ≤ s.m_text.length
    · obtain ⟨r1, h1, _, _, hre, _⟩ := full_insert_outcome env s ch hacc hcap hcur
      rw [h1] at hins
      simp only [Option.some.injEq, Prod.mk.injEq, true_and] at hins
      subst hins
      refine ⟨fun hc => (hre hc).1, fun hc => ?_⟩
      obtain ⟨r2, h2, hcalls⟩ := full_insert_fast_calls env s ch hacc hcap hcur hc
      rw [h1] at h2
      simp only [Option.some.injEq, Prod.mk.injEq, true_and] at h2
      subst h2
      exact hcalls
    · exfalso
      have hacc1 : ¬ ((!islower ch && ch != APOSTROPHE) = true) := by
        rcases hacc with h | h
        · simp [h]
        · simp [h]
      unfold FullPinyinContext.insert at hins
      rw [if_neg hacc1, if_neg (by omega)] at hins
      have : insertAt s.m_text s.m_cursor ch = none := by
        unfold insertAt; rw [if_pos (by omega)]
      rw [this] at hins
      simp at hins
  · intro s r
    refine ⟨fun h => ?_, fun h => ?_, fun h => ?_, fun h => ?_, ?_⟩
    · obtain ⟨y, hy, hc⟩ := agree_calls _ true r
        (h ▸ agree_removeCharBefore env s.toPhoneticContext s rfl rfl rfl)
      rw [← hc]; exact full_calls_removeCharBefore env _ y hy
    · obtain ⟨y, hy, hc⟩ := agree_calls _ true r
        (h ▸ agree_removeWordBefore env s.toPhoneticContext s rfl rfl rfl rfl rfl)
      rw [← hc]; exact full_calls_removeWordBefore env _ y hy
    · obtain ⟨y, hy, hc⟩ := agree_calls _ true r
        (h ▸ agree_removeCharAfter env s.toPhoneticContext s rfl rfl rfl)
      rw [← hc]; exact full_calls_removeCharAfter env _ y hy
    · obtain ⟨y, hy, hc⟩ := agree_calls _ true r
        (h ▸ agree_removeWordAfter env s.toPhoneticContext s rfl rfl rfl)
      rw [← hc]; exact full_calls_removeWordAfter env _ y hy
    · intro ch hacc hcap hins
      by_cases hcur : s.m_cursor ≤ s.m_text.length
      · obtain ⟨r1, h1, _, _, hre, _⟩ := bopomofo_insert_outcome env s ch hacc hcap hcur
        rw [h1] at hins
        simp only [Option.some.injEq, Prod.mk.injEq, true_and] at hins
        subst hins
        refine ⟨fun hc => (hre hc).1, fun hc => ?_⟩
        obtain ⟨r2, h2, hcalls⟩ := bopomofo_insert_fast_calls env s ch hacc hcap hcur hc
        rw [h1] at h2
        simp only [Option.some.injEq, Prod.mk.injEq, true_and] at h2
        subst h2
        exact hcalls
      · exfalso
        unfold BopomofoContext.insert at hins
        rw [if_neg hacc, if_neg (by omega)] at hins
        have : insertAt s.m_text s.m_cursor ch = none := by
          unfold insertAt; rw [if_pos (by omega)]
        rw [this] at hins
        simp at hins

/-- C28 (amended) at `removeCharBefore` on the buffer `ab` with the cursor after `a`, and at
the insertion of `d` into the buffer `abc` on the fast path, where no special phrase
changes. -/
theorem C28_witness :
    (∃ r, FullPinyinContext.removeCharBefore toyEnv (holding "ab" 1) = some (true, r) ∧
      r.calls = (holding "ab" 1).calls ++ [Call.updateInputText, Call.updateCursor,
        Call.updateSpecialPhrases, Call.updatePinyin, Call.updatePhraseEditor, Call.update,
        Call.updatePreeditText, Call.updateAuxiliaryText]) ∧
    (∃ r, FullPinyinContext.insert toyEnv incompleteHolding 'd' = some (true, r) ∧
      r.calls = [Call.updateInputText, Call.updateCursor, Call.updateSpecialPhrases,
        Call.updatePreeditText, Call.updateAuxiliaryText]) :=
  ⟨⟨_, rfl, ((C28_mutation_updates toyEnv).1 (holding "ab" 1) _).1 rfl⟩,
    ⟨_, rfl, ((((C28_mutation_updates toyEnv).1 incompleteHolding _).2.2.2.2 'd'
      (Or.inl (by decide)) (by decide) rfl).2 (by decide)).trans (by decide)⟩⟩

theorem addSize_two (n : Nat) (h : n + 2 < SIZE_MOD) : addSize n 2 = n + 2 := by
  unfold addSize; exact Nat.mod_eq_of_lt h

/-- C29: in both variants, for an accepted character inserted below capacity at a cursor
within the buffer (`pinyin_len + 2` being a `size_t` value), `insert` returns true with the
cursor one further. If the bit `PINYIN_INCOMPLETE_PINYIN` is off, or the cursor after the
insertion is at most the previous `pinyin_len + 2`, it invokes `updatePinyin`, and the
pinyin array and `pinyin_len` are the result of the parser for the new buffer and cursor.
If the bit is on and the cursor after the insertion is beyond the previous
`pinyin_len + 2`, it does not invoke `updatePinyin`, leaves the pinyin array and
`pinyin_len` unchanged, and still invokes `updateSpecialPhrases`, `updatePreeditText` and
`updateAuxiliaryText`. -/
theorem C29_insert_reparse (env : Env) :
    (∀ (s : PhoneticContext) (ch : Char), (islower ch = true ∨ ch = APOSTROPHE) →
      s.m_text.length < env.MAX_PINYIN_LEN → s.m_cursor ≤ s.m_text.length →
      s.m_pinyin_len + 2 < SIZE_MOD →
      ∃ r, FullPinyinContext.insert env s ch = some (true, r) ∧
        r.m_cursor = s.m_cursor + 1 ∧
        ((s.m_config.option &&& env.PINYIN_INCOMPLETE_PINYIN = 0 ∨
            r.m_cursor ≤ s.m_pinyin_len + 2) →
          Call.updatePinyin ∈ r.calls.drop s.calls.length ∧
          r.m_pinyin =
            (env.parse r.m_text r.m_cursor s.m_config.option env.MAX_PHRASE_LEN).1 ∧
          r.m_pinyin_len =
            (env.parse r.m_text r.m_cursor s.m_config.option env.MAX_PHRASE_LEN).2) ∧
        (s.m_config.option &&& env.PINYIN_INCOMPLETE_PINYIN ≠ 0 →
          s.m_pinyin_len + 2 < r.m_cursor →
          Call.updatePinyin ∉ r.calls.drop s.calls.length ∧
          r.m_pinyin = s.m_pinyin ∧ r.m_pinyin_len = s.m_pinyin_len ∧
          Call.updateSpecialPhrases ∈ r.calls.drop s.calls.length ∧
          Call.updatePreeditText ∈ r.calls.drop s.calls.length ∧
          Call.updateAuxiliaryText ∈ r.calls.drop s.calls.length)) ∧
    (∀ (s : BopomofoContext) (ch : Char),
      BopomofoContext.keyvalToBopomofo env s (charToInt ch) ≠ env.BOPOMOFO_ZERO →
      s.m_text.length < env.MAX_PINYIN_LEN → s.m_cursor ≤ s.m_text.length →
      s.m_pinyin_len + 2 < SIZE_MOD →
      ∃ r, BopomofoContext.insert env s ch = some (true, r) ∧
        r.m_cursor = s.m_cursor + 1 ∧
        ((s.m_config.option &&& env.PINYIN_INCOMPLETE_PINYIN = 0 ∨
            r.m_cursor ≤ s.m_pinyin_len + 2) →
          Call.updatePinyin ∈ r.calls.drop s.calls.length ∧
          r.m_pinyin =
            (env.parseBopomofo (r.m_text.map (BopomofoContext.glyph env s)) r.m_cursor
              s.m_config.option env.MAX_PHRASE_LEN).1 ∧
          r.m_pinyin_len =
            (env.parseBopomofo (r.m_text.map (BopomofoContext.glyph env s)) r.m_cursor
              s.m_config.option env.MAX_PHRASE_LEN).2) ∧
        (s.m_config.option &&& env.PINYIN_INCOMPLETE_PINYIN ≠ 0 →
          s.m_pinyin_len + 2 < r.m_cursor →
          Call.updatePinyin ∉ r.calls.drop s.calls.length ∧
          r.m_pinyin = s.m_pinyin ∧ r.m_pinyin_len = s.m_pinyin_len ∧
          Call.updateSpecialPhrases ∈ r.calls.drop s.calls.length ∧
          Call.updatePreeditText ∈ r.calls.drop s.calls.length ∧
          Call.updateAuxiliaryText ∈ r.calls.drop s.calls.length)) := by
  constructor
  · intro s ch hacc hcap hcur hlen
    obtain ⟨r, h1, _, hc, hre, hfast⟩ := full_insert_outcome env s ch hacc hcap hcur
    rw [addSize_two _ hlen] at hre hfast
    refine ⟨r, h1, hc, fun h => ?_, fun hb hl => ?_⟩
    · have := hre (by rw [hc] at h; exact h)
      refine ⟨?_, this.2.1, this.2.2⟩
      rw [this.1, List.drop_left]
      decide
    · have := hfast (by rw [hc] at hl; intro hy; rcases hy with hy | hy; exact hb hy; omega)
      refine ⟨?_, this.2.1, this.2.2, ?_, ?_, ?_⟩ <;>
        rcases this.1 with h | h <;> rw [h, List.drop_left] <;> decide
  · intro s ch hacc hcap hcur hlen
    obtain ⟨r, h1, _, hc, hre, hfast⟩ := bopomofo_insert_outcome env s ch hacc hcap hcur
    rw [addSize_two _ hlen] at hre hfast
    refine ⟨r, h1, hc, fun h => ?_, fun hb hl => ?_⟩
    · have := hre (by rw [hc] at h; exact h)
      refine ⟨?_, this.2.1, this.2.2⟩
      rw [this.1, List.drop_left]
      decide
    · have := hfast (by rw [hc] at hl; intro hy; rcases hy with hy | hy; exact hb hy; omega)
      refine ⟨?_, this.2.1, this.2.2, ?_, ?_, ?_⟩ <;>
        rcases this.1 with h | h <;> rw [h, List.drop_left] <;> decide

/-- C29 at the buffer `abc` with the cursor at the end and nothing parsed: with the bit on
the insertion of `d` leaves `pinyin_len` 0, with the bit off it parses again. -/
theorem C29_witness :
    (∃ r, FullPinyinContext.insert toyEnv incompleteHolding 'd' = some (true, r) ∧
        r.m_cursor = incompleteHolding.m_cursor + 1 ∧
        ((incompleteHolding.m_config.option &&& toyEnv.PINYIN_INCOMPLETE_PINYIN = 0 ∨
            r.m_cursor ≤ incompleteHolding.m_pinyin_len + 2) →
          Call.updatePinyin ∈ r.calls.drop incompleteHolding.calls.length ∧
          r.m_pinyin = (toyEnv.parse r.m_text r.m_cursor incompleteHolding.m_config.option
            toyEnv.MAX_PHRASE_LEN).1 ∧
          r.m_pinyin_len = (toyEnv.parse r.m_text r.m_cursor incompleteHolding.m_config.option
            toyEnv.MAX_PHRASE_LEN).2) ∧
        (incompleteHolding.m_config.option &&& toyEnv.PINYIN_INCOMPLETE_PINYIN ≠ 0 →
          incompleteHolding.m_pinyin_len + 2 < r.m_cursor →
          Call.updatePinyin ∉ r.calls.drop incompleteHolding.calls.length ∧
          r.m_pinyin = incompleteHolding.m_pinyin ∧
          r.m_pinyin_len = incompleteHolding.m_pinyin_len ∧
          Call.updateSpecialPhrases ∈ r.calls.drop incompleteHolding.calls.length ∧
          Call.updatePreeditText ∈ r.calls.drop incompleteHolding.calls.length ∧
          Call.updateAuxiliaryText ∈ r.calls.drop incompleteHolding.calls.length)) ∧
    (FullPinyinContext.insert toyEnv incompleteHolding 'd').map
        (fun r => (r.1, r.2.m_pinyin_len, r.2.calls)) =
      some (true, 0, [Call.updateInputText, Call.updateCursor, Call.updateSpecialPhrases,
        Call.updatePreeditText, Call.updateAuxiliaryText]) ∧
    (FullPinyinContext.insert toyEnv (holding "abc" 3) 'd').map
        (fun r => (r.1, r.2.m_pinyin_len, r.2.calls)) =
      some (true, 4, [Call.updateInputText, Call.updateCursor, Call.updateSpecialPhrases,
        Call.updatePinyin, Call.updatePhraseEditor, Call.update, Call.updatePreeditText,
        Call.updateAuxiliaryText]) :=
  ⟨(C29_insert_reparse toyEnv).1 incompleteHolding 'd' (Or.inl (by decide)) (by decide)
    (by decide) (by decide), by decide, by decide⟩

/-- C30: when the conversion of the elapsed time to whole seconds is defined,
`Database::timeoutCallback` returns: if the seconds are at least `DB_BACKUP_TIMEOUT` and
`saveUserDB` succeeds, false with the timeout identifier set to 0; in every other case true
with the timeout identifier unchanged. Below the threshold the database is left as it was,
without a run of `saveUserDB`; from the threshold on `saveUserDB` runs once. -/
theorem C30_timeout_callback (elapsed : ℚ) (ok : Bool) (self : Database) (seconds : Nat)
    (h : toUnsignedInt elapsed = some seconds) :
    ∃ r, self.timeoutCallback elapsed ok = some r ∧
      ((seconds ≥ DB_BACKUP_TIMEOUT ∧ ok = true) →
        r.1 = false ∧ r.2.m_timeout_id = 0 ∧ r.2.saves = self.saves + 1) ∧
      (¬ (seconds ≥ DB_BACKUP_TIMEOUT ∧ ok = true) →
        r.1 = true ∧ r.2.m_timeout_id = self.m_timeout_id) ∧
      (seconds < DB_BACKUP_TIMEOUT → r.2 = self) ∧
      (seconds ≥ DB_BACKUP_TIMEOUT → r.2.saves = self.saves + 1) ∧
      r.2.m_db = self.m_db := by
  unfold Database.timeoutCallback
  rw [h]
  dsimp only
  by_cases h1 : seconds ≥ DB_BACKUP_TIMEOUT
  · rw [if_pos h1]
    cases ok with
    | true =>
      refine ⟨_, rfl, fun _ => ⟨rfl, rfl, rfl⟩, fun hn => absurd ⟨h1, rfl⟩ hn,
        fun hl => absurd h1 (by omega), fun _ => rfl, rfl⟩
    | false =>
      refine ⟨_, rfl, fun hy => absurd hy.2 (by simp), fun _ => ⟨rfl, rfl⟩,
        fun hl => absurd h1 (by omega), fun _ => rfl, rfl⟩
  · rw [if_neg h1]
    exact ⟨_, rfl, fun hy => absurd hy.1 h1, fun _ => ⟨rfl, rfl⟩, fun _ => rfl,
      fun hy => absurd hy h1, rfl⟩

/-- C30 at 75.5 seconds with a backup that succeeds and one that fails, and at 59.5
seconds. -/
theorem C30_witness :
    (∃ r, Database.timeoutCallback seconds75 true ⟨true, 7, 0⟩ = some r ∧
      (((75 : Nat) ≥ DB_BACKUP_TIMEOUT ∧ true = true) →
        r.1 = false ∧ r.2.m_timeout_id = 0 ∧
          r.2.saves = (⟨true, 7, 0⟩ : Database).saves + 1) ∧
      (¬ ((75 : Nat) ≥ DB_BACKUP_TIMEOUT ∧ true = true) →
        r.1 = true ∧ r.2.m_timeout_id = (⟨true, 7, 0⟩ : Database).m_timeout_id) ∧
      ((75 : Nat) < DB_BACKUP_TIMEOUT → r.2 = ⟨true, 7, 0⟩) ∧
      ((75 : Nat) ≥ DB_BACKUP_TIMEOUT → r.2.saves = (⟨true, 7, 0⟩ : Database).saves + 1) ∧
      r.2.m_db = (⟨true, 7, 0⟩ : Database).m_db) ∧
    Database.timeoutCallback seconds75 true ⟨true, 7, 0⟩ = some (false, ⟨true, 0, 1⟩) ∧
    Database.timeoutCallback seconds75 false ⟨true, 7, 0⟩ = some (true, ⟨true, 7, 1⟩) ∧
    Database.timeoutCallback seconds59 true ⟨true, 7, 0⟩ = some (true, ⟨true, 7, 0⟩) :=
  ⟨C30_timeout_callback seconds75 true ⟨true, 7, 0⟩ 75 (by decide), by decide, by decide,
    by decide⟩

/-! ## The number of disjuncts of a query -/

theorem length_shengStep (k : PinyinConsts) (option i : Nat) (p : Pinyin) (c : Conditions) :
    (shengStep k option i p c).length =
      if i < DB_INDEX_SIZE then (1 + (enabledInitials k option p).length) * c.length
      else c.length := by
  unfold shengStep enabledInitials Pinyin.shengId
  dsimp only
  generalize (p.pinyin_id.getD 0 (0, 0)).1 = id0
  generalize (p.pinyin_id.getD 1 (0, 0)).1 = id1
  generalize (p.pinyin_id.getD 2 (0, 0)).1 = id2
  generalize pinyin_option_check_sheng k option id0 id1 = fs1
  generalize pinyin_option_check_sheng k option id0 id2 = fs2
  cases fs1 <;> cases fs2 <;> by_cases hi : i < DB_INDEX_SIZE <;>
    simp [hi, length_appendPrintf, length_double, length_triple] <;> ring

theorem length_yunStep (k : PinyinConsts) (option i : Nat) (p : Pinyin) (c : Conditions) :
    (yunStep k option i p c).length =
      if i < DB_INDEX_SIZE then (1 + (enabledFinals k option p).length) * c.length
      else c.length := by
  unfold yunStep enabledFinals Pinyin.yunId
  dsimp only
  generalize (p.pinyin_id.getD 0 (0, 0)).2 = y0
  generalize (p.pinyin_id.getD 1 (0, 0)).2 = y1
  generalize pinyin_option_check_yun k option y0 y1 = fy
  by_cases h0 : y0 = k.PINYIN_ID_ZERO <;> cases fy <;> by_cases hi : i < DB_INDEX_SIZE <;>
    simp [h0, hi, length_appendPrintf, length_double]
  ring

theorem length_queryStep (k : PinyinConsts) (pinyin : List Pinyin)
    (pinyin_begin option : Nat) (c : Conditions) (i : Nat) :
    (queryStep k pinyin pinyin_begin option c i).length =
      if i < DB_INDEX_SIZE then
        (1 + (enabledInitials k option (pinyin.getD (i + pinyin_begin) default)).length) *
          (1 + (enabledFinals k option (pinyin.getD (i + pinyin_begin) default)).length) *
          c.length
      else c.length := by
  unfold queryStep
  simp only [length_yunStep, length_shengStep]
  by_cases hi : i < DB_INDEX_SIZE <;> by_cases h0 : i > 0 <;>
    simp only [hi, h0, if_true, if_false, length_appendPrintf] <;> ring

theorem length_queryConditions (k : PinyinConsts) (pinyin : List Pinyin)
    (pinyin_begin pinyin_len option : Nat) :
    (queryConditions k pinyin pinyin_begin pinyin_len option).length =
      disjunctCount k pinyin pinyin_begin pinyin_len option := by
  induction pinyin_len with
  | zero => rfl
  | succ n ih =>
    rw [queryConditions_succ, length_queryStep, ih]
    unfold disjunctCount
    by_cases hn : n < DB_INDEX_SIZE
    · rw [if_pos hn, show min (n + 1) DB_INDEX_SIZE = n + 1 by unfold DB_INDEX_SIZE at *; omega,
        show min n DB_INDEX_SIZE = n by unfold DB_INDEX_SIZE at *; omega, List.range_succ,
        List.map_append, List.prod_append]
      simp only [List.map_cons, List.map_nil, List.prod_cons, List.prod_nil]
      ring
    · rw [if_neg hn, show min (n + 1) DB_INDEX_SIZE = min n DB_INDEX_SIZE by
        unfold DB_INDEX_SIZE at *; omega]

theorem shengStep_in_list (k : PinyinConsts) (option i : Nat) (p : Pinyin) (c : Conditions)
    (hi : DB_INDEX_SIZE ≤ i) :
    shengStep k option i p c =
      c.map (fun d => d ++ [initialClause i (p.shengId 0) (enabledInitials k option p)]) := by
  have h3 : ¬ i < DB_INDEX_SIZE := by omega
  unfold shengStep enabledInitials Pinyin.shengId
  dsimp only
  generalize (p.pinyin_id.getD 0 (0, 0)).1 = id0
  generalize (p.pinyin_id.getD 1 (0, 0)).1 = id1
  generalize (p.pinyin_id.getD 2 (0, 0)).1 = id2
  generalize pinyin_option_check_sheng k option id0 id1 = fs1
  generalize pinyin_option_check_sheng k option id0 id2 = fs2
  simp only [h3, if_false, appendPrintf_all]
  cases fs1 <;> cases fs2 <;> simp [initialClause]

theorem yunStep_in_list (k : PinyinConsts) (option i : Nat) (p : Pinyin) (c : Conditions)
    (hi : DB_INDEX_SIZE ≤ i) :
    yunStep k option i p c =
      c.map (fun d => d ++
        (if p.yunId 0 ≠ k.PINYIN_ID_ZERO then
          [finalClause i (p.yunId 0) (enabledFinals k option p)]
        else [])) := by
  have h3 : ¬ i < DB_INDEX_SIZE := by omega
  unfold yunStep enabledFinals Pinyin.yunId
  dsimp only
  generalize (p.pinyin_id.getD 0 (0, 0)).2 = y0
  generalize (p.pinyin_id.getD 1 (0, 0)).2 = y1
  generalize pinyin_option_check_yun k option y0 y1 = fy
  simp only [h3, if_false, appendPrintf_all]
  by_cases hz : y0 = k.PINYIN_ID_ZERO <;> cases fy <;> simp [hz, finalClause]

/-- From the position `DB_INDEX_SIZE` on a round of the loop appends the same pieces to every
condition: the joining `AND`, the clause of the initial and, for a syllable with a final, the
clause of the final. -/
theorem queryStep_in_list (k : PinyinConsts) (pinyin : List Pinyin)
    (pinyin_begin option : Nat) (c : Conditions) (i : Nat) (hi : DB_INDEX_SIZE ≤ i) :
    queryStep k pinyin pinyin_begin option c i =
      c.map (fun d => d ++ Piece.and_ ::
        initialClause i ((pinyin.getD (i + pinyin_begin) default).shengId 0)
          (enabledInitials k option (pinyin.getD (i + pinyin_begin) default)) ::
        (if (pinyin.getD (i + pinyin_begin) default).yunId 0 ≠ k.PINYIN_ID_ZERO then
          [finalClause i ((pinyin.getD (i + pinyin_begin) default).yunId 0)
            (enabledFinals k option (pinyin.getD (i + pinyin_begin) default))]
        else [])) := by
  have h0 : i > 0 := by unfold DB_INDEX_SIZE at hi; omega
  unfold queryStep
  dsimp only
  rw [if_pos h0, shengStep_in_list _ _ _ _ _ hi, yunStep_in_list _ _ _ _ _ hi, appendPrintf_all,
    List.map_map, List.map_map]
  apply List.map_congr_left
  intro d _
  simp only [Function.comp_apply, List.append_assoc, List.singleton_append]
  rfl

theorem disjunctCount_byOption (k : PinyinConsts) (pinyin : List Pinyin)
    (pinyin_begin pinyin_len option : Nat)
    (hzero : ∀ j, j < min pinyin_len DB_INDEX_SIZE →
      (pinyin.getD (j + pinyin_begin) default).yunId 0 = k.PINYIN_ID_ZERO →
      pinyin_option_check_yun k option ((pinyin.getD (j + pinyin_begin) default).yunId 0)
        ((pinyin.getD (j + pinyin_begin) default).yunId 1) = false) :
    disjunctCount k pinyin pinyin_begin pinyin_len option =
      disjunctCountByOption k pinyin pinyin_begin pinyin_len option := by
  unfold disjunctCount disjunctCountByOption
  congr 1
  apply List.map_congr_left
  intro j hj
  have hz := hzero j (List.mem_range.1 hj)
  generalize pinyin.getD (j + pinyin_begin) default = p at hz ⊢
  congr 2
  unfold enabledFinals
  by_cases h0 : p.yunId 0 = k.PINYIN_ID_ZERO
  · simp [h0, hz h0]
    rw [← h0, hz h0]
    simp
  · cases h1 : pinyin_option_check_yun k option (p.yunId 0) (p.yunId 1) <;> simp [h0]

/-- C31: from the position `DB_INDEX_SIZE` on, a round of the loop of `Database::query`
keeps the number of disjuncts: every condition receives the same pieces, the joining `AND`,
the clause of the initial (`s{i} IN (` primary, enabled alternatives `)`, the primary first
and exactly the alternatives the options enable) and, for a syllable with a final, the
clause of the final (`y{i} IN (` primary, alternative `)` when the option of the pair is
set). Hence the number of disjuncts of a query is the product over the positions below
`min (len, DB_INDEX_SIZE)` of one more than the number of enabled alternative initials times
one more than the number of enabled alternative finals. A syllable without a final has no
alternative final; where the option check is false for such syllables, the second factor is
one more than the truth value of the option check. -/
theorem C31_in_list_keeps_disjuncts (k : PinyinConsts) (pinyin : List Pinyin)
    (pinyin_begin pinyin_len option : Nat) (i : Nat) (hi : DB_INDEX_SIZE ≤ i)
    (c : Conditions) :
    queryStep k pinyin pinyin_begin option c i =
      c.map (fun d => d ++ Piece.and_ ::
        initialClause i ((pinyin.getD (i + pinyin_begin) default).shengId 0)
          (enabledInitials k option (pinyin.getD (i + pinyin_begin) default)) ::
        (if (pinyin.getD (i + pinyin_begin) default).yunId 0 ≠ k.PINYIN_ID_ZERO then
          [finalClause i ((pinyin.getD (i + pinyin_begin) default).yunId 0)
            (enabledFinals k option (pinyin.getD (i + pinyin_begin) default))]
        else [])) ∧
    (queryStep k pinyin pinyin_begin option c i).length = c.length ∧
    (∀ x a b : Nat,
      (initialClause i x [a]).text =
        's' :: decimalText i ++ " IN (".toList ++ decimalText x ++ ',' :: decimalText a ++
          [')'] ∧
      (initialClause i x [a, b]).text =
        's' :: decimalText i ++ " IN (".toList ++ decimalText x ++ ',' :: decimalText a ++
          ',' :: decimalText b ++ [')'] ∧
      (finalClause i x [a]).text =
        " AND y".toList ++ decimalText i ++ " IN (".toList ++ decimalText x ++
          ',' :: decimalText a ++ [')']) ∧
    (queryConditions k pinyin pinyin_begin pinyin_len option).length =
      disjunctCount k pinyin pinyin_begin pinyin_len option ∧
    ((∀ j, j < min pinyin_len DB_INDEX_SIZE →
        (pinyin.getD (j + pinyin_begin) default).yunId 0 = k.PINYIN_ID_ZERO →
        pinyin_option_check_yun k option ((pinyin.getD (j + pinyin_begin) default).yunId 0)
          ((pinyin.getD (j + pinyin_begin) default).yunId 1) = false) →
      (queryConditions k pinyin pinyin_begin pinyin_len option).length =
        disjunctCountByOption k pinyin pinyin_begin pinyin_len option) := by
  refine ⟨queryStep_in_list k pinyin pinyin_begin option c i hi, ?_, fun x a b => ⟨rfl, rfl, rfl⟩,
    length_queryConditions k pinyin pinyin_begin pinyin_len option, fun hzero => ?_⟩
  · rw [length_queryStep, if_neg (by omega)]
  · rw [length_queryConditions, disjunctCount_byOption _ _ _ _ _ hzero]

/-- C31 at the query for `ci lan la lan` with four fuzzy options set, at the position 3 and
the 36 conditions of the positions before it. -/
theorem C31_witness :
    DB_INDEX_SIZE ≤ 3 ∧
    (queryStep demoConsts fourSyllables 0 fuzzyOption
        (queryConditions demoConsts fourSyllables 0 3 fuzzyOption) 3 =
      (queryConditions demoConsts fourSyllables 0 3 fuzzyOption).map (fun d => d ++ Piece.and_ ::
        initialClause 3 ((fourSyllables.getD (3 + 0) default).shengId 0)
          (enabledInitials demoConsts fuzzyOption (fourSyllables.getD (3 + 0) default)) ::
        (if (fourSyllables.getD (3 + 0) default).yunId 0 ≠ demoConsts.PINYIN_ID_ZERO then
          [finalClause 3 ((fourSyllables.getD (3 + 0) default).yunId 0)
            (enabledFinals demoConsts fuzzyOption (fourSyllables.getD (3 + 0) default))]
        else [])) ∧
    (queryStep demoConsts fourSyllables 0 fuzzyOption
        (queryConditions demoConsts fourSyllables 0 3 fuzzyOption) 3).length =
      (queryConditions demoConsts fourSyllables 0 3 fuzzyOption).length ∧
    (∀ x a b : Nat,
      (initialClause 3 x [a]).text =
        's' :: decimalText (3 : Nat) ++ " IN (".toList ++ decimalText x ++ ',' :: decimalText a ++
          [')'] ∧
      (initialClause 3 x [a, b]).text =
        's' :: decimalText (3 : Nat) ++ " IN (".toList ++ decimalText x ++ ',' :: decimalText a ++
          ',' :: decimalText b ++ [')'] ∧
      (finalClause 3 x [a]).text =
        " AND y".toList ++ decimalText (3 : Nat) ++ " IN (".toList ++ decimalText x ++
          ',' :: decimalText a ++ [')']) ∧
    (queryConditions demoConsts fourSyllables 0 4 fuzzyOption).length =
      disjunctCount demoConsts fourSyllables 0 4 fuzzyOption ∧
    ((∀ j, j < min 4 DB_INDEX_SIZE →
        (fourSyllables.getD (j + 0) default).yunId 0 = demoConsts.PINYIN_ID_ZERO →
        pinyin_option_check_yun demoConsts fuzzyOption
          ((fourSyllables.getD (j + 0) default).yunId 0)
          ((fourSyllables.getD (j + 0) default).yunId 1) = false) →
      (queryConditions demoConsts fourSyllables 0 4 fuzzyOption).length =
        disjunctCountByOption demoConsts fourSyllables 0 4 fuzzyOption)) :=
  ⟨by decide, C31_in_list_keeps_disjuncts demoConsts fourSyllables 0 4 fuzzyOption 3 (by decide)
    (queryConditions demoConsts fourSyllables 0 3 fuzzyOption)⟩

/-! ## The text of a query statement -/

theorem toDigitsCore_last (b fuel n : Nat) (ds : List Char) (h : 0 < fuel) :
    ∃ pre, Nat.toDigitsCore b fuel n ds = pre ++ Nat.digitChar (n % b) :: ds := by
  induction fuel generalizing n ds with
  | zero => exact absurd h (by decide)
  | succ fuel ih =>
    rw [Nat.toDigitsCore]
    by_cases h0 : n / b = 0
    · simp only [h0, if_true]
      exact ⟨[], rfl⟩
    · simp only [h0, if_false]
      cases fuel with
      | zero => exact ⟨[], rfl⟩
      | succ fuel =>
        obtain ⟨pre, hpre⟩ := ih (n / b) (Nat.digitChar (n % b) :: ds) (Nat.succ_pos _)
        exact ⟨pre ++ [Nat.digitChar (n / b % b)], by rw [hpre]; simp⟩

/-- The last character of a number written in decimal is the digit of its units. -/
theorem decimalText_last (d : Int) :
    ∃ pre, decimalText d = pre ++ [Nat.digitChar (d.natAbs % 10)] := by
  obtain ⟨pre, hpre⟩ := toDigitsCore_last 10 (d.natAbs + 1) d.natAbs [] (Nat.succ_pos _)
  unfold decimalText Nat.toDigits
  by_cases h : d < 0
  · rw [if_pos h, hpre]
    exact ⟨'-' :: pre, rfl⟩
  · rw [if_neg h, hpre]
    exact ⟨pre, rfl⟩

theorem digitChar_ne_upper_c (x : Nat) (h : x < 10) : Nat.digitChar x ≠ 'C' := by
  revert x
  decide

/-- A text that ends in the letter `C` does not end in a number. -/
theorem not_suffix_decimal (a b : List Char) (d : Int) : ¬ (a ++ decimalText d) <:+ (b ++ ['C']) := by
  rintro ⟨t, ht⟩
  obtain ⟨pre, hpre⟩ := decimalText_last d
  rw [hpre, ← List.append_assoc, ← List.append_assoc] at ht
  have := (List.append_inj' ht rfl).2
  simp only [List.cons.injEq, and_true] at this
  exact digitChar_ne_upper_c _ (Nat.mod_lt _ (by decide)) this

/-- C32: when the three assertions of `Database::query` hold, the text it composes for the
length `len` is: the selection from `main.py_phrase_{len-1}` with the constant 0 as
`user_freq`, `UNION ALL` the selection from `userdb.py_phrase_{len-1}`, both restricted by
the same text of the conditions, grouped by `phrase` and ordered by `user_freq DESC`, then
`freq DESC`, followed by ` LIMIT m` when `m > 0` and by nothing otherwise; the text ends in
` LIMIT m` if and only if `m > 0`. -/
theorem C32_query_sql (k : PinyinConsts) (MAX_PHRASE_LEN : Nat) (pinyin : List Pinyin)
    (pinyin_begin pinyin_len : Nat) (m : Int) (option : Nat)
    (h1 : pinyin_begin < pinyin.length) (h2 : pinyin_len ≤ pinyin.length - pinyin_begin)
    (h3 : pinyin_len ≤ MAX_PHRASE_LEN) :
    ∃ cond sql : List Char,
      cond = conditionsText (queryConditions k pinyin pinyin_begin pinyin_len option) ∧
      querySql k MAX_PHRASE_LEN pinyin pinyin_begin pinyin_len m option = some sql ∧
      sql = "SELECT * FROM (SELECT 0 AS user_freq, * FROM main.py_phrase_".toList ++
        decimalText ((pinyin_len : Int) - 1) ++ " WHERE ".toList ++ cond ++
        " UNION ALL SELECT * FROM userdb.py_phrase_".toList ++
        decimalText ((pinyin_len : Int) - 1) ++ " WHERE ".toList ++ cond ++
        ") GROUP BY phrase ORDER BY user_freq DESC, freq DESC".toList ++
        (if m > 0 then " LIMIT ".toList ++ decimalText m else []) ∧
      ((" LIMIT ".toList ++ decimalText m) <:+ sql ↔ m > 0) := by
  refine ⟨_, _, rfl, ?_, rfl, ?_⟩
  · unfold querySql
    rw [if_pos ⟨h1, h2, h3⟩]
    by_cases hm : m > 0
    · simp only [hm, if_true, List.append_assoc]
    · simp only [hm, if_false, List.append_nil]
  · by_cases hm : m > 0
    · simp only [hm, if_true, iff_true]
      exact List.suffix_append _ _
    · simp only [hm, if_false, iff_false, List.append_nil]
      have e : ") GROUP BY phrase ORDER BY user_freq DESC, freq DESC".toList =
          ") GROUP BY phrase ORDER BY user_freq DESC, freq DES".toList ++ ['C'] := by decide
      rw [e, ← List.append_assoc]
      exact not_suffix_decimal _ _ _

/-- C32 at the query for `ni hao` with the limit 5. -/
theorem C32_witness :
    ∃ cond sql : List Char,
      cond = conditionsText (queryConditions demoConsts [pinyinNi, pinyinHao] 0 2 0) ∧
      querySql demoConsts 16 [pinyinNi, pinyinHao] 0 2 5 0 = some sql ∧
      sql = "SELECT * FROM (SELECT 0 AS user_freq, * FROM main.py_phrase_".toList ++
        decimalText (((2 : Nat) : Int) - 1) ++ " WHERE ".toList ++ cond ++
        " UNION ALL SELECT * FROM userdb.py_phrase_".toList ++
        decimalText (((2 : Nat) : Int) - 1) ++ " WHERE ".toList ++ cond ++
        ") GROUP BY phrase ORDER BY user_freq DESC, freq DESC".toList ++
        (if (5 : Int) > 0 then " LIMIT ".toList ++ decimalText 5 else []) ∧
      ((" LIMIT ".toList ++ decimalText 5) <:+ sql ↔ (5 : Int) > 0) :=
  C32_query_sql demoConsts 16 [pinyinNi, pinyinHao] 0 2 5 0 (by decide) (by decide) (by decide)

/-! ## Termination and batching of `fill` -/

/-- The inner loop of `fill` for a count that is not positive: no number of rows equals the
count, so the loop runs to the end of the rows. -/
theorem fillRows_all (E : DbEnv) (len : Nat) (hlen : len ≤ E.MAX_PHRASE_LEN) (rows : SQLStmt)
    (count : Int) (hc : count ≤ 0) (r : Nat) (hmax : r + rows.length ≤ 2147483647)
    (phrases : List Phrase) :
    Query.fillRows E len count rows (r : Int) phrases =
      some (((r + rows.length : Nat) : Int), phrases ++ rows.map (Query.rowPhrase E len),
        none) := by
  induction rows generalizing r phrases with
  | nil => simp [Query.fillRows]
  | cons x rest ih =>
    simp only [List.length_cons] at hmax
    rw [Query.fillRows, if_neg (by omega), if_neg (by omega), if_neg (by omega)]
    have := ih (r + 1) (by omega) (phrases ++ [Query.rowPhrase E len x])
    rw [show ((r + 1 : Nat) : Int) = (r : Int) + 1 by push_cast; ring] at this
    rw [this]
    simp only [List.length_cons, List.map_cons, List.append_assoc, List.singleton_append]
    congr 3
    omega

/-- The loop of `fill` for a count that is not positive: it produces the whole stream and
leaves the length 0. -/
theorem fillLoop_all (E : DbEnv) (db : Database) (q : Query) (len : Nat)
    (hlen : len ≤ E.MAX_PHRASE_LEN)
    (hopen : ∀ l ∈ List.range len, Query.opens E db q (l + 1) = true)
    (m_stmt : Option SQLStmt) (count : Int) (hc : count ≤ 0) (r : Nat)
    (hmax : r + (Query.streamOf E db q len m_stmt).length ≤ 2147483647)
    (phrases : List Phrase) :
    ∃ stmt1,
      Query.fillLoop E db q count len m_stmt (r : Int) phrases =
        some (((r + (Query.streamOf E db q len m_stmt).length : Nat) : Int),
          phrases ++ Query.streamOf E db q len m_stmt,
          { q with m_pinyin_len := 0, m_stmt := stmt1 }) := by
  induction len generalizing m_stmt r phrases with
  | zero => exact ⟨m_stmt, by simp [Query.fillLoop, Query.streamOf]⟩
  | succ len ih =>
    have hop : Query.opens E db q (len + 1) = true := hopen len (List.mem_range.2 (by omega))
    have hopen1 : ∀ l ∈ List.range len, Query.opens E db q (l + 1) = true := fun l hl =>
      hopen l (List.mem_range.2 (by have := List.mem_range.1 hl; omega))
    obtain ⟨cur, hstep, hS⟩ := fillLoop_step E db q len m_stmt hop
    rw [hS, List.length_append, List.length_map] at hmax
    rw [hstep, fillRows_all E (len + 1) hlen cur count hc r (by omega) phrases, hS]
    obtain ⟨stmt1, h1⟩ := ih (by omega) hopen1 none (r + cur.length)
      (by rw [streamOf_none]; omega) (phrases ++ cur.map (Query.rowPhrase E (len + 1)))
    rw [streamOf_none] at h1
    refine ⟨stmt1, ?_⟩
    show Query.fillLoop E db q count len none _ _ = _
    rw [h1, List.length_append, List.length_map, List.append_assoc, Nat.add_assoc]

/-- A call of `fill` on a query of the length 0 returns 0 and leaves vector and query as
they are, whatever the database. -/
theorem fill_exhausted (E : DbEnv) (db : Database) (q : Query) (h : q.m_pinyin_len = 0)
    (phrases : List Phrase) (count : Int) : q.fill E db phrases count = some (0, phrases, q) := by
  cases q
  simp only at h
  subst h
  rfl

theorem fills_exhausted (E : DbEnv) (db : Database) (q : Query) (h : q.m_pinyin_len = 0)
    (phrases : List Phrase) (counts : List Int) :
    Query.fills E db q phrases counts = some (q, phrases) := by
  induction counts with
  | nil => rfl
  | cons c counts ih => rw [Query.fills, fill_exhausted E db q h]; exact ih

/-- One call of `fill` with a count that is not positive, on a ready query with at most
`INT_MAX` phrases to come. -/
theorem fill_all (E : DbEnv) (db : Database) (q : Query) (hready : Query.Ready E db q)
    (phrases : List Phrase) (count : Int) (hc : count ≤ 0)
    (hrows : (q.stream E db).length ≤ 2147483647) :
    ∃ q1 : Query,
      q.fill E db phrases count =
        some (((q.stream E db).length : Int), phrases ++ q.stream E db, q1) ∧
      q1.m_pinyin_len = 0 ∧ q1.m_pinyin = q.m_pinyin ∧ q1.m_pinyin_begin = q.m_pinyin_begin ∧
      q1.m_option = q.m_option := by
  obtain ⟨stmt1, h⟩ := fillLoop_all E db q q.m_pinyin_len hready.1 hready.2 q.m_stmt count hc 0
    (by simpa [Query.stream] using hrows) phrases
  simp only [Nat.zero_add, Nat.cast_zero] at h
  exact ⟨{ q with m_pinyin_len := 0, m_stmt := stmt1 }, by simpa [Query.fill, Query.stream] using h,
    rfl, rfl, rfl, rfl⟩

/-- Successive calls of `fill` on a ready query produce the first phrases of its stream, as
many as the counts add up to. -/
theorem fills_sum (E : DbEnv) (db : Database) (counts : List Int)
    (hc : ∀ c ∈ counts, 1 ≤ c ∧ c ≤ 2147483647) (q : Query) (hready : Query.Ready E db q)
    (phrases : List Phrase) :
    ∃ q1 : Query,
      Query.fills E db q phrases counts =
        some (q1, phrases ++ (q.stream E db).take (counts.map Int.toNat).sum) ∧
      q1.stream E db = (q.stream E db).drop (counts.map Int.toNat).sum := by
  induction counts generalizing q phrases with
  | nil => exact ⟨q, by simp [Query.fills], by simp⟩
  | cons c counts ih =>
    obtain ⟨q1, hfill, hstream, hready1, _⟩ :=
      fill_spec E db q hready phrases c (hc c (List.mem_cons_self _ _)).1
        (hc c (List.mem_cons_self _ _)).2
    obtain ⟨q2, h2, h3⟩ := ih (fun x hx => hc x (List.mem_cons_of_mem _ hx)) q1 hready1
      (phrases ++ (q.stream E db).take c.toNat)
    refine ⟨q2, ?_, ?_⟩
    · rw [Query.fills, hfill]
      simp only [List.map_cons, List.sum_cons]
      rw [h2, hstream, List.append_assoc, List.take_add]
    · rw [h3, hstream, List.drop_drop]
      simp only [List.map_cons, List.sum_cons]

/-- Calls of `fill` up to the first that falls short produce a prefix of the stream, and the
whole stream when a call falls short, which happens exactly when the counts add up to more
than the stream holds. -/
theorem fillsUntilShort_spec (E : DbEnv) (db : Database) (counts : List Int)
    (hc : ∀ c ∈ counts, 1 ≤ c ∧ c ≤ 2147483647) (q : Query) (hready : Query.Ready E db q)
    (phrases : List Phrase) :
    ∃ (q1 : Query) (n : Nat) (short : Bool),
      Query.fillsUntilShort E db q phrases counts =
        some (q1, phrases ++ (q.stream E db).take n, short) ∧
      (short = true → (q.stream E db).take n = q.stream E db ∧ q1.m_pinyin_len = 0) ∧
      (short = true ↔ (q.stream E db).length < (counts.map Int.toNat).sum) := by
  induction counts generalizing q phrases with
  | nil => exact ⟨q, 0, false, by simp [Query.fillsUntilShort], by simp, by simp⟩
  | cons c counts ih =>
    have hc1 := hc c (List.mem_cons_self _ _)
    obtain ⟨q1, hfill, hstream, hready1, _, _, _, _, hzero⟩ :=
      fill_spec E db q hready phrases c hc1.1 hc1.2
    simp only [List.map_cons, List.sum_cons]
    by_cases hlt : (q.stream E db).length < c.toNat
    · refine ⟨q1, c.toNat, true, ?_, fun _ => ⟨List.take_of_length_le (by omega), hzero hlt⟩,
        ⟨fun _ => by omega, fun _ => rfl⟩⟩
      simp only [Query.fillsUntilShort, hfill]
      rw [if_pos (by omega)]
    · obtain ⟨q2, n, short, h2, h3, h6⟩ := ih (fun x hx => hc x (List.mem_cons_of_mem _ hx)) q1
        hready1 (phrases ++ (q.stream E db).take c.toNat)
      refine ⟨q2, c.toNat + n, short, ?_, fun hs => ?_, ?_⟩
      · simp only [Query.fillsUntilShort, hfill]
        rw [if_neg (by omega), h2, hstream, List.append_assoc, List.take_add]
      · obtain ⟨h4, h5⟩ := h3 hs
        rw [hstream] at h4
        refine ⟨?_, h5⟩
        rw [List.take_add, h4, List.take_append_drop]
      · rw [h6, hstream, List.length_drop]
        omega

/-- C33: `fill` returns for every count: on a query all of whose statements can be opened
(each statement a finite list of rows), a call with a count up to `INT_MAX` has a result,
provided that for a count that is not positive the rows to come are at most `INT_MAX` (the
counter `row` stays an `int`). Once a call with a positive count has returned fewer rows than
the count, the remaining length of the query is 0, and every later call, with any count and
on any database (also one without a connection or whose engine prepares no statement),
returns 0 and leaves the vector and the query as they are. -/
theorem C33_fill_terminates (E : DbEnv) (db : Database) (q : Query)
    (hready : Query.Ready E db q) (phrases : List Phrase) (count : Int)
    (h2 : count ≤ 2147483647) (hrows : count ≤ 0 → (q.stream E db).length ≤ 2147483647) :
    ∃ (r : Int) (out : List Phrase) (q1 : Query),
      q.fill E db phrases count = some (r, out, q1) ∧
      (0 < count → r < count →
        q1.m_pinyin_len = 0 ∧
        ∀ (E1 : DbEnv) (db1 : Database) (phrases1 : List Phrase),
          (∀ count1 : Int, q1.fill E1 db1 phrases1 count1 = some (0, phrases1, q1)) ∧
          (∀ counts : List Int, Query.fills E1 db1 q1 phrases1 counts = some (q1, phrases1))) := by
  by_cases hc : count ≤ 0
  · obtain ⟨q1, hfill, _⟩ := fill_all E db q hready phrases count hc (hrows hc)
    exact ⟨_, _, q1, hfill, fun h => absurd h (by omega)⟩
  · obtain ⟨q1, hfill, _, _, _, _, _, _, hzero⟩ :=
      fill_spec E db q hready phrases count (by omega) h2
    refine ⟨_, _, q1, hfill, fun _ hr => ?_⟩
    have hz : q1.m_pinyin_len = 0 := hzero (by omega)
    exact ⟨hz, fun E1 db1 phrases1 =>
      ⟨fun count1 => fill_exhausted E1 db1 q1 hz phrases1 count1,
        fun counts => fills_exhausted E1 db1 q1 hz phrases1 counts⟩⟩

/-- C33 at a new query for `ni hao` and the count 5, which the three rows do not reach. -/
theorem C33_witness :
    ∃ (r : Int) (out : List Phrase) (q1 : Query),
      nihaoQuery.fill demoDb connected [] 5 = some (r, out, q1) ∧
      (0 < (5 : Int) → r < 5 →
        q1.m_pinyin_len = 0 ∧
        ∀ (E1 : DbEnv) (db1 : Database) (phrases1 : List Phrase),
          (∀ count1 : Int, q1.fill E1 db1 phrases1 count1 = some (0, phrases1, q1)) ∧
          (∀ counts : List Int, Query.fills E1 db1 q1 phrases1 counts = some (q1, phrases1))) :=
  C33_fill_terminates demoDb connected nihaoQuery (by decide) [] 5 (by decide) (by decide)

/-- C39: on a query all of whose statements can be opened, for every sequence of counts from
1 to `INT_MAX`: the calls of `fill` up to the first that returns fewer phrases than its count
append a prefix of what one call with a count above the number of rows appends, and exactly
the same phrases when a call falls short, which happens exactly when the counts add up to
more than the number of rows; all the calls together append the first phrases of the stream
of the query, as many as the counts add up to, and leave a query whose stream is the rest, so
that no row is delivered twice or skipped. -/
theorem C39_fill_batching (E : DbEnv) (db : Database) (q : Query)
    (hready : Query.Ready E db q) (phrases : List Phrase) (counts : List Int)
    (hc : ∀ c ∈ counts, 1 ≤ c ∧ c ≤ 2147483647) (N : Int)
    (hN : ((q.stream E db).length : Int) < N) (hN2 : N ≤ 2147483647) :
    ∃ (qN q1 q2 : Query) (one out : List Phrase) (short : Bool),
      q.fill E db phrases N = some (((q.stream E db).length : Int), one, qN) ∧
      one = phrases ++ q.stream E db ∧
      Query.fillsUntilShort E db q phrases counts = some (q1, out, short) ∧
      out <+: one ∧ (short = true → out = one) ∧
      (short = true ↔ (q.stream E db).length < (counts.map Int.toNat).sum) ∧
      Query.fills E db q phrases counts =
        some (q2, phrases ++ (q.stream E db).take (counts.map Int.toNat).sum) ∧
      q2.stream E db = (q.stream E db).drop (counts.map Int.toNat).sum := by
  obtain ⟨qN, hfill, _⟩ := fill_spec E db q hready phrases N (by omega) hN2
  rw [show min N.toNat (q.stream E db).length = (q.stream E db).length by omega,
    List.take_of_length_le (by omega)] at hfill
  obtain ⟨q1, n, short, h1, h2, h5⟩ := fillsUntilShort_spec E db counts hc q hready phrases
  obtain ⟨q2, h3, h4⟩ := fills_sum E db counts hc q hready phrases
  refine ⟨qN, q1, q2, _, _, short, hfill, rfl, h1, ?_, fun hs => ?_, h5, h3, h4⟩
  · exact (List.prefix_append_right_inj phrases).2 (List.take_prefix n _)
  · rw [(h2 hs).1]

set_option maxRecDepth 100000 in
/-- C39 at a new query for `ni hao`: the counts 1, 1, 5 against one call with the count 10. -/
theorem C39_witness :
    ∃ (qN q1 q2 : Query) (one out : List Phrase) (short : Bool),
      nihaoQuery.fill demoDb connected [] 10 =
        some (((nihaoQuery.stream demoDb connected).length : Int), one, qN) ∧
      one = [] ++ nihaoQuery.stream demoDb connected ∧
      Query.fillsUntilShort demoDb connected nihaoQuery [] [1, 1, 5] = some (q1, out, short) ∧
      out <+: one ∧ (short = true → out = one) ∧
      (short = true ↔ (nihaoQuery.stream demoDb connected).length <
        (([1, 1, 5] : List Int).map Int.toNat).sum) ∧
      Query.fills demoDb connected nihaoQuery [] [1, 1, 5] =
        some (q2, [] ++ (nihaoQuery.stream demoDb connected).take
          (([1, 1, 5] : List Int).map Int.toNat).sum) ∧
      q2.stream demoDb connected =
        (nihaoQuery.stream demoDb connected).drop (([1, 1, 5] : List Int).map Int.toNat).sum :=
  C39_fill_batching demoDb connected nihaoQuery (by decide) [] [1, 1, 5] (by decide) 10
    (by decide) (by decide)

/-- C40: on a query all of whose statements can be opened and that has at most `INT_MAX`
phrases to come, `fill` with a count that is not positive (0 included) appends every phrase
to come, those of the rows left for the current length and then of every shorter length down
to 1, returns their number and leaves the query with the remaining length 0 and nothing to
come. -/
theorem C40_fill_nonpositive (E : DbEnv) (db : Database) (q : Query)
    (hready : Query.Ready E db q) (phrases : List Phrase) (count : Int) (hc : count ≤ 0)
    (hrows : (q.stream E db).length ≤ 2147483647) :
    ∃ q1 : Query,
      q.fill E db phrases count =
        some (((q.stream E db).length : Int), phrases ++ q.stream E db, q1) ∧
      q1.m_pinyin_len = 0 ∧ q1.stream E db = [] ∧
      (∀ len, q.m_pinyin_len = len + 1 →
        q.stream E db =
          (match q.m_stmt with
            | some rows => rows
            | none => Query.rowsAt E db q (len + 1)).map (Query.rowPhrase E (len + 1)) ++
          Query.blocks E db q len) := by
  obtain ⟨q1, hfill, hz, _⟩ := fill_all E db q hready phrases count hc hrows
  refine ⟨q1, hfill, hz, ?_, fun len hlen => ?_⟩
  · unfold Query.stream
    rw [hz]
    rfl
  · unfold Query.stream
    rw [hlen]
    rfl

set_option maxRecDepth 100000 in
/-- C40 at a new query for `ni hao` and the count 0. -/
theorem C40_witness :
    ∃ q1 : Query,
      nihaoQuery.fill demoDb connected [] 0 =
        some (((nihaoQuery.stream demoDb connected).length : Int),
          [] ++ nihaoQuery.stream demoDb connected, q1) ∧
      q1.m_pinyin_len = 0 ∧ q1.stream demoDb connected = [] ∧
      (∀ len, nihaoQuery.m_pinyin_len = len + 1 →
        nihaoQuery.stream demoDb connected =
          (match nihaoQuery.m_stmt with
            | some rows => rows
            | none => Query.rowsAt demoDb connected nihaoQuery (len + 1)).map
              (Query.rowPhrase demoDb (len + 1)) ++
          Query.blocks demoDb connected nihaoQuery len) :=
  C40_fill_nonpositive demoDb connected nihaoQuery (by decide) [] 0 (by decide) (by decide)

/-! ## The column layout of the phrase tables -/

theorem intercalate_cons_map {α : Type} (sep x : List α) (xs : List (List α)) :
    List.intercalate sep (x :: xs) = x ++ (xs.map (fun y => sep ++ y)).flatten := by
  induction xs generalizing x with
  | nil => simp [List.intercalate]
  | cons y ys ih =>
    have := ih y
    simp only [List.intercalate, List.intersperse, List.flatten_cons, List.map_cons,
      List.append_assoc] at this ⊢
    rw [this]

theorem flatten_map_flatMap {α β γ : Type} (l : List Nat) (f : Nat → List α) (h : α → β)
    (g : β → List γ) :
    (((l.flatMap f).map h).map g).flatten =
      (l.map (fun i => (((f i).map h).map g).flatten)).flatten := by
  induction l with
  | nil => rfl
  | cons a l ih =>
    simp only [List.flatMap_cons, List.map_append, List.flatten_append, List.map_cons,
      List.flatten_cons, ih]

/-- The statement that creates a phrase table is the list of its column definitions. -/
theorem createTableSql_columns (L : Nat) :
    createTableSql L =
      "CREATE TABLE IF NOT EXISTS py_phrase_".toList ++ decimalText L ++ " (".toList ++
        List.intercalate [','] ((columnDefs (L + 1)).map ColumnDef.text) ++ ");\n".toList := by
  have e0 : " (user_freq, phrase TEXT, freq INTEGER ".toList =
      " (".toList ++ ("user_freq".toList ++ ([','] ++ ([' '] ++ "phrase".toList ++
        " TEXT".toList) ++ ([','] ++ ([' '] ++ "freq".toList ++ " INTEGER ".toList)))) := by
    decide
  unfold createTableSql columnDefs
  rw [List.map_append, List.map_cons, List.cons_append, intercalate_cons_map, List.map_append,
    List.flatten_append, flatten_map_flatMap, e0]
  simp only [List.map_cons, List.map_nil, List.flatten_cons,
    List.flatten_nil, List.append_assoc, List.append_nil, ColumnDef.text, List.nil_append]
  have e3 : (fun j : Nat => ",s".toList ++ (decimalText j ++ (" INTEGER, y".toList ++
        (decimalText j ++ " INTEGER".toList)))) =
      (fun i : Nat => [','] ++ ('s' :: decimalText i ++ (" INTEGER".toList ++
        ([','] ++ ([' '] ++ ('y' :: decimalText i ++ " INTEGER".toList)))))) := by
    funext j
    have e1 : ",s".toList = [',', 's'] := rfl
    have e2 : " INTEGER, y".toList = " INTEGER".toList ++ [',', ' ', 'y'] := rfl
    simp only [e1, e2, List.append_assoc, List.cons_append, List.nil_append]
  rw [e3]

theorem columnDefs_names (L : Nat) : (columnDefs L).map ColumnDef.name = tableColumns L := by
  unfold columnDefs tableColumns
  simp only [List.map_append, List.map_cons, List.map_nil, List.map_flatMap]

theorem pairs_length {α : Type} (f g : Nat → α) (L : Nat) :
    ((List.range L).flatMap (fun i => [f i, g i])).length = 2 * L := by
  induction L with
  | zero => rfl
  | succ L ih =>
    rw [List.range_succ, List.flatMap_append, List.length_append, ih]
    simp only [List.flatMap_cons, List.flatMap_nil, List.append_nil, List.length_cons,
      List.length_nil]
    omega

/-- The entries of a list of pairs written out: the pair `i` is at the indices `2 i` and
`2 i + 1`. -/
theorem pairs_getD {α : Type} (f g : Nat → α) (d : α) (L i : Nat) (h : i < L) :
    ((List.range L).flatMap (fun i => [f i, g i])).getD (2 * i) d = f i ∧
      ((List.range L).flatMap (fun i => [f i, g i])).getD (2 * i + 1) d = g i := by
  induction L with
  | zero => exact absurd h (Nat.not_lt_zero _)
  | succ L ih =>
    rw [List.range_succ, List.flatMap_append]
    have hlen := pairs_length f g L
    by_cases hi : i < L
    · rw [List.getD_append _ _ _ _ (by omega), List.getD_append _ _ _ _ (by omega)]
      exact ih hi
    · have e : i = L := by omega
      subst e
      rw [List.getD_append_right _ _ _ _ (by omega), List.getD_append_right _ _ _ _ (by omega),
        hlen, Nat.sub_self, show 2 * i + 1 - 2 * i = 1 by omega]
      exact ⟨rfl, rfl⟩

/-- The first statement of `phraseSql` is the list of its values. -/
theorem insertSql_values (p : Phrase) :
    insertSql p =
      "INSERT OR IGNORE INTO userdb.py_phrase_".toList ++ decimalText (subSize p.len 1) ++
        " VALUES(".toList ++
        List.intercalate [','] ((insertValues p).map SqlValue.sql) ++ ");\n".toList := by
  unfold insertSql insertValues
  rw [List.map_append, List.map_cons, List.cons_append, intercalate_cons_map, List.map_append,
    List.flatten_append, flatten_map_flatMap]
  simp only [List.map_cons, List.map_nil, List.flatten_cons, List.flatten_nil,
    List.append_assoc, List.append_nil, SqlValue.sql, List.nil_append, List.cons_append,
    List.singleton_append]
  rfl

theorem tableColumns_length (L : Nat) : (tableColumns L).length = 3 + 2 * L := by
  unfold tableColumns
  rw [List.length_append, pairs_length]
  rfl

theorem insertValues_length (p : Phrase) : (insertValues p).length = 3 + 2 * p.len := by
  unfold insertValues
  rw [List.length_append, pairs_length]
  rfl

theorem tableColumns_at (L i : Nat) (h : i < L) :
    (tableColumns L).getD (DB_COLUMN_S0 + 2 * i) [] = 's' :: decimalText i ∧
      (tableColumns L).getD (DB_COLUMN_S0 + 2 * i + 1) [] = 'y' :: decimalText i := by
  unfold tableColumns DB_COLUMN_S0
  rw [List.getD_append_right _ _ _ _ (by simp only [List.length_cons, List.length_nil]; omega),
    List.getD_append_right _ _ _ _ (by simp only [List.length_cons, List.length_nil]; omega)]
  simp only [List.length_cons, List.length_nil]
  rw [show 3 + 2 * i - (0 + 1 + 1 + 1) = 2 * i by omega,
    show 3 + 2 * i + 1 - (0 + 1 + 1 + 1) = 2 * i + 1 by omega]
  exact pairs_getD (fun i : Nat => 's' :: decimalText i) (fun i : Nat => 'y' :: decimalText i)
    [] L i h

theorem insertValues_at (p : Phrase) (i : Nat) (h : i < p.len) :
    (insertValues p).getD (DB_COLUMN_S0 + 2 * i) (SqlValue.text []) =
        SqlValue.int (idSheng p i) ∧
      (insertValues p).getD (DB_COLUMN_S0 + 2 * i + 1) (SqlValue.text []) =
        SqlValue.int (idYun p i) := by
  unfold insertValues DB_COLUMN_S0
  rw [List.getD_append_right _ _ _ _ (by simp only [List.length_cons, List.length_nil]; omega),
    List.getD_append_right _ _ _ _ (by simp only [List.length_cons, List.length_nil]; omega)]
  simp only [List.length_cons, List.length_nil]
  rw [show 3 + 2 * i - (0 + 1 + 1 + 1) = 2 * i by omega,
    show 3 + 2 * i + 1 - (0 + 1 + 1 + 1) = 2 * i + 1 by omega]
  exact pairs_getD (fun i : Nat => SqlValue.int (idSheng p i))
    (fun i : Nat => SqlValue.int (idYun p i)) (SqlValue.text []) p.len i h

theorem columnInt_ofValues (values : List SqlValue) (col : Nat) :
    (Row.ofValues values).columnInt col =
      (values.getD col (SqlValue.text [])).columnInt :=
  List.getD_map (l := values) (d := SqlValue.text []) (n := col) SqlValue.columnInt

theorem columnInt_small (v : Nat) (h : v < 2147483648) :
    (SqlValue.int v).columnInt = (v : Int) := by
  show ((v : Int) + 2147483648) % 4294967296 - 2147483648 = v
  omega

/-- The phrase that `fill` builds of the row that holds the values of the `INSERT` statement
of a phrase. -/
theorem rowPhrase_ofValues (E : DbEnv) (p : Phrase) (hfreq : p.freq < 4294967296)
    (hid : ∀ i, i < p.len → idSheng p i < 256 ∧ idYun p i < 256)
    (htext : strSize (cstr p.phrase) < PHRASE_LEN_IN_BYTE E.MAX_UTF8_LEN E.MAX_PHRASE_LEN) :
    Query.rowPhrase E p.len (Row.ofValues (insertValues p)) =
      { phrase := cstr p.phrase, freq := p.freq, user_freq := 0,
        pinyin_id := (List.range p.len).map (fun i => p.pinyin_id.getD i (0, 0)),
        len := p.len } := by
  have e1 : strlcpy [] (Row.ofValues (insertValues p)).phrase
      (PHRASE_LEN_IN_BYTE E.MAX_UTF8_LEN E.MAX_PHRASE_LEN) = cstr p.phrase := by
    show strlcpy [] (cstr p.phrase) _ = _
    unfold strlcpy
    rw [if_neg (by omega), cstr_cstr, takeBytes_of_le _ _ (by omega)]
  have e2 : toUnsigned ((Row.ofValues (insertValues p)).columnInt DB_COLUMN_FREQ) = p.freq := by
    rw [columnInt_ofValues]
    show ((((p.freq : Int) + 2147483648) % 4294967296 - 2147483648) % 4294967296).toNat =
      p.freq
    omega
  have e3 : toUnsigned ((Row.ofValues (insertValues p)).columnInt DB_COLUMN_USER_FREQ) = 0 := by
    rw [columnInt_ofValues]
    rfl
  have e4 : (List.range p.len).map (fun i =>
      (((Row.ofValues (insertValues p)).columnInt (DB_COLUMN_S0 + 2 * i) % 256).toNat,
        ((Row.ofValues (insertValues p)).columnInt (DB_COLUMN_S0 + 2 * i + 1) % 256).toNat)) =
      (List.range p.len).map (fun i => p.pinyin_id.getD i (0, 0)) := by
    apply List.map_congr_left
    intro i hi
    have hi' : i < p.len := List.mem_range.1 hi
    obtain ⟨h1, h2⟩ := insertValues_at p i hi'
    obtain ⟨h3, h4⟩ := hid i hi'
    rw [columnInt_ofValues, columnInt_ofValues, h1, h2, columnInt_small _ (by omega),
      columnInt_small _ (by omega)]
    unfold idSheng idYun at *
    ext
    · show ((((p.pinyin_id.getD i (0, 0)).1 : Nat) : Int) % 256).toNat = _
      omega
    · show ((((p.pinyin_id.getD i (0, 0)).2 : Nat) : Int) % 256).toNat = _
      omega
  unfold Query.rowPhrase
  rw [e1, e2, e3, e4]

/-- C34: for every phrase length `L` from 1 to `MAX_PHRASE_LEN` and every phrase `p` of that
length (its `freq` an `unsigned int`, its identifiers `unsigned char`, its text within the
array `phrase`): the loop of `loadUserDB` creates the table `py_phrase_{L-1}` by a statement
whose column definitions have the names `user_freq, phrase, freq, s0, y0, ..., s{L-1},
y{L-1}` in this order; the first statement of `phraseSql` inserts into `py_phrase_{L-1}` a
list of as many values, which holds 0 at the place of `user_freq`, the text at the place of
`phrase`, `freq` at the place of `freq` and the identifiers of the syllable `i` at the places
of `s{i}` and `y{i}`; these places are the columns `DB_COLUMN_USER_FREQ`,
`DB_COLUMN_PHRASE`, `DB_COLUMN_FREQ`, `DB_COLUMN_S0 + 2 i` and `DB_COLUMN_S0 + 2 i + 1`
that `Query::fill` reads; and of the row that holds these values `fill` builds a phrase with
the text, the `freq`, the `len` and the identifiers of `p`. -/
theorem C34_column_layout (E : DbEnv) (L : Nat) (hL1 : 1 ≤ L) (hL2 : L ≤ E.MAX_PHRASE_LEN)
    (hmax : E.MAX_PHRASE_LEN < SIZE_MOD) (p : Phrase) (hlen : p.len = L)
    (hfreq : p.freq < 4294967296)
    (hid : ∀ i, i < L → idSheng p i < 256 ∧ idYun p i < 256)
    (htext : strSize (cstr p.phrase) < PHRASE_LEN_IN_BYTE E.MAX_UTF8_LEN E.MAX_PHRASE_LEN)
    (phrases : List Phrase) :
    createTableSql (L - 1) <:+: createTablesSql E.MAX_PHRASE_LEN ∧
    createTableSql (L - 1) =
      "CREATE TABLE IF NOT EXISTS py_phrase_".toList ++ decimalText ((L - 1 : Nat) : Int) ++
        " (".toList ++ List.intercalate [','] ((columnDefs L).map ColumnDef.text) ++
        ");\n".toList ∧
    (columnDefs L).map ColumnDef.name = tableColumns L ∧
    insertSql p =
      "INSERT OR IGNORE INTO userdb.py_phrase_".toList ++ decimalText ((L - 1 : Nat) : Int) ++
        " VALUES(".toList ++ List.intercalate [','] ((insertValues p).map SqlValue.sql) ++
        ");\n".toList ∧
    (insertValues p).length = (tableColumns L).length ∧
    ((tableColumns L).getD DB_COLUMN_USER_FREQ [] = "user_freq".toList ∧
      (insertValues p).getD DB_COLUMN_USER_FREQ (SqlValue.text []) = SqlValue.int 0) ∧
    ((tableColumns L).getD DB_COLUMN_PHRASE [] = "phrase".toList ∧
      (insertValues p).getD DB_COLUMN_PHRASE (SqlValue.text []) =
        SqlValue.text (cstr p.phrase)) ∧
    ((tableColumns L).getD DB_COLUMN_FREQ [] = "freq".toList ∧
      (insertValues p).getD DB_COLUMN_FREQ (SqlValue.text []) = SqlValue.int p.freq) ∧
    (∀ i, i < L →
      ((tableColumns L).getD (DB_COLUMN_S0 + 2 * i) [] = 's' :: decimalText i ∧
        (insertValues p).getD (DB_COLUMN_S0 + 2 * i) (SqlValue.text []) =
          SqlValue.int (idSheng p i)) ∧
      ((tableColumns L).getD (DB_COLUMN_S0 + 2 * i + 1) [] = 'y' :: decimalText i ∧
        (insertValues p).getD (DB_COLUMN_S0 + 2 * i + 1) (SqlValue.text []) =
          SqlValue.int (idYun p i))) ∧
    Query.rowPhrase E L (Row.ofValues (insertValues p)) =
      { phrase := cstr p.phrase, freq := p.freq, user_freq := 0,
        pinyin_id := (List.range L).map (fun i => p.pinyin_id.getD i (0, 0)), len := L } ∧
    Query.fillRows E L 1 [Row.ofValues (insertValues p)] 0 phrases =
      some (1, phrases ++ [(⟨cstr p.phrase, p.freq, 0,
        (List.range L).map (fun i => p.pinyin_id.getD i (0, 0)), L⟩ : Phrase)],
        some []) := by
  subst hlen
  have hrow := rowPhrase_ofValues E p hfreq hid htext
  refine ⟨?_, ?_, columnDefs_names _, ?_, ?_, ⟨rfl, rfl⟩, ⟨rfl, rfl⟩, ⟨rfl, rfl⟩, ?_, hrow, ?_⟩
  · apply List.infix_of_mem_flatten
    exact List.mem_map.2 ⟨p.len - 1, List.mem_range.2 (by omega), rfl⟩
  · have := createTableSql_columns (p.len - 1)
    rw [show p.len - 1 + 1 = p.len by omega] at this
    exact this
  · rw [insertSql_values, subSize_eq _ _ hL1 (by omega)]
  · rw [insertValues_length, tableColumns_length]
  · intro i hi
    exact ⟨⟨(tableColumns_at _ i hi).1, (insertValues_at p i hi).1⟩,
      ⟨(tableColumns_at _ i hi).2, (insertValues_at p i hi).2⟩⟩
  · rw [Query.fillRows, if_neg (by omega), if_neg (by decide), if_pos (by decide), hrow]
    rfl

/-- C34 at the phrase `你好` of two syllables, with the constants 16 and 6 of the spec. -/
theorem C34_witness :
    createTableSql (2 - 1) <:+: createTablesSql demoDb.MAX_PHRASE_LEN ∧
    createTableSql (2 - 1) =
      "CREATE TABLE IF NOT EXISTS py_phrase_".toList ++ decimalText ((2 - 1 : Nat) : Int) ++
        " (".toList ++ List.intercalate [','] ((columnDefs 2).map ColumnDef.text) ++
        ");\n".toList ∧
    (columnDefs 2).map ColumnDef.name = tableColumns 2 ∧
    insertSql phraseNihao =
      "INSERT OR IGNORE INTO userdb.py_phrase_".toList ++ decimalText ((2 - 1 : Nat) : Int) ++
        " VALUES(".toList ++
        List.intercalate [','] ((insertValues phraseNihao).map SqlValue.sql) ++
        ");\n".toList ∧
    (insertValues phraseNihao).length = (tableColumns 2).length ∧
    ((tableColumns 2).getD DB_COLUMN_USER_FREQ [] = "user_freq".toList ∧
      (insertValues phraseNihao).getD DB_COLUMN_USER_FREQ (SqlValue.text []) =
        SqlValue.int 0) ∧
    ((tableColumns 2).getD DB_COLUMN_PHRASE [] = "phrase".toList ∧
      (insertValues phraseNihao).getD DB_COLUMN_PHRASE (SqlValue.text []) =
        SqlValue.text (cstr phraseNihao.phrase)) ∧
    ((tableColumns 2).getD DB_COLUMN_FREQ [] = "freq".toList ∧
      (insertValues phraseNihao).getD DB_COLUMN_FREQ (SqlValue.text []) =
        SqlValue.int phraseNihao.freq) ∧
    (∀ i, i < 2 →
      ((tableColumns 2).getD (DB_COLUMN_S0 + 2 * i) [] = 's' :: decimalText i ∧
        (insertValues phraseNihao).getD (DB_COLUMN_S0 + 2 * i) (SqlValue.text []) =
          SqlValue.int (idSheng phraseNihao i)) ∧
      ((tableColumns 2).getD (DB_COLUMN_S0 + 2 * i + 1) [] = 'y' :: decimalText i ∧
        (insertValues phraseNihao).getD (DB_COLUMN_S0 + 2 * i + 1) (SqlValue.text []) =
          SqlValue.int (idYun phraseNihao i))) ∧
    Query.rowPhrase demoDb 2 (Row.ofValues (insertValues phraseNihao)) =
      { phrase := cstr phraseNihao.phrase, freq := phraseNihao.freq, user_freq := 0,
        pinyin_id := (List.range 2).map (fun i => phraseNihao.pinyin_id.getD i (0, 0)),
        len := 2 } ∧
    Query.fillRows demoDb 2 1 [Row.ofValues (insertValues phraseNihao)] 0 [] =
      some (1, [] ++ [(⟨cstr phraseNihao.phrase, phraseNihao.freq, 0,
        (List.range 2).map (fun i => phraseNihao.pinyin_id.getD i (0, 0)), 2⟩ : Phrase)],
        some []) :=
  C34_column_layout demoDb 2 (by decide) (by decide) (by decide) phraseNihao rfl (by decide)
    (by decide) (by decide) []

/-! ## The parsed syllables end at or before the cursor -/

/-- C35 as stated fails: with a parser that only keeps `consumed ≤ valid_length` (it
consumes two characters and reports one entry with `len = 3`), typing `ni` and calling
`moveCursorLeftByWord` subtracts 3 from the cursor 2 and from `pinyin_len` 2: both wrap to
`2 ^ 64 - 1`, and `pinyin_len` is beyond the two characters of the buffer. -/
theorem C35_counterexample :
    ParserBounded wideEnv.parse ∧
    ∃ s, FullPinyinContext.run wideEnv (FullPinyinContext.init plainConfig)
        [Op.insert 'n', Op.insert 'i', Op.moveCursorLeftByWord] = some s ∧
      s.m_text = ['n', 'i'] ∧ s.m_cursor = 2 ^ 64 - 1 ∧ s.m_pinyin_len = 2 ^ 64 - 1 ∧
      ¬ s.m_pinyin_len ≤ s.m_text.length :=
  ⟨wideEnv_bounded, _, rfl, by decide, by decide, by decide, by decide⟩

/-- C35 (amended): when every parser call returns a consumed length that is at most the
valid length and equals the sum of the `len` fields of the entries it produced, every
sequence of edit operations runs from a freshly constructed full pinyin or Bopomofo context
to a state with `pinyin_len ≤ cursor ≤ |buffer| ≤ MAX_PINYIN_LEN`, so with
`pinyin_len ≤ |buffer|`, in which the `len` fields of the pinyin array add up to
`pinyin_len`: the parsed syllables end at or before the cursor. The length of the buffer
is a `size_t` value there, so the increment of a cursor inside the buffer does not wrap. -/
theorem C35_syllables_before_cursor (env : Env)
    (hb : ParserBounded env.parse) (hs : ParserSums env.parse)
    (hb' : ParserBounded env.parseBopomofo) (hs' : ParserSums env.parseBopomofo)
    (cfg : Config) (ops : List Op) :
    (∃ s, FullPinyinContext.run env (FullPinyinContext.init cfg) ops = some s ∧
      s.m_pinyin_len ≤ s.m_cursor ∧ s.m_cursor ≤ s.m_text.length ∧
      s.m_pinyin_len ≤ s.m_text.length ∧ pinyinLenSum s.m_pinyin = s.m_pinyin_len ∧
      s.m_text.length ≤ env.MAX_PINYIN_LEN ∧ s.m_text.length < SIZE_MOD) ∧
    (∃ s, BopomofoContext.run env (BopomofoContext.init cfg) ops = some s ∧
      s.m_pinyin_len ≤ s.m_cursor ∧ s.m_cursor ≤ s.m_text.length ∧
      s.m_pinyin_len ≤ s.m_text.length ∧ pinyinLenSum s.m_pinyin = s.m_pinyin_len ∧
      s.m_text.length ≤ env.MAX_PINYIN_LEN ∧ s.m_text.length < SIZE_MOD) := by
  have hm := env.MAX_PINYIN_LEN_lt
  constructor
  · obtain ⟨s, h, h1, h2, h3, h4⟩ :=
      FullPinyinContext.full_inv_run env hb hs ops _ (inv_init env cfg)
    exact ⟨s, h, h3, h1, Nat.le_trans h3 h1, h4, h2, Nat.lt_of_le_of_lt h2 hm⟩
  · obtain ⟨s, h, h1, h2, h3, h4⟩ := BopomofoContext.bopomofo_inv_run env hb' hs' ops
      (BopomofoContext.init cfg) (inv_init env cfg)
    exact ⟨s, h, h3, h1, Nat.le_trans h3 h1, h4, h2, Nat.lt_of_le_of_lt h2 hm⟩

/-- C35 (amended) at a concrete run: typing `abab`, one word to the left and the key `b`,
under the two-character parser of `toyEnv`. -/
theorem C35_witness :
    (∃ s, FullPinyinContext.run toyEnv (FullPinyinContext.init plainConfig)
        (typeText "abab" ++ [Op.moveCursorLeftByWord, Op.insert 'b']) = some s ∧
      s.m_pinyin_len ≤ s.m_cursor ∧ s.m_cursor ≤ s.m_text.length ∧
      s.m_pinyin_len ≤ s.m_text.length ∧ pinyinLenSum s.m_pinyin = s.m_pinyin_len ∧
      s.m_text.length ≤ toyEnv.MAX_PINYIN_LEN ∧ s.m_text.length < SIZE_MOD) ∧
    (∃ s, BopomofoContext.run toyEnv (BopomofoContext.init plainConfig)
        (typeText "abab" ++ [Op.moveCursorLeftByWord, Op.insert 'b']) = some s ∧
      s.m_pinyin_len ≤ s.m_cursor ∧ s.m_cursor ≤ s.m_text.length ∧
      s.m_pinyin_len ≤ s.m_text.length ∧ pinyinLenSum s.m_pinyin = s.m_pinyin_len ∧
      s.m_text.length ≤ toyEnv.MAX_PINYIN_LEN ∧ s.m_text.length < SIZE_MOD) :=
  C35_syllables_before_cursor toyEnv toyEnv_bounded toyEnv_sums toyEnv_bounded toyEnv_sums
    plainConfig (typeText "abab" ++ [Op.moveCursorLeftByWord, Op.insert 'b'])

/-! ## The word operations read the last syllable safely -/

/-- In a state that satisfies the invariant, with the cursor at the end of the parsed
syllables and not at 0, the pinyin array has a last entry, whose `len` is at most the
cursor. -/
theorem inv_back (env : Env) (c : Core) (h : Inv env c) (h0 : c.cursor ≠ 0)
    (hle : ¬ c.cursor > c.pinyin_len) :
    ∃ p, c.pinyin.getLast? = some p ∧ p.len ≤ c.cursor ∧ p.len ≤ c.pinyin_len ∧
      subSize c.cursor p.len = c.cursor - p.len ∧
      subSize c.pinyin_len p.len = c.pinyin_len - p.len := by
  have hmax := env.MAX_PINYIN_LEN_lt
  obtain ⟨h1, h2, h3, h4⟩ := h
  cases hl : c.pinyin.getLast? with
  | none =>
    have := pinyinLenSum_nil_of_getLast _ hl
    omega
  | some p =>
    have hsum := pinyinLenSum_getLast _ _ hl
    exact ⟨p, rfl, by omega, by omega, subSize_eq _ _ (by omega) (by omega),
      subSize_eq _ _ (by omega) (by omega)⟩

/-- C36: when every parser call returns a consumed length that is at most the valid length
and equals the sum of the `len` fields of the entries it produced, every sequence of edit
operations runs from a freshly constructed context to a state in which: whenever the cursor
is not 0 and not beyond `pinyin_len` (the branch of `removeWordBefore` and
`moveCursorLeftByWord` that reads `m_pinyin.back ()`), the pinyin array has a last entry and
its `len` is at most the cursor and at most `pinyin_len`, so that neither subtraction
wraps; both operations return a result; and, for the auxiliary text of the full pinyin
context, `pinyin_len ≤ cursor`, so that `cursor - pinyin_len` does not wrap. -/
theorem C36_back_is_safe (env : Env)
    (hb : ParserBounded env.parse) (hs : ParserSums env.parse)
    (hb' : ParserBounded env.parseBopomofo) (hs' : ParserSums env.parseBopomofo)
    (cfg : Config) (ops : List Op) :
    (∃ s, FullPinyinContext.run env (FullPinyinContext.init cfg) ops = some s ∧
      (s.m_cursor ≠ 0 → ¬ s.m_cursor > s.m_pinyin_len →
        ∃ p, s.m_pinyin.getLast? = some p ∧ p.len ≤ s.m_cursor ∧ p.len ≤ s.m_pinyin_len ∧
          subSize s.m_cursor p.len = s.m_cursor - p.len ∧
          subSize s.m_pinyin_len p.len = s.m_pinyin_len - p.len) ∧
      (∃ r, FullPinyinContext.removeWordBefore env s = some r) ∧
      (∃ r, FullPinyinContext.moveCursorLeftByWord env s = some r) ∧
      s.m_pinyin_len ≤ s.m_cursor ∧
      subSize s.m_cursor s.m_pinyin_len = s.m_cursor - s.m_pinyin_len) ∧
    (∃ s, BopomofoContext.run env (BopomofoContext.init cfg) ops = some s ∧
      (s.m_cursor ≠ 0 → ¬ s.m_cursor > s.m_pinyin_len →
        ∃ p, s.m_pinyin.getLast? = some p ∧ p.len ≤ s.m_cursor ∧ p.len ≤ s.m_pinyin_len ∧
          subSize s.m_cursor p.len = s.m_cursor - p.len ∧
          subSize s.m_pinyin_len p.len = s.m_pinyin_len - p.len) ∧
      (∃ r, BopomofoContext.removeWordBefore env s = some r) ∧
      (∃ r, BopomofoContext.moveCursorLeftByWord env s = some r)) := by
  have hmax := env.MAX_PINYIN_LEN_lt
  constructor
  · obtain ⟨s, h, hi⟩ := FullPinyinContext.full_inv_run env hb hs ops _ (inv_init env cfg)
    obtain ⟨r1, hr1, _⟩ := FullPinyinContext.full_inv_removeWordBefore env s hi
    obtain ⟨r2, hr2, _⟩ := FullPinyinContext.full_inv_moveCursorLeftByWord env s hi
    refine ⟨s, h, fun h0 hle => inv_back env s.core hi h0 hle, ⟨r1, hr1⟩, ⟨r2, hr2⟩, hi.2.2.1,
      subSize_eq _ _ hi.2.2.1 ?_⟩
    have h1 : s.m_cursor ≤ s.m_text.length := hi.1
    have h2 : s.m_text.length ≤ env.MAX_PINYIN_LEN := hi.2.1
    omega
  · obtain ⟨s, h, hi⟩ := BopomofoContext.bopomofo_inv_run env hb' hs' ops
      (BopomofoContext.init cfg) (inv_init env cfg)
    obtain ⟨r1, hr1, _⟩ := BopomofoContext.bopomofo_inv_removeWordBefore env s hi
    obtain ⟨r2, hr2, _⟩ := BopomofoContext.bopomofo_inv_moveCursorLeftByWord env s hi
    exact ⟨s, h, fun h0 hle => inv_back env s.core hi h0 hle, ⟨r1, hr1⟩, ⟨r2, hr2⟩⟩

/-- C36 at a concrete run under the two-character parser of `toyEnv`: typing `abba` leaves
the cursor at the end of the parsed syllables. -/
theorem C36_witness :
    (∃ s, FullPinyinContext.run toyEnv (FullPinyinContext.init plainConfig)
        (typeText "abba") = some s ∧
      (s.m_cursor ≠ 0 → ¬ s.m_cursor > s.m_pinyin_len →
        ∃ p, s.m_pinyin.getLast? = some p ∧ p.len ≤ s.m_cursor ∧ p.len ≤ s.m_pinyin_len ∧
          subSize s.m_cursor p.len = s.m_cursor - p.len ∧
          subSize s.m_pinyin_len p.len = s.m_pinyin_len - p.len) ∧
      (∃ r, FullPinyinContext.removeWordBefore toyEnv s = some r) ∧
      (∃ r, FullPinyinContext.moveCursorLeftByWord toyEnv s = some r) ∧
      s.m_pinyin_len ≤ s.m_cursor ∧
      subSize s.m_cursor s.m_pinyin_len = s.m_cursor - s.m_pinyin_len) ∧
    (∃ s, BopomofoContext.run toyEnv (BopomofoContext.init plainConfig)
        (typeText "abba") = some s ∧
      (s.m_cursor ≠ 0 → ¬ s.m_cursor > s.m_pinyin_len →
        ∃ p, s.m_pinyin.getLast? = some p ∧ p.len ≤ s.m_cursor ∧ p.len ≤ s.m_pinyin_len ∧
          subSize s.m_cursor p.len = s.m_cursor - p.len ∧
          subSize s.m_pinyin_len p.len = s.m_pinyin_len - p.len) ∧
      (∃ r, BopomofoContext.removeWordBefore toyEnv s = some r) ∧
      (∃ r, BopomofoContext.moveCursorLeftByWord toyEnv s = some r)) :=
  C36_back_is_safe toyEnv toyEnv_bounded toyEnv_sums toyEnv_bounded toyEnv_sums plainConfig
    (typeText "abba")

/-! ## The notification of a cursor change -/

/-- C37 fails in the code: `moveCursorLeftByWord` with the cursor beyond the parsed syllables
sets the cursor to `pinyin_len` and returns true at once, without a call of `updateCursor` or
of any other update routine, in both variants. After typing `abc` under the two-character
parser (cursor 3, `pinyin_len` 2) the operation returns true, leaves the cursor at 2 and
the record of calls as it was; `removeWordBefore`, which moves the cursor to the same place
from the same state, does call `updateCursor`. -/
theorem C37_left_by_word_silent :
    (∀ (env : Env) (s : PhoneticContext) (d : Nat),
      FullPinyinContext.moveCursorLeftByWord env { s with m_cursor := s.m_pinyin_len + d + 1 } =
        some (true, { s with m_cursor := s.m_pinyin_len })) ∧
    (∀ (env : Env) (s : BopomofoContext) (d : Nat),
      BopomofoContext.moveCursorLeftByWord env { s with m_cursor := s.m_pinyin_len + d + 1 } =
        some (true, { s with m_cursor := s.m_pinyin_len })) ∧
    (∃ s r r1, FullPinyinContext.run toyEnv (FullPinyinContext.init plainConfig)
        (typeText "abc") = some s ∧
      s.m_cursor = 3 ∧ s.m_pinyin_len = 2 ∧
      FullPinyinContext.moveCursorLeftByWord toyEnv s = some (true, r) ∧
      r.m_cursor = 2 ∧ r.calls = s.calls ∧
      FullPinyinContext.removeWordBefore toyEnv s = some (true, r1) ∧
      r1.m_cursor = 2 ∧ Call.updateCursor ∈ r1.calls.drop s.calls.length) ∧
    (∃ s r r1, BopomofoContext.run toyEnv (BopomofoContext.init plainConfig)
        (typeText "aba") = some s ∧
      s.m_cursor = 3 ∧ s.m_pinyin_len = 2 ∧
      BopomofoContext.moveCursorLeftByWord toyEnv s = some (true, r) ∧
      r.m_cursor = 2 ∧ r.calls = s.calls ∧
      BopomofoContext.removeWordBefore toyEnv s = some (true, r1) ∧
      r1.m_cursor = 2 ∧ Call.updateCursor ∈ r1.calls.drop s.calls.length) := by
  refine ⟨fun env s d => ?_, fun env s d => ?_, ?_, ?_⟩
  · unfold FullPinyinContext.moveCursorLeftByWord
    rw [if_neg (by show ¬ s.m_pinyin_len + d + 1 = 0; omega),
      if_pos (by show s.m_pinyin_len + d + 1 > s.m_pinyin_len; omega)]
  · unfold BopomofoContext.moveCursorLeftByWord
    rw [if_neg (by show ¬ s.m_pinyin_len + d + 1 = 0; omega),
      if_pos (by show s.m_pinyin_len + d + 1 > s.m_pinyin_len; omega)]
  · exact ⟨_, _, _, rfl, by decide, by decide, rfl, by decide, by decide, rfl, by decide,
      by decide⟩
  · exact ⟨_, _, _, rfl, by decide, by decide, rfl, by decide, by decide, rfl, by decide,
      by decide⟩

/-! ## The glyphs of the buffer of a Bopomofo context -/

section glyphs

variable (env : Env)

theorem bopomofo_schema_updatePreeditText (s : BopomofoContext) :
    (BopomofoContext.updatePreeditText env s).m_bopomofo_schema = s.m_bopomofo_schema := by
  unfold BopomofoContext.updatePreeditText
  dsimp only
  repeat' split
  all_goals rfl

theorem bopomofo_schema_updateAuxiliaryText (s : BopomofoContext) :
    (BopomofoContext.updateAuxiliaryText env s).m_bopomofo_schema = s.m_bopomofo_schema := by
  unfold BopomofoContext.updateAuxiliaryText
  split_ifs <;> rfl

theorem bopomofo_schema_update (s : BopomofoContext) :
    (BopomofoContext.update env s).m_bopomofo_schema = s.m_bopomofo_schema := by
  unfold BopomofoContext.update
  rw [bopomofo_schema_updateAuxiliaryText, bopomofo_schema_updatePreeditText]
  rfl

theorem bopomofo_schema_updatePinyin (s : BopomofoContext) :
    (BopomofoContext.updatePinyin env s).m_bopomofo_schema = s.m_bopomofo_schema := by
  unfold BopomofoContext.updatePinyin
  dsimp only
  rw [bopomofo_schema_update]
  split <;> rfl

theorem bopomofo_mtext_update (s : BopomofoContext) :
    (BopomofoContext.update env s).m_text = s.m_text :=
  congrArg Core.text (bopomofo_core_update env s)

theorem bopomofo_mtext_preedit_aux (s : BopomofoContext) :
    (BopomofoContext.updateAuxiliaryText env (BopomofoContext.updatePreeditText env s)).m_text =
      s.m_text :=
  (congrArg Core.text (bopomofo_core_updateAuxiliaryText env _)).trans
    (congrArg Core.text (bopomofo_core_updatePreeditText env s))

theorem mem_of_erase (s t : List Char) (pos n : Nat) (h : erase s pos n = some t) :
    ∀ c ∈ t, c ∈ s := by
  unfold erase at h
  split_ifs at h
  cases h
  intro c hc
  rcases List.mem_append.1 hc with h1 | h1
  · exact List.mem_of_mem_take h1
  · exact List.mem_of_mem_drop h1

theorem mem_of_insertAt (s t : List Char) (pos : Nat) (ch : Char)
    (h : insertAt s pos ch = some t) : ∀ c ∈ t, c ∈ s ∨ c = ch := by
  unfold insertAt at h
  split_ifs at h
  cases h
  intro c hc
  rcases List.mem_append.1 hc with h1 | h1
  · exact Or.inl (List.mem_of_mem_take h1)
  · rcases List.mem_cons.1 h1 with h2 | h2
    · exact Or.inr h2
    · exact Or.inl (List.mem_of_mem_drop h2)

/-- The glyphs of a state carry over to a state with the same schema whose buffer holds
characters of the first state and characters that have a glyph. -/
theorem glyphs_of_subset (s r : BopomofoContext)
    (hschema : r.m_bopomofo_schema = s.m_bopomofo_schema)
    (hsub : ∀ c ∈ r.m_text, c ∈ s.m_text ∨
      BopomofoContext.keyvalToBopomofo env s (charToInt c) ≠ env.BOPOMOFO_ZERO)
    (h : BopomofoContext.Glyphs env s) : BopomofoContext.Glyphs env r := by
  intro c hc
  have e : BopomofoContext.keyvalToBopomofo env r (charToInt c) =
      BopomofoContext.keyvalToBopomofo env s (charToInt c) := by
    unfold BopomofoContext.keyvalToBopomofo
    rw [hschema]
  rw [e]
  rcases hsub c hc with h1 | h1
  · exact h c h1
  · exact h1

/-- A state that differs from `s` in the base members only, with a buffer of characters of
`s`. -/
theorem glyphs_of_text (s r : BopomofoContext)
    (hschema : r.m_bopomofo_schema = s.m_bopomofo_schema)
    (hsub : ∀ c ∈ r.m_text, c ∈ s.m_text)
    (h : BopomofoContext.Glyphs env s) :
    BopomofoContext.Glyphs env r ∧ r.m_bopomofo_schema = s.m_bopomofo_schema :=
  ⟨glyphs_of_subset env s r hschema (fun c hc => Or.inl (hsub c hc)) h, hschema⟩

end glyphs

namespace BopomofoContext

section
variable (env : Env)

theorem bopomofo_glyphs_insert (s : BopomofoContext) (ch : Char) (r : Bool × BopomofoContext)
    (h : Glyphs env s) (hr : insert env s ch = some r) :
    Glyphs env r.2 ∧ r.2.m_bopomofo_schema = s.m_bopomofo_schema := by
  unfold insert at hr
  split_ifs at hr with c1 c2
  · cases hr; exact ⟨h, rfl⟩
  · cases hr; exact ⟨h, rfl⟩
  · cases hi : insertAt s.m_text s.m_cursor ch with
    | none => rw [hi] at hr; cases hr
    | some t =>
      rw [hi] at hr
      dsimp only at hr
      have hmem : ∀ c ∈ t, c ∈ s.m_text ∨
          keyvalToBopomofo env s (charToInt c) ≠ env.BOPOMOFO_ZERO := by
        intro c hc
        rcases mem_of_insertAt _ _ _ _ hi c hc with h1 | h1
        · exact Or.inl h1
        · exact Or.inr (h1 ▸ c1)
      split_ifs at hr with c3 c4 c5
      · cases hr
        have hs : (updatePinyin env (lift (fun b => (b.updateSpecialPhrases env).2)
            (lift PhoneticContext.updateCursor (lift PhoneticContext.updateInputText
              { s with m_text := t, m_cursor := s.m_cursor + 1 })))).m_bopomofo_schema =
            s.m_bopomofo_schema := by
          rw [bopomofo_schema_updatePinyin]; rfl
        refine ⟨glyphs_of_subset env s _ hs ?_ h, hs⟩
        rw [(bopomofo_updatePinyin_text_cursor env _).1]
        exact hmem
      · cases hr
        have hs : (updatePinyin env (lift (fun b => (b.updateSpecialPhrases env).2)
            (lift PhoneticContext.updateCursor (lift PhoneticContext.updateInputText
              { s with m_text := t, m_cursor := s.m_cursor + 1 })))).m_bopomofo_schema =
            s.m_bopomofo_schema := by
          rw [bopomofo_schema_updatePinyin]; rfl
        refine ⟨glyphs_of_subset env s _ hs ?_ h, hs⟩
        rw [(bopomofo_updatePinyin_text_cursor env _).1]
        exact hmem
      · cases hr
        have hs : (update env (lift (fun b => (b.updateSpecialPhrases env).2)
            (lift PhoneticContext.updateCursor (lift PhoneticContext.updateInputText
              { s with m_text := t, m_cursor := s.m_cursor + 1 })))).m_bopomofo_schema =
            s.m_bopomofo_schema := by
          rw [bopomofo_schema_update]; rfl
        refine ⟨glyphs_of_subset env s _ hs ?_ h, hs⟩
        rw [bopomofo_mtext_update]
        exact hmem
      · cases hr
        have hs : (updateAuxiliaryText env (updatePreeditText env
            (lift (fun b => (b.updateSpecialPhrases env).2)
            (lift PhoneticContext.updateCursor (lift PhoneticContext.updateInputText
              { s with m_text := t, m_cursor := s.m_cursor + 1 }))))).m_bopomofo_schema =
            s.m_bopomofo_schema := by
          rw [bopomofo_schema_updateAuxiliaryText, bopomofo_schema_updatePreeditText]; rfl
        refine ⟨glyphs_of_subset env s _ hs ?_ h, hs⟩
        rw [bopomofo_mtext_preedit_aux]
        exact hmem

theorem bopomofo_glyphs_removeCharBefore (s : BopomofoContext) (r : Bool × BopomofoContext)
    (h : Glyphs env s) (hr : removeCharBefore env s = some r) :
    Glyphs env r.2 ∧ r.2.m_bopomofo_schema = s.m_bopomofo_schema := by
  unfold removeCharBefore at hr
  split_ifs at hr with c1
  · cases hr; exact ⟨h, rfl⟩
  · cases he : erase s.m_text (s.m_cursor - 1) 1 with
    | none => rw [he] at hr; cases hr
    | some t =>
      rw [he] at hr; cases hr
      refine glyphs_of_text env s _ (by rw [bopomofo_schema_updatePinyin]; rfl) ?_ h
      rw [(bopomofo_updatePinyin_text_cursor env _).1]
      exact mem_of_erase _ _ _ _ he

theorem bopomofo_glyphs_removeCharAfter (s : BopomofoContext) (r : Bool × BopomofoContext)
    (h : Glyphs env s) (hr : removeCharAfter env s = some r) :
    Glyphs env r.2 ∧ r.2.m_bopomofo_schema = s.m_bopomofo_schema := by
  unfold removeCharAfter at hr
  split_ifs at hr with c1
  · cases hr; exact ⟨h, rfl⟩
  · cases he : erase s.m_text s.m_cursor 1 with
    | none => rw [he] at hr; cases hr
    | some t =>
      rw [he] at hr; cases hr
      refine glyphs_of_text env s _
        (by rw [bopomofo_schema_updateAuxiliaryText, bopomofo_schema_updatePreeditText]; rfl)
        ?_ h
      rw [bopomofo_mtext_preedit_aux]
      exact mem_of_erase _ _ _ _ he

theorem bopomofo_glyphs_removeWordAfter (s : BopomofoContext) (r : Bool × BopomofoContext)
    (h : Glyphs env s) (hr : removeWordAfter env s = some r) :
    Glyphs env r.2 ∧ r.2.m_bopomofo_schema = s.m_bopomofo_schema := by
  unfold removeWordAfter at hr
  split_ifs at hr with c1
  · cases hr; exact ⟨h, rfl⟩
  · cases he : erase s.m_text s.m_cursor (SIZE_MOD - 1) with
    | none => rw [he] at hr; cases hr
    | some t =>
      rw [he] at hr; cases hr
      refine glyphs_of_text env s _
        (by rw [bopomofo_schema_updateAuxiliaryText, bopomofo_schema_updatePreeditText]; rfl)
        ?_ h
      rw [bopomofo_mtext_preedit_aux]
      exact mem_of_erase _ _ _ _ he

theorem bopomofo_glyphs_removeWordBefore (s : BopomofoContext) (r : Bool × BopomofoContext)
    (h : Glyphs env s) (hr : removeWordBefore env s = some r) :
    Glyphs env r.2 ∧ r.2.m_bopomofo_schema = s.m_bopomofo_schema := by
  unfold removeWordBefore at hr
  split_ifs at hr with c1 c2
  · cases hr; exact ⟨h, rfl⟩
  · dsimp only at hr
    cases he : erase s.m_text s.m_pinyin_len (subSize s.m_cursor s.m_pinyin_len) with
    | none => rw [he] at hr; cases hr
    | some t =>
      rw [he] at hr; cases hr
      refine glyphs_of_text env s _ (by rw [bopomofo_schema_update]; rfl) ?_ h
      rw [bopomofo_mtext_update]
      exact mem_of_erase _ _ _ _ he
  · cases hl : s.m_pinyin.getLast? with
    | none => rw [hl] at hr; cases hr
    | some p =>
      rw [hl] at hr
      dsimp only at hr
      cases he : erase s.m_text (subSize s.m_cursor p.len)
          (subSize s.m_cursor (subSize s.m_cursor p.len)) with
      | none => rw [he] at hr; cases hr
      | some t =>
        rw [he] at hr; cases hr
        refine glyphs_of_text env s _ (by rw [bopomofo_schema_update]; rfl) ?_ h
        rw [bopomofo_mtext_update]
        exact mem_of_erase _ _ _ _ he

theorem bopomofo_glyphs_moveCursorLeft (s : BopomofoContext) (r : Bool × BopomofoContext)
    (h : Glyphs env s) (hr : moveCursorLeft env s = some r) :
    Glyphs env r.2 ∧ r.2.m_bopomofo_schema = s.m_bopomofo_schema := by
  unfold moveCursorLeft at hr
  split_ifs at hr with c1
  · cases hr; exact ⟨h, rfl⟩
  · cases hr
    refine glyphs_of_text env s _ (by rw [bopomofo_schema_updatePinyin]; rfl) ?_ h
    rw [(bopomofo_updatePinyin_text_cursor env _).1]
    exact fun c hc => hc

theorem bopomofo_glyphs_moveCursorRight (s : BopomofoContext) (r : Bool × BopomofoContext)
    (h : Glyphs env s) (hr : moveCursorRight env s = some r) :
    Glyphs env r.2 ∧ r.2.m_bopomofo_schema = s.m_bopomofo_schema := by
  unfold moveCursorRight at hr
  split_ifs at hr with c1
  · cases hr; exact ⟨h, rfl⟩
  · cases hr
    refine glyphs_of_text env s _ (by rw [bopomofo_schema_updatePinyin]; rfl) ?_ h
    rw [(bopomofo_updatePinyin_text_cursor env _).1]
    exact fun c hc => hc

theorem bopomofo_glyphs_moveCursorToEnd (s : BopomofoContext) (r : Bool × BopomofoContext)
    (h : Glyphs env s) (hr : moveCursorToEnd env s = some r) :
    Glyphs env r.2 ∧ r.2.m_bopomofo_schema = s.m_bopomofo_schema := by
  unfold moveCursorToEnd at hr
  split_ifs at hr with c1
  · cases hr; exact ⟨h, rfl⟩
  · cases hr
    refine glyphs_of_text env s _ (by rw [bopomofo_schema_updatePinyin]; rfl) ?_ h
    rw [(bopomofo_updatePinyin_text_cursor env _).1]
    exact fun c hc => hc

theorem bopomofo_glyphs_moveCursorToBegin (s : BopomofoContext) (r : Bool × BopomofoContext)
    (h : Glyphs env s) (hr : moveCursorToBegin env s = some r) :
    Glyphs env r.2 ∧ r.2.m_bopomofo_schema = s.m_bopomofo_schema := by
  unfold moveCursorToBegin at hr
  split_ifs at hr with c1
  · cases hr; exact ⟨h, rfl⟩
  · cases hr
    refine glyphs_of_text env s _ (by rw [bopomofo_schema_update]; rfl) ?_ h
    rw [bopomofo_mtext_update]
    exact fun c hc => hc

theorem bopomofo_glyphs_moveCursorLeftByWord (s : BopomofoContext)
    (r : Bool × BopomofoContext) (h : Glyphs env s)
    (hr : moveCursorLeftByWord env s = some r) :
    Glyphs env r.2 ∧ r.2.m_bopomofo_schema = s.m_bopomofo_schema := by
  unfold moveCursorLeftByWord at hr
  split_ifs at hr with c1 c2
  · cases hr; exact ⟨h, rfl⟩
  · cases hr
    exact glyphs_of_text env s _ rfl (fun c hc => hc) h
  · cases hl : s.m_pinyin.getLast? with
    | none => rw [hl] at hr; cases hr
    | some p =>
      rw [hl] at hr
      cases hr
      refine glyphs_of_text env s _ (by rw [bopomofo_schema_update]; rfl) ?_ h
      rw [bopomofo_mtext_update]
      exact fun c hc => hc

/-- Every edit operation keeps the schema and the glyphs of the buffer. -/
theorem bopomofo_glyphs_step (s : BopomofoContext) (op : Op) (r : Bool × BopomofoContext)
    (h : Glyphs env s) (hr : step env s op = some r) :
    Glyphs env r.2 ∧ r.2.m_bopomofo_schema = s.m_bopomofo_schema := by
  cases op with
  | insert ch => exact bopomofo_glyphs_insert env s ch r h hr
  | removeCharBefore => exact bopomofo_glyphs_removeCharBefore env s r h hr
  | removeCharAfter => exact bopomofo_glyphs_removeCharAfter env s r h hr
  | removeWordBefore => exact bopomofo_glyphs_removeWordBefore env s r h hr
  | removeWordAfter => exact bopomofo_glyphs_removeWordAfter env s r h hr
  | moveCursorLeft => exact bopomofo_glyphs_moveCursorLeft env s r h hr
  | moveCursorRight => exact bopomofo_glyphs_moveCursorRight env s r h hr
  | moveCursorLeftByWord => exact bopomofo_glyphs_moveCursorLeftByWord env s r h hr
  | moveCursorRightByWord => exact bopomofo_glyphs_moveCursorToEnd env s r h hr
  | moveCursorToBegin => exact bopomofo_glyphs_moveCursorToBegin env s r h hr
  | moveCursorToEnd => exact bopomofo_glyphs_moveCursorToEnd env s r h hr

/-- A call of `setProperty` keeps the glyphs of the buffer when the base class leaves the
buffer alone and a new schema fits the buffer. -/
theorem bopomofo_glyphs_setProperty
    (baseSet : PhoneticContext → PropertyName → Variant → Bool × PhoneticContext)
    (hbase : ∀ s name variant, (baseSet s name variant).2.m_text = s.m_text)
    (s : BopomofoContext) (name : PropertyName) (variant : Variant) (h : Glyphs env s)
    (hfit : SchemaFits env s (Action.setProperty name variant)) :
    Glyphs env (setProperty env baseSet s name variant).2 := by
  unfold setProperty
  by_cases c1 : name = PropertyName.PROPERTY_BOPOMOFO_SCHEMA
  · rw [if_pos c1]
    subst c1
    cases variant with
    | null => exact h
    | bool b => exact h
    | unsignedInt n =>
      rw [if_neg (by simp [Variant.getType])]
      dsimp only
      by_cases c3 : Variant.getUnsignedInt (Variant.unsignedInt n) ≥ env.BOPOMOFO_KEYBOARD_LAST
      · rw [if_pos c3]
        exact h
      · rw [if_neg c3]
        exact hfit (by simpa [Variant.getUnsignedInt] using c3)
  · rw [if_neg c1]
    refine glyphs_of_subset env s _ rfl (fun c hc => Or.inl ?_) h
    have := hbase s.toPhoneticContext name variant
    exact this ▸ hc

/-- The glyphs of the buffer along a sequence of public operations whose changes of the
schema fit the buffer. -/
theorem bopomofo_glyphs_runActions
    (baseSet : PhoneticContext → PropertyName → Variant → Bool × PhoneticContext)
    (hbase : ∀ s name variant, (baseSet s name variant).2.m_text = s.m_text)
    (actions : List Action) (s s' : BopomofoContext) (h : Glyphs env s)
    (hfit : SchemaFitsAll env baseSet s actions)
    (hr : runActions env baseSet s actions = some s') : Glyphs env s' := by
  induction actions generalizing s with
  | nil => cases hr; exact h
  | cons a as ih =>
    rw [runActions] at hr
    obtain ⟨hfit1, hfit2⟩ := hfit
    cases hact : act env baseSet s a with
    | none => rw [hact] at hr; cases hr
    | some r =>
      rw [hact] at hr hfit2
      refine ih r.2 ?_ hfit2 hr
      cases a with
      | edit op => exact (bopomofo_glyphs_step env s op r h hact).1
      | setProperty name variant =>
        have e : r = setProperty env baseSet s name variant := (Option.some.inj hact).symm
        rw [e]
        exact bopomofo_glyphs_setProperty env baseSet hbase s name variant h hfit1

end
end BopomofoContext

/-- C38 as stated fails: with a keyboard table whose schema 1 has other keys than the
schema 0, typing the key `a` and then setting the schema 1 (the call returns true, on a
buffer that is not empty) leaves the buffer `a`, whose character has the zero glyph under
the schema 1. -/
theorem C38_counterexample :
    ∃ s1 s, BopomofoContext.runActions twoLayoutEnv noBaseProperty
        (BopomofoContext.init plainConfig) [BopomofoContext.Action.edit (Op.insert 'a')] =
          some s1 ∧
      s1.m_text = ['a'] ∧ BopomofoContext.Glyphs twoLayoutEnv s1 ∧
      BopomofoContext.setProperty twoLayoutEnv noBaseProperty s1
        PropertyName.PROPERTY_BOPOMOFO_SCHEMA (Variant.unsignedInt 1) = (true, s) ∧
      BopomofoContext.runActions twoLayoutEnv noBaseProperty
        (BopomofoContext.init plainConfig) [BopomofoContext.Action.edit (Op.insert 'a'),
          BopomofoContext.Action.setProperty PropertyName.PROPERTY_BOPOMOFO_SCHEMA
            (Variant.unsignedInt 1)] = some s ∧
      s.m_text = ['a'] ∧ s.m_bopomofo_schema = 1 ∧
      BopomofoContext.keyvalToBopomofo twoLayoutEnv s (charToInt 'a') =
        twoLayoutEnv.BOPOMOFO_ZERO ∧
      ¬ BopomofoContext.Glyphs twoLayoutEnv s :=
  ⟨_, _, rfl, by decide, by decide, rfl, rfl, by decide, by decide, by decide, by decide⟩

/-- C38 (amended): when the `setProperty` of the base class leaves the buffer alone, in
every state that a sequence of public operations (edit operations and calls of `setProperty`)
reaches from a freshly constructed Bopomofo context, every change of the schema being made
in a state all of whose buffer characters have a glyph under the new schema, every
character of the buffer has a glyph other than the zero glyph under the current schema.
A call of `setProperty` for the schema with a value below `BOPOMOFO_KEYBOARD_LAST` returns
true and stores the value, whatever the buffer holds and without a change to the buffer; on
an empty buffer every call of `setProperty` keeps the property. -/
theorem C38_glyphs_under_schema (env : Env)
    (baseSet : PhoneticContext → PropertyName → Variant → Bool × PhoneticContext)
    (hbase : ∀ s name variant, (baseSet s name variant).2.m_text = s.m_text)
    (cfg : Config) (actions : List BopomofoContext.Action) (s : BopomofoContext)
    (hfit : BopomofoContext.SchemaFitsAll env baseSet (BopomofoContext.init cfg) actions)
    (hr : BopomofoContext.runActions env baseSet (BopomofoContext.init cfg) actions = some s) :
    BopomofoContext.Glyphs env s ∧
    (∀ n, n < env.BOPOMOFO_KEYBOARD_LAST →
      BopomofoContext.setProperty env baseSet s PropertyName.PROPERTY_BOPOMOFO_SCHEMA
        (Variant.unsignedInt n) = (true, { s with m_bopomofo_schema := n })) ∧
    (s.m_text = [] → ∀ name variant,
      BopomofoContext.Glyphs env (BopomofoContext.setProperty env baseSet s name variant).2) ∧
    (∀ op r, BopomofoContext.step env s op = some r →
      BopomofoContext.Glyphs env r.2 ∧ r.2.m_bopomofo_schema = s.m_bopomofo_schema) := by
  have hg : BopomofoContext.Glyphs env s :=
    BopomofoContext.bopomofo_glyphs_runActions env baseSet hbase actions _ s
      (fun c hc => absurd hc (List.not_mem_nil c)) hfit hr
  refine ⟨hg, fun n hn => ?_, fun ht name variant => ?_, fun op r hstep =>
    BopomofoContext.bopomofo_glyphs_step env s op r hg hstep⟩
  · unfold BopomofoContext.setProperty
    rw [if_pos rfl, if_neg (by simp [Variant.getType])]
    dsimp only
    rw [if_neg (by simp [Variant.getUnsignedInt]; omega)]
    rfl
  · intro c hc
    have htext : (BopomofoContext.setProperty env baseSet s name variant).2.m_text = [] := by
      unfold BopomofoContext.setProperty
      split_ifs
      · exact ht
      · dsimp only
        split_ifs
        · exact ht
        · exact ht
      · exact (hbase s.toPhoneticContext name variant).trans ht
    rw [htext] at hc
    exact absurd hc (List.not_mem_nil c)

/-- C38 (amended) at a concrete run on a table with two layouts: the schema 1 is set on the
empty buffer, its keys `c` and `d` are typed, a schema out of range is rejected and a
character is removed. -/
theorem C38_witness :
    BopomofoContext.Glyphs twoLayoutEnv
      ((BopomofoContext.runActions twoLayoutEnv noBaseProperty
        (BopomofoContext.init plainConfig)
        [BopomofoContext.Action.setProperty PropertyName.PROPERTY_BOPOMOFO_SCHEMA
            (Variant.unsignedInt 1),
          BopomofoContext.Action.edit (Op.insert 'c'),
          BopomofoContext.Action.edit (Op.insert 'd'),
          BopomofoContext.Action.setProperty PropertyName.PROPERTY_BOPOMOFO_SCHEMA
            (Variant.unsignedInt 7),
          BopomofoContext.Action.edit Op.removeCharBefore]).getD
        (BopomofoContext.init plainConfig)) :=
  (C38_glyphs_under_schema twoLayoutEnv noBaseProperty (fun _ _ _ => rfl) plainConfig
    [BopomofoContext.Action.setProperty PropertyName.PROPERTY_BOPOMOFO_SCHEMA
        (Variant.unsignedInt 1),
      BopomofoContext.Action.edit (Op.insert 'c'),
      BopomofoContext.Action.edit (Op.insert 'd'),
      BopomofoContext.Action.setProperty PropertyName.PROPERTY_BOPOMOFO_SCHEMA
        (Variant.unsignedInt 7),
      BopomofoContext.Action.edit Op.removeCharBefore] _ (by decide) rfl).1

end PyZy
